import Mathlib

/-!
# Sparrow silo: storage and indexing core

A shallow embedding of `scim/silo/silo.go` and `utils/utils.go`.

* Go strings and byte slices are lists of byte values (`Bytes`); a Go string is
  an arbitrary byte sequence, so both share one type.
* The embedded key-value engine (bolt) is a library outside the repository.  It
  is modelled by its documented contract: a transaction holds named buckets,
  a bucket maps keys to values or to nested buckets, keys are kept in byte
  order.
* Library functions whose behaviour is not reproduced here (Unicode lower
  casing, float parsing, the gob codec, the clock) are fields of `Env`.
* A Go function that can return an error or raise a panic returns an `Out`
  next to the transaction state it leaves behind.
-/

namespace Sparrow

deriving instance DecidableEq for Except

/-- Contents of a Go string or byte slice. -/
abbrev Bytes := List Nat

/-- Bytes of an ASCII literal of the source. -/
def ascii (s : String) : Bytes := s.toList.map Char.toNat

/-! ## utils.go -/

/-- Two to the 64, the size of the uint64 range. -/
def two64 : Nat := 18446744073709551616

/-- Two to the 63. -/
def two63 : Nat := 9223372036854775808

/-- Reduction of an integer to the int64 range (two's complement wrap-around). -/
def wrapInt64 (i : Int) : Int := (i + two63) % two64 - two63

/-- Loop of `encodeUint`: writes the low byte of `v` in front of `acc`, `n` times. -/
def encodeLoop : Nat → Nat → Bytes → Bytes
  | 0, _, acc => acc
  | n + 1, v, acc => encodeLoop n (v / 256) ((v % 256) :: acc)

/-- Go `encodeUint`: the 8 bytes of a uint64, most significant first. -/
def encodeUint (v : Nat) : Bytes := encodeLoop 8 (v % two64) []

/-- Go `decodeUint`: panics (`none`) on more than 8 bytes, else folds the bytes
into a uint64. -/
def decodeUint (data : Bytes) : Option Nat :=
  if data.length > 8 then none
  else some (data.foldl (fun x b => (x * 256 + b % 256) % two64) 0)

/-- Go `Itob`: zig-zag image of an int64, then `encodeUint`. -/
def Itob (i : Int) : Bytes :=
  if i < 0 then encodeUint ((((-i - 1).toNat * 2) % two64) ||| 1)
  else encodeUint ((i.toNat * 2) % two64)

/-- Go `Btoi`: inverse zig-zag of `decodeUint`. -/
def Btoi (data : Bytes) : Option Int :=
  match decodeUint data with
  | none => none
  | some i => if i % 2 ≠ 0 then some (-((i / 2 : Nat) : Int) - 1) else some ((i / 2 : Nat) : Int)

/-- One lower-case hexadecimal digit. -/
def hexDigit (n : Nat) : Nat := if n < 10 then 48 + n else 87 + n

/-- Format verb `%x` on a byte slice: two lower-case hex digits per byte. -/
def hexBytes : Bytes → Bytes
  | [] => []
  | b :: rest => hexDigit (b % 256 / 16) :: hexDigit (b % 16) :: hexBytes rest

/-- Go `GenUUID`, as a function of the 16 random bytes it draws. -/
def GenUUID (b : Bytes) : Bytes :=
  hexBytes (b.take 4) ++ [45] ++ hexBytes ((b.drop 4).take 2) ++ [45] ++
  hexBytes ((b.drop 6).take 2) ++ [45] ++ hexBytes ((b.drop 8).take 2) ++ [45] ++
  hexBytes (b.drop 10)

/-! ## Errors and control flow -/

/-- Error values of the key-value engine. -/
inductive BoltErr where
  | ErrBucketExists
  | ErrBucketNotFound
  | ErrBucketNameRequired
  | ErrKeyRequired
  | ErrKeyTooLarge
  | ErrValueTooLarge
  | ErrIncompatibleValue
  deriving DecidableEq, Repr

/-- Modelled from the spec: the SCIM error kinds of section 7 (package `base`,
which declares `ScimError`, is not among the sources). -/
inductive ScimKind where
  | invalidSyntax
  | invalidPath
  | invalidValue
  | mutability
  | uniqueness
  | noTarget
  | notFound
  | forbidden
  | internal
  deriving DecidableEq, Repr

/-- Go `error` values that occur in the silo. -/
inductive Err where
  | bolt (e : BoltErr)
  | fmt (msg : Bytes)
  | scim (kind : ScimKind) (detail : Bytes)
  | runtime (msg : Bytes)
  | gob (msg : Bytes)
  deriving DecidableEq, Repr

/-- Value carried by a Go panic: an `error`, or a plain string. -/
inductive PanicVal where
  | error (e : Err)
  | text (msg : Bytes)
  deriving DecidableEq, Repr

/-- How a call ends: nil error, non-nil error, or a panic. -/
inductive Out where
  | nil
  | err (e : Err)
  | panic (p : PanicVal)
  deriving DecidableEq, Repr

/-- Panic raised by calling a method on a nil pointer or nil interface. -/
def nilDeref : PanicVal :=
  .error (.runtime (ascii "invalid memory address or nil pointer dereference"))

/-- Panic raised by indexing an empty slice. -/
def indexOutOfRange : PanicVal := .error (.runtime (ascii "index out of range"))

/-- Panic raised by `decodeUint` on more than 8 bytes. -/
def invalidIntegerBytes : PanicVal :=
  .text (ascii "Invalid integer bytes, data length exceeds 8")

/-- Modelled from the spec: `base.NewNotFoundError`, a SCIM error of kind
`notFound` (package `base` is not among the sources). -/
def NewNotFoundError (detail : Bytes) : Err := .scim .notFound detail

/-! ## The key-value engine -/

/-- Byte-wise lexicographic order, the key order of a bucket. -/
def bytesLt : Bytes → Bytes → Bool
  | [], [] => false
  | [], _ :: _ => true
  | _ :: _, [] => false
  | a :: as, b :: bs => if a < b then true else if b < a then false else bytesLt as bs

/-- Value bound to a key in an association list. -/
def kvGet {α : Type} (k : Bytes) : List (Bytes × α) → Option α
  | [] => none
  | (k1, v) :: rest => if k = k1 then some v else kvGet k rest

/-- Binds `k` to `v`: replaces an existing binding, else inserts in key order. -/
def kvPut {α : Type} (k : Bytes) (v : α) : List (Bytes × α) → List (Bytes × α)
  | [] => [(k, v)]
  | (k1, v1) :: rest =>
    if k = k1 then (k, v) :: rest
    else if bytesLt k k1 then (k, v) :: (k1, v1) :: rest
    else (k1, v1) :: kvPut k v rest

/-- Removes the binding of `k`. -/
def kvDel {α : Type} (k : Bytes) : List (Bytes × α) → List (Bytes × α)
  | [] => []
  | (k1, v1) :: rest => if k = k1 then kvDel k rest else (k1, v1) :: kvDel k rest

/-- Entry of a bucket: a plain value, or a nested bucket of plain values. -/
inductive Node where
  | value (v : Bytes)
  | nested (kvs : List (Bytes × Bytes))
  deriving DecidableEq, Repr

/-- A top-level bucket. -/
abbrev Bucket := List (Bytes × Node)

/-- The named top-level buckets seen by a transaction; also the committed
state of the database. -/
abbrev Tx := List (Bytes × Bucket)

/-- Largest key length the engine accepts. -/
def MaxKeySize : Nat := 32768

/-- Largest value length the engine accepts. -/
def MaxValueSize : Nat := 2147483646

/-- Engine `Bucket.Get`: nil for a missing key and for a nested bucket. -/
def Bucket.Get (b : Bucket) (key : Bytes) : Option Bytes :=
  match kvGet key b with
  | some (.value v) => some v
  | _ => none

/-- Engine `Bucket.Bucket`: the nested bucket at `key`, nil if there is none. -/
def Bucket.Nested (b : Bucket) (key : Bytes) : Option (List (Bytes × Bytes)) :=
  match kvGet key b with
  | some (.nested kvs) => some kvs
  | _ => none

/-- Engine `Bucket.Put`. -/
def Bucket.Put (b : Bucket) (key value : Bytes) : Except BoltErr Bucket :=
  if key = [] then .error .ErrKeyRequired
  else if key.length > MaxKeySize then .error .ErrKeyTooLarge
  else if value.length > MaxValueSize then .error .ErrValueTooLarge
  else match kvGet key b with
    | some (.nested _) => .error .ErrIncompatibleValue
    | _ => .ok (kvPut key (.value value) b)

/-- Engine `Bucket.Delete`: a missing key is not an error. -/
def Bucket.Delete (b : Bucket) (key : Bytes) : Except BoltErr Bucket :=
  match kvGet key b with
  | some (.nested _) => .error .ErrIncompatibleValue
  | _ => .ok (kvDel key b)

/-- Engine `Bucket.CreateBucket`. -/
def Bucket.CreateBucket (b : Bucket) (key : Bytes) : Except BoltErr Bucket :=
  if key = [] then .error .ErrBucketNameRequired
  else match kvGet key b with
    | some (.nested _) => .error .ErrBucketExists
    | some (.value _) => .error .ErrIncompatibleValue
    | none => .ok (kvPut key (.nested []) b)

/-- Engine `Bucket.DeleteBucket`.  Before it deletes the nested bucket the
engine walks its entries and takes every entry whose value it reads as a nil
slice for a bucket of the nested bucket; the delete of such an entry fails and
the call returns the error `delete bucket: incompatible value`, leaving the
bucket as it is.  `nilKeys` are the keys whose value is the nil slice in
memory: the keys put with a nil value earlier in the running transaction.  A
value read from a committed page is an empty slice that is not nil. -/
def Bucket.DeleteBucket (b : Bucket) (key : Bytes) (nilKeys : List Bytes) : Except Err Bucket :=
  match kvGet key b with
  | none => .error (.bolt .ErrBucketNotFound)
  | some (.value _) => .error (.bolt .ErrIncompatibleValue)
  | some (.nested kvs) =>
    if kvs.any (fun e => nilKeys.contains e.1) then
      .error (.fmt (ascii "delete bucket: incompatible value"))
    else .ok (kvDel key b)

/-- Engine `Put` on a nested bucket, which holds plain values only. -/
def nestedPut (kvs : List (Bytes × Bytes)) (key value : Bytes) :
    Except BoltErr (List (Bytes × Bytes)) :=
  if key = [] then .error .ErrKeyRequired
  else if key.length > MaxKeySize then .error .ErrKeyTooLarge
  else if value.length > MaxValueSize then .error .ErrValueTooLarge
  else .ok (kvPut key value kvs)

/-- Engine `Tx.Bucket`: the top-level bucket of that name, nil if missing. -/
def Tx.bucketOf (tx : Tx) (name : Bytes) : Option Bucket := kvGet name tx

/-- Writes a changed top-level bucket back into the transaction. -/
def Tx.setBucket (tx : Tx) (name : Bytes) (b : Bucket) : Tx := kvPut name b tx

/-! ## Resources (package `base`) -/

/-- Modelled from the spec: the fields of `schema.ResourceType` the silo reads
(package `schema` is not among the sources). -/
structure ResourceType where
  Name : Bytes
  Endpoint : Bytes
  UniqueAts : List Bytes
  deriving DecidableEq, Repr

/-- Modelled from the spec: `base.SimpleAttr`, a named list of scalar values
(package `base` is not among the sources; this version of the silo passes the
values around as strings). -/
structure SimpleAttr where
  Name : Bytes
  Values : List Bytes
  deriving DecidableEq, Repr

/-- Modelled from the spec: `base.ComplexAttr`, a named list of maps from
sub-attribute name to simple attribute. -/
structure ComplexAttr where
  Name : Bytes
  SubAts : List (List (Bytes × SimpleAttr))
  deriving DecidableEq, Repr

/-- Modelled from the spec: `base.Attribute`, a node of the resource tree. -/
inductive Attribute where
  | simple (sa : SimpleAttr)
  | complex (ca : ComplexAttr)
  deriving DecidableEq, Repr

/-- Modelled from the spec: `base.Resource`, a resource type, an id and the
attribute tree keyed by lower-case attribute name; `meta` is one of the
attributes. -/
structure Resource where
  resType : ResourceType
  id : Bytes
  attrs : List (Bytes × Attribute)
  deriving DecidableEq, Repr

/-- Library and schema functions the silo calls and whose behaviour is left
open. -/
structure Env where
  /-- Go `strings.ToLower`. -/
  ToLower : Bytes → Bytes
  /-- Bit pattern `math.Float64bits` of `strconv.ParseFloat(val, 64)`. -/
  ParseFloatBits : Bytes → Nat
  /-- Whether the schema of a resource type marks an attribute read-only. -/
  IsReadOnly : ResourceType → Bytes → Bool
  /-- The clock reading stamped into `meta`. -/
  Now : Bytes
  /-- The gob encoder applied to a resource. -/
  Encode : Resource → Except Err Bytes
  /-- The gob decoder applied to a stored row. -/
  Decode : Bytes → Except Err Resource
  /-- The gob encoder applied to an index descriptor. -/
  EncodeIndex : Bytes → Bytes → Bool → Bytes → Bool → Except Err Bytes

/-- Modelled from the spec: `Resource.GetType`. -/
def Resource.GetType (rs : Resource) : ResourceType := rs.resType

/-- Modelled from the spec: `Resource.GetId`. -/
def Resource.GetId (rs : Resource) : Bytes := rs.id

/-- Modelled from the spec: `Resource.SetId`. -/
def Resource.SetId (rs : Resource) (rid : Bytes) : Resource := { rs with id := rid }

/-- Modelled from the spec: `Resource.SetSchema`, which attaches the resource
type to a decoded resource. -/
def Resource.SetSchema (rs : Resource) (rt : ResourceType) : Resource := { rs with resType := rt }

/-- Modelled from the spec: `Resource.GetAttr`, the attribute of that name
(names are case-insensitive); only top-level names are resolved. -/
def Resource.GetAttr (env : Env) (rs : Resource) (name : Bytes) : Option Attribute :=
  kvGet (env.ToLower name) rs.attrs

/-- Binds an attribute in the attribute tree of a resource. -/
def Resource.setAttr (rs : Resource) (key : Bytes) (at1 : Attribute) : Resource :=
  { rs with attrs := kvPut key at1 rs.attrs }

/-- Modelled from the spec: `Resource.RemoveReadOnlyAt`, which strips the
attributes the schema marks read-only. -/
def Resource.RemoveReadOnlyAt (env : Env) (rs : Resource) : Resource :=
  { rs with attrs := rs.attrs.filter (fun kv => !env.IsReadOnly rs.resType kv.1) }

/-- Modelled from the spec: `Resource.AddMeta`, which stamps the `meta` complex
attribute with `created`, `lastModified`, `resourceType` and `version`. -/
def Resource.AddMeta (env : Env) (rs : Resource) : Resource :=
  { rs with attrs := kvPut (ascii "meta") (.complex
      { Name := ascii "meta",
        SubAts := [[(ascii "created", { Name := ascii "created", Values := [env.Now] }),
          (ascii "lastmodified", { Name := ascii "lastModified", Values := [env.Now] }),
          (ascii "resourcetype", { Name := ascii "resourceType", Values := [rs.resType.Name] }),
          (ascii "version", { Name := ascii "version", Values := [env.Now] })]] }) rs.attrs }

/-- Modelled from the spec: the sub-attribute map built from a Go
`map[string]interface{}` of single values. -/
def toSubAtMap (subAt : List (Bytes × Bytes)) : List (Bytes × SimpleAttr) :=
  subAt.map (fun kv => (kv.1, { Name := kv.1, Values := [kv.2] }))

/-- Modelled from the spec: `Resource.AddCA`, which adds a complex attribute
holding one sub-attribute map. -/
def Resource.AddCA (env : Env) (rs : Resource) (name : Bytes) (subAt : List (Bytes × Bytes)) :
    Except Err Resource :=
  .ok (rs.setAttr (env.ToLower name) (.complex { Name := name, SubAts := [toSubAtMap subAt] }))

/-- Modelled from the spec: `ComplexAttr.AddSubAts`, which appends one
sub-attribute map. -/
def ComplexAttr.AddSubAts (ca : ComplexAttr) (subAt : List (Bytes × Bytes)) : ComplexAttr :=
  { ca with SubAts := ca.SubAts ++ [toSubAtMap subAt] }

/-! ## Index -/

/-- Bucket that holds the tuple count of every index. -/
def BUC_COUNTS : Bytes := ascii "counts"

/-- Bucket that holds the encoded descriptor of every index. -/
def BUC_INDICES : Bytes := ascii "indices"

/-- The delimiter that separates resource and index name. -/
def RES_INDEX_DELIM : Bytes := ascii ":"

/-- Go `Index`. -/
structure Index where
  Bname : Bytes
  Name : Bytes
  BnameBytes : Bytes
  AllowDupKey : Bool
  ValType : Bytes
  CaseSensitive : Bool
  deriving DecidableEq, Repr

/-- Digits of an unsigned decimal numeral; `none` on a byte that is no digit. -/
def parseDigits : Bytes → Nat → Option Nat
  | [], acc => some acc
  | c :: rest, acc => if 48 ≤ c ∧ c ≤ 57 then parseDigits rest (acc * 10 + (c - 48)) else none

/-- Value of `strconv.ParseInt(val, 10, 64)` with its error dropped: 0 on a
syntax error, the nearest int64 on a range error. -/
def ParseInt (s : Bytes) : Int :=
  match s with
  | [] => 0
  | c :: rest =>
    let body := if c = 43 ∨ c = 45 then rest else s
    match body with
    | [] => 0
    | _ :: _ =>
      match parseDigits body 0 with
      | none => 0
      | some un =>
        if c = 45 then (if un > two63 then -(two63 : Int) else -(un : Int))
        else (if un ≥ two63 then (two63 : Int) - 1 else (un : Int))

/-- Go `Index.convert`: the key bytes of an attribute value. -/
def Index.convert (env : Env) (idx : Index) (val : Bytes) : Except PanicVal Bytes :=
  if idx.ValType = ascii "string" then
    .ok (if !idx.CaseSensitive then env.ToLower val else val)
  else if idx.ValType = ascii "boolean" then .ok (env.ToLower val)
  else if idx.ValType = ascii "binary" ∨ idx.ValType = ascii "reference" then .ok val
  else if idx.ValType = ascii "integer" then .ok (Itob (ParseInt val))
  else if idx.ValType = ascii "datetime" then
    .error (.error (.fmt (ascii "Yet to support converting datetime to int64")))
  else if idx.ValType = ascii "decimal" then .ok (encodeUint (env.ParseFloatBits val))
  else
    .error (.error (.fmt (ascii "Invalid index datat type " ++ idx.ValType ++
      ascii " given for index " ++ idx.Name)))

/-- Go `Index.getCount`: 0 when the counts bucket has no entry for the index;
a panic when there is no counts bucket or the stored count is longer than 8
bytes. -/
def Index.getCount (idx : Index) (tx : Tx) : Except PanicVal Int :=
  match tx.bucketOf BUC_COUNTS with
  | none => .error nilDeref
  | some buck =>
    match Bucket.Get buck idx.BnameBytes with
    | none => .ok 0
    | some cb =>
      match Btoi cb with
      | none => .error invalidIntegerBytes
      | some c => .ok c

/-- Key of the per-value counter in a duplicate-key index. -/
def countKeyOf (env : Env) (val : Bytes) : Bytes := env.ToLower val ++ ascii "_count"

/-- Go `Index.keyCount`. -/
def Index.keyCount (env : Env) (idx : Index) (key : Bytes) (tx : Tx) : Except PanicVal Int :=
  if idx.AllowDupKey then
    match tx.bucketOf idx.BnameBytes with
    | none => .error nilDeref
    | some buck =>
      match Bucket.Get buck (countKeyOf env key) with
      | none => .ok 0
      | some cb =>
        match Btoi cb with
        | none => .error invalidIntegerBytes
        | some c => .ok c
  else
    match idx.convert env key with
    | .error p => .error p
    | .ok vData =>
      match tx.bucketOf idx.BnameBytes with
      | none => .error nilDeref
      | some buck =>
        match Bucket.Get buck vData with
        | none => .ok 0
        | some _ => .ok 1

/-- The update of the index total in the counts bucket that ends `add` and
`remove`: `count++` or `count--`, then `countsBuck.Put`. -/
def Index.bumpCount (idx : Index) (delta : Int) (tx : Tx) : Tx × Out :=
  match idx.getCount tx with
  | .error p => (tx, .panic p)
  | .ok count =>
    match tx.bucketOf BUC_COUNTS with
    | none => (tx, .panic nilDeref)
    | some countsBuck =>
      match Bucket.Put countsBuck idx.BnameBytes (Itob (wrapInt64 (count + delta))) with
      | .error e => (tx, .err (.bolt e))
      | .ok cb => (tx.setBucket BUC_COUNTS cb, .nil)

/-- Go `Index.add`. -/
def Index.add (env : Env) (idx : Index) (val rid : Bytes) (tx : Tx) : Tx × Out :=
  match idx.convert env val with
  | .error p => (tx, .panic p)
  | .ok vData =>
    match tx.bucketOf idx.BnameBytes with
    | none => (tx, .panic nilDeref)
    | some buck =>
      if idx.AllowDupKey then
        match Bucket.Nested buck vData with
        | none =>
          match Bucket.CreateBucket buck vData with
          | .error e => (tx, .err (.bolt e))
          | .ok b1 =>
            match Bucket.Put b1 (countKeyOf env val) (Itob 1) with
            | .error e => (tx.setBucket idx.BnameBytes b1, .err (.bolt e))
            | .ok b2 =>
              match nestedPut [] rid [] with
              | .error e => (tx.setBucket idx.BnameBytes b2, .err (.bolt e))
              | .ok kvs =>
                idx.bumpCount 1 (tx.setBucket idx.BnameBytes (kvPut vData (.nested kvs) b2))
        | some dupBuck =>
          match Btoi ((Bucket.Get buck (countKeyOf env val)).getD []) with
          | none => (tx, .panic invalidIntegerBytes)
          | some count =>
            match nestedPut dupBuck rid [] with
            | .error e => (tx, .err (.bolt e))
            | .ok kvs =>
              match Bucket.Put (kvPut vData (.nested kvs) buck) (countKeyOf env val)
                (Itob (wrapInt64 (count + 1))) with
              | .error _ =>
                idx.bumpCount 1 (tx.setBucket idx.BnameBytes (kvPut vData (.nested kvs) buck))
              | .ok b2 => idx.bumpCount 1 (tx.setBucket idx.BnameBytes b2)
      else
        match Bucket.Put buck vData rid with
        | .error e => (tx, .err (.bolt e))
        | .ok b1 => idx.bumpCount 1 (tx.setBucket idx.BnameBytes b1)

/-- Go `Index.remove`.  `nilRids` are the resource ids that `add` put into the
nested bucket of the value earlier in the running transaction (`add` puts them
with a nil value, which `Bucket.DeleteBucket` stumbles on until the transaction
is committed); in a transaction that made no such `add`, as that of `Remove`,
the list is empty. -/
def Index.remove (env : Env) (idx : Index) (nilRids : List Bytes) (val rid : Bytes) (tx : Tx) :
    Tx × Out :=
  match idx.convert env val with
  | .error p => (tx, .panic p)
  | .ok vData =>
    match tx.bucketOf idx.BnameBytes with
    | none => (tx, .panic nilDeref)
    | some buck =>
      if idx.AllowDupKey then
        match Bucket.Nested buck vData with
        | none => idx.bumpCount (-1) tx
        | some dupBuck =>
          match Btoi ((Bucket.Get buck (countKeyOf env val)).getD []) with
          | none => (tx, .panic invalidIntegerBytes)
          | some count =>
            if count > 1 then
              match Bucket.Put (kvPut vData (.nested (kvDel rid dupBuck)) buck)
                (countKeyOf env val) (Itob (wrapInt64 (count - 1))) with
              | .error e =>
                (tx.setBucket idx.BnameBytes (kvPut vData (.nested (kvDel rid dupBuck)) buck),
                  .err (.bolt e))
              | .ok b2 => idx.bumpCount (-1) (tx.setBucket idx.BnameBytes b2)
            else
              match Bucket.DeleteBucket buck vData nilRids with
              | .error e => (tx, .err e)
              | .ok b1 =>
                match Bucket.Delete b1 (countKeyOf env val) with
                | .error _ => idx.bumpCount (-1) (tx.setBucket idx.BnameBytes b1)
                | .ok b2 => idx.bumpCount (-1) (tx.setBucket idx.BnameBytes b2)
      else
        match Bucket.Delete buck vData with
        | .error e => (tx, .err (.bolt e))
        | .ok b1 => idx.bumpCount (-1) (tx.setBucket idx.BnameBytes b1)

/-- Go `Index.GetRid`: the resource id stored under a key of a unique index,
the empty string if there is none. -/
def Index.GetRid (idx : Index) (valKey : Bytes) (tx : Tx) : Except PanicVal Bytes :=
  match tx.bucketOf idx.BnameBytes with
  | none => .error nilDeref
  | some buc =>
    match Bucket.Get buc valKey with
    | some ridBytes => .ok ridBytes
    | none => .ok []

/-- Go `Index.GetRids`: the resource ids in the nested bucket of a key, in key
order. -/
def Index.GetRids (idx : Index) (valKey : Bytes) (tx : Tx) : Except PanicVal (List Bytes) :=
  match tx.bucketOf idx.BnameBytes with
  | none => .error nilDeref
  | some buck =>
    match Bucket.Nested buck valKey with
    | some dupBuck => .ok (dupBuck.map Prod.fst)
    | none => .ok []

/-- Go `Index.HasVal`. -/
def Index.HasVal (env : Env) (idx : Index) (val : Bytes) (tx : Tx) : Except PanicVal Bool :=
  match idx.convert env val with
  | .error p => .error p
  | .ok key =>
    match idx.GetRid key tx with
    | .error p => .error p
    | .ok rid => .ok (rid.length != 0)

/-! ## Silo -/

/-- Go `Silo`, with the package-level map `restypes` that `Open` fills.  Go
maps are association lists here; a `range` loop visits them in list order. -/
structure Silo where
  resources : List (Bytes × Bytes)
  indices : List (Bytes × List (Bytes × Index))
  sysIndices : List (Bytes × List (Bytes × Index))
  restypes : List (Bytes × ResourceType)

/-- The map read `sl.resources[name]`: the nil slice when the name is missing. -/
def Silo.resourceBucket (sl : Silo) (name : Bytes) : Bytes := (kvGet name sl.resources).getD []

/-- The map read `sl.indices[resName]`: the empty map when the name is missing. -/
def Silo.indicesOf (sl : Silo) (resName : Bytes) : List (Bytes × Index) :=
  (kvGet resName sl.indices).getD []

/-- Go `Silo.getIndex`. -/
def Silo.getIndex (env : Env) (sl : Silo) (resName atName : Bytes) : Option Index :=
  kvGet (env.ToLower atName) (sl.indicesOf resName)

/-- Go `Silo.getSysIndex`: panics when the system index does not exist. -/
def Silo.getSysIndex (sl : Silo) (resName name : Bytes) : Except PanicVal Index :=
  match kvGet name ((kvGet resName sl.sysIndices).getD []) with
  | some idx => .ok idx
  | none => .error (.error (.fmt (ascii "There is no system index with the name " ++ name ++
      ascii " in resource tyep " ++ resName)))

/-- Go `Silo.storeResource`: encodes the resource and puts it under its id;
every failure is a panic. -/
def Silo.storeResource (env : Env) (sl : Silo) (tx : Tx) (res : Resource) : Tx × Option PanicVal :=
  match env.Encode res with
  | .error e => (tx, some (.error e))
  | .ok data =>
    match tx.bucketOf (sl.resourceBucket res.GetType.Name) with
    | none => (tx, some nilDeref)
    | some resBucket =>
      match Bucket.Put resBucket res.GetId data with
      | .error e => (tx, some (.error (.bolt e)))
      | .ok b => (tx.setBucket (sl.resourceBucket res.GetType.Name) b, none)

/-- Go `Silo.Get`, run against a committed state: the pair `(resource, err)`,
or a panic when the resource bucket does not exist. -/
def Silo.Get (env : Env) (sl : Silo) (db : Tx) (rid : Bytes) (rt : ResourceType) :
    Except PanicVal (Option Resource × Option Err) :=
  match db.bucketOf (sl.resourceBucket rt.Name) with
  | none => .error nilDeref
  | some buck =>
    match Bucket.Get buck rid with
    | none => .ok (none, none)
    | some resData =>
      match env.Decode resData with
      | .error e => .ok (none, some e)
      | .ok resource => .ok (some (resource.SetSchema rt), none)

/-- Message of the uniqueness panic of `Insert`. -/
def uniquenessMsg (val name : Bytes) : Bytes :=
  ascii "Uniqueness violation, value " ++ val ++ ascii " of attribute " ++ name ++
    ascii " already exists"

/-- Inner loop of the uniqueness check of `Insert`, over the values of one
attribute; `idx` is the map read `sl.indices[rt.Name][name]`, nil when missing. -/
def uniqueValsCheck (env : Env) (idx : Option Index) (saName : Bytes) (tx : Tx) :
    List Bytes → Option PanicVal
  | [] => none
  | val :: rest =>
    match idx with
    | none => some nilDeref
    | some i =>
      match i.HasVal env val tx with
      | .error p => some p
      | .ok true => some (.error (.fmt (uniquenessMsg val saName)))
      | .ok false => uniqueValsCheck env idx saName tx rest

/-- Outer loop of the uniqueness check of `Insert`, over `rt.UniqueAts`. -/
def uniqueCheck (env : Env) (idxMap : List (Bytes × Index)) (inRes : Resource) (tx : Tx) :
    List Bytes → Option PanicVal
  | [] => none
  | name :: rest =>
    match inRes.GetAttr env name with
    | none => some nilDeref
    | some (.complex _) => uniqueCheck env idxMap inRes tx rest
    | some (.simple sa) =>
      match uniqueValsCheck env (kvGet name idxMap) sa.Name tx sa.Values with
      | some p => some p
      | none => uniqueCheck env idxMap inRes tx rest

/-- Inner loop of the index loop of `Insert`: `idx.add` for every value, an
error becoming a panic. -/
def addVals (env : Env) (idx : Index) (rid : Bytes) : List Bytes → Tx → Tx × Option PanicVal
  | [], tx => (tx, none)
  | val :: rest, tx =>
    match idx.add env val rid tx with
    | (tx1, .nil) => addVals env idx rid rest tx1
    | (tx1, .err e) => (tx1, some (.error e))
    | (tx1, .panic p) => (tx1, some p)

/-- Index loop of `Insert`: every simple attribute that has an index is added
to it value by value, and its name is added to the presence index. -/
def addToIndices (env : Env) (prIdx : Index) (inRes : Resource) (rid : Bytes) :
    List (Bytes × Index) → Tx → Tx × Option PanicVal
  | [], tx => (tx, none)
  | (name, idx) :: rest, tx =>
    match inRes.GetAttr env name with
    | none => addToIndices env prIdx inRes rid rest tx
    | some (.complex _) => addToIndices env prIdx inRes rid rest tx
    | some (.simple sa) =>
      match addVals env idx rid sa.Values tx with
      | (tx1, some p) => (tx1, some p)
      | (tx1, none) =>
        match prIdx.add env name rid tx1 with
        | (tx2, .nil) => addToIndices env prIdx inRes rid rest tx2
        | (tx2, .err e) => (tx2, some (.error e))
        | (tx2, .panic p) => (tx2, some p)

/-- The back-reference entry `Insert` adds to a member of a group. -/
def backRef (refRType : ResourceType) (rid : Bytes) : List (Bytes × Bytes) :=
  [(ascii "value", rid), (ascii "$ref", refRType.Endpoint ++ ascii "/" ++ rid),
   (ascii "type", refRType.Name)]

/-- The update of a member inside the member loop of `Insert`: a `groups`
attribute is created with `AddCA` when the member has none, else the entry is
appended with `AddSubAts`. -/
def Resource.addGroup (env : Env) (refRes : Resource) (refRType : ResourceType) (rid : Bytes) :
    Except PanicVal Resource :=
  match refRes.GetAttr env (ascii "groups") with
  | none =>
    match refRes.AddCA env (ascii "groups") (backRef refRType rid) with
    | .error e => .error (.error e)
    | .ok r => .ok r
  | some (.simple _) => .error nilDeref
  | some (.complex ca) =>
    .ok (refRes.setAttr (env.ToLower (ascii "groups"))
      (.complex (ca.AddSubAts (backRef refRType rid))))

/-- The reference type of a member: the first value of `$ref`, `Group` when
the member has no `$ref`. -/
def refTypeOf (subAtMap : List (Bytes × SimpleAttr)) : Except PanicVal Bytes :=
  match kvGet (ascii "$ref") subAtMap with
  | none => .ok (ascii "Group")
  | some refType =>
    match refType.Values with
    | [] => .error indexOutOfRange
    | v :: _ => .ok v

/-- Member loop of `Insert` for a group: every member with a `value` is read
with `Get` (a read transaction of its own, which sees the committed state `db`),
gets a `groups` entry and is stored again. -/
def addBackRefs (env : Env) (sl : Silo) (db : Tx) (rid : Bytes) :
    List (List (Bytes × SimpleAttr)) → Tx → Tx × Option PanicVal
  | [], tx => (tx, none)
  | subAtMap :: rest, tx =>
    match kvGet (ascii "value") subAtMap with
    | none => addBackRefs env sl db rid rest tx
    | some value =>
      match value.Values with
      | [] => (tx, some indexOutOfRange)
      | refId :: _ =>
        match refTypeOf subAtMap with
        | .error p => (tx, some p)
        | .ok tv =>
          match kvGet tv sl.restypes with
          | none => (tx, some (.error (.fmt (ascii "Given reference type " ++ tv ++
              ascii " associated with value " ++ refId ++ ascii " is not found"))))
          | some refRType =>
            match sl.Get env db refId refRType with
            | .error p => (tx, some p)
            | .ok (none, _) => (tx, some (.error (.fmt
                (ascii "There is no resource with the referenced value " ++ refId))))
            | .ok (some refRes, _) =>
              match refRes.addGroup env refRType rid with
              | .error p => (tx, some p)
              | .ok r =>
                match sl.storeResource env tx r with
                | (tx1, some p) => (tx1, some p)
                | (tx1, none) => addBackRefs env sl db rid rest tx1

/-- First part of the body of `Insert`: uniqueness check, index loop and the
write of the row. -/
def Silo.insertCore (env : Env) (sl : Silo) (db : Tx) (rid : Bytes) (inRes : Resource) :
    Tx × Option PanicVal :=
  match uniqueCheck env (sl.indicesOf inRes.GetType.Name) inRes db inRes.GetType.UniqueAts with
  | some p => (db, some p)
  | none =>
    match sl.getSysIndex inRes.GetType.Name (ascii "presence") with
    | .error p => (db, some p)
    | .ok prIdx =>
      match addToIndices env prIdx inRes rid (sl.indicesOf inRes.GetType.Name) db with
      | (tx1, some p) => (tx1, some p)
      | (tx1, none) => sl.storeResource env tx1 inRes

/-- Body of `Insert` between `Begin` and the deferred handler: `none` when it
runs to its `return`, the panic value otherwise. -/
def Silo.insertTx (env : Env) (sl : Silo) (db : Tx) (rid : Bytes) (inRes : Resource) :
    Tx × Option PanicVal :=
  match sl.insertCore env db rid inRes with
  | (tx2, some p) => (tx2, some p)
  | (tx2, none) =>
    if inRes.GetType.Name = ascii "Group" then
      match inRes.GetAttr env (ascii "members") with
      | none => (tx2, none)
      | some (.simple _) => (tx2, some nilDeref)
      | some (.complex ca) => addBackRefs env sl db rid ca.SubAts tx2
    else (tx2, none)

/-- What a call of `Insert` leaves behind. -/
inductive InsertResult where
  /-- Committed: `Insert` returns the stamped resource and a nil error. -/
  | ok (res : Resource) (db : Tx)
  /-- Rolled back: `Insert` returns no resource and the recovered error. -/
  | failed (err : Err) (db : Tx)
  /-- The panic value is no `error`: the deferred handler panics itself. -/
  | crashed (p : PanicVal)
  deriving DecidableEq, Repr

/-- The resource `Insert` works on: read-only attributes stripped, id set,
`meta` stamped. -/
def stamp (env : Env) (rid : Bytes) (inRes : Resource) : Resource :=
  ((inRes.RemoveReadOnlyAt env).SetId rid).AddMeta env

/-- Go `Silo.Insert` on the committed state `db`; `rnd` are the 16 random
bytes `GenUUID` draws. -/
def Silo.Insert (env : Env) (sl : Silo) (db : Tx) (rnd : Bytes) (inRes : Resource) :
    InsertResult :=
  match sl.insertTx env db (GenUUID rnd) (stamp env (GenUUID rnd) inRes) with
  | (tx, none) => .ok (stamp env (GenUUID rnd) inRes) tx
  | (_, some (.error e)) => .failed e db
  | (_, some (.text msg)) => .crashed (.text msg)

/-- Inner loop of the index loop of `Remove`.  The transaction of `Remove` puts
no nil value before its calls of `remove`, so no resource id is held as a nil
slice. -/
def removeVals (env : Env) (idx : Index) (rid : Bytes) : List Bytes → Tx → Tx × Option PanicVal
  | [], tx => (tx, none)
  | val :: rest, tx =>
    match idx.remove env [] val rid tx with
    | (tx1, .nil) => removeVals env idx rid rest tx1
    | (tx1, .err e) => (tx1, some (.error e))
    | (tx1, .panic p) => (tx1, some p)

/-- Index loop of `Remove`. -/
def removeFromIndices (env : Env) (resource : Resource) (rid : Bytes) :
    List (Bytes × Index) → Tx → Tx × Option PanicVal
  | [], tx => (tx, none)
  | (name, idx) :: rest, tx =>
    match resource.GetAttr env name with
    | none => removeFromIndices env resource rid rest tx
    | some (.complex _) => removeFromIndices env resource rid rest tx
    | some (.simple sa) =>
      match removeVals env idx rid sa.Values tx with
      | (tx1, some p) => (tx1, some p)
      | (tx1, none) => removeFromIndices env resource rid rest tx1

/-- Body of `Remove` between `Begin` and the deferred handler. -/
def Silo.removeTx (env : Env) (sl : Silo) (db : Tx) (rid : Bytes) (rt : ResourceType) :
    Tx × Out :=
  match db.bucketOf (sl.resourceBucket rt.Name) with
  | none => (db, .panic nilDeref)
  | some buck =>
    match Bucket.Get buck rid with
    | none => (db, .err (NewNotFoundError (rt.Name ++ ascii " resource with ID " ++ rid ++
        ascii " not found")))
    | some resData =>
      if resData.length = 0 then
        (db, .err (NewNotFoundError (rt.Name ++ ascii " resource with ID " ++ rid ++
          ascii " not found")))
      else
        match env.Decode resData with
        | .error e => (db, .err e)
        | .ok resource =>
          match removeFromIndices env (resource.SetSchema rt) rid (sl.indicesOf rt.Name) db with
          | (tx1, some p) => (tx1, .panic p)
          | (tx1, none) =>
            match tx1.bucketOf (sl.resourceBucket rt.Name) with
            | none => (tx1, .panic nilDeref)
            | some buck1 =>
              match Bucket.Delete buck1 rid with
              | .error e => (tx1, .err (.bolt e))
              | .ok b => (tx1.setBucket (sl.resourceBucket rt.Name) b, .nil)

/-- What a call of `Remove` leaves behind: the returned error, the committed
state, and whether the deferred handler committed or rolled back. -/
structure RemoveResult where
  err : Option Err
  db : Tx
  committed : Bool
  deriving DecidableEq, Repr

/-- Go `Silo.Remove` on the committed state `db`.  The deferred handler commits
after every `return` and rolls back after a panic; it does not assign the named
result, which is nil when an index removal panics. -/
def Silo.Remove (env : Env) (sl : Silo) (db : Tx) (rid : Bytes) (rt : ResourceType) :
    RemoveResult :=
  match sl.removeTx env db rid rt with
  | (tx, .nil) => { err := none, db := tx, committed := true }
  | (tx, .err e) => { err := some e, db := tx, committed := true }
  | (_, .panic _) => { err := none, db := db, committed := false }

/-! ## Observations on results and states -/

/-- The resource a call of `Insert` returns, if any. -/
def InsertResult.res? : InsertResult → Option Resource
  | .ok res _ => some res
  | _ => none

/-- The error a call of `Insert` returns, if any. -/
def InsertResult.err? : InsertResult → Option Err
  | .failed e _ => some e
  | _ => none

/-- The committed state after a call of `Insert` that returned. -/
def InsertResult.db? : InsertResult → Option Tx
  | .ok _ db => some db
  | .failed _ db => some db
  | .crashed _ => none

/-- The index contains the tuple `(valKey, rid)`: `GetRids` lists `rid` under
the key in a duplicate-key index, `GetRid` answers `rid` (which is not the
empty answer) in a unique index. -/
def Index.holds (idx : Index) (valKey rid : Bytes) (tx : Tx) : Prop :=
  if idx.AllowDupKey then ∃ rids, idx.GetRids valKey tx = .ok rids ∧ rid ∈ rids
  else idx.GetRid valKey tx = .ok rid ∧ rid ≠ []

/-- The bucket names of the indices configured for a resource type. -/
def Silo.indexBuckets (sl : Silo) (resName : Bytes) : List Bytes :=
  (sl.indicesOf resName).map (fun p => p.2.BnameBytes)

/-- Layout of the buckets as `Open` creates them, for one resource type: the
indices have buckets of their own, apart from the counts bucket, the system
indices and the resource buckets. -/
def Silo.Separated (sl : Silo) (resName : Bytes) : Prop :=
  (sl.indexBuckets resName).Nodup ∧
  BUC_COUNTS ∉ sl.indexBuckets resName ∧
  [] ∉ sl.indexBuckets resName ∧
  (∀ q ∈ (kvGet resName sl.sysIndices).getD [], q.2.BnameBytes ∉ sl.indexBuckets resName) ∧
  ∀ p ∈ sl.resources, p.2 ∉ sl.indexBuckets resName

instance (sl : Silo) (resName : Bytes) : Decidable (sl.Separated resName) := by
  unfold Silo.Separated
  infer_instance

/-- No row of the state decodes to a resource that carries the id `rid`. -/
def idFresh (env : Env) (db : Tx) (rid : Bytes) : Bool :=
  db.all (fun p => p.2.all (fun q =>
    match q.2 with
    | .value data =>
      match env.Decode data with
      | .ok r0 => r0.id != rid
      | .error _ => true
    | .nested _ => true))

/-- The resource has a `groups` entry whose `value` is `gid`. -/
def Resource.hasGroup (env : Env) (rs : Resource) (gid : Bytes) : Bool :=
  match rs.GetAttr env (ascii "groups") with
  | some (.complex ca) =>
    ca.SubAts.any (fun m =>
      match kvGet (ascii "value") m with
      | some sa => sa.Values.contains gid
      | none => false)
  | _ => false

/-- The codec gives back the resource it encoded, up to the resource type,
which `SetSchema` attaches again. -/
def Env.roundTrips (env : Env) (res : Resource) : Bool :=
  match env.Encode res with
  | .error _ => true
  | .ok data =>
    match env.Decode data with
    | .ok r0 => decide (r0.SetSchema res.resType = res)
    | .error _ => false

/-- The error `Remove` returns for an id without a row. -/
def notFoundFor (rt : ResourceType) (rid : Bytes) : Err :=
  NewNotFoundError (rt.Name ++ ascii " resource with ID " ++ rid ++ ascii " not found")

/-- The state after `n` further calls of `Remove` for the same id. -/
def removeAgain (env : Env) (sl : Silo) (rid : Bytes) (rt : ResourceType) : Nat → Tx → Tx
  | 0, db => db
  | n + 1, db => removeAgain env sl rid rt n (sl.Remove env db rid rt).db

/-! ## A sample configuration

A small codec, environment, silo and a few resources, on which the operations
are evaluated. -/

/-- ASCII lower-casing of one byte. -/
def lowerByte (b : Nat) : Nat := if 65 ≤ b ∧ b ≤ 90 then b + 32 else b

/-- Sample codec: a byte string, length first. -/
def encBytes (b : Bytes) : Bytes := b.length :: b

/-- Sample codec: a list, length first. -/
def encList {α : Type} (f : α → Bytes) (xs : List α) : Bytes := xs.length :: (xs.map f).flatten

/-- Sample codec: a simple attribute. -/
def encSimple (sa : SimpleAttr) : Bytes := encBytes sa.Name ++ encList encBytes sa.Values

/-- Sample codec: a sub-attribute map. -/
def encSubAts (m : List (Bytes × SimpleAttr)) : Bytes :=
  encList (fun kv => encBytes kv.1 ++ encSimple kv.2) m

/-- Sample codec: a complex attribute. -/
def encComplex (ca : ComplexAttr) : Bytes := encBytes ca.Name ++ encList encSubAts ca.SubAts

/-- Sample codec: an attribute, tagged. -/
def encAttr : Attribute → Bytes
  | .simple sa => 0 :: encSimple sa
  | .complex ca => 1 :: encComplex ca

/-- Sample codec: a resource; like gob, it leaves the resource type out. -/
def encRes (r : Resource) : Bytes :=
  encBytes r.id ++ encList (fun kv => encBytes kv.1 ++ encAttr kv.2) r.attrs

/-- Sample codec: a reader of one item off the front of the input. -/
abbrev Reader (α : Type) := Bytes → Option (α × Bytes)

/-- Sample codec: reads a byte string. -/
def decBytes : Reader Bytes
  | [] => none
  | n :: rest => if rest.length < n then none else some (rest.take n, rest.drop n)

/-- Sample codec: reads `n` items. -/
def decTimes {α : Type} (f : Reader α) : Nat → Reader (List α)
  | 0, s => some ([], s)
  | n + 1, s =>
    match f s with
    | none => none
    | some (a, s1) =>
      match decTimes f n s1 with
      | none => none
      | some (as, s2) => some (a :: as, s2)

/-- Sample codec: reads a list. -/
def decList {α : Type} (f : Reader α) : Reader (List α)
  | [] => none
  | n :: rest => decTimes f n rest

/-- Sample codec: reads a key and an item. -/
def decPair {α : Type} (f : Reader α) : Reader (Bytes × α) := fun s =>
  match decBytes s with
  | none => none
  | some (k, s1) =>
    match f s1 with
    | none => none
    | some (v, s2) => some ((k, v), s2)

/-- Sample codec: reads a simple attribute. -/
def decSimple : Reader SimpleAttr := fun s =>
  match decBytes s with
  | none => none
  | some (n, s1) =>
    match decList decBytes s1 with
    | none => none
    | some (vs, s2) => some ({ Name := n, Values := vs }, s2)

/-- Sample codec: reads a complex attribute. -/
def decComplex : Reader ComplexAttr := fun s =>
  match decBytes s with
  | none => none
  | some (n, s1) =>
    match decList (decList (decPair decSimple)) s1 with
    | none => none
    | some (ms, s2) => some ({ Name := n, SubAts := ms }, s2)

/-- Sample codec: reads an attribute. -/
def decAttr : Reader Attribute
  | 0 :: s => (decSimple s).map (fun p => (.simple p.1, p.2))
  | 1 :: s => (decComplex s).map (fun p => (.complex p.1, p.2))
  | _ => none

/-- Sample codec: decodes a row; the resource type is left empty. -/
def decRes (s : Bytes) : Except Err Resource :=
  match decBytes s with
  | none => .error (.gob (ascii "EOF"))
  | some (i, s1) =>
    match decList (decPair decAttr) s1 with
    | some (as, []) => .ok { resType := ⟨[], [], []⟩, id := i, attrs := as }
    | _ => .error (.gob (ascii "EOF"))

/-- Sample environment: ASCII lower-casing, the sample codec, a fixed clock. -/
def sampleEnv : Env where
  ToLower := List.map lowerByte
  ParseFloatBits := fun _ => 0
  IsReadOnly := fun _ _ => false
  Now := ascii "2016-05-17T14:19:14Z"
  Encode := fun r => .ok (encRes r)
  Decode := decRes
  EncodeIndex := fun bname name dup valType cs =>
    .ok (encBytes bname ++ encBytes name ++ encBytes valType ++
      [if dup then 1 else 0, if cs then 1 else 0])

/-- Sample resource type `User`, with the unique attribute `userName`. -/
def userType : ResourceType :=
  { Name := ascii "User", Endpoint := ascii "/Users", UniqueAts := [ascii "username"] }

/-- Sample resource type `Group`. -/
def groupType : ResourceType :=
  { Name := ascii "Group", Endpoint := ascii "/Groups", UniqueAts := [] }

/-- Sample resource type `Device`, whose unique attribute `macIds` is
multi-valued. -/
def deviceType : ResourceType :=
  { Name := ascii "Device", Endpoint := ascii "/Devices", UniqueAts := [ascii "macids"] }

/-- The index `createIndexBucket` builds for a string attribute. -/
def stringIndex (resName iName : Bytes) (dup : Bool) : Index :=
  { Bname := resName ++ ascii ":" ++ iName, Name := iName,
    BnameBytes := resName ++ ascii ":" ++ iName,
    AllowDupKey := dup, ValType := ascii "string", CaseSensitive := false }

/-- The presence index `Open` builds for a resource type. -/
def presenceIndex (resName : Bytes) : Index :=
  { Bname := resName ++ ascii ":presence_system", Name := ascii "presence",
    BnameBytes := resName ++ ascii ":presence_system",
    AllowDupKey := true, ValType := ascii "string", CaseSensitive := false }

/-- Sample silo: users indexed by `userName`, groups by `displayName`, devices
by `macIds`. -/
def sampleSilo : Silo where
  resources := [(ascii "User", ascii "User"), (ascii "Group", ascii "Group"),
    (ascii "Device", ascii "Device")]
  indices := [
    (ascii "User", [(ascii "username", stringIndex (ascii "User") (ascii "username") false)]),
    (ascii "Group", [(ascii "displayname",
      stringIndex (ascii "Group") (ascii "displayname") false)]),
    (ascii "Device", [(ascii "macids", stringIndex (ascii "Device") (ascii "macids") true)])]
  sysIndices := [
    (ascii "User", [(ascii "presence", presenceIndex (ascii "User"))]),
    (ascii "Group", [(ascii "presence", presenceIndex (ascii "Group"))]),
    (ascii "Device", [(ascii "presence", presenceIndex (ascii "Device"))])]
  restypes := [(ascii "User", userType), (ascii "Group", groupType),
    (ascii "Device", deviceType)]

/-- The state right after `Open` on a new file: every bucket exists and is
empty. -/
def emptyDb : Tx :=
  [(ascii "Device", []), (ascii "Device:macids", []), (ascii "Device:presence_system", []),
   (ascii "Group", []), (ascii "Group:displayname", []), (ascii "Group:presence_system", []),
   (ascii "User", []), (ascii "User:presence_system", []), (ascii "User:username", []),
   (ascii "counts", []), (ascii "indices", []), (ascii "resources", [])]

/-- Sample user `admin`. -/
def adminUser : Resource :=
  { resType := userType, id := [],
    attrs := [(ascii "username", .simple { Name := ascii "userName", Values := [ascii "admin"] })] }

/-- Sixteen random bytes, first draw. -/
def draw1 : Bytes := List.replicate 16 1

/-- Sixteen random bytes, second draw. -/
def draw2 : Bytes := List.replicate 16 2

/-- Sixteen random bytes, third draw. -/
def draw3 : Bytes := List.replicate 16 3

/-- The state after `admin` was inserted into the empty state. -/
def dbAdmin : Tx := ((sampleSilo.Insert sampleEnv emptyDb draw1 adminUser).db?).getD []

/-- A sub-attribute holding one value. -/
def oneValue (name val : Bytes) : Bytes × SimpleAttr :=
  (name, { Name := name, Values := [val] })

/-- A `members` attribute with the given entries. -/
def membersAttr (entries : List (List (Bytes × SimpleAttr))) : Bytes × Attribute :=
  (ascii "members", .complex { Name := ascii "members", SubAts := entries })

/-- A group whose only member is `admin`, given by value without `$ref`. -/
def adminsGroup : Resource :=
  { resType := groupType, id := [],
    attrs := [membersAttr [[oneValue (ascii "value") (GenUUID draw1)]]] }

/-- A group whose only member is `admin`, with `$ref` naming the type `User`. -/
def adminsGroupRef : Resource :=
  { resType := groupType, id := [],
    attrs := [membersAttr [[oneValue (ascii "value") (GenUUID draw1),
      oneValue (ascii "$ref") (ascii "User")]]] }

/-- A group without members. -/
def staffGroup : Resource :=
  { resType := groupType, id := [], attrs := [] }

/-- The state after the group without members was inserted into the empty state. -/
def dbStaff : Tx := ((sampleSilo.Insert sampleEnv emptyDb draw1 staffGroup).db?).getD []

/-- A group whose only member is the group of id `GenUUID draw1`, given by
value without `$ref`. -/
def parentGroup : Resource := adminsGroup

/-- A device with one MAC id. -/
def deviceA : Resource :=
  { resType := deviceType, id := [],
    attrs := [(ascii "macids", .simple { Name := ascii "macIds", Values := [ascii "6a"] })] }

/-- The state after the device was inserted into the empty state. -/
def dbDevice : Tx := ((sampleSilo.Insert sampleEnv emptyDb draw1 deviceA).db?).getD []

/-- The second device insert: the same MAC id, inserted into the state that
holds the first device. -/
def dbDevice2 : Tx := ((sampleSilo.Insert sampleEnv dbDevice draw2 deviceA).db?).getD []

/-- The resource `Insert` stored for `admin`. -/
def adminStamped : Resource := stamp sampleEnv (GenUUID draw1) adminUser

/-- The row of `admin` as the sample codec decodes it, before `SetSchema`. -/
def adminDecoded : Resource := { adminStamped with resType := ⟨[], [], []⟩ }

/-- The bucket of users in the state that holds `admin`. -/
def usersOfDbAdmin : Bucket := (dbAdmin.bucketOf (ascii "User")).getD []

/-- The state after `admin` was removed again. -/
def dbAdminRemoved : Tx := (sampleSilo.Remove sampleEnv dbAdmin (GenUUID draw1) userType).db

/-- The state after the group with the member `admin` of type `User` was
inserted. -/
def dbGroup : Tx := ((sampleSilo.Insert sampleEnv dbAdmin draw2 adminsGroupRef).db?).getD []

/-- The state after that group was removed again. -/
def dbGroupRemoved : Tx := (sampleSilo.Remove sampleEnv dbGroup (GenUUID draw2) groupType).db

/-- The state after a group whose member is the group without members was
inserted. -/
def dbParent : Tx := ((sampleSilo.Insert sampleEnv dbStaff draw2 parentGroup).db?).getD []

/-- The `members` attribute of the sample groups without `$ref`. -/
def membersByValue : ComplexAttr :=
  { Name := ascii "members", SubAts := [[oneValue (ascii "value") (GenUUID draw1)]] }

/-- Whether `Get` answered a resource that has a `groups` entry for `gid`. -/
def gotWithGroup (env : Env) (got : Except PanicVal (Option Resource × Option Err))
    (gid : Bytes) : Bool :=
  match got with
  | .ok (some u, _) => u.hasGroup env gid
  | _ => false

/-! ## The integer key encoding in the words of the spec -/

/-- The uint64 that has the bits of an int64 (two's complement). -/
def toUint64 (i : Int) : Nat := (i % (two64 : Int)).toNat

/-- Bitwise complement of a 64-bit word. -/
def not64 (u : Nat) : Nat := two64 - 1 - u

/-- Shift of a 64-bit word by one bit to the left, modulo 2^64. -/
def shl64 (u : Nat) : Nat := (u * 2) % two64

/-- The zig-zag image in the words of the spec: `(~i << 1) | 1` for `i < 0` and
`i << 1` for `i >= 0`, computed modulo 2^64. -/
def zigzag (i : Int) : Nat :=
  if i < 0 then shl64 (not64 (toUint64 i)) ||| 1 else shl64 (toUint64 i)

/-- The big-endian encoding of `v` in `n` bytes: the most significant byte
first. -/
def bigEndian : Nat → Nat → Bytes
  | 0, _ => []
  | n + 1, v => bigEndian n (v / 256) ++ [v % 256]

/-! ## Creation of an index -/

/-- Modelled from the spec: `schema.AttrType`, the fields `createIndexBucket`
reads: name, type, the multi-valued and case-exact flags, and the complex
parent of a sub-attribute (package `schema` is not among the sources). -/
inductive AttrType where
  | mk (Name : Bytes) (AtType : Bytes) (MultiValued : Bool) (CaseExact : Bool)
      (parent : Option AttrType)

/-- Field `Type` of an attribute type. -/
def AttrType.AtType : AttrType → Bytes
  | .mk _ t _ _ _ => t

/-- Field `MultiValued` of an attribute type. -/
def AttrType.MultiValued : AttrType → Bool
  | .mk _ _ m _ _ => m

/-- Field `CaseExact` of an attribute type. -/
def AttrType.CaseExact : AttrType → Bool
  | .mk _ _ _ c _ => c

/-- Modelled from the spec: `AttrType.Parent`, nil for a top-level attribute. -/
def AttrType.Parent : AttrType → Option AttrType
  | .mk _ _ _ _ p => p

/-- Engine `Tx.CreateBucket`: a new, empty top-level bucket. -/
def Tx.CreateBucket (tx : Tx) (name : Bytes) : Except BoltErr Tx :=
  if name = [] then .error .ErrBucketNameRequired
  else
    match kvGet name tx with
    | some _ => .error .ErrBucketExists
    | none => .ok (kvPut name [] tx)

/-- The descriptor `createIndexBucket` fills in before it touches the store. -/
def Silo.newIndex (env : Env) (resourceName attrName : Bytes) (atp : AttrType)
    (sysIdx : Bool) : Index :=
  { Bname := resourceName ++ RES_INDEX_DELIM ++ env.ToLower attrName ++
      (if sysIdx then ascii "_system" else []),
    Name := env.ToLower attrName,
    BnameBytes := resourceName ++ RES_INDEX_DELIM ++ env.ToLower attrName ++
      (if sysIdx then ascii "_system" else []),
    AllowDupKey :=
      match atp.Parent with
      | some p => p.MultiValued
      | none => atp.MultiValued,
    ValType := atp.AtType,
    CaseSensitive := atp.CaseExact }

/-- What `createIndexBucket` returns and leaves behind. -/
structure CreateIndexResult where
  isNewIndex : Bool
  idx : Index
  err : Option Err
  db : Tx
  resIdxMap : List (Bytes × Index)
  deriving DecidableEq, Repr

/-- Go `Silo.createIndexBucket` on the committed state `db`: the update
transaction creates the bucket (an existing one is kept), stores the encoded
descriptor under the bucket name, and commits unless it returns an error; the
descriptor is entered into the map when there was no error.  `Put` on a missing
`indices` bucket is a panic; an error of that `Put` is dropped. -/
def Silo.createIndexBucket (env : Env) (db : Tx) (resourceName attrName : Bytes)
    (atp : AttrType) (sysIdx : Bool) (resIdxMap : List (Bytes × Index)) :
    Except PanicVal CreateIndexResult :=
  match
    (match Tx.CreateBucket db (Silo.newIndex env resourceName attrName atp sysIdx).BnameBytes with
      | .error .ErrBucketExists => Except.ok db
      | .error e => Except.error e
      | .ok tx => Except.ok tx) with
  | .error e =>
    .ok { isNewIndex := false, idx := Silo.newIndex env resourceName attrName atp sysIdx,
          err := some (.bolt e), db := db, resIdxMap := resIdxMap }
  | .ok tx =>
    match env.EncodeIndex (Silo.newIndex env resourceName attrName atp sysIdx).Bname
        (Silo.newIndex env resourceName attrName atp sysIdx).Name
        (Silo.newIndex env resourceName attrName atp sysIdx).AllowDupKey
        (Silo.newIndex env resourceName attrName atp sysIdx).ValType
        (Silo.newIndex env resourceName attrName atp sysIdx).CaseSensitive with
    | .error e =>
      .ok { isNewIndex := false, idx := Silo.newIndex env resourceName attrName atp sysIdx,
            err := some e, db := db, resIdxMap := resIdxMap }
    | .ok data =>
      match tx.bucketOf BUC_INDICES with
      | none => .error nilDeref
      | some bucket =>
        .ok { isNewIndex := true, idx := Silo.newIndex env resourceName attrName atp sysIdx,
              err := none,
              db := match Bucket.Put bucket
                  (Silo.newIndex env resourceName attrName atp sysIdx).BnameBytes data with
                | .ok b => tx.setBucket BUC_INDICES b
                | .error _ => tx,
              resIdxMap := kvPut (Silo.newIndex env resourceName attrName atp sysIdx).Name
                (Silo.newIndex env resourceName attrName atp sysIdx) resIdxMap }

/-! ## More of the sample configuration -/

/-- The index of the group attribute `displayName`: single-valued, not unique. -/
def displayIndex : Index := stringIndex (ascii "Group") (ascii "displayname") false

/-- The duplicate-key index of the device attribute `macIds`. -/
def macIndex : Index := stringIndex (ascii "Device") (ascii "macids") true

/-- A duplicate-key index of a case-exact string attribute. -/
def tagIndex : Index :=
  { Bname := ascii "Device:tags", Name := ascii "tags", BnameBytes := ascii "Device:tags",
    AllowDupKey := true, ValType := ascii "string", CaseSensitive := true }

/-- The new store with a bucket for the index of `tags`. -/
def emptyTagDb : Tx := Tx.setBucket emptyDb (ascii "Device:tags") []

/-- The attribute type of the multi-valued device attribute `repairDates`. -/
def repairDatesType : AttrType :=
  .mk (ascii "repairDates") (ascii "datetime") true false none

/-- A multi-valued sub-attribute of a single-valued complex attribute. -/
def altitudesType : AttrType :=
  .mk (ascii "altitudes") (ascii "decimal") true false
    (some (.mk (ascii "location") (ascii "complex") false false none))

/-- The index `createIndexBucket` builds for `repairDates`. -/
def dateIndex : Index :=
  Silo.newIndex sampleEnv (ascii "Device") (ascii "repairDates") repairDatesType false

/-- The attribute `repairDates` with one value. -/
def repairDatesAttr : Bytes × Attribute :=
  (ascii "repairdates", .simple { Name := ascii "repairDates", Values := [ascii "2016-05-28T14:19:14Z"] })

/-- A device with a MAC id and a repair date. -/
def datedDevice : Resource :=
  { resType := deviceType, id := [],
    attrs := [(ascii "macids", .simple { Name := ascii "macIds", Values := [ascii "6a"] }), repairDatesAttr] }

/-- The state after the dated device was inserted by the sample silo, which
has no index on `repairDates`. -/
def dbDated0 : Tx := ((sampleSilo.Insert sampleEnv emptyDb draw1 datedDevice).db?).getD []

/-- The configuration after an index on `repairDates` was added. -/
def datedSilo : Silo :=
  { sampleSilo with
    indices := [
      (ascii "User", [(ascii "username", stringIndex (ascii "User") (ascii "username") false)]),
      (ascii "Group", [(ascii "displayname", displayIndex)]),
      (ascii "Device", [(ascii "macids", macIndex), (ascii "repairdates", dateIndex)])] }

/-- The state after the store was opened again with the new configuration:
`createIndexBucket` has made the bucket of the new index. -/
def dbDated : Tx :=
  match Silo.createIndexBucket sampleEnv dbDated0 (ascii "Device") (ascii "repairDates")
      repairDatesType false [(ascii "macids", macIndex)] with
  | .ok r => r.db
  | .error _ => []

/-- The id made from the first draw. -/
def ridA : Bytes := GenUUID draw1

/-- The id made from the second draw. -/
def ridB : Bytes := GenUUID draw2

/-- The id made from the third draw. -/
def ridC : Bytes := GenUUID draw3

/-- The new store after `add("Staff", ridA)` on the index of `displayName`. -/
def dbStaffKey : Tx := (displayIndex.add sampleEnv (ascii "Staff") ridA emptyDb).1

/-- The new store after `add("6A", ridA)` on the index of `macIds`. -/
def dbMacKey : Tx := (macIndex.add sampleEnv (ascii "6A") ridA emptyDb).1

/-! ## Sequences of index calls -/

/-- A call of `Index.add` or `Index.remove` with its arguments. -/
inductive IndexOp where
  | add (val rid : Bytes)
  | remove (val rid : Bytes)
  deriving DecidableEq, Repr

/-- The value argument of a call. -/
def IndexOp.val : IndexOp → Bytes
  | .add v _ => v
  | .remove v _ => v

/-- One call on the index, as `Insert` and `Remove` make it: a `remove` runs in
a transaction that has put no nil value into the index before. -/
def Index.call (env : Env) (idx : Index) (op : IndexOp) (tx : Tx) : Tx × Out :=
  match op with
  | .add val rid => idx.add env val rid tx
  | .remove val rid => idx.remove env [] val rid tx

/-- The calls one after the other; the state after the last call when every
call returned nil, `none` as soon as a call returns an error or panics. -/
def Index.run (env : Env) (idx : Index) : List IndexOp → Tx → Option Tx
  | [], tx => some tx
  | op :: rest, tx =>
    match idx.call env op tx with
    | (tx1, .nil) => Index.run env idx rest tx1
    | _ => none

/-- The tuple a call of `add` brings is new to the index: the nested bucket of
the key does not list the resource id (duplicate-key index), the key is not
bound (unique index). -/
def Index.isNew (env : Env) (idx : Index) (val rid : Bytes) (tx : Tx) : Bool :=
  match idx.convert env val, tx.bucketOf idx.BnameBytes with
  | .ok key, some buck =>
    if idx.AllowDupKey then
      match Bucket.Nested buck key with
      | some kvs => (kvGet rid kvs).isNone
      | none => true
    else (kvGet key buck).isNone
  | _, _ => false

/-- The tuple a call of `remove` names is in the index: the nested bucket of
the key lists the resource id (duplicate-key index), the key is bound to the
resource id (unique index). -/
def Index.isStored (env : Env) (idx : Index) (val rid : Bytes) (tx : Tx) : Bool :=
  match idx.convert env val, tx.bucketOf idx.BnameBytes with
  | .ok key, some buck =>
    if idx.AllowDupKey then
      match Bucket.Nested buck key with
      | some kvs => (kvGet rid kvs).isSome
      | none => false
    else decide (Bucket.Get buck key = some rid)
  | _, _ => false

/-- Every `add` of the sequence brings a new tuple and every `remove` names a
stored tuple, each judged in the state its call starts from. -/
def Index.proper (env : Env) (idx : Index) : List IndexOp → Tx → Bool
  | [], _ => true
  | .add val rid :: rest, tx =>
    idx.isNew env val rid tx && Index.proper env idx rest (idx.add env val rid tx).1
  | .remove val rid :: rest, tx =>
    idx.isStored env val rid tx && Index.proper env idx rest (idx.remove env [] val rid tx).1

/-- The values keep keys and count keys in step: two of them have the same key
exactly when they have the same count key, and no key is the count key of one
of them. -/
def Index.aligned (env : Env) (idx : Index) (vals : List Bytes) : Bool :=
  vals.all fun v => vals.all fun w =>
    match idx.convert env v, idx.convert env w with
    | .ok kv, .ok kw =>
      decide ((kv = kw ↔ countKeyOf env v = countKeyOf env w) ∧ kv ≠ countKeyOf env w)
    | _, _ => true

/-- Sum of a measure over the entries of an association list. -/
def kvSum {α : Type} (f : α → Nat) (l : List (Bytes × α)) : Nat := (l.map (fun e => f e.2)).sum

/-- The measure of an optional entry, 0 for a missing one. -/
def optSum {α : Type} (f : α → Nat) : Option α → Nat
  | none => 0
  | some v => f v

/-- The tuples one entry of an index bucket stands for: a plain entry of a
unique index is one tuple; a nested bucket of a duplicate-key index holds one
tuple per resource id, and its plain entries are count keys. -/
def nodeTuples (dup : Bool) : Node → Nat
  | .value _ => if dup then 0 else 1
  | .nested kvs => if dup then kvs.length else 0

/-- The number of (value, resource id) tuples stored in the index. -/
def Index.tuples (idx : Index) (tx : Tx) : Nat :=
  match tx.bucketOf idx.BnameBytes with
  | none => 0
  | some buck => kvSum (nodeTuples idx.AllowDupKey) buck

/-- The keys ascend strictly, as the engine keeps them. -/
def kvSorted {α : Type} (l : List (Bytes × α)) : Prop :=
  l.Pairwise (fun a b => bytesLt a.1 b.1 = true)

/-- State of the bucket of a duplicate-key index that the calls keep up: a
nested bucket is not empty, belongs to a value of `U` and has its length under
the count key of that value; a plain entry is the count key of a value of `U`
whose nested bucket exists. -/
structure DupInv (env : Env) (idx : Index) (U : List Bytes) (N : Nat) (buck : Bucket) : Prop where
  nested : ∀ k kvs, kvGet k buck = some (.nested kvs) →
    kvSorted kvs ∧ kvs ≠ [] ∧ kvs.length ≤ N ∧
    ∃ v, v ∈ U ∧ idx.convert env v = .ok k ∧
      kvGet (countKeyOf env v) buck = some (.value (Itob kvs.length))
  plain : ∀ k x, kvGet k buck = some (.value x) →
    k ≠ [] ∧ k.length ≤ MaxKeySize ∧
    ∃ v kv kvs, v ∈ U ∧ k = countKeyOf env v ∧ idx.convert env v = .ok kv ∧
      kvGet kv buck = some (.nested kvs)

/-- State of an index that the calls keep up: the bucket exists with ascending
keys, the total in the counts bucket is the number of tuples, at most `N`. -/
def IndexInv (env : Env) (idx : Index) (U : List Bytes) (N : Nat) (tx : Tx) : Prop :=
  ∃ buck, tx.bucketOf idx.BnameBytes = some buck ∧ kvSorted buck ∧
    (idx.AllowDupKey = true → DupInv env idx U N buck) ∧
    kvSum (nodeTuples idx.AllowDupKey) buck ≤ N ∧
    idx.getCount tx = .ok (kvSum (nodeTuples idx.AllowDupKey) buck : Int)

/-- Four calls on the index of `macIds`: three new tuples, one of them taken
out again. -/
def macOps : List IndexOp :=
  [.add (ascii "6A") ridA, .add (ascii "6a") ridB, .add (ascii "7b") ridA,
   .remove (ascii "6A") ridA]

/-- The new store after the four calls. -/
def dbMacRun : Tx := (macIndex.run sampleEnv macOps emptyDb).getD []

/-- The same tuple added twice to the index of `macIds`. -/
def macTwice : List IndexOp := [.add (ascii "6A") ridA, .add (ascii "6A") ridA]

/-- The new store after the tuple was added twice. -/
def dbMacTwice : Tx := (macIndex.run sampleEnv macTwice emptyDb).getD []

/-- The new store after a `remove` on the empty index of `displayName`. -/
def dbStaffGone : Tx := (displayIndex.remove sampleEnv [] (ascii "Staff") ridA emptyDb).1

/-- The new store after `add("staff", ridB)` on the index of `displayName`
that maps `staff` to `ridA`. -/
def dbStaffAgain : Tx := (displayIndex.add sampleEnv (ascii "staff") ridB dbStaffKey).1

/-- Three calls on the index of `macIds` that bring new tuples. -/
def macAdds : List IndexOp :=
  [.add (ascii "6A") ridA, .add (ascii "6a") ridB, .add (ascii "7b") ridA]

/-- The new store after the three calls. -/
def dbMacAdds : Tx := (macIndex.run sampleEnv macAdds emptyDb).getD []

/-- The store after one more tuple was added to `dbMacAdds`. -/
def dbMacMore : Tx := (macIndex.add sampleEnv (ascii "6A") ridC dbMacAdds).1

/-- Four calls on the case-exact index of `tags` with the values `A` and `a`,
which have different keys and one count key. -/
def tagOps : List IndexOp :=
  [.add (ascii "A") ridA, .add (ascii "A") ridC, .add (ascii "a") ridB,
   .remove (ascii "A") ridA]

/-- The store after the four calls on the index of `tags`. -/
def dbTagRun : Tx := (tagIndex.run sampleEnv tagOps emptyTagDb).getD []

/-! ## Shape of the generated ids -/

/-- A lower-case hexadecimal digit: `0` to `9` or `a` to `f`. -/
def isLowerHex (c : Nat) : Bool := (48 ≤ c && c ≤ 57) || (97 ≤ c && c ≤ 102)

/-- The positions of the separators in an id. -/
def dashPositions : List Nat := [8, 13, 18, 23]

/-- The largest and the smallest int64. -/
def maxInt64 : Int := 9223372036854775807

/-- The smallest int64. -/
def minInt64 : Int := -9223372036854775808

/-! ## Strings -/

/-- Go `strings.HasSuffix`. -/
def HasSuffix (s suffix : Bytes) : Bool :=
  decide (suffix.length ≤ s.length) && (s.drop (s.length - suffix.length) == suffix)

/-- The store after `add("6a_count", ridB)` was tried on the index of `macIds`
that holds the value `6A`. -/
def macCountClash : Tx × Out := macIndex.add sampleEnv (ascii "6a_count") ridB dbMacKey

/-- Whether `s` begins with `p`. -/
def startsWith : Bytes → Bytes → Bool
  | _, [] => true
  | [], _ :: _ => false
  | a :: s, b :: p => a == b && startsWith s p

/-- Scan of `strings.Split` for a non-empty separator: `skip` bytes of a found
separator are still to be passed over, `cur` holds the piece read so far, last
byte first. -/
def splitLoop (sep : Bytes) : Bytes → Nat → Bytes → List Bytes
  | [], _, cur => [cur.reverse]
  | _ :: rest, skip + 1, cur => splitLoop sep rest skip cur
  | c :: rest, 0, cur =>
    if startsWith (c :: rest) sep then cur.reverse :: splitLoop sep rest (sep.length - 1) []
    else splitLoop sep rest 0 (c :: cur)

/-- Go `strings.Split(s, sep)` for a non-empty separator: the pieces of `s`
between the occurrences of `sep`. -/
def Split (s sep : Bytes) : List Bytes := splitLoop sep s 0 []

/-- Go conversion `string(i)` of a non-negative integer: the UTF-8 encoding of
the code point, the replacement character for a surrogate or a value past
U+10FFFF. -/
def runeString (i : Nat) : Bytes :=
  if i < 128 then [i]
  else if i < 2048 then [192 + i / 64, 128 + i % 64]
  else if 55296 ≤ i ∧ i < 57344 then [239, 191, 189]
  else if i < 65536 then [224 + i / 4096, 128 + i / 64 % 64, 128 + i % 64]
  else if i < 1114112 then
    [240 + i / 262144, 128 + i / 4096 % 64, 128 + i / 64 % 64, 128 + i % 64]
  else [239, 191, 189]

/-! ## SAML attributes (net/saml_handler.go) -/

/-- The SAML attribute of a client configuration, with the fields that
`genSamlResponse` and the attribute template read (the type is declared in
package `oauth`, which is not among the sources); `Value` holds the text the
template prints for it. -/
structure SamlAttribute where
  Name : Bytes
  Format : Bytes
  StaticVal : Bytes
  StaticMultiValDelim : Bytes
  Value : Bytes
  deriving DecidableEq, Repr

/-- Go `attributeTemplate.Execute`: the text of `attributeXml` with `.Name`,
`.Format` and `.Value` filled in. -/
def renderAttribute (v : SamlAttribute) : Bytes :=
  [10] ++ ascii "<saml2:Attribute Name=" ++ [34] ++ v.Name ++ [34] ++ ascii " NameFormat=" ++
    [34] ++ v.Format ++ [34] ++ ascii ">" ++ [10] ++ ascii " <saml2:AttributeValue>" ++ v.Value ++
    ascii "</saml2:AttributeValue>" ++ [10] ++ ascii "</saml2:Attribute>"

/-- Inner loop of `genSamlResponse` over the pieces of a split static value,
`i` being the index of the first piece: the entries written to `sp.Attributes`. -/
def samlPieces (k : Bytes) (v : SamlAttribute) : Nat → List Bytes → List (Bytes × Bytes)
  | _, [] => []
  | i, s :: rest =>
    (k ++ runeString i, renderAttribute { v with Value := s }) :: samlPieces k v (i + 1) rest

/-- Body of the attribute loop of `genSamlResponse` for one configured
attribute: the entries it writes to `sp.Attributes`, in order.  `getValueFrom`
stands for `v.GetValueFrom(user)`, nil when the user has no value. -/
def samlAttrEntries (getValueFrom : SamlAttribute → Option Bytes) (k : Bytes)
    (v : SamlAttribute) : List (Bytes × Bytes) :=
  if v.StaticVal.length > 0 then
    if v.StaticMultiValDelim.length = 0 then
      [(k, renderAttribute { v with Value := v.StaticMultiValDelim })]
    else samlPieces k v 0 (Split v.StaticVal v.StaticMultiValDelim)
  else
    match getValueFrom v with
    | some val => [(k, renderAttribute { v with Value := val })]
    | none => []

/-- The attribute loop of `genSamlResponse`: the map `sp.Attributes` after the
loop over the configured attributes. -/
def samlAttributes (getValueFrom : SamlAttribute → Option Bytes)
    (attrs : List (Bytes × SamlAttribute)) : List (Bytes × Bytes) :=
  attrs.foldl (fun m kv =>
    (samlAttrEntries getValueFrom kv.1 kv.2).foldl (fun m2 e => kvPut e.1 e.2 m2) m) []

/-- A configured attribute with the static value `admin` and no delimiter. -/
def roleAttr : SamlAttribute :=
  { Name := ascii "role", Format := ascii "basic", StaticVal := ascii "admin",
    StaticMultiValDelim := [], Value := [] }

/-- A configured attribute with the static value `dev,ops` and the delimiter `,`. -/
def teamsAttr : SamlAttribute :=
  { Name := ascii "teams", Format := ascii "basic", StaticVal := ascii "dev,ops",
    StaticMultiValDelim := ascii ",", Value := [] }

/-! ## Open -/

/-- Bucket that holds the names of the resource buckets. -/
def BUC_RESOURCES : Bytes := ascii "resources"

/-- The resource entry of the configuration, with the fields `Open` reads (the
type is declared in package `conf`, which is not among the sources). -/
structure ResourceConf where
  Name : Bytes
  IndexFields : List Bytes
  deriving DecidableEq, Repr

/-- Engine `Tx.CreateBucketIfNotExists`. -/
def Tx.CreateBucketIfNotExists (tx : Tx) (name : Bytes) : Except BoltErr Tx :=
  match Tx.CreateBucket tx name with
  | .error .ErrBucketExists => .ok tx
  | .error e => .error e
  | .ok tx1 => .ok tx1

/-- Engine `Tx.DeleteBucket`. -/
def Tx.DeleteBucket (tx : Tx) (name : Bytes) : Except BoltErr Tx :=
  match kvGet name tx with
  | none => .error .ErrBucketNotFound
  | some _ => .ok (kvDel name tx)

/-- What a step of `Open` leaves behind: the silo maps, the committed state,
and the error the step returned, if any. -/
structure OpenStep where
  sl : Silo
  db : Tx
  err : Option Err

/-- The first update transaction of `Open`: the three meta-buckets. -/
def openMetaBuckets (db : Tx) : Tx × Option Err :=
  match Tx.CreateBucketIfNotExists db BUC_RESOURCES with
  | .error e => (db, some (.bolt e))
  | .ok tx1 =>
    match Tx.CreateBucketIfNotExists tx1 BUC_INDICES with
    | .error e => (db, some (.bolt e))
    | .ok tx2 =>
      match Tx.CreateBucketIfNotExists tx2 BUC_COUNTS with
      | .error e => (db, some (.bolt e))
      | .ok tx3 => (tx3, none)

/-- The maps of the silo after `createResourceBucket` succeeded for a name. -/
def Silo.register (sl : Silo) (name : Bytes) : Silo :=
  { sl with resources := kvPut name name sl.resources,
            indices := kvPut name [] sl.indices,
            sysIndices := kvPut name [] sl.sysIndices }

/-- Go `Silo.createResourceBucket`: the update transaction creates the bucket
and enters its name into the `resources` bucket; an existing bucket is not an
error; without error the name is entered into the maps of the silo. -/
def Silo.createResourceBucket (sl : Silo) (db : Tx) (rc : ResourceConf) :
    Except PanicVal OpenStep :=
  match Tx.CreateBucket db rc.Name with
  | .ok tx =>
    match tx.bucketOf BUC_RESOURCES with
    | none => .error nilDeref
    | some bucket =>
      match Bucket.Put bucket rc.Name [] with
      | .ok b => .ok { sl := sl.register rc.Name, db := tx.setBucket BUC_RESOURCES b, err := none }
      | .error .ErrBucketExists => .ok { sl := sl.register rc.Name, db := tx, err := none }
      | .error e => .ok { sl := sl, db := db, err := some (.bolt e) }
  | .error .ErrBucketExists => .ok { sl := sl.register rc.Name, db := db, err := none }
  | .error e => .ok { sl := sl, db := db, err := some (.bolt e) }

/-- The loop of `Open` over the index fields of one resource: an attribute the
resource type does not know is skipped; an error of `createIndexBucket` ends
the loop.  `getAtType` stands for `rt.GetAtType`. -/
def Silo.openIndexFields (env : Env) (getAtType : ResourceType → Bytes → Option AttrType)
    (rcName : Bytes) (rt : ResourceType) : List Bytes → Silo → Tx → Except PanicVal OpenStep
  | [], sl, db => .ok { sl := sl, db := db, err := none }
  | idxName :: rest, sl, db =>
    match getAtType rt idxName with
    | none => Silo.openIndexFields env getAtType rcName rt rest sl db
    | some atp =>
      match Silo.createIndexBucket env db rcName idxName atp false (sl.indicesOf rcName) with
      | .error p => .error p
      | .ok r =>
        match r.err with
        | some e => .ok { sl := sl, db := r.db, err := some e }
        | none =>
          Silo.openIndexFields env getAtType rcName rt rest
            { sl with indices := kvPut rcName r.resIdxMap sl.indices } r.db

/-- The virtual attribute type of the presence index. -/
def presenceAtType : AttrType := .mk [] (ascii "string") true false none

/-- Body of the loop of `Open` over the configured resources. -/
def Silo.openResource (env : Env) (getAtType : ResourceType → Bytes → Option AttrType)
    (rtypes : List (Bytes × ResourceType)) (sl : Silo) (db : Tx) (rc : ResourceConf) :
    Except PanicVal OpenStep :=
  match rtypes.find? (fun kv => kv.2.Name = rc.Name) with
  | none =>
    .ok { sl := sl, db := db,
          err := some (.fmt (ascii "Unknown resource name " ++ rc.Name ++ ascii " found in config")) }
  | some (_, rt) =>
    match sl.createResourceBucket db rc with
    | .error p => .error p
    | .ok s1 =>
      match s1.err with
      | some e => .ok { sl := s1.sl, db := s1.db, err := some e }
      | none =>
        match Silo.openIndexFields env getAtType rc.Name rt (rc.IndexFields ++ rt.UniqueAts)
            s1.sl s1.db with
        | .error p => .error p
        | .ok s2 =>
          match s2.err with
          | some e => .ok { sl := s2.sl, db := s2.db, err := some e }
          | none =>
            match Silo.createIndexBucket env s2.db rc.Name (ascii "presence") presenceAtType true
                ((kvGet rc.Name s2.sl.sysIndices).getD []) with
            | .error p => .error p
            | .ok r =>
              match r.err with
              | some e => .ok { sl := s2.sl, db := r.db, err := some e }
              | none =>
                .ok { sl := { s2.sl with sysIndices := kvPut rc.Name r.resIdxMap s2.sl.sysIndices },
                      db := r.db, err := none }

/-- The loop of `Open` over the configured resources; it ends at the first
error. -/
def Silo.openResources (env : Env) (getAtType : ResourceType → Bytes → Option AttrType)
    (rtypes : List (Bytes × ResourceType)) : List ResourceConf → Silo → Tx →
    Except PanicVal OpenStep
  | [], sl, db => .ok { sl := sl, db := db, err := none }
  | rc :: rest, sl, db =>
    match Silo.openResource env getAtType rtypes sl db rc with
    | .error p => .error p
    | .ok s =>
      match s.err with
      | some e => .ok { sl := s.sl, db := s.db, err := some e }
      | none => Silo.openResources env getAtType rtypes rest s.sl s.db

/-- The call `bucket.Delete(k)` on a meta-bucket in the callback of `ForEach`,
its error dropped. -/
def dropMetaEntry (metaName k : Bytes) (tx : Tx) : Tx :=
  match tx.bucketOf metaName with
  | none => tx
  | some b =>
    match Bucket.Delete b k with
    | .ok b1 => tx.setBucket metaName b1
    | .error _ => tx

/-- What the callback of `ForEach` does to a key it prunes: `bucket.Delete(k)`
on the meta-bucket, then `tx.DeleteBucket(k)`, both errors dropped. -/
def pruneKey (metaName k : Bytes) (tx : Tx) : Tx :=
  match Tx.DeleteBucket (dropMetaEntry metaName k tx) k with
  | .ok tx1 => tx1
  | .error _ => dropMetaEntry metaName k tx

/-- First `ForEach` of the last transaction of `Open`, over the keys of the
`resources` bucket: a resource name that is not in `sl.resources` is pruned. -/
def Silo.pruneResources (sl : Silo) : List Bytes → Tx → Tx
  | [], tx => tx
  | k :: rest, tx =>
    if (kvGet k sl.resources).isNone then Silo.pruneResources sl rest (pruneKey BUC_RESOURCES k tx)
    else Silo.pruneResources sl rest tx

/-- Second `ForEach` of the last transaction of `Open`, over the keys of the
`indices` bucket: the key is split at the delimiter, the first piece is the
resource name and the second the index name; an index name that is not in
`sl.indices` of the resource and does not end in `_system` is pruned.  A key
without delimiter is an index out of range. -/
def Silo.pruneIndices (sl : Silo) : List Bytes → Tx → Except PanicVal Tx
  | [], tx => .ok tx
  | k :: rest, tx =>
    match Split k RES_INDEX_DELIM with
    | resName :: idxName :: _ =>
      if (kvGet idxName (sl.indicesOf resName)).isNone ∧
          HasSuffix idxName (ascii "_system") = false then
        Silo.pruneIndices sl rest (pruneKey BUC_INDICES k tx)
      else Silo.pruneIndices sl rest tx
    | _ => .error indexOutOfRange

/-- The last update transaction of `Open`; `ForEach` on a missing meta-bucket
is a panic. -/
def Silo.prune (sl : Silo) (db : Tx) : Except PanicVal Tx :=
  match db.bucketOf BUC_RESOURCES with
  | none => .error nilDeref
  | some rb =>
    match (Silo.pruneResources sl (rb.map Prod.fst) db).bucketOf BUC_INDICES with
    | none => .error nilDeref
    | some ib =>
      Silo.pruneIndices sl (ib.map Prod.fst) (Silo.pruneResources sl (rb.map Prod.fst) db)

/-- What `Open` returns and the state of the file it leaves behind. -/
structure OpenResult where
  sl : Option Silo
  err : Option Err
  db : Tx

/-- Go `Open` on the file contents `db`, with the resources of the
configuration and the resource types; `getAtType` stands for
`ResourceType.GetAtType` of package `schema`. -/
def Silo.Open (env : Env) (getAtType : ResourceType → Bytes → Option AttrType) (db : Tx)
    (config : List ResourceConf) (rtypes : List (Bytes × ResourceType)) :
    Except PanicVal OpenResult :=
  match openMetaBuckets db with
  | (db1, some e) => .ok { sl := none, err := some e, db := db1 }
  | (db1, none) =>
    match Silo.openResources env getAtType rtypes config
        { resources := [], indices := [], sysIndices := [], restypes := rtypes } db1 with
    | .error p => .error p
    | .ok s =>
      match s.err with
      | some e => .ok { sl := none, err := some e, db := s.db }
      | none =>
        match s.sl.prune s.db with
        | .error p => .error p
        | .ok db2 => .ok { sl := some s.sl, err := none, db := db2 }

/-! ## A configuration with a URN-qualified index field -/

/-- The fully qualified path of the extension attribute `employeeNumber`. -/
def employeeNumberPath : Bytes :=
  ascii "urn:ietf:params:scim:schemas:extension:enterprise:2.0:User:employeeNumber"

/-- A schema lookup that knows `userName` and the extension attribute
`employeeNumber` under its qualified path, both single-valued strings. -/
def sampleAtType (_ : ResourceType) (name : Bytes) : Option AttrType :=
  if sampleEnv.ToLower name = ascii "username" then
    some (.mk (ascii "userName") (ascii "string") false false none)
  else if sampleEnv.ToLower name = sampleEnv.ToLower employeeNumberPath then
    some (.mk (ascii "employeeNumber") (ascii "string") false false none)
  else none

/-- The configuration: users, indexed by `userName` and by the qualified
`employeeNumber`. -/
def urnConfig : List ResourceConf :=
  [{ Name := ascii "User", IndexFields := [ascii "userName", employeeNumberPath] }]

/-- `Open` of a new file with that configuration. -/
def urnOpen : Except PanicVal OpenResult :=
  Silo.Open sampleEnv sampleAtType [] urnConfig [(ascii "User", userType)]

/-- The silo `Open` returned. -/
def urnSilo : Silo :=
  match urnOpen with
  | .ok r => r.sl.getD { resources := [], indices := [], sysIndices := [], restypes := [] }
  | .error _ => { resources := [], indices := [], sysIndices := [], restypes := [] }

/-- The file `Open` left behind. -/
def urnDb : Tx :=
  match urnOpen with
  | .ok r => r.db
  | .error _ => []

/-- The index `createIndexBucket` builds for the qualified `employeeNumber`. -/
def urnIndex : Index :=
  Silo.newIndex sampleEnv (ascii "User") employeeNumberPath
    (.mk (ascii "employeeNumber") (ascii "string") false false none) false

/-! ## Search -/

/-- Go `base.SearchContext`, with the fields `Search` reads; `F` is the type
of the parsed filter (package `base` is not among the sources). -/
structure SearchContext (F : Type) where
  ResTypes : List ResourceType
  Filter : F

/-- The two helpers `Search` calls that are not among the sources.  The
candidates are the keys of the Go map `candidates`. -/
structure SearchHelpers (F : Type) where
  /-- Go `getOptimizedResults(filter, rsType, tx, sl, candidates)`: the count,
  `math.MaxInt64` when no index can be used, and the candidates after the call. -/
  getOptimizedResults : F → ResourceType → Tx → Silo → List Bytes →
    Except PanicVal (Int × List Bytes)
  /-- Go `buildEvaluator(filter)`; the evaluator is its method `evaluate`. -/
  buildEvaluator : F → Except PanicVal (Resource → Except PanicVal Bool)

/-- Loop of `Search` over the candidates: a candidate without row in the
bucket is passed over; a row that does not decode is a panic. -/
def searchCandidates (env : Env) (evaluate : Resource → Except PanicVal Bool)
    (rsType : ResourceType) (buc : Option Bucket) :
    List Bytes → List (Bytes × Resource) → Except PanicVal (List (Bytes × Resource))
  | [], results => .ok results
  | k :: rest, results =>
    match buc with
    | none => .error nilDeref
    | some b =>
      match Bucket.Get b k with
      | none => searchCandidates env evaluate rsType buc rest results
      | some data =>
        match env.Decode data with
        | .error e => .error (.error e)
        | .ok rs =>
          match evaluate (rs.SetSchema rsType) with
          | .error p => .error p
          | .ok true =>
            searchCandidates env evaluate rsType buc rest (kvPut k (rs.SetSchema rsType) results)
          | .ok false => searchCandidates env evaluate rsType buc rest results

/-- Loop of `Search` with the cursor over the whole resource bucket. -/
def searchScan (env : Env) (evaluate : Resource → Except PanicVal Bool)
    (rsType : ResourceType) :
    List (Bytes × Node) → List (Bytes × Resource) → Except PanicVal (List (Bytes × Resource))
  | [], results => .ok results
  | (_, .nested _) :: rest, results => searchScan env evaluate rsType rest results
  | (k, .value v) :: rest, results =>
    match env.Decode v with
    | .error e => .error (.error e)
    | .ok rs =>
      match evaluate (rs.SetSchema rsType) with
      | .error p => .error p
      | .ok true => searchScan env evaluate rsType rest (kvPut k (rs.SetSchema rsType) results)
      | .ok false => searchScan env evaluate rsType rest results

/-- Body of the loop of `Search` over the resource types: the candidates and
the results after it. -/
def Silo.searchType {F : Type} (env : Env) (hp : SearchHelpers F) (sl : Silo) (db : Tx)
    (filter : F) (rsType : ResourceType) (candidates : List Bytes)
    (results : List (Bytes × Resource)) :
    Except PanicVal (List Bytes × List (Bytes × Resource)) :=
  match hp.getOptimizedResults filter rsType db sl candidates with
  | .error p => .error p
  | .ok (count, cands) =>
    match hp.buildEvaluator filter with
    | .error p => .error p
    | .ok evaluate =>
      if count < maxInt64 then
        match searchCandidates env evaluate rsType (db.bucketOf (sl.resourceBucket rsType.Name))
            cands results with
        | .error p => .error p
        | .ok res => .ok (cands, res)
      else
        match db.bucketOf (sl.resourceBucket rsType.Name) with
        | none => .error nilDeref
        | some buc =>
          match searchScan env evaluate rsType buc results with
          | .error p => .error p
          | .ok res => .ok (cands, res)

/-- The loop of `Search` over the resource types of the context. -/
def Silo.searchLoop {F : Type} (env : Env) (hp : SearchHelpers F) (sl : Silo) (db : Tx)
    (filter : F) : List ResourceType → List Bytes → List (Bytes × Resource) →
    Except PanicVal (List Bytes × List (Bytes × Resource))
  | [], candidates, results => .ok (candidates, results)
  | rsType :: rest, candidates, results =>
    match sl.searchType env hp db filter rsType candidates results with
    | .error p => .error p
    | .ok (cands, res) => Silo.searchLoop env hp sl db filter rest cands res

/-- How `Search` ends: the results, or the error the deferred handler made of
a panic, or a panic with a value that is no error. -/
inductive SearchResult where
  | ok (results : List (Bytes × Resource))
  | failed (err : Err)
  | crashed (p : PanicVal)
  deriving DecidableEq, Repr

/-- Go `Silo.Search` on the committed state `db`, in a read transaction. -/
def Silo.Search {F : Type} (env : Env) (hp : SearchHelpers F) (sl : Silo) (db : Tx)
    (sc : SearchContext F) : SearchResult :=
  match sl.searchLoop env hp db sc.Filter sc.ResTypes [] [] with
  | .ok (_, results) => .ok results
  | .error (.error e) => .failed e
  | .error (.text msg) => .crashed (.text msg)

/-! ## A search without usable index -/

/-- Helpers for the samples: no index can be used, and the filter is an
attribute name the evaluator looks for in the resource. -/
def scanHelpers : SearchHelpers Bytes where
  getOptimizedResults := fun _ _ _ _ candidates => .ok (maxInt64, candidates)
  buildEvaluator := fun name => .ok (fun rs => .ok (kvGet name rs.attrs).isSome)

/-- A search for the users that have a `userName`. -/
def userSearch : SearchContext Bytes := { ResTypes := [userType], Filter := ascii "username" }

/-! ## Patch

`Silo.Patch`, the patch request and the path parser belong to code that is not
among the sources; the definitions of this section follow sections 4.5, 4.7
and 4.8 of the specification. -/

/-- Modelled from the spec: one value of a complex attribute, a map from
lower-case sub-attribute name to simple attribute (the entries of
`ComplexAttr.SubAts`). -/
abbrev SubAtMap := List (Bytes × SimpleAttr)

/-- Modelled from the spec: field `Name` of `schema.AttrType`. -/
def AttrType.Name : AttrType → Bytes
  | .mk n _ _ _ _ => n

/-- Modelled from the spec: whether an attribute type is complex. -/
def AttrType.IsComplex (atp : AttrType) : Bool := decide (atp.AtType = ascii "complex")

/-- Modelled from the spec: what the patch engine of `Silo.Patch` (missing
from the sources) asks the schema of a resource type: the type of the attribute
at a lower-case path such as `photos` or `photos.primary`, nil when the path
does not resolve, and whether the attribute is required. -/
structure PatchSchema where
  getAtType : ResourceType → Bytes → Option AttrType
  IsRequired : ResourceType → Bytes → Bool

/-- Modelled from the spec: a parsed path of a patch operation (section 4.6;
the parser of package `base` is missing from the sources): `attr`, `attr.sub`,
`attr[filter]` or `attr[filter].sub`.  The selector is the compiled filter, a
test on one value of the complex attribute. -/
structure PatchPath where
  At : Bytes
  Slctr : Option (SubAtMap → Bool)
  SubAt : Option Bytes

/-- Modelled from the spec: the value of a patch operation for one attribute
(`base.PatchOp.Value`, missing from the sources): a scalar, an array of
scalars, one object of scalar sub-attributes, or an array of such objects. -/
inductive PatchValue where
  | scalar (v : Bytes)
  | scalars (vs : List Bytes)
  | object (fields : List (Bytes × Bytes))
  | objects (entries : List (List (Bytes × Bytes)))
  deriving DecidableEq, Repr

/-- Modelled from the spec: the two writing operations of section 4.7 (`op` of
`base.PatchOp`, missing from the sources). -/
inductive PatchKind where
  | add
  | replace
  deriving DecidableEq, Repr

/-- Modelled from the spec: one operation of a patch request (`base.PatchOp`,
missing from the sources).  `remove` has a path; `add` and `replace` have a
path and a value (`write`), or no path and an object whose top-level keys name
the attributes (`writeObject`), or no path and an array (`writeArray`). -/
inductive PatchOp where
  | remove (path : PatchPath)
  | write (kind : PatchKind) (path : PatchPath) (value : PatchValue)
  | writeObject (kind : PatchKind) (fields : List (Bytes × PatchValue))
  | writeArray (kind : PatchKind)

/-- Modelled from the spec: `base.PatchReq` (missing from the sources), the
list of `Operations`. -/
structure PatchReq where
  Operations : List PatchOp

/-- Modelled from the spec: whether a value of a complex attribute is marked
`primary=true` (section 4.5; part of package `base`, missing from the
sources). -/
def isPrimary (m : SubAtMap) : Bool :=
  match kvGet (ascii "primary") m with
  | some sa => decide (sa.Values = [ascii "true"])
  | none => false

/-- Modelled from the spec: a value that was `primary=true` becomes
`primary=false` (section 8, scenario 5: another entry that was true must become
false; part of package `base`, missing from the sources). -/
def clearPrimary (m : SubAtMap) : SubAtMap :=
  if isPrimary m then
    kvPut (ascii "primary") { Name := ascii "primary", Values := [ascii "false"] } m
  else m

/-- Modelled from the spec: the number of values of a complex attribute marked
`primary=true` (section 4.5; part of package `base`, missing from the
sources). -/
def countPrimary (ms : List SubAtMap) : Nat := (ms.filter isPrimary).length

/-- Modelled from the spec: the error of a write that introduces more than one
`primary=true` (sections 4.5 and 7; package `base` is missing from the
sources). -/
def multiplePrimary : Err := .scim .invalidValue (ascii "more than one primary value")

/-- Modelled from the spec: the write `f` to the values of a complex attribute
that pass `sel`, with the rule of section 4.5 (part of the patch engine,
missing from the sources): a write that leaves more than one written value
`primary=true` fails with invalidValue; a write that leaves one written value
`primary=true` clears the flag of every other value. -/
def writeEntries (sel : SubAtMap → Bool) (f : SubAtMap → SubAtMap) (ms : List SubAtMap) :
    Except Err (List SubAtMap) :=
  if 1 < countPrimary ((ms.filter sel).map f) then .error multiplePrimary
  else if countPrimary ((ms.filter sel).map f) = 1 then
    .ok (ms.map (fun m => if sel m then f m else clearPrimary m))
  else .ok (ms.map (fun m => if sel m then f m else m))

/-- Modelled from the spec: new values appended to a multi-valued complex
attribute, with the rule of section 4.5 (part of the patch engine, missing from
the sources): more than one incoming `primary=true` fails with invalidValue;
one incoming `primary=true` clears the flag of the values already there. -/
def appendEntries (incoming existing : List SubAtMap) : Except Err (List SubAtMap) :=
  if 1 < countPrimary incoming then .error multiplePrimary
  else if countPrimary incoming = 1 then .ok (existing.map clearPrimary ++ incoming)
  else .ok (existing ++ incoming)

/-- Modelled from the spec: one sub-attribute set in a value of a complex
attribute, under its lower-case name (part of the patch engine, missing from
the sources). -/
def setSubAt (env : Env) (name val : Bytes) (m : SubAtMap) : SubAtMap :=
  kvPut (env.ToLower name) { Name := name, Values := [val] } m

/-- Modelled from the spec: the sub-attributes of an object merged into a value
of a complex attribute (section 4.7, "merge sub-attributes"; part of the patch
engine, missing from the sources). -/
def mergeFields (env : Env) : List (Bytes × Bytes) → SubAtMap → SubAtMap
  | [], m => m
  | (k, v) :: rest, m => mergeFields env rest (setSubAt env k v m)

/-- Modelled from the spec: the values a resource holds for a complex
attribute, none when the attribute is absent (part of package `base`, missing
from the sources). -/
def Resource.entries (rs : Resource) (key : Bytes) : List SubAtMap :=
  match kvGet key rs.attrs with
  | some (.complex ca) => ca.SubAts
  | _ => []

/-- Modelled from the spec: the values a resource holds for a simple attribute,
none when the attribute is absent (part of package `base`, missing from the
sources). -/
def Resource.values (rs : Resource) (key : Bytes) : List Bytes :=
  match kvGet key rs.attrs with
  | some (.simple sa) => sa.Values
  | _ => []

/-- Modelled from the spec: the error of a value that does not fit the type of
the attribute (section 7, invalidValue; package `base` is missing from the
sources). -/
def badValue (name : Bytes) : Err := .scim .invalidValue name

/-- Modelled from the spec: add or replace on a simple attribute (section 4.7:
"append (for multi-valued) or set (for singular)", a single value or an array
for a multi-valued one; replace overwrites; part of the patch engine, missing
from the sources). -/
def writeSimple (kind : PatchKind) (name : Bytes) (multi : Bool) (old : List Bytes) :
    PatchValue → Except Err (List Bytes)
  | .scalar v =>
    if multi then
      match kind with
      | .add => .ok (old ++ [v])
      | .replace => .ok [v]
    else .ok [v]
  | .scalars vs =>
    if multi then
      match kind with
      | .add => .ok (old ++ vs)
      | .replace => .ok vs
    else .error (badValue name)
  | .object _ => .error (badValue name)
  | .objects _ => .error (badValue name)

/-- Modelled from the spec: add or replace on a complex attribute through a
selector (section 4.7: "updates only matching existing entries; if no entry
matches, fail with noTarget"; replace of a full value "replaces all matching
entries wholesale"; part of the patch engine, missing from the sources). -/
def writeSelected (env : Env) (kind : PatchKind) (name : Bytes) (sel : SubAtMap → Bool)
    (subAt : Option Bytes) (v : PatchValue) (ms : List SubAtMap) : Except Err (List SubAtMap) :=
  if ms.any sel = false then .error (.scim .noTarget name)
  else
    match subAt, v with
    | some b, .scalar x => writeEntries sel (setSubAt env b x) ms
    | none, .object fields =>
      match kind with
      | .add => writeEntries sel (mergeFields env fields) ms
      | .replace => writeEntries sel (fun _ => mergeFields env fields []) ms
    | _, _ => .error (badValue name)

/-- Modelled from the spec: add or replace on a complex attribute without
selector (section 4.7; part of the patch engine, missing from the sources).  A
sub-attribute path sets the sub-attribute in every value (in a new value when
there is none); an object is merged into the value of a singular attribute and
is a new value of a multi-valued one; an array of objects is appended to a
multi-valued attribute; replace overwrites. -/
def writeComplex (env : Env) (kind : PatchKind) (name : Bytes) (multi : Bool)
    (subAt : Option Bytes) (v : PatchValue) (ms : List SubAtMap) : Except Err (List SubAtMap) :=
  match subAt, v with
  | some b, .scalar x =>
    match ms with
    | [] => appendEntries [setSubAt env b x []] []
    | _ :: _ => writeEntries (fun _ => true) (setSubAt env b x) ms
  | none, .object fields =>
    match kind with
    | .add =>
      if multi then appendEntries [mergeFields env fields []] ms
      else
        match ms with
        | [] => appendEntries [mergeFields env fields []] []
        | _ :: _ => writeEntries (fun _ => true) (mergeFields env fields) ms
    | .replace => appendEntries [mergeFields env fields []] []
  | none, .objects es =>
    if multi then
      match kind with
      | .add => appendEntries (es.map (fun fields => mergeFields env fields [])) ms
      | .replace => appendEntries (es.map (fun fields => mergeFields env fields [])) []
    else .error (badValue name)
  | _, _ => .error (badValue name)

/-- Modelled from the spec: the lower-case schema path of a sub-attribute (part
of the path resolution of package `base`, missing from the sources). -/
def subPath (env : Env) (key b : Bytes) : Bytes := key ++ ascii "." ++ env.ToLower b

/-- Modelled from the spec: one add or replace with a path (sections 4.5 and
4.7; part of the patch engine, missing from the sources).  The path is
resolved against the schema without regard to case (invalidPath when it does
not resolve), a write to a read-only attribute is rejected (mutability), and
the value is written as `writeSimple`, `writeSelected` and `writeComplex`
say. -/
def applyWrite (env : Env) (sc : PatchSchema) (rt : ResourceType) (kind : PatchKind)
    (p : PatchPath) (v : PatchValue) (rs : Resource) : Except Err Resource :=
  match sc.getAtType rt (env.ToLower p.At) with
  | none => .error (.scim .invalidPath p.At)
  | some atp =>
    if env.IsReadOnly rt (env.ToLower p.At) then .error (.scim .mutability p.At)
    else if atp.IsComplex then
      match p.SubAt.bind (fun b =>
          match sc.getAtType rt (subPath env (env.ToLower p.At) b) with
          | none => some b
          | some _ => none) with
      | some b => .error (.scim .invalidPath (p.At ++ ascii "." ++ b))
      | none =>
        match (match p.Slctr with
            | some sel => writeSelected env kind p.At sel p.SubAt v (rs.entries (env.ToLower p.At))
            | none => writeComplex env kind p.At atp.MultiValued p.SubAt v
                (rs.entries (env.ToLower p.At))) with
        | .error e => .error e
        | .ok ms => .ok (rs.setAttr (env.ToLower p.At) (.complex { Name := atp.Name, SubAts := ms }))
    else
      match p.Slctr, p.SubAt with
      | none, none =>
        match writeSimple kind p.At atp.MultiValued (rs.values (env.ToLower p.At)) v with
        | .error e => .error e
        | .ok vals =>
          .ok (rs.setAttr (env.ToLower p.At) (.simple { Name := atp.Name, Values := vals }))
      | _, _ => .error (.scim .invalidPath p.At)

/-- Modelled from the spec: add or replace without path (section 4.7: "treat
each top-level key as a sub-path and recursively add"; part of the patch
engine, missing from the sources). -/
def applyFields (env : Env) (sc : PatchSchema) (rt : ResourceType) (kind : PatchKind) :
    List (Bytes × PatchValue) → Resource → Except Err Resource
  | [], rs => .ok rs
  | (k, v) :: rest, rs =>
    match applyWrite env sc rt kind { At := k, Slctr := none, SubAt := none } v rs with
    | .error e => .error e
    | .ok r1 => applyFields env sc rt kind rest r1

/-- Modelled from the spec: remove (sections 4.7 and 7; part of the patch
engine, missing from the sources).  With a selector the values of the complex
attribute that match are deleted, and a selector that matches nothing fails
with noTarget; without selector the attribute, or the sub-attribute in every
value, is deleted, unless it is required. -/
def applyRemove (env : Env) (sc : PatchSchema) (rt : ResourceType) (p : PatchPath)
    (rs : Resource) : Except Err Resource :=
  match sc.getAtType rt (env.ToLower p.At) with
  | none => .error (.scim .invalidPath p.At)
  | some atp =>
    if env.IsReadOnly rt (env.ToLower p.At) then .error (.scim .mutability p.At)
    else
      match p.Slctr with
      | some sel =>
        if atp.IsComplex then
          if (rs.entries (env.ToLower p.At)).any sel = false then .error (.scim .noTarget p.At)
          else
            .ok (rs.setAttr (env.ToLower p.At) (.complex
              { Name := atp.Name,
                SubAts := (rs.entries (env.ToLower p.At)).filter (fun m => !sel m) }))
        else .error (.scim .invalidPath p.At)
      | none =>
        match p.SubAt with
        | none =>
          if sc.IsRequired rt (env.ToLower p.At) then .error (badValue p.At)
          else .ok { rs with attrs := kvDel (env.ToLower p.At) rs.attrs }
        | some b =>
          if sc.IsRequired rt (subPath env (env.ToLower p.At) b) then .error (badValue p.At)
          else
            match kvGet (env.ToLower p.At) rs.attrs with
            | some (.complex ca) =>
              .ok (rs.setAttr (env.ToLower p.At) (.complex
                { ca with SubAts := ca.SubAts.map (kvDel (env.ToLower b)) }))
            | _ => .ok rs

/-- Modelled from the spec: one operation of a patch request (section 4.7;
part of the patch engine, missing from the sources); an array without path is
rejected. -/
def applyOp (env : Env) (sc : PatchSchema) (rt : ResourceType) (rs : Resource) :
    PatchOp → Except Err Resource
  | .remove p => applyRemove env sc rt p rs
  | .write kind p v => applyWrite env sc rt kind p v rs
  | .writeObject kind fields => applyFields env sc rt kind fields rs
  | .writeArray _ => .error (badValue [])

/-- Modelled from the spec: the operations of a request applied in order, the
first error ending the run (section 4.7; part of the patch engine, missing from
the sources). -/
def applyOps (env : Env) (sc : PatchSchema) (rt : ResourceType) :
    List PatchOp → Resource → Except Err Resource
  | [], rs => .ok rs
  | op :: rest, rs =>
    match applyOp env sc rt rs op with
    | .error e => .error e
    | .ok r1 => applyOps env sc rt rest r1

/-- Modelled from the spec: the values of a resource that an index of that
name holds (section 4.7, "per indexed attribute"; part of `Silo.Patch`, missing
from the sources); as in `Insert`, simple attributes are indexed. -/
def Resource.indexVals (env : Env) (rs : Resource) (name : Bytes) : List Bytes :=
  match rs.GetAttr env name with
  | some (.simple sa) => sa.Values
  | _ => []

/-- Modelled from the spec: the index writes of a patch (section 4.7: "diff old
vs new attribute values per indexed attribute, issue remove(oldVal) +
add(newVal) on the respective indices"; part of `Silo.Patch`, missing from the
sources). -/
def diffIndices (env : Env) (old new : Resource) (rid : Bytes) :
    List (Bytes × Index) → Tx → Tx × Option PanicVal
  | [], tx => (tx, none)
  | (name, idx) :: rest, tx =>
    match removeVals env idx rid
        ((old.indexVals env name).filter (fun v => !(new.indexVals env name).contains v)) tx with
    | (tx1, some p) => (tx1, some p)
    | (tx1, none) =>
      match addVals env idx rid
          ((new.indexVals env name).filter (fun v => !(old.indexVals env name).contains v)) tx1 with
      | (tx2, some p) => (tx2, some p)
      | (tx2, none) => diffIndices env old new rid rest tx2

/-- Modelled from the spec: the first of the values that the index already
holds (part of the uniqueness check of `Silo.Patch`, missing from the
sources). -/
def takenVal (env : Env) (idx : Index) (tx : Tx) : List Bytes → Except PanicVal (Option Bytes)
  | [] => .ok none
  | v :: rest =>
    match idx.HasVal env v tx with
    | .error p => .error p
    | .ok true => .ok (some v)
    | .ok false => takenVal env idx tx rest

/-- Modelled from the spec: the uniqueness check of a patch (section 4.7:
"uniqueness-check any newly introduced value for unique attributes"; part of
`Silo.Patch`, missing from the sources).  It runs before the index writes, on
the values the new resource has and the old one has not. -/
def patchUniqueCheck (env : Env) (idxMap : List (Bytes × Index)) (old new : Resource)
    (tx : Tx) : List Bytes → Option PanicVal
  | [] => none
  | name :: rest =>
    match kvGet name idxMap with
    | none => patchUniqueCheck env idxMap old new tx rest
    | some idx =>
      match takenVal env idx tx
          ((new.indexVals env name).filter (fun v => !(old.indexVals env name).contains v)) with
      | .error p => some p
      | .ok (some v) => some (.error (.scim .uniqueness (uniquenessMsg v name)))
      | .ok none => patchUniqueCheck env idxMap old new tx rest

/-- Modelled from the spec: the bump of `meta.lastModified` and `meta.version`
(section 4.7; part of package `base`, missing from the sources); `meta.created`
and the rest of `meta` stay. -/
def Resource.UpdateLastModTime (env : Env) (rs : Resource) : Resource :=
  match kvGet (ascii "meta") rs.attrs with
  | some (.complex ca) =>
    rs.setAttr (ascii "meta") (.complex { ca with SubAts := ca.SubAts.map (fun m =>
      kvPut (ascii "lastmodified") { Name := ascii "lastModified", Values := [env.Now] }
        (kvPut (ascii "version") { Name := ascii "version", Values := [env.Now] } m)) })
  | _ => rs.AddMeta env

/-- Modelled from the spec: what a call of `Silo.Patch` (missing from the
sources) leaves behind: the resource and the committed state, or the error and
the state as it was, or a panic. -/
inductive PatchResult where
  | ok (res : Resource) (db : Tx)
  | failed (err : Err) (db : Tx)
  | crashed (p : PanicVal)
  deriving DecidableEq, Repr

/-- Modelled from the spec: the end of a patch whose transaction is aborted
(section 4.8: "Any error aborts the transaction and surfaces a SCIM-typed
error"; part of `Silo.Patch`, missing from the sources). -/
def patchAbort (db : Tx) : PanicVal → PatchResult
  | .error e => .failed e db
  | .text msg => .crashed (.text msg)

/-- Modelled from the spec: the write half of `Silo.Patch` (missing from the
sources), taken when the bytes of the resource changed: uniqueness check, index
writes, bump of `meta`, write of the row (section 4.7). -/
def Silo.patchWrite (env : Env) (sl : Silo) (db : Tx) (rid : Bytes) (rt : ResourceType)
    (old new : Resource) : PatchResult :=
  match patchUniqueCheck env (sl.indicesOf rt.Name) old new db rt.UniqueAts with
  | some p => patchAbort db p
  | none =>
    match diffIndices env old new rid (sl.indicesOf rt.Name) db with
    | (_, some p) => patchAbort db p
    | (tx1, none) =>
      match sl.storeResource env tx1 (new.UpdateLastModTime env) with
      | (_, some p) => patchAbort db p
      | (tx2, none) => .ok (new.UpdateLastModTime env) tx2

/-- Modelled from the spec: `Silo.Patch(rid, patchReq, resourceType)` (missing
from the sources; sections 4.7 and 4.8) on the committed state `db`.  The
stored resource is read (notFound when the id is absent), the operations are
applied, and by the idempotence rule a resource whose serialized bytes equal
the pre-image is returned with no bump of `meta` and no write; otherwise
`patchWrite` runs.  Any error leaves the state as it was. -/
def Silo.Patch (env : Env) (sc : PatchSchema) (sl : Silo) (db : Tx) (rid : Bytes)
    (pr : PatchReq) (rt : ResourceType) : PatchResult :=
  match sl.Get env db rid rt with
  | .error p => .crashed p
  | .ok (none, some e) => .failed e db
  | .ok (none, none) =>
    .failed (NewNotFoundError (rt.Name ++ ascii " resource with ID " ++ rid ++
      ascii " not found")) db
  | .ok (some old, _) =>
    match applyOps env sc rt pr.Operations old with
    | .error e => .failed e db
    | .ok new =>
      match env.Encode old with
      | .error e => .failed e db
      | .ok b0 =>
        match env.Encode new with
        | .error e => .failed e db
        | .ok b1 =>
          if b1 = b0 then .ok new db
          else sl.patchWrite env db rid rt old new

/-- The operation sets singular simple attributes (section 4.7, "set (for
singular)"): it is an add or replace of a scalar at an attribute path without
selector and sub-attribute, or of an object without path whose keys are such
attributes. -/
def PatchOp.setsSingular (env : Env) (sc : PatchSchema) (rt : ResourceType) : PatchOp → Bool
  | .remove _ => false
  | .write _ p v =>
    p.Slctr.isNone && p.SubAt.isNone &&
      (match v with
        | .scalar _ => true
        | _ => false) &&
      (match sc.getAtType rt (env.ToLower p.At) with
        | some atp => !atp.IsComplex && !atp.MultiValued
        | none => false)
  | .writeObject _ fields =>
    fields.all (fun kv =>
      (match kv.2 with
        | .scalar _ => true
        | _ => false) &&
      (match sc.getAtType rt (env.ToLower kv.1) with
        | some atp => !atp.IsComplex && !atp.MultiValued
        | none => false))
  | .writeArray _ => false

/-- The attribute, when complex, has at most one value marked `primary=true`. -/
def primaryOk : Attribute → Bool
  | .complex ca => decide (countPrimary ca.SubAts ≤ 1)
  | .simple _ => true

/-- Every complex attribute of the resource has at most one value marked
`primary=true`. -/
def Resource.singlePrimary (rs : Resource) : Bool := rs.attrs.all (fun kv => primaryOk kv.2)

/-- The value is an array of objects of which more than one is marked
`primary=true`. -/
def PatchValue.manyPrimary (env : Env) : PatchValue → Bool
  | .objects es => decide (1 < countPrimary (es.map (fun fields => mergeFields env fields [])))
  | _ => false

/-- The operation carries a value with more than one entry marked
`primary=true`. -/
def PatchOp.manyPrimary (env : Env) : PatchOp → Bool
  | .write _ _ v => v.manyPrimary env
  | .writeObject _ fields => fields.any (fun kv => kv.2.manyPrimary env)
  | _ => false

/-- The environment at another reading of the clock. -/
def Env.later (env : Env) (now : Bytes) : Env := { env with Now := now }

/-- A step `G` on resources overwrites the attributes with the keys `T`: it
keeps id and resource type, and from every other resource it succeeds too,
keeps the key order, binds the keys of `T` to the same attributes and leaves
the other keys as they were. -/
def Overwrites (G : Resource → Except Err Resource) (T : List Bytes) : Prop :=
  ∀ r r1, G r = .ok r1 →
    r1.id = r.id ∧ r1.resType = r.resType ∧
    ∀ r2, ∃ r3, G r2 = .ok r3 ∧ (kvSorted r2.attrs → kvSorted r3.attrs) ∧
      ∀ k, kvGet k r3.attrs = if k ∈ T then kvGet k r1.attrs else kvGet k r2.attrs

/-- The attribute keys the operations of the class `setsSingular` write. -/
def PatchOp.written (env : Env) : PatchOp → List Bytes
  | .remove _ => []
  | .write _ p _ => [env.ToLower p.At]
  | .writeObject _ fields => fields.map (fun kv => env.ToLower kv.1)
  | .writeArray _ => []

/-- The attribute keys a list of operations of the class `setsSingular`
writes. -/
def writtenAll (env : Env) : List PatchOp → List Bytes
  | [] => []
  | op :: rest => op.written env ++ writtenAll env rest

/-! ### Sample data for Patch -/

/-- Sample environment for Patch: `meta` and `id` are read-only, the clock
reads `now`, and the two prices of the samples have their IEEE-754 bits. -/
def patchEnv (now : Bytes) : Env :=
  { sampleEnv with
    IsReadOnly := fun _ n => decide (n = ascii "meta") || decide (n = ascii "id"),
    Now := now,
    ParseFloatBits := fun s =>
      if s = ascii "7.2" then 4619792497756654797
      else if s = ascii "9.2" then 4621368757626234470
      else 0 }

/-- The instants of the insert and of the first and second patch. -/
def day0 : Bytes := ascii "2016-05-17T14:19:14Z"

/-- The instant of the first patch. -/
def day1 : Bytes := ascii "2016-05-18T14:19:14Z"

/-- The instant of the second patch. -/
def day2 : Bytes := ascii "2016-05-19T14:19:14Z"

/-- Sample resource type `Device` of the patch tests, without unique
attributes. -/
def gadgetType : ResourceType :=
  { Name := ascii "Device", Endpoint := ascii "/Devices", UniqueAts := [] }

/-- The attribute type of `photos`, a multi-valued complex attribute. -/
def photosType : AttrType := .mk (ascii "photos") (ascii "complex") true false none

/-- The attribute type of `location`, a singular complex attribute. -/
def locationType : AttrType := .mk (ascii "location") (ascii "complex") false false none

/-- The schema of the sample device: `price`, `rating`, `location` and
`photos` with their sub-attributes, and `meta`. -/
def gadgetSchema : PatchSchema where
  getAtType := fun _ name =>
    if name = ascii "price" then some (.mk (ascii "price") (ascii "decimal") false false none)
    else if name = ascii "rating" then
      some (.mk (ascii "rating") (ascii "integer") false false none)
    else if name = ascii "location" then some locationType
    else if name = ascii "location.latitude" then
      some (.mk (ascii "latitude") (ascii "string") false false (some locationType))
    else if name = ascii "location.longitude" then
      some (.mk (ascii "longitude") (ascii "string") false false (some locationType))
    else if name = ascii "photos" then some photosType
    else if name = ascii "photos.value" then
      some (.mk (ascii "value") (ascii "string") false false (some photosType))
    else if name = ascii "photos.primary" then
      some (.mk (ascii "primary") (ascii "boolean") false false (some photosType))
    else if name = ascii "meta" then
      some (.mk (ascii "meta") (ascii "complex") false false none)
    else none
  IsRequired := fun _ _ => false

/-- The index of `price`, a decimal attribute. -/
def priceIndex : Index :=
  { Bname := ascii "Device:price", Name := ascii "price", BnameBytes := ascii "Device:price",
    AllowDupKey := false, ValType := ascii "decimal", CaseSensitive := false }

/-- Sample silo for Patch: devices, indexed by `price`. -/
def gadgetSilo : Silo where
  resources := [(ascii "Device", ascii "Device")]
  indices := [(ascii "Device", [(ascii "price", priceIndex)])]
  sysIndices := [(ascii "Device", [(ascii "presence", presenceIndex (ascii "Device"))])]
  restypes := [(ascii "Device", gadgetType)]

/-- The state right after `Open` for that silo: every bucket exists and is
empty. -/
def gadgetDb0 : Tx :=
  [(ascii "Device", []), (ascii "Device:presence_system", []), (ascii "Device:price", []),
   (ascii "counts", []), (ascii "indices", []), (ascii "resources", [])]

/-- One value of `photos`. -/
def photo (value primary : Bytes) : SubAtMap :=
  [(ascii "primary", { Name := ascii "primary", Values := [primary] }),
   (ascii "value", { Name := ascii "value", Values := [value] })]

/-- The location of the sample device. -/
def locationAttr : Attribute :=
  .complex { Name := ascii "location", SubAts := [[
    (ascii "latitude", { Name := ascii "latitude", Values := [ascii "1.1"] }),
    (ascii "longitude", { Name := ascii "longitude", Values := [ascii "2.2"] })]] }

/-- The photos of the sample device: `abc.jpg` (primary) and `xyz.jpg`. -/
def photosAttr : Attribute :=
  .complex { Name := ascii "photos", SubAts := [photo (ascii "abc.jpg") (ascii "true"),
    photo (ascii "xyz.jpg") (ascii "false")] }

/-- The device of the patch tests: `price` 7.2, `rating` 1, a location, and
the photos `abc.jpg` (primary) and `xyz.jpg`. -/
def patchDevice : Resource :=
  { resType := gadgetType, id := [],
    attrs := [(ascii "location", locationAttr), (ascii "photos", photosAttr),
      (ascii "price", .simple { Name := ascii "price", Values := [ascii "7.2"] }),
      (ascii "rating", .simple { Name := ascii "rating", Values := [ascii "1"] })] }

/-- The state after the device was inserted. -/
def gadgetDb : Tx := ((gadgetSilo.Insert (patchEnv day0) gadgetDb0 draw1 patchDevice).db?).getD []

/-- The device as `Insert` stored it. -/
def gadgetStored : Resource := stamp (patchEnv day0) (GenUUID draw1) patchDevice

/-- The selector `[name eq "val"]`. -/
def selEq (name val : Bytes) : SubAtMap → Bool := fun m =>
  match kvGet name m with
  | some sa => sa.Values.contains val
  | none => false

/-- The request that adds, without path, the object with `price` 9.2 and
`rating` 1. -/
def priceReq : PatchReq :=
  { Operations := [.writeObject .add
      [(ascii "price", .scalar (ascii "9.2")), (ascii "rating", .scalar (ascii "1"))]] }

/-- The request that removes at the path `photos[value eq "xyz.jpg"]`. -/
def removePhotoReq : PatchReq :=
  { Operations := [.remove
      { At := ascii "photos", Slctr := some (selEq (ascii "value") (ascii "xyz.jpg")),
        SubAt := none }] }

/-- The request that adds `true` at the path
`photos[value eq "xyz.jpg"].primary`. -/
def primaryReq : PatchReq :=
  { Operations := [.write .add
      { At := ascii "photos", Slctr := some (selEq (ascii "value") (ascii "xyz.jpg")),
        SubAt := some (ascii "primary") } (.scalar (ascii "true"))] }

/-- The request that adds the photos `123.jpg` and `456.jpg`, both
`primary=true`. -/
def twoPrimaryReq : PatchReq :=
  { Operations := [.writeObject .add
      [(ascii "photos", .objects
        [[(ascii "value", ascii "123.jpg"), (ascii "primary", ascii "true")],
         [(ascii "value", ascii "456.jpg"), (ascii "primary", ascii "true")]])]] }

/-- What is left of a patch result: the resource. -/
def PatchResult.res? : PatchResult → Option Resource
  | .ok res _ => some res
  | _ => none

/-- What is left of a patch result: the state. -/
def PatchResult.db? : PatchResult → Option Tx
  | .ok _ db => some db
  | .failed _ db => some db
  | .crashed _ => none

/-- The first patch of the device with the price request. -/
def pricePatched : PatchResult :=
  gadgetSilo.Patch (patchEnv day1) gadgetSchema gadgetDb (GenUUID draw1) priceReq gadgetType

/-- The first patch of the device with the remove request. -/
def photoRemoved : PatchResult :=
  gadgetSilo.Patch (patchEnv day1) gadgetSchema gadgetDb (GenUUID draw1) removePhotoReq gadgetType

/-- The resource the first patch with the price request returned. -/
def priceRes : Resource := (pricePatched.res?).getD patchDevice

/-- The state the first patch with the price request left. -/
def priceDb : Tx := (pricePatched.db?).getD []

/-- The state the first patch with the remove request left. -/
def photoDb : Tx := (photoRemoved.db?).getD []

/-- The `meta` of the device after the first patch at `day1`: created at
`day0`, last modified at `day1`. -/
def metaDay1 : SubAtMap :=
  [(ascii "created", { Name := ascii "created", Values := [day0] }),
   (ascii "lastmodified", { Name := ascii "lastModified", Values := [day1] }),
   (ascii "resourcetype", { Name := ascii "resourceType", Values := [ascii "Device"] }),
   (ascii "version", { Name := ascii "version", Values := [day1] })]

/-- The patch of the device with the request that marks `xyz.jpg` primary. -/
def primaryPatched : PatchResult :=
  gadgetSilo.Patch (patchEnv day1) gadgetSchema gadgetDb (GenUUID draw1) primaryReq gadgetType

/-- The resource that patch returned. -/
def primaryRes : Resource := (primaryPatched.res?).getD patchDevice

/-- The state that patch left. -/
def primaryDb : Tx := (primaryPatched.db?).getD []

/-! ## Histories of `add` -/

/-- The call is an `add`. -/
def IndexOp.isAdd : IndexOp → Bool
  | .add _ _ => true
  | .remove _ _ => false

/-- The values keep keys and count keys in step: two of them have the same key
exactly when they have the same count key. -/
def Index.inStep (env : Env) (idx : Index) (vals : List Bytes) : Bool :=
  vals.all fun v => vals.all fun w =>
    match idx.convert env v, idx.convert env w with
    | .ok kv, .ok kw => decide (kv = kw ↔ countKeyOf env v = countKeyOf env w)
    | _, _ => true

/-- The value has a nested bucket in the bucket of the index. -/
def Index.hasBucket (env : Env) (idx : Index) (val : Bytes) (tx : Tx) : Bool :=
  match idx.convert env val, tx.bucketOf idx.BnameBytes with
  | .ok key, some buck => (Bucket.Nested buck key).isSome
  | _, _ => false

/-- State of the bucket of a duplicate-key index after calls of `add` that
returned nil: a nested bucket belongs to a value of `U` whose count key holds a
count between 1 and `N`; a plain entry is the count key of a value of `U`
whose nested bucket exists. -/
structure AddInv (env : Env) (idx : Index) (U : List Bytes) (N : Nat) (buck : Bucket) : Prop where
  nested : ∀ k kvs, kvGet k buck = some (.nested kvs) →
    ∃ v c, v ∈ U ∧ idx.convert env v = .ok k ∧ 1 ≤ c ∧ c ≤ N ∧
      kvGet (countKeyOf env v) buck = some (.value (Itob ((c : Nat) : Int)))
  plain : ∀ k x, kvGet k buck = some (.value x) →
    k ≠ [] ∧ k.length ≤ MaxKeySize ∧
    ∃ v kv kvs, v ∈ U ∧ k = countKeyOf env v ∧ idx.convert env v = .ok kv ∧
      kvGet kv buck = some (.nested kvs)

/-- State of an index after `N` calls of `add` that returned nil: the bucket
exists with ascending keys and the total in the counts bucket is `N`. -/
def AddsInv (env : Env) (idx : Index) (U : List Bytes) (N : Nat) (tx : Tx) : Prop :=
  ∃ buck, tx.bucketOf idx.BnameBytes = some buck ∧ kvSorted buck ∧
    (idx.AllowDupKey = true → AddInv env idx U N buck) ∧
    idx.getCount tx = .ok (N : Int)

/-! ### Samples for `add` followed by `remove` -/

/-- The store after `add("A", ridA)` on the case-exact index of `tags`. -/
def dbTagA : Tx := (tagIndex.add sampleEnv (ascii "A") ridA emptyTagDb).1

/-- The store after `add("a", ridB)` on top of it: the values `A` and `a` have
different keys and one count key. -/
def dbTagAa : Tx := (tagIndex.add sampleEnv (ascii "a") ridB dbTagA).1

/-- A duplicate-key index of an integer attribute. -/
def levelIndex : Index :=
  { Bname := ascii "Device:levels", Name := ascii "levels", BnameBytes := ascii "Device:levels",
    AllowDupKey := true, ValType := ascii "integer", CaseSensitive := false }

/-- The new store with a bucket for the index of `levels`. -/
def emptyLevelDb : Tx := Tx.setBucket emptyDb (ascii "Device:levels") []

/-- The store after `add("1", ridA)` on the index of `levels`. -/
def dbLevel1 : Tx := (levelIndex.add sampleEnv (ascii "1") ridA emptyLevelDb).1

/-- The store after `add("01", ridB)` on top of it: the values `1` and `01`
have one key and different count keys. -/
def dbLevel01 : Tx := (levelIndex.add sampleEnv (ascii "01") ridB dbLevel1).1

/-- The store after `add("8c", ridC)` on the index of `macIds` that holds three
tuples: a value without nested bucket so far. -/
def dbMacNew : Tx := (macIndex.add sampleEnv (ascii "8c") ridC dbMacAdds).1

/-! ### Samples for the counts and for `Remove` after a rollback -/

/-- A device whose two MAC ids differ in case only. -/
def twinDevice : Resource :=
  { resType := deviceType, id := [],
    attrs := [(ascii "macids", .simple { Name := ascii "macIds", Values := [ascii "6A", ascii "6a"] })] }

/-- The state after the device with the two MAC ids was inserted into the new
store. -/
def dbTwin : Tx := ((sampleSilo.Insert sampleEnv emptyDb draw1 twinDevice).db?).getD []

/-- The state the first `Remove` of the dated device leaves. -/
def dbDatedGone : Tx := (datedSilo.Remove sampleEnv dbDated (GenUUID draw1) deviceType).db

/-! ## Association lists -/

theorem kvGet_kvPut_self {α : Type} (k : Bytes) (v : α) (l : List (Bytes × α)) :
    kvGet k (kvPut k v l) = some v := by
  induction l with
  | nil => simp [kvPut, kvGet]
  | cons p rest ih =>
    obtain ⟨k1, v1⟩ := p
    by_cases h : k = k1
    · simp [kvPut, kvGet, h]
    · by_cases h2 : bytesLt k k1 = true
      · simp [kvPut, kvGet, h, h2]
      · simp [kvPut, kvGet, h, h2, ih]

theorem kvGet_kvPut_ne {α : Type} (k k2 : Bytes) (v : α) (l : List (Bytes × α)) (hne : k2 ≠ k) :
    kvGet k2 (kvPut k v l) = kvGet k2 l := by
  induction l with
  | nil => simp [kvPut, kvGet, hne]
  | cons p rest ih =>
    obtain ⟨k1, v1⟩ := p
    by_cases h : k = k1
    · subst h
      simp [kvPut, kvGet, hne]
    · by_cases h2 : bytesLt k k1 = true
      · simp [kvPut, kvGet, h, h2, hne]
      · by_cases h3 : k2 = k1
        · simp [kvPut, kvGet, h, h2, h3]
        · simp [kvPut, kvGet, h, h2, h3, ih]

theorem kvGet_kvDel_self {α : Type} (k : Bytes) (l : List (Bytes × α)) :
    kvGet k (kvDel k l) = none := by
  induction l with
  | nil => simp [kvDel, kvGet]
  | cons p rest ih =>
    obtain ⟨k1, v1⟩ := p
    by_cases h : k = k1
    · simp [kvDel, h]
      rw [← h]; exact ih
    · simp [kvDel, kvGet, h, ih]

theorem kvGet_kvDel_ne {α : Type} (k k2 : Bytes) (l : List (Bytes × α)) (hne : k2 ≠ k) :
    kvGet k2 (kvDel k l) = kvGet k2 l := by
  induction l with
  | nil => simp [kvDel, kvGet]
  | cons p rest ih =>
    obtain ⟨k1, v1⟩ := p
    by_cases h : k = k1
    · subst h
      simp [kvDel, kvGet, hne, ih]
    · by_cases h3 : k2 = k1
      · simp [kvDel, kvGet, h, h3]
      · simp [kvDel, kvGet, h, h3, ih]

theorem kvGet_mem {α : Type} (k : Bytes) (v : α) (l : List (Bytes × α))
    (h : kvGet k l = some v) : (k, v) ∈ l := by
  induction l with
  | nil => simp [kvGet] at h
  | cons p rest ih =>
    obtain ⟨k1, v1⟩ := p
    by_cases hk : k = k1
    · simp [kvGet, hk] at h
      simp [hk, h]
    · simp [kvGet, hk] at h
      exact List.mem_cons_of_mem _ (ih h)

theorem kvGet_isSome_kvPut {α : Type} (k k2 : Bytes) (v : α) (l : List (Bytes × α))
    (h : (kvGet k2 l).isSome) : (kvGet k2 (kvPut k v l)).isSome := by
  by_cases hk : k2 = k
  · subst hk; simp [kvGet_kvPut_self]
  · rw [kvGet_kvPut_ne k k2 v l hk]; exact h

theorem keys_kvDel {α : Type} (k : Bytes) (l : List (Bytes × α)) :
    k ∉ (kvDel k l).map Prod.fst := by
  induction l with
  | nil => simp [kvDel]
  | cons p rest ih =>
    obtain ⟨k1, v1⟩ := p
    by_cases h : k = k1
    · simp [kvDel, h]
      rw [← h]; simpa using ih
    · simp [kvDel, h]
      simpa using ih

theorem keys_kvDel_sub {α : Type} (k r : Bytes) (l : List (Bytes × α))
    (h : r ∈ (kvDel k l).map Prod.fst) : r ∈ l.map Prod.fst := by
  induction l with
  | nil => simp [kvDel] at h
  | cons p rest ih =>
    obtain ⟨k1, v1⟩ := p
    by_cases hk : k = k1
    · simp [kvDel, hk] at h
      have := ih (by rw [hk]; simpa using h)
      exact List.mem_cons_of_mem _ this
    · simp only [kvDel, hk, if_false, List.map_cons, List.mem_cons] at h ⊢
      rcases h with h | h
      · exact Or.inl h
      · exact Or.inr (ih h)

theorem keys_kvPut_self {α : Type} (k : Bytes) (v : α) (l : List (Bytes × α)) :
    k ∈ (kvPut k v l).map Prod.fst := by
  have := kvGet_mem k v _ (kvGet_kvPut_self k v l)
  exact List.mem_map_of_mem Prod.fst this

theorem keys_kvPut_sub {α : Type} (k r : Bytes) (v : α) (l : List (Bytes × α))
    (h : r ∈ l.map Prod.fst) : r ∈ (kvPut k v l).map Prod.fst := by
  induction l with
  | nil => simp at h
  | cons p rest ih =>
    obtain ⟨k1, v1⟩ := p
    by_cases hk : k = k1
    · subst hk
      simp only [kvPut, if_true, List.map_cons, List.mem_cons] at h ⊢
      exact h
    · by_cases h2 : bytesLt k k1 = true
      · simp only [kvPut, hk, h2, if_true, if_false, List.map_cons, List.mem_cons] at h ⊢
        exact Or.inr h
      · have h2f : bytesLt k k1 = false := by simpa using h2
        simp only [kvPut, hk, h2f, if_false, List.map_cons, List.mem_cons] at h ⊢
        simp only [Bool.false_eq_true, if_false, List.map_cons, List.mem_cons]
        rcases h with h | h
        · exact Or.inl h
        · exact Or.inr (ih h)

/-! ## Buckets and transactions -/

theorem bucketOf_setBucket_self (tx : Tx) (n : Bytes) (b : Bucket) :
    (Tx.setBucket tx n b).bucketOf n = some b := by
  simp [Tx.setBucket, Tx.bucketOf, kvGet_kvPut_self]

theorem bucketOf_setBucket_ne (tx : Tx) (n m : Bytes) (b : Bucket) (h : m ≠ n) :
    (Tx.setBucket tx n b).bucketOf m = tx.bucketOf m := by
  simp [Tx.setBucket, Tx.bucketOf, kvGet_kvPut_ne _ _ _ _ h]

theorem put_ok {b b1 : Bucket} {k v : Bytes} (h : Bucket.Put b k v = .ok b1) :
    b1 = kvPut k (.value v) b ∧ Bucket.Nested b k = none ∧ k ≠ [] := by
  unfold Bucket.Put at h
  split at h
  · cases h
  · split at h
    · cases h
    · split at h
      · cases h
      · rename_i hk _ _
        split at h
        · cases h
        · rename_i hnn
          refine ⟨by cases h; rfl, ?_, hk⟩
          unfold Bucket.Nested
          split
          · rename_i kvs hkv
            exact absurd hkv (hnn kvs)
          · rfl

theorem nested_put {b b1 : Bucket} {k v : Bytes} (h : Bucket.Put b k v = .ok b1) (k2 : Bytes) :
    Bucket.Nested b1 k2 = Bucket.Nested b k2 := by
  obtain ⟨rfl, hn, _⟩ := put_ok h
  by_cases hk : k2 = k
  · subst hk
    rw [hn]
    simp [Bucket.Nested, kvGet_kvPut_self]
  · simp [Bucket.Nested, kvGet_kvPut_ne _ _ _ _ hk]

theorem get_put_self {b b1 : Bucket} {k v : Bytes} (h : Bucket.Put b k v = .ok b1) :
    Bucket.Get b1 k = some v := by
  obtain ⟨rfl, _, _⟩ := put_ok h
  simp [Bucket.Get, kvGet_kvPut_self]

theorem get_put_ne {b b1 : Bucket} {k v : Bytes} (h : Bucket.Put b k v = .ok b1) (k2 : Bytes)
    (hk : k2 ≠ k) : Bucket.Get b1 k2 = Bucket.Get b k2 := by
  obtain ⟨rfl, _, _⟩ := put_ok h
  simp [Bucket.Get, kvGet_kvPut_ne _ _ _ _ hk]

theorem delete_ok {b b1 : Bucket} {k : Bytes} (h : Bucket.Delete b k = .ok b1) :
    b1 = kvDel k b ∧ Bucket.Nested b k = none := by
  unfold Bucket.Delete at h
  split at h
  · cases h
  · rename_i hnn
    refine ⟨by cases h; rfl, ?_⟩
    unfold Bucket.Nested
    split
    · rename_i kvs hkv
      exact absurd hkv (hnn kvs)
    · rfl

theorem nested_delete {b b1 : Bucket} {k : Bytes} (h : Bucket.Delete b k = .ok b1) (k2 : Bytes) :
    Bucket.Nested b1 k2 = Bucket.Nested b k2 := by
  obtain ⟨rfl, hn⟩ := delete_ok h
  by_cases hk : k2 = k
  · subst hk
    rw [hn]
    simp [Bucket.Nested, kvGet_kvDel_self]
  · simp [Bucket.Nested, kvGet_kvDel_ne _ _ _ hk]

theorem get_delete_self {b b1 : Bucket} {k : Bytes} (h : Bucket.Delete b k = .ok b1) :
    Bucket.Get b1 k = none := by
  obtain ⟨rfl, _⟩ := delete_ok h
  simp [Bucket.Get, kvGet_kvDel_self]

theorem get_delete_ne {b b1 : Bucket} {k : Bytes} (h : Bucket.Delete b k = .ok b1) (k2 : Bytes)
    (hk : k2 ≠ k) : Bucket.Get b1 k2 = Bucket.Get b k2 := by
  obtain ⟨rfl, _⟩ := delete_ok h
  simp [Bucket.Get, kvGet_kvDel_ne _ _ _ hk]

theorem createBucket_ok {b b1 : Bucket} {k : Bytes} (h : Bucket.CreateBucket b k = .ok b1) :
    b1 = kvPut k (.nested []) b := by
  unfold Bucket.CreateBucket at h
  split at h
  · cases h
  · split at h
    · cases h
    · cases h
    · cases h; rfl

theorem deleteBucket_ok {b b1 : Bucket} {k : Bytes} {nk : List Bytes}
    (h : Bucket.DeleteBucket b k nk = .ok b1) :
    b1 = kvDel k b := by
  unfold Bucket.DeleteBucket at h
  split at h
  · cases h
  · cases h
  · split at h
    · cases h
    · cases h; rfl

theorem nestedPut_ok {kvs kvs1 : List (Bytes × Bytes)} {k v : Bytes}
    (h : nestedPut kvs k v = .ok kvs1) : kvs1 = kvPut k v kvs := by
  unfold nestedPut at h
  split at h
  · cases h
  · split at h
    · cases h
    · split at h
      · cases h
      · cases h; rfl

theorem nested_kvPut_self (b : Bucket) (k : Bytes) (kvs : List (Bytes × Bytes)) :
    Bucket.Nested (kvPut k (.nested kvs) b) k = some kvs := by
  simp [Bucket.Nested, kvGet_kvPut_self]

theorem nested_kvPut_ne (b : Bucket) (k k2 : Bytes) (n : Node) (h : k2 ≠ k) :
    Bucket.Nested (kvPut k n b) k2 = Bucket.Nested b k2 := by
  simp [Bucket.Nested, kvGet_kvPut_ne _ _ _ _ h]

theorem nested_kvDel_self (b : Bucket) (k : Bytes) : Bucket.Nested (kvDel k b) k = none := by
  simp [Bucket.Nested, kvGet_kvDel_self]

theorem nested_kvDel_ne (b : Bucket) (k k2 : Bytes) (h : k2 ≠ k) :
    Bucket.Nested (kvDel k b) k2 = Bucket.Nested b k2 := by
  simp [Bucket.Nested, kvGet_kvDel_ne _ _ _ h]

/-! ## Effect of the index operations on the buckets -/

theorem bumpCount_other {idx : Index} {d : Int} {tx tx1 : Tx} {o : Out}
    (h : idx.bumpCount d tx = (tx1, o)) (n : Bytes) (hn : n ≠ BUC_COUNTS) :
    tx1.bucketOf n = tx.bucketOf n := by
  unfold Index.bumpCount at h
  split at h
  · cases h; rfl
  · split at h
    · cases h; rfl
    · split at h
      · cases h; rfl
      · cases h
        exact bucketOf_setBucket_ne _ _ _ _ hn

theorem add_other {env : Env} {idx : Index} {val rid : Bytes} {tx tx1 : Tx} {o : Out}
    (h : idx.add env val rid tx = (tx1, o)) (n : Bytes) (hn : n ≠ idx.BnameBytes)
    (hc : n ≠ BUC_COUNTS) : tx1.bucketOf n = tx.bucketOf n := by
  unfold Index.add at h
  repeat' split at h
  all_goals first
    | (cases h; rfl)
    | (cases h; exact bucketOf_setBucket_ne _ _ _ _ hn)
    | (rw [bumpCount_other h n hc]; exact bucketOf_setBucket_ne _ _ _ _ hn)

theorem remove_other {env : Env} {nil0 : List Bytes} {idx : Index} {val rid : Bytes} {tx tx1 : Tx} {o : Out}
    (h : idx.remove env nil0 val rid tx = (tx1, o)) (n : Bytes) (hn : n ≠ idx.BnameBytes)
    (hc : n ≠ BUC_COUNTS) : tx1.bucketOf n = tx.bucketOf n := by
  unfold Index.remove at h
  repeat' split at h
  all_goals first
    | (cases h; rfl)
    | (cases h; exact bucketOf_setBucket_ne _ _ _ _ hn)
    | (rw [bumpCount_other h n hc]; exact bucketOf_setBucket_ne _ _ _ _ hn)
    | exact bumpCount_other h n hc

/-- A successful `add` on a unique index binds the key to the resource id. -/
theorem add_unique_own {env : Env} {idx : Index} {val rid : Bytes} {tx tx1 : Tx}
    (hu : idx.AllowDupKey = false) (hc : idx.BnameBytes ≠ BUC_COUNTS)
    (h : idx.add env val rid tx = (tx1, .nil)) :
    ∃ vData buck buck1, idx.convert env val = .ok vData ∧
      tx.bucketOf idx.BnameBytes = some buck ∧ tx1.bucketOf idx.BnameBytes = some buck1 ∧
      Bucket.Get buck1 vData = some rid ∧ rid.length ≤ MaxValueSize ∧
      ∀ k, k ≠ vData → Bucket.Get buck1 k = Bucket.Get buck k := by
  unfold Index.add at h
  cases hconv : idx.convert env val with
  | error p => simp [hconv] at h
  | ok vData =>
    simp only [hconv] at h
    cases hb : tx.bucketOf idx.BnameBytes with
    | none => simp [hb] at h
    | some buck =>
      simp only [hb, hu] at h
      cases hp : Bucket.Put buck vData rid with
      | error e => simp [hp] at h
      | ok b1 =>
        simp only [hp] at h
        have h1 := bumpCount_other h idx.BnameBytes hc
        rw [bucketOf_setBucket_self] at h1
        refine ⟨vData, buck, b1, rfl, rfl, h1, get_put_self hp, ?_, fun k hk => get_put_ne hp k hk⟩
        unfold Bucket.Put at hp
        split at hp
        · cases hp
        · split at hp
          · cases hp
          · split at hp
            · cases hp
            · omega

/-- A successful `add` on a duplicate-key index puts the resource id into the
nested bucket of the key and leaves every other nested bucket as it was. -/
theorem add_dup_own {env : Env} {idx : Index} {val rid : Bytes} {tx tx1 : Tx}
    (hu : idx.AllowDupKey = true) (hc : idx.BnameBytes ≠ BUC_COUNTS)
    (h : idx.add env val rid tx = (tx1, .nil)) :
    ∃ vData buck buck1 kvs, idx.convert env val = .ok vData ∧
      tx.bucketOf idx.BnameBytes = some buck ∧ tx1.bucketOf idx.BnameBytes = some buck1 ∧
      Bucket.Nested buck1 vData = some kvs ∧ rid ∈ kvs.map Prod.fst ∧
      (∀ old, Bucket.Nested buck vData = some old → ∀ r ∈ old.map Prod.fst, r ∈ kvs.map Prod.fst) ∧
      ∀ k, k ≠ vData → Bucket.Nested buck1 k = Bucket.Nested buck k := by
  unfold Index.add at h
  cases hconv : idx.convert env val with
  | error p => simp [hconv] at h
  | ok vData =>
    simp only [hconv] at h
    cases hb : tx.bucketOf idx.BnameBytes with
    | none => simp [hb] at h
    | some buck =>
      simp only [hb, hu, if_true] at h
      cases hn : Bucket.Nested buck vData with
      | none =>
        simp only [hn] at h
        cases hcb : Bucket.CreateBucket buck vData with
        | error e => simp [hcb] at h
        | ok b1 =>
          simp only [hcb] at h
          cases hp : Bucket.Put b1 (countKeyOf env val) (Itob 1) with
          | error e => simp [hp] at h
          | ok b2 =>
            simp only [hp] at h
            cases hnp : nestedPut [] rid [] with
            | error e => simp [hnp] at h
            | ok kvs =>
              simp only [hnp] at h
              have h1 := bumpCount_other h idx.BnameBytes hc
              rw [bucketOf_setBucket_self] at h1
              refine ⟨vData, buck, _, kvs, rfl, rfl, h1, nested_kvPut_self _ _ _, ?_, ?_, ?_⟩
              · rw [nestedPut_ok hnp]; exact keys_kvPut_self _ _ _
              · intro old ho; rw [hn] at ho; cases ho
              · intro k hk
                rw [nested_kvPut_ne _ _ _ _ hk, nested_put hp, createBucket_ok hcb,
                  nested_kvPut_ne _ _ _ _ hk]
      | some dupBuck =>
        simp only [hn] at h
        cases hbt : Btoi ((Bucket.Get buck (countKeyOf env val)).getD []) with
        | none => simp [hbt] at h
        | some count =>
          simp only [hbt] at h
          cases hnp : nestedPut dupBuck rid [] with
          | error e => simp [hnp] at h
          | ok kvs =>
            simp only [hnp] at h
            have hkeys : rid ∈ kvs.map Prod.fst := by
              rw [nestedPut_ok hnp]; exact keys_kvPut_self _ _ _
            have hsub : ∀ old, Bucket.Nested buck vData = some old →
                ∀ r ∈ old.map Prod.fst, r ∈ kvs.map Prod.fst := by
              intro old ho r hr
              rw [hn] at ho
              cases ho
              rw [nestedPut_ok hnp]; exact keys_kvPut_sub _ _ _ _ hr
            cases hp : Bucket.Put (kvPut vData (.nested kvs) buck) (countKeyOf env val)
                (Itob (wrapInt64 (count + 1))) with
            | error e =>
              simp only [hp] at h
              have h1 := bumpCount_other h idx.BnameBytes hc
              rw [bucketOf_setBucket_self] at h1
              exact ⟨vData, buck, _, kvs, rfl, rfl, h1, nested_kvPut_self _ _ _, hkeys, hsub,
                fun k hk => nested_kvPut_ne _ _ _ _ hk⟩
            | ok b2 =>
              simp only [hp] at h
              have h1 := bumpCount_other h idx.BnameBytes hc
              rw [bucketOf_setBucket_self] at h1
              refine ⟨vData, buck, b2, kvs, rfl, rfl, h1, ?_, hkeys, hsub, ?_⟩
              · rw [nested_put hp]; exact nested_kvPut_self _ _ _
              · intro k hk
                rw [nested_put hp]; exact nested_kvPut_ne _ _ _ _ hk

/-- A successful `remove` on a unique index deletes the key. -/
theorem remove_unique_own {env : Env} {nil0 : List Bytes} {idx : Index} {val rid : Bytes} {tx tx1 : Tx}
    (hu : idx.AllowDupKey = false) (hc : idx.BnameBytes ≠ BUC_COUNTS)
    (h : idx.remove env nil0 val rid tx = (tx1, .nil)) :
    ∃ vData buck buck1, idx.convert env val = .ok vData ∧
      tx.bucketOf idx.BnameBytes = some buck ∧ tx1.bucketOf idx.BnameBytes = some buck1 ∧
      Bucket.Get buck1 vData = none ∧
      ∀ k, k ≠ vData → Bucket.Get buck1 k = Bucket.Get buck k := by
  unfold Index.remove at h
  cases hconv : idx.convert env val with
  | error p => simp [hconv] at h
  | ok vData =>
    simp only [hconv] at h
    cases hb : tx.bucketOf idx.BnameBytes with
    | none => simp [hb] at h
    | some buck =>
      simp only [hb, hu] at h
      cases hp : Bucket.Delete buck vData with
      | error e => simp [hp] at h
      | ok b1 =>
        simp only [hp] at h
        have h1 := bumpCount_other h idx.BnameBytes hc
        rw [bucketOf_setBucket_self] at h1
        exact ⟨vData, buck, b1, rfl, rfl, h1, get_delete_self hp, fun k hk => get_delete_ne hp k hk⟩

/-- A successful `remove` on a duplicate-key index takes the resource id out
of the nested bucket of the key and adds no id to any nested bucket. -/
theorem remove_dup_own {env : Env} {nil0 : List Bytes} {idx : Index} {val rid : Bytes} {tx tx1 : Tx}
    (hu : idx.AllowDupKey = true) (hc : idx.BnameBytes ≠ BUC_COUNTS)
    (h : idx.remove env nil0 val rid tx = (tx1, .nil)) :
    ∃ vData buck buck1, idx.convert env val = .ok vData ∧
      tx.bucketOf idx.BnameBytes = some buck ∧ tx1.bucketOf idx.BnameBytes = some buck1 ∧
      (∀ kvs, Bucket.Nested buck1 vData = some kvs → rid ∉ kvs.map Prod.fst) ∧
      ∀ k kvs, Bucket.Nested buck1 k = some kvs →
        ∃ old, Bucket.Nested buck k = some old ∧ ∀ r ∈ kvs.map Prod.fst, r ∈ old.map Prod.fst := by
  unfold Index.remove at h
  cases hconv : idx.convert env val with
  | error p => simp [hconv] at h
  | ok vData =>
    simp only [hconv] at h
    cases hb : tx.bucketOf idx.BnameBytes with
    | none => simp [hb] at h
    | some buck =>
      simp only [hb, hu, if_true] at h
      cases hn : Bucket.Nested buck vData with
      | none =>
        simp only [hn] at h
        have h1 := bumpCount_other h idx.BnameBytes hc
        rw [hb] at h1
        refine ⟨vData, buck, buck, rfl, rfl, h1, ?_, ?_⟩
        · intro kvs hk; rw [hn] at hk; cases hk
        · intro k kvs hk; exact ⟨kvs, hk, fun r hr => hr⟩
      | some dupBuck =>
        simp only [hn] at h
        cases hbt : Btoi ((Bucket.Get buck (countKeyOf env val)).getD []) with
        | none => simp [hbt] at h
        | some count =>
          simp only [hbt] at h
          by_cases hgt : count > 1
          · simp only [hgt, if_true] at h
            cases hp : Bucket.Put (kvPut vData (.nested (kvDel rid dupBuck)) buck)
                (countKeyOf env val) (Itob (wrapInt64 (count - 1))) with
            | error e => simp [hp] at h
            | ok b2 =>
              simp only [hp] at h
              have h1 := bumpCount_other h idx.BnameBytes hc
              rw [bucketOf_setBucket_self] at h1
              refine ⟨vData, buck, b2, rfl, rfl, h1, ?_, ?_⟩
              · intro kvs hk
                rw [nested_put hp, nested_kvPut_self] at hk
                cases hk
                exact keys_kvDel _ _
              · intro k kvs hk
                rw [nested_put hp] at hk
                by_cases hkv : k = vData
                · subst hkv
                  rw [nested_kvPut_self] at hk
                  cases hk
                  exact ⟨dupBuck, hn, fun r hr => keys_kvDel_sub _ _ _ hr⟩
                · rw [nested_kvPut_ne _ _ _ _ hkv] at hk
                  exact ⟨kvs, hk, fun r hr => hr⟩
          · simp only [hgt, if_false] at h
            cases hdb : Bucket.DeleteBucket buck vData nil0 with
            | error e => simp [hdb] at h
            | ok b1 =>
              simp only [hdb] at h
              have hb1 := deleteBucket_ok hdb
              have key : ∀ bx : Bucket, (∀ k, Bucket.Nested bx k = Bucket.Nested b1 k) →
                  (∀ kvs, Bucket.Nested bx vData = some kvs → rid ∉ kvs.map Prod.fst) ∧
                    ∀ k kvs, Bucket.Nested bx k = some kvs →
                      ∃ old, Bucket.Nested buck k = some old ∧
                        ∀ r ∈ kvs.map Prod.fst, r ∈ old.map Prod.fst := by
                intro bx hbx
                refine ⟨?_, ?_⟩
                · intro kvs hk
                  rw [hbx, hb1, nested_kvDel_self] at hk
                  cases hk
                · intro k kvs hk
                  rw [hbx, hb1] at hk
                  by_cases hkv : k = vData
                  · subst hkv
                    rw [nested_kvDel_self] at hk
                    cases hk
                  · rw [nested_kvDel_ne _ _ _ hkv] at hk
                    exact ⟨kvs, hk, fun r hr => hr⟩
              cases hd : Bucket.Delete b1 (countKeyOf env val) with
              | error e =>
                simp only [hd] at h
                have h1 := bumpCount_other h idx.BnameBytes hc
                rw [bucketOf_setBucket_self] at h1
                exact ⟨vData, buck, b1, rfl, rfl, h1, key b1 (fun _ => rfl)⟩
              | ok b2 =>
                simp only [hd] at h
                have h1 := bumpCount_other h idx.BnameBytes hc
                rw [bucketOf_setBucket_self] at h1
                exact ⟨vData, buck, b2, rfl, rfl, h1, key b2 (fun k => nested_delete hd k)⟩

/-! ## Tuples of an index -/

theorem holds_dup_iff {idx : Index} (hu : idx.AllowDupKey = true) (key rid : Bytes) (tx : Tx) :
    idx.holds key rid tx ↔ ∃ buck kvs, tx.bucketOf idx.BnameBytes = some buck ∧
      Bucket.Nested buck key = some kvs ∧ rid ∈ kvs.map Prod.fst := by
  unfold Index.holds Index.GetRids
  simp only [hu, if_true]
  constructor
  · rintro ⟨rids, h, hr⟩
    cases hb : tx.bucketOf idx.BnameBytes with
    | none => simp [hb] at h
    | some buck =>
      simp only [hb] at h
      cases hn : Bucket.Nested buck key with
      | none => simp only [hn] at h; cases h; simp at hr
      | some kvs => simp only [hn] at h; cases h; exact ⟨buck, kvs, rfl, hn, hr⟩
  · rintro ⟨buck, kvs, hb, hn, hr⟩
    exact ⟨kvs.map Prod.fst, by simp [hb, hn], hr⟩

theorem holds_unique_iff {idx : Index} (hu : idx.AllowDupKey = false) (key rid : Bytes) (tx : Tx) :
    idx.holds key rid tx ↔ rid ≠ [] ∧ ∃ buck, tx.bucketOf idx.BnameBytes = some buck ∧
      Bucket.Get buck key = some rid := by
  unfold Index.holds Index.GetRid
  simp only [hu]
  constructor
  · rintro ⟨h, hne⟩
    refine ⟨hne, ?_⟩
    cases hb : tx.bucketOf idx.BnameBytes with
    | none => simp [hb] at h
    | some buck =>
      simp only [hb] at h
      cases hg : Bucket.Get buck key with
      | none => simp only [hg] at h; cases h; exact absurd rfl hne
      | some r => simp only [hg] at h; cases h; exact ⟨buck, rfl, hg⟩
  · rintro ⟨hne, buck, hb, hg⟩
    exact ⟨by simp [hb, hg], hne⟩

theorem holds_congr {idx : Index} {key rid : Bytes} {tx tx1 : Tx}
    (h : tx1.bucketOf idx.BnameBytes = tx.bucketOf idx.BnameBytes) :
    idx.holds key rid tx1 ↔ idx.holds key rid tx := by
  unfold Index.holds Index.GetRids Index.GetRid
  rw [h]

/-- A successful `add` makes the index hold its tuple. -/
theorem add_holds {env : Env} {idx : Index} {val rid key : Bytes} {tx tx1 : Tx}
    (hc : idx.BnameBytes ≠ BUC_COUNTS) (hrid : rid ≠ [])
    (h : idx.add env val rid tx = (tx1, .nil)) (hk : idx.convert env val = .ok key) :
    idx.holds key rid tx1 := by
  cases hu : idx.AllowDupKey with
  | true =>
    obtain ⟨vData, buck, buck1, kvs, hconv, _, hb1, hn, hr, _, _⟩ := add_dup_own hu hc h
    rw [hk] at hconv; cases hconv
    exact (holds_dup_iff hu _ _ _).2 ⟨buck1, kvs, hb1, hn, hr⟩
  | false =>
    obtain ⟨vData, buck, buck1, hconv, _, hb1, hg, _, _⟩ := add_unique_own hu hc h
    rw [hk] at hconv; cases hconv
    exact (holds_unique_iff hu _ _ _).2 ⟨hrid, buck1, hb1, hg⟩

/-- A successful `add` for the same resource id keeps every tuple of that
resource, in the same index or in an index with a bucket of its own. -/
theorem add_keeps {env : Env} {idx idx0 : Index} {val rid key0 : Bytes} {tx tx1 : Tx}
    (hc : idx0.BnameBytes ≠ BUC_COUNTS)
    (hsame : idx.BnameBytes = idx0.BnameBytes → idx.AllowDupKey = idx0.AllowDupKey)
    (h : idx.add env val rid tx = (tx1, .nil)) (h0 : idx0.holds key0 rid tx) :
    idx0.holds key0 rid tx1 := by
  by_cases hb : idx.BnameBytes = idx0.BnameBytes
  · have hflag := hsame hb
    have hc1 : idx.BnameBytes ≠ BUC_COUNTS := by rw [hb]; exact hc
    cases hu : idx0.AllowDupKey with
    | true =>
      rw [hu] at hflag
      obtain ⟨vData, buck, buck1, kvs, _, hbk, hb1, hn, _, hsub, hoth⟩ := add_dup_own hflag hc1 h
      obtain ⟨b0, kvs0, hb0, hn0, hr0⟩ := (holds_dup_iff hu _ _ _).1 h0
      rw [← hb, hbk] at hb0; cases hb0
      rw [hb] at hb1
      by_cases hkey : key0 = vData
      · subst hkey
        exact (holds_dup_iff hu _ _ _).2 ⟨buck1, kvs, hb1, hn, hsub kvs0 hn0 _ hr0⟩
      · exact (holds_dup_iff hu _ _ _).2 ⟨buck1, kvs0, hb1, by rw [hoth _ hkey]; exact hn0, hr0⟩
    | false =>
      rw [hu] at hflag
      obtain ⟨vData, buck, buck1, _, hbk, hb1, hg, _, hoth⟩ := add_unique_own hflag hc1 h
      obtain ⟨hne, b0, hb0, hg0⟩ := (holds_unique_iff hu _ _ _).1 h0
      rw [← hb, hbk] at hb0; cases hb0
      rw [hb] at hb1
      by_cases hkey : key0 = vData
      · subst hkey
        exact (holds_unique_iff hu _ _ _).2 ⟨hne, buck1, hb1, hg⟩
      · exact (holds_unique_iff hu _ _ _).2 ⟨hne, buck1, hb1, by rw [hoth _ hkey]; exact hg0⟩
  · exact (holds_congr (add_other h _ (fun e => hb e.symm) hc)).2 h0

/-- A successful `remove` leaves the index without its tuple. -/
theorem remove_not_holds {env : Env} {nil0 : List Bytes} {idx : Index} {val rid key : Bytes} {tx tx1 : Tx}
    (hc : idx.BnameBytes ≠ BUC_COUNTS)
    (h : idx.remove env nil0 val rid tx = (tx1, .nil)) (hk : idx.convert env val = .ok key) :
    ¬ idx.holds key rid tx1 := by
  cases hu : idx.AllowDupKey with
  | true =>
    obtain ⟨vData, buck, buck1, hconv, _, hb1, hnot, _⟩ := remove_dup_own hu hc h
    rw [hk] at hconv; cases hconv
    intro hh
    obtain ⟨b, kvs, hb, hn, hr⟩ := (holds_dup_iff hu _ _ _).1 hh
    rw [hb1] at hb; cases hb
    exact hnot kvs hn hr
  | false =>
    obtain ⟨vData, buck, buck1, hconv, _, hb1, hg, _⟩ := remove_unique_own hu hc h
    rw [hk] at hconv; cases hconv
    intro hh
    obtain ⟨_, b, hb, hg0⟩ := (holds_unique_iff hu _ _ _).1 hh
    rw [hb1] at hb; cases hb
    rw [hg] at hg0; cases hg0

/-- A successful `remove` brings no tuple into an index. -/
theorem remove_keeps_not {env : Env} {nil0 : List Bytes} {idx idx0 : Index} {val rid rid0 key0 : Bytes} {tx tx1 : Tx}
    (hc : idx0.BnameBytes ≠ BUC_COUNTS)
    (hsame : idx.BnameBytes = idx0.BnameBytes → idx.AllowDupKey = idx0.AllowDupKey)
    (h : idx.remove env nil0 val rid tx = (tx1, .nil)) (h0 : ¬ idx0.holds key0 rid0 tx) :
    ¬ idx0.holds key0 rid0 tx1 := by
  by_cases hb : idx.BnameBytes = idx0.BnameBytes
  · have hflag := hsame hb
    have hc1 : idx.BnameBytes ≠ BUC_COUNTS := by rw [hb]; exact hc
    intro hh
    apply h0
    cases hu : idx0.AllowDupKey with
    | true =>
      rw [hu] at hflag
      obtain ⟨vData, buck, buck1, _, hbk, hb1, _, hsub⟩ := remove_dup_own hflag hc1 h
      obtain ⟨b1, kvs1, hb1', hn1, hr1⟩ := (holds_dup_iff hu _ _ _).1 hh
      rw [← hb, hb1] at hb1'; cases hb1'
      obtain ⟨old, hold, hsubs⟩ := hsub _ _ hn1
      exact (holds_dup_iff hu _ _ _).2 ⟨buck, old, by rw [← hb]; exact hbk, hold, hsubs _ hr1⟩
    | false =>
      rw [hu] at hflag
      obtain ⟨vData, buck, buck1, _, hbk, hb1, hg, hoth⟩ := remove_unique_own hflag hc1 h
      obtain ⟨hne, b1, hb1', hg1⟩ := (holds_unique_iff hu _ _ _).1 hh
      rw [← hb, hb1] at hb1'; cases hb1'
      by_cases hkey : key0 = vData
      · subst hkey
        rw [hg] at hg1; cases hg1
      · rw [hoth _ hkey] at hg1
        exact (holds_unique_iff hu _ _ _).2 ⟨hne, buck, by rw [← hb]; exact hbk, hg1⟩
  · intro hh
    exact h0 ((holds_congr (remove_other h _ (fun e => hb e.symm) hc)).1 hh)

/-! ## The index loop of `Insert` -/

theorem add_convert_ok {env : Env} {idx : Index} {val rid : Bytes} {tx tx1 : Tx}
    (h : idx.add env val rid tx = (tx1, .nil)) : ∃ key, idx.convert env val = .ok key := by
  unfold Index.add at h
  cases hconv : idx.convert env val with
  | error p => simp [hconv] at h
  | ok vData => exact ⟨vData, rfl⟩

theorem addVals_other {env : Env} {idx : Index} {rid : Bytes} (vals : List Bytes) {tx tx1 : Tx}
    {o : Option PanicVal} (h : addVals env idx rid vals tx = (tx1, o)) (n : Bytes)
    (hn : n ≠ idx.BnameBytes) (hc : n ≠ BUC_COUNTS) : tx1.bucketOf n = tx.bucketOf n := by
  induction vals generalizing tx with
  | nil => simp [addVals] at h; rw [h.1]
  | cons v rest ih =>
    unfold addVals at h
    split at h
    · rename_i txa ha
      rw [ih h, add_other ha n hn hc]
    · rename_i txa e ha
      cases h
      exact add_other ha n hn hc
    · rename_i txa p ha
      cases h
      exact add_other ha n hn hc

theorem addVals_keeps {env : Env} {idx idx0 : Index} {rid key0 : Bytes} (vals : List Bytes)
    {tx tx1 : Tx} (hc : idx0.BnameBytes ≠ BUC_COUNTS)
    (hsame : idx.BnameBytes = idx0.BnameBytes → idx.AllowDupKey = idx0.AllowDupKey)
    (h : addVals env idx rid vals tx = (tx1, none)) (h0 : idx0.holds key0 rid tx) :
    idx0.holds key0 rid tx1 := by
  induction vals generalizing tx with
  | nil => simp [addVals] at h; rw [← h]; exact h0
  | cons v rest ih =>
    unfold addVals at h
    split at h
    · rename_i txa ha
      exact ih h (add_keeps hc hsame ha h0)
    · cases h
    · cases h

theorem addVals_holds {env : Env} {idx : Index} {rid : Bytes} (vals : List Bytes)
    {tx tx1 : Tx} (hc : idx.BnameBytes ≠ BUC_COUNTS) (hrid : rid ≠ [])
    (h : addVals env idx rid vals tx = (tx1, none)) :
    ∀ v ∈ vals, ∃ key, idx.convert env v = .ok key ∧ idx.holds key rid tx1 := by
  induction vals generalizing tx with
  | nil => intro v hv; cases hv
  | cons v0 rest ih =>
    unfold addVals at h
    split at h
    · rename_i txa ha
      intro v hv
      rcases List.mem_cons.1 hv with hv | hv
      · subst hv
        obtain ⟨key, hk⟩ := add_convert_ok ha
        exact ⟨key, hk, addVals_keeps rest hc (fun _ => rfl) h (add_holds hc hrid ha hk)⟩
      · exact ih h v hv
    · cases h
    · cases h

theorem addToIndices_other {env : Env} {prIdx : Index} {inRes : Resource} {rid : Bytes}
    (l : List (Bytes × Index)) {tx tx1 : Tx} {o : Option PanicVal}
    (h : addToIndices env prIdx inRes rid l tx = (tx1, o)) (n : Bytes)
    (hl : ∀ p ∈ l, n ≠ p.2.BnameBytes) (hpr : n ≠ prIdx.BnameBytes) (hc : n ≠ BUC_COUNTS) :
    tx1.bucketOf n = tx.bucketOf n := by
  induction l generalizing tx with
  | nil => simp [addToIndices] at h; rw [h.1]
  | cons p rest ih =>
    obtain ⟨name, idx⟩ := p
    have hrest : ∀ p ∈ rest, n ≠ p.2.BnameBytes := fun p hp => hl p (List.mem_cons_of_mem _ hp)
    have hidx : n ≠ idx.BnameBytes := hl (name, idx) (List.mem_cons_self _ _)
    unfold addToIndices at h
    split at h
    · exact ih h hrest
    · exact ih h hrest
    · split at h
      · rename_i txa p ha
        cases h
        exact addVals_other _ ha n hidx hc
      · rename_i txa ha
        split at h
        · rename_i txb hb
          rw [ih h hrest, add_other hb n hpr hc, addVals_other _ ha n hidx hc]
        · rename_i txb e hb
          cases h
          rw [add_other hb n hpr hc, addVals_other _ ha n hidx hc]
        · rename_i txb p hb
          cases h
          rw [add_other hb n hpr hc, addVals_other _ ha n hidx hc]

theorem addToIndices_keeps {env : Env} {prIdx idx0 : Index} {inRes : Resource} {rid key0 : Bytes}
    (l : List (Bytes × Index)) {tx tx1 : Tx} (hc : idx0.BnameBytes ≠ BUC_COUNTS)
    (hl : ∀ p ∈ l, p.2.BnameBytes = idx0.BnameBytes → p.2.AllowDupKey = idx0.AllowDupKey)
    (hpr : prIdx.BnameBytes = idx0.BnameBytes → prIdx.AllowDupKey = idx0.AllowDupKey)
    (h : addToIndices env prIdx inRes rid l tx = (tx1, none)) (h0 : idx0.holds key0 rid tx) :
    idx0.holds key0 rid tx1 := by
  induction l generalizing tx with
  | nil => simp [addToIndices] at h; rw [← h]; exact h0
  | cons p rest ih =>
    obtain ⟨name, idx⟩ := p
    have hrest : ∀ p ∈ rest, p.2.BnameBytes = idx0.BnameBytes →
        p.2.AllowDupKey = idx0.AllowDupKey := fun p hp => hl p (List.mem_cons_of_mem _ hp)
    have hidx := hl (name, idx) (List.mem_cons_self _ _)
    unfold addToIndices at h
    split at h
    · exact ih hrest h h0
    · exact ih hrest h h0
    · split at h
      · cases h
      · rename_i txa ha
        split at h
        · rename_i txb hb
          exact ih hrest h (add_keeps hc hpr hb (addVals_keeps _ hc hidx ha h0))
        · cases h
        · cases h

theorem addToIndices_holds {env : Env} {prIdx : Index} {inRes : Resource} {rid : Bytes}
    (l : List (Bytes × Index)) {tx tx1 : Tx} (hrid : rid ≠ [])
    (hc : ∀ p ∈ l, p.2.BnameBytes ≠ BUC_COUNTS)
    (hl : ∀ p ∈ l, ∀ q ∈ l, p.2.BnameBytes = q.2.BnameBytes → p.2.AllowDupKey = q.2.AllowDupKey)
    (hpr : ∀ q ∈ l, prIdx.BnameBytes = q.2.BnameBytes → prIdx.AllowDupKey = q.2.AllowDupKey)
    (h : addToIndices env prIdx inRes rid l tx = (tx1, none)) :
    ∀ name idx, (name, idx) ∈ l → ∀ sa, inRes.GetAttr env name = some (.simple sa) →
      ∀ v ∈ sa.Values, ∃ key, idx.convert env v = .ok key ∧ idx.holds key rid tx1 := by
  induction l generalizing tx with
  | nil => intro name idx hm; cases hm
  | cons p rest ih =>
    obtain ⟨name0, idx0⟩ := p
    have hc' : ∀ p ∈ rest, p.2.BnameBytes ≠ BUC_COUNTS :=
      fun p hp => hc p (List.mem_cons_of_mem _ hp)
    have hl' : ∀ p ∈ rest, ∀ q ∈ rest, p.2.BnameBytes = q.2.BnameBytes →
        p.2.AllowDupKey = q.2.AllowDupKey :=
      fun p hp q hq => hl p (List.mem_cons_of_mem _ hp) q (List.mem_cons_of_mem _ hq)
    have hpr' : ∀ q ∈ rest, prIdx.BnameBytes = q.2.BnameBytes →
        prIdx.AllowDupKey = q.2.AllowDupKey := fun q hq => hpr q (List.mem_cons_of_mem _ hq)
    have h0mem : (name0, idx0) ∈ (name0, idx0) :: rest := List.mem_cons_self _ _
    intro name idx hm sa hsa v hv
    unfold addToIndices at h
    split at h
    · rename_i hattr
      rcases List.mem_cons.1 hm with hm | hm
      · cases hm; rw [hattr] at hsa; cases hsa
      · exact ih hc' hl' hpr' h name idx hm sa hsa v hv
    · rename_i ca hattr
      rcases List.mem_cons.1 hm with hm | hm
      · cases hm; rw [hattr] at hsa; cases hsa
      · exact ih hc' hl' hpr' h name idx hm sa hsa v hv
    · rename_i sa0 hattr
      split at h
      · cases h
      · rename_i txa ha
        split at h
        · rename_i txb hb
          rcases List.mem_cons.1 hm with hm | hm
          · cases hm
            rw [hattr] at hsa; cases hsa
            obtain ⟨key, hk, hh⟩ := addVals_holds _ (hc _ h0mem) hrid ha v hv
            refine ⟨key, hk, ?_⟩
            refine addToIndices_keeps rest (hc _ h0mem)
              (fun p hp => hl p (List.mem_cons_of_mem _ hp) _ h0mem) (hpr _ h0mem) h ?_
            exact add_keeps (hc _ h0mem) (hpr _ h0mem) hb hh
          · exact ih hc' hl' hpr' h name idx hm sa hsa v hv
        · cases h
        · cases h

/-! ## Writes to the resource buckets -/

theorem storeResource_other {env : Env} {sl : Silo} {tx tx1 : Tx} {res : Resource}
    {o : Option PanicVal} (h : sl.storeResource env tx res = (tx1, o)) (n : Bytes)
    (hn : n ≠ sl.resourceBucket res.GetType.Name) : tx1.bucketOf n = tx.bucketOf n := by
  unfold Silo.storeResource at h
  split at h
  · cases h; rfl
  · split at h
    · cases h; rfl
    · split at h
      · cases h; rfl
      · cases h
        exact bucketOf_setBucket_ne _ _ _ _ hn

theorem addBackRefs_other {env : Env} {sl : Silo} {db : Tx} {rid : Bytes}
    (l : List (List (Bytes × SimpleAttr))) {tx tx1 : Tx} {o : Option PanicVal}
    (h : addBackRefs env sl db rid l tx = (tx1, o)) (n : Bytes)
    (hn : ∀ T, n ≠ sl.resourceBucket T) : tx1.bucketOf n = tx.bucketOf n := by
  induction l generalizing tx with
  | nil => simp [addBackRefs] at h; rw [h.1]
  | cons m rest ih =>
    unfold addBackRefs at h
    repeat' split at h
    all_goals first
      | (cases h; rfl)
      | exact ih h
      | (rename_i hs; cases h; exact storeResource_other hs n (hn _))
      | (rename_i hs; rw [ih h]; exact storeResource_other hs n (hn _))

theorem resourceBucket_not_index {sl : Silo} {resName : Bytes} (hsep : sl.Separated resName)
    (T : Bytes) : sl.resourceBucket T ∉ sl.indexBuckets resName := by
  obtain ⟨_, _, hnil, _, hres⟩ := hsep
  unfold Silo.resourceBucket
  cases hk : kvGet T sl.resources with
  | none => simpa using hnil
  | some b => simpa using hres _ (kvGet_mem _ _ _ hk)

theorem mem_indexBuckets {sl : Silo} {resName : Bytes} {p : Bytes × Index}
    (h : p ∈ sl.indicesOf resName) : p.2.BnameBytes ∈ sl.indexBuckets resName := by
  unfold Silo.indexBuckets
  exact List.mem_map_of_mem (fun p => p.2.BnameBytes) h

theorem genUUID_ne_nil (rnd : Bytes) : GenUUID rnd ≠ [] := by simp [GenUUID]

theorem stamp_resType (env : Env) (rid : Bytes) (r : Resource) :
    (stamp env rid r).resType = r.resType := rfl

theorem stamp_id (env : Env) (rid : Bytes) (r : Resource) : (stamp env rid r).GetId = rid := rfl

/-- What a successful `Insert` went through: the stamped resource is returned,
the uniqueness check passed, the index loop and the row write succeeded, and
what follows the row write touches resource buckets only. -/
theorem insert_ok_steps {env : Env} {sl : Silo} {db db1 : Tx} {rnd : Bytes} {r res : Resource}
    (h : sl.Insert env db rnd r = .ok res db1) :
    res = stamp env (GenUUID rnd) r ∧
    ∃ prIdx tx1 tx2,
      sl.getSysIndex r.resType.Name (ascii "presence") = .ok prIdx ∧
      addToIndices env prIdx res (GenUUID rnd) (sl.indicesOf r.resType.Name) db = (tx1, none) ∧
      sl.storeResource env tx1 res = (tx2, none) ∧
      sl.insertCore env db (GenUUID rnd) res = (tx2, none) ∧
      sl.insertTx env db (GenUUID rnd) res = (db1, none) ∧
      ∀ n, (∀ T, n ≠ sl.resourceBucket T) → db1.bucketOf n = tx2.bucketOf n := by
  unfold Silo.Insert at h
  split at h
  · rename_i tx htx
    cases h
    refine ⟨rfl, ?_⟩
    have htx0 := htx
    unfold Silo.insertTx at htx
    split at htx
    · cases htx
    · rename_i tx2 hcore
      have hcore0 := hcore
      unfold Silo.insertCore at hcore
      split at hcore
      · cases hcore
      · split at hcore
        · cases hcore
        · rename_i prIdx hpr
          split at hcore
          · cases hcore
          · rename_i tx1 hadd
            refine ⟨prIdx, tx1, tx2, hpr, hadd, hcore, hcore0, htx0, ?_⟩
            intro n hn
            split at htx
            · split at htx
              · cases htx; rfl
              · cases htx
              · exact addBackRefs_other _ htx n hn
            · cases htx; rfl
  · cases h
  · cases h

/-- The conditions of the index loops, from the layout of the buckets. -/
theorem separated_index_conds {sl : Silo} {resName : Bytes} (hsep : sl.Separated resName) :
    (∀ p ∈ sl.indicesOf resName, p.2.BnameBytes ≠ BUC_COUNTS) ∧
    (∀ p ∈ sl.indicesOf resName, ∀ q ∈ sl.indicesOf resName,
      p.2.BnameBytes = q.2.BnameBytes → p.2.AllowDupKey = q.2.AllowDupKey) := by
  obtain ⟨hnd, hcnt, _, _, _⟩ := hsep
  refine ⟨?_, ?_⟩
  · intro p hp he
    exact hcnt (he ▸ mem_indexBuckets hp)
  · intro p hp q hq he
    have := List.inj_on_of_nodup_map hnd hp hq he
    rw [this]

/-- The conditions of `addToIndices_holds`, from the layout of the buckets. -/
theorem separated_conds {sl : Silo} {resName : Bytes} {prIdx : Index}
    (hsep : sl.Separated resName)
    (hpr : sl.getSysIndex resName (ascii "presence") = .ok prIdx) :
    (∀ p ∈ sl.indicesOf resName, p.2.BnameBytes ≠ BUC_COUNTS) ∧
    (∀ p ∈ sl.indicesOf resName, ∀ q ∈ sl.indicesOf resName,
      p.2.BnameBytes = q.2.BnameBytes → p.2.AllowDupKey = q.2.AllowDupKey) ∧
    (∀ q ∈ sl.indicesOf resName, prIdx.BnameBytes ≠ q.2.BnameBytes) := by
  obtain ⟨hc, hl⟩ := separated_index_conds hsep
  obtain ⟨_, _, _, hsys, _⟩ := hsep
  refine ⟨hc, hl, ?_⟩
  · intro q hq he
    unfold Silo.getSysIndex at hpr
    split at hpr
    · rename_i idx hk
      cases hpr
      exact hsys _ (kvGet_mem _ _ _ hk) (he ▸ mem_indexBuckets hq)
    · cases hpr

/-- C3: after a successful `Insert` that assigned the id `GenUUID rnd`, every
index configured for the resource type holds the tuple (value, id) for every
value of its attribute, when that attribute is present on the resource as a
simple attribute: `GetRid` of the converted value answers the id in a unique
index, `GetRids` lists it in a duplicate-key index. -/
theorem insert_indexes_every_value (env : Env) (sl : Silo) (db db1 : Tx) (rnd : Bytes)
    (r res : Resource) (hsep : sl.Separated r.resType.Name)
    (hins : sl.Insert env db rnd r = .ok res db1) :
    res.GetId = GenUUID rnd ∧
    ∀ name idx, (name, idx) ∈ sl.indicesOf res.GetType.Name →
      ∀ sa, res.GetAttr env name = some (.simple sa) →
        ∀ v ∈ sa.Values, ∃ key, idx.convert env v = .ok key ∧
          idx.holds key (GenUUID rnd) db1 := by
  obtain ⟨hres, prIdx, tx1, tx2, hpr, hadd, hstore, _, _, hrest⟩ := insert_ok_steps hins
  obtain ⟨hc, hl, hp⟩ := separated_conds hsep hpr
  refine ⟨by rw [hres]; rfl, ?_⟩
  intro name idx hm sa hsa v hv
  have hT : res.GetType.Name = r.resType.Name := by rw [hres]; rfl
  rw [hT] at hm
  obtain ⟨key, hk, hh⟩ := addToIndices_holds _ (genUUID_ne_nil rnd) hc hl
    (fun q hq he => absurd he (hp q hq)) hadd name idx hm sa hsa v hv
  refine ⟨key, hk, ?_⟩
  have hni : ∀ T, idx.BnameBytes ≠ sl.resourceBucket T := by
    intro T he
    exact resourceBucket_not_index hsep T (he ▸ mem_indexBuckets hm)
  have h1 : tx2.bucketOf idx.BnameBytes = tx1.bucketOf idx.BnameBytes :=
    storeResource_other hstore _ (hni _)
  have h2 := hrest idx.BnameBytes hni
  exact (holds_congr (h2.trans h1)).2 hh

set_option maxRecDepth 1000000 in
theorem insert_indexes_every_value_witness :
    sampleSilo.Separated adminUser.resType.Name ∧
    sampleSilo.Insert sampleEnv emptyDb draw1 adminUser =
      .ok (stamp sampleEnv (GenUUID draw1) adminUser) dbAdmin ∧
    ((stamp sampleEnv (GenUUID draw1) adminUser).GetId = GenUUID draw1 ∧
    ∀ name idx, (name, idx) ∈ sampleSilo.indicesOf
        (stamp sampleEnv (GenUUID draw1) adminUser).GetType.Name →
      ∀ sa, (stamp sampleEnv (GenUUID draw1) adminUser).GetAttr sampleEnv name =
          some (.simple sa) →
        ∀ v ∈ sa.Values, ∃ key, idx.convert sampleEnv v = .ok key ∧
          idx.holds key (GenUUID draw1) dbAdmin) :=
  ⟨by decide, by decide,
    insert_indexes_every_value sampleEnv sampleSilo emptyDb dbAdmin draw1 adminUser _
      (by decide) (by decide)⟩

/-! ## The index loop of `Remove` -/

theorem removeVals_other {env : Env} {idx : Index} {rid : Bytes} (vals : List Bytes)
    {tx tx1 : Tx} {o : Option PanicVal} (h : removeVals env idx rid vals tx = (tx1, o))
    (n : Bytes) (hn : n ≠ idx.BnameBytes) (hc : n ≠ BUC_COUNTS) :
    tx1.bucketOf n = tx.bucketOf n := by
  induction vals generalizing tx with
  | nil => simp [removeVals] at h; rw [h.1]
  | cons v rest ih =>
    unfold removeVals at h
    split at h
    · rename_i txa ha
      rw [ih h, remove_other ha n hn hc]
    · rename_i txa e ha
      cases h
      exact remove_other ha n hn hc
    · rename_i txa p ha
      cases h
      exact remove_other ha n hn hc

theorem removeVals_keeps_not {env : Env} {idx idx0 : Index} {rid rid0 key0 : Bytes}
    (vals : List Bytes) {tx tx1 : Tx} (hc : idx0.BnameBytes ≠ BUC_COUNTS)
    (hsame : idx.BnameBytes = idx0.BnameBytes → idx.AllowDupKey = idx0.AllowDupKey)
    (h : removeVals env idx rid vals tx = (tx1, none)) (h0 : ¬ idx0.holds key0 rid0 tx) :
    ¬ idx0.holds key0 rid0 tx1 := by
  induction vals generalizing tx with
  | nil => simp [removeVals] at h; rw [← h]; exact h0
  | cons v rest ih =>
    unfold removeVals at h
    split at h
    · rename_i txa ha
      exact ih h (remove_keeps_not hc hsame ha h0)
    · cases h
    · cases h

theorem removeVals_not_holds {env : Env} {idx : Index} {rid : Bytes} (vals : List Bytes)
    {tx tx1 : Tx} (hc : idx.BnameBytes ≠ BUC_COUNTS)
    (h : removeVals env idx rid vals tx = (tx1, none)) :
    ∀ v ∈ vals, ∀ key, idx.convert env v = .ok key → ¬ idx.holds key rid tx1 := by
  induction vals generalizing tx with
  | nil => intro v hv; cases hv
  | cons v0 rest ih =>
    unfold removeVals at h
    split at h
    · rename_i txa ha
      intro v hv key hk
      rcases List.mem_cons.1 hv with hv | hv
      · subst hv
        exact removeVals_keeps_not rest hc (fun _ => rfl) h (remove_not_holds hc ha hk)
      · exact ih h v hv key hk
    · cases h
    · cases h

theorem removeFromIndices_other {env : Env} {resource : Resource} {rid : Bytes}
    (l : List (Bytes × Index)) {tx tx1 : Tx} {o : Option PanicVal}
    (h : removeFromIndices env resource rid l tx = (tx1, o)) (n : Bytes)
    (hl : ∀ p ∈ l, n ≠ p.2.BnameBytes) (hc : n ≠ BUC_COUNTS) :
    tx1.bucketOf n = tx.bucketOf n := by
  induction l generalizing tx with
  | nil => simp [removeFromIndices] at h; rw [h.1]
  | cons p rest ih =>
    obtain ⟨name, idx⟩ := p
    have hrest : ∀ p ∈ rest, n ≠ p.2.BnameBytes := fun p hp => hl p (List.mem_cons_of_mem _ hp)
    have hidx : n ≠ idx.BnameBytes := hl (name, idx) (List.mem_cons_self _ _)
    unfold removeFromIndices at h
    split at h
    · exact ih h hrest
    · exact ih h hrest
    · split at h
      · rename_i txa p ha
        cases h
        exact removeVals_other _ ha n hidx hc
      · rename_i txa ha
        rw [ih h hrest, removeVals_other _ ha n hidx hc]

theorem removeFromIndices_keeps_not {env : Env} {idx0 : Index} {resource : Resource}
    {rid rid0 key0 : Bytes} (l : List (Bytes × Index)) {tx tx1 : Tx}
    (hc : idx0.BnameBytes ≠ BUC_COUNTS)
    (hl : ∀ p ∈ l, p.2.BnameBytes = idx0.BnameBytes → p.2.AllowDupKey = idx0.AllowDupKey)
    (h : removeFromIndices env resource rid l tx = (tx1, none))
    (h0 : ¬ idx0.holds key0 rid0 tx) : ¬ idx0.holds key0 rid0 tx1 := by
  induction l generalizing tx with
  | nil => simp [removeFromIndices] at h; rw [← h]; exact h0
  | cons p rest ih =>
    obtain ⟨name, idx⟩ := p
    have hrest : ∀ p ∈ rest, p.2.BnameBytes = idx0.BnameBytes →
        p.2.AllowDupKey = idx0.AllowDupKey := fun p hp => hl p (List.mem_cons_of_mem _ hp)
    have hidx := hl (name, idx) (List.mem_cons_self _ _)
    unfold removeFromIndices at h
    split at h
    · exact ih hrest h h0
    · exact ih hrest h h0
    · split at h
      · cases h
      · rename_i txa ha
        exact ih hrest h (removeVals_keeps_not _ hc hidx ha h0)

theorem removeFromIndices_not_holds {env : Env} {resource : Resource} {rid : Bytes}
    (l : List (Bytes × Index)) {tx tx1 : Tx}
    (hc : ∀ p ∈ l, p.2.BnameBytes ≠ BUC_COUNTS)
    (hl : ∀ p ∈ l, ∀ q ∈ l, p.2.BnameBytes = q.2.BnameBytes → p.2.AllowDupKey = q.2.AllowDupKey)
    (h : removeFromIndices env resource rid l tx = (tx1, none)) :
    ∀ name idx, (name, idx) ∈ l → ∀ sa, resource.GetAttr env name = some (.simple sa) →
      ∀ v ∈ sa.Values, ∀ key, idx.convert env v = .ok key → ¬ idx.holds key rid tx1 := by
  induction l generalizing tx with
  | nil => intro name idx hm; cases hm
  | cons p rest ih =>
    obtain ⟨name0, idx0⟩ := p
    have hc' : ∀ p ∈ rest, p.2.BnameBytes ≠ BUC_COUNTS :=
      fun p hp => hc p (List.mem_cons_of_mem _ hp)
    have hl' : ∀ p ∈ rest, ∀ q ∈ rest, p.2.BnameBytes = q.2.BnameBytes →
        p.2.AllowDupKey = q.2.AllowDupKey :=
      fun p hp q hq => hl p (List.mem_cons_of_mem _ hp) q (List.mem_cons_of_mem _ hq)
    have h0mem : (name0, idx0) ∈ (name0, idx0) :: rest := List.mem_cons_self _ _
    intro name idx hm sa hsa v hv key hk
    unfold removeFromIndices at h
    split at h
    · rename_i hattr
      rcases List.mem_cons.1 hm with hm | hm
      · cases hm; rw [hattr] at hsa; cases hsa
      · exact ih hc' hl' h name idx hm sa hsa v hv key hk
    · rename_i ca hattr
      rcases List.mem_cons.1 hm with hm | hm
      · cases hm; rw [hattr] at hsa; cases hsa
      · exact ih hc' hl' h name idx hm sa hsa v hv key hk
    · rename_i sa0 hattr
      split at h
      · cases h
      · rename_i txa ha
        rcases List.mem_cons.1 hm with hm | hm
        · cases hm
          rw [hattr] at hsa; cases hsa
          exact removeFromIndices_keeps_not rest (hc _ h0mem)
            (fun p hp => hl p (List.mem_cons_of_mem _ hp) _ h0mem) h
            (removeVals_not_holds _ (hc _ h0mem) ha v hv key hk)
        · exact ih hc' hl' h name idx hm sa hsa v hv key hk

/-! ## `Get` and `Remove` on an id without a row -/

theorem get_absent {env : Env} {sl : Silo} {db : Tx} {rid : Bytes} {rt : ResourceType}
    {buck : Bucket} (hb : db.bucketOf (sl.resourceBucket rt.Name) = some buck)
    (hg : Bucket.Get buck rid = none) : sl.Get env db rid rt = .ok (none, none) := by
  unfold Silo.Get
  simp [hb, hg]

theorem remove_absent {env : Env} {sl : Silo} {db : Tx} {rid : Bytes} {rt : ResourceType}
    {buck : Bucket} (hb : db.bucketOf (sl.resourceBucket rt.Name) = some buck)
    (hg : Bucket.Get buck rid = none) :
    sl.Remove env db rid rt = { err := some (notFoundFor rt rid), db := db, committed := true } := by
  unfold Silo.Remove Silo.removeTx
  simp [hb, hg, notFoundFor]

/-- What a committed `Remove` without error went through. -/
theorem remove_ok_steps {env : Env} {sl : Silo} {db db1 : Tx} {rid : Bytes} {rt : ResourceType}
    (h : sl.Remove env db rid rt = { err := none, db := db1, committed := true }) :
    ∃ buck resData resource tx1 buck1 b,
      db.bucketOf (sl.resourceBucket rt.Name) = some buck ∧
      Bucket.Get buck rid = some resData ∧ env.Decode resData = .ok resource ∧
      removeFromIndices env (resource.SetSchema rt) rid (sl.indicesOf rt.Name) db = (tx1, none) ∧
      tx1.bucketOf (sl.resourceBucket rt.Name) = some buck1 ∧
      Bucket.Delete buck1 rid = .ok b ∧
      db1 = tx1.setBucket (sl.resourceBucket rt.Name) b := by
  unfold Silo.Remove at h
  split at h
  · rename_i tx htx
    simp only [RemoveResult.mk.injEq, true_and, and_true] at h
    subst h
    unfold Silo.removeTx at htx
    split at htx
    · cases htx
    · rename_i buck hb
      split at htx
      · cases htx
      · rename_i resData hg
        split at htx
        · cases htx
        · split at htx
          · cases htx
          · rename_i resource hd
            split at htx
            · cases htx
            · rename_i tx1 hrem
              split at htx
              · cases htx
              · rename_i buck1 hb1
                split at htx
                · cases htx
                · rename_i b hdel
                  cases htx
                  exact ⟨buck, resData, resource, tx1, buck1, b, hb, hg, hd, hrem, hb1, hdel, rfl⟩
  · simp at h
  · simp at h

/-- After a committed `Remove` without error the row is gone. -/
theorem remove_ok_row_gone {env : Env} {sl : Silo} {db db1 : Tx} {rid : Bytes}
    {rt : ResourceType}
    (h : sl.Remove env db rid rt = { err := none, db := db1, committed := true }) :
    ∃ b, db1.bucketOf (sl.resourceBucket rt.Name) = some b ∧ Bucket.Get b rid = none := by
  obtain ⟨_, _, _, tx1, buck1, b, _, _, _, _, _, hdel, hdb⟩ := remove_ok_steps h
  exact ⟨b, by rw [hdb]; exact bucketOf_setBucket_self _ _ _, get_delete_self hdel⟩

/-- After a `Remove` of a stored resource whose transaction was committed the
row is gone and no index of the resource type holds a tuple (value, id) for a value the removed
resource had in the indexed attribute. -/
theorem remove_clears_index_tuples (env : Env) (sl : Silo) (db db1 : Tx) (rid : Bytes)
    (rt : ResourceType) (buck : Bucket) (resData : Bytes) (resource : Resource)
    (hsep : sl.Separated rt.Name)
    (hb : db.bucketOf (sl.resourceBucket rt.Name) = some buck)
    (hrow : Bucket.Get buck rid = some resData)
    (hdec : env.Decode resData = .ok resource)
    (hrem : sl.Remove env db rid rt = { err := none, db := db1, committed := true }) :
    sl.Get env db1 rid rt = .ok (none, none) ∧
    ∀ name idx, (name, idx) ∈ sl.indicesOf rt.Name →
      ∀ sa, (resource.SetSchema rt).GetAttr env name = some (.simple sa) →
        ∀ v ∈ sa.Values, ∀ key, idx.convert env v = .ok key → ¬ idx.holds key rid db1 := by
  obtain ⟨b1, hb1, hg1⟩ := remove_ok_row_gone hrem
  refine ⟨get_absent hb1 hg1, ?_⟩
  obtain ⟨buck', resData', resource', tx1, buck1, b, hb', hg', hd', hloop, _, _, hdb⟩ :=
    remove_ok_steps hrem
  rw [hb] at hb'; cases hb'
  rw [hrow] at hg'; cases hg'
  rw [hdec] at hd'; cases hd'
  obtain ⟨hc, hl⟩ := separated_index_conds hsep
  intro name idx hm sa hsa v hv key hk
  have hnot := removeFromIndices_not_holds _ hc hl hloop name idx hm sa hsa v hv key hk
  have hni : idx.BnameBytes ≠ sl.resourceBucket rt.Name := by
    intro he
    exact resourceBucket_not_index hsep rt.Name (he ▸ mem_indexBuckets hm)
  have hsame : db1.bucketOf idx.BnameBytes = tx1.bucketOf idx.BnameBytes := by
    rw [hdb]; exact bucketOf_setBucket_ne _ _ _ _ hni
  exact fun hh => hnot ((holds_congr hsame).1 hh)

/-- C6, as the code has it: `Get` of an id without a row returns no resource
and no error. -/
theorem get_absent_returns_nothing (env : Env) (sl : Silo) (db : Tx) (rid : Bytes)
    (rt : ResourceType) (buck : Bucket)
    (hb : db.bucketOf (sl.resourceBucket rt.Name) = some buck)
    (hg : Bucket.Get buck rid = none) : sl.Get env db rid rt = .ok (none, none) :=
  get_absent hb hg

theorem removeAgain_absent (env : Env) {sl : Silo} {db : Tx} {rid : Bytes} {rt : ResourceType}
    {buck : Bucket} (hb : db.bucketOf (sl.resourceBucket rt.Name) = some buck)
    (hg : Bucket.Get buck rid = none) (n : Nat) : removeAgain env sl rid rt n db = db := by
  induction n with
  | zero => rfl
  | succ n ih =>
    unfold removeAgain
    rw [remove_absent hb hg]
    exact ih

/-- After one `Remove` without error whose transaction was committed, `Get`
yields no resource, and every further `Remove` of the id returns the notFound error and leaves the
store as it is. -/
theorem remove_again_not_found (env : Env) (sl : Silo) (db db1 : Tx) (rid : Bytes)
    (rt : ResourceType)
    (hrem : sl.Remove env db rid rt = { err := none, db := db1, committed := true }) :
    sl.Get env db1 rid rt = .ok (none, none) ∧
    ∀ n, removeAgain env sl rid rt n db1 = db1 ∧
      sl.Remove env (removeAgain env sl rid rt n db1) rid rt =
        { err := some (NewNotFoundError
            (rt.Name ++ ascii " resource with ID " ++ rid ++ ascii " not found")),
          db := db1, committed := true } := by
  obtain ⟨b1, hb1, hg1⟩ := remove_ok_row_gone hrem
  refine ⟨get_absent hb1 hg1, fun n => ?_⟩
  have hn := removeAgain_absent env hb1 hg1 n
  refine ⟨hn, ?_⟩
  rw [hn]
  exact remove_absent hb1 hg1

/-! ## The row written by `Insert` -/

theorem idFresh_get {env : Env} {sl : Silo} {db : Tx} {rid refId : Bytes} {rt : ResourceType}
    {refRes : Resource} {e : Option Err} (hf : idFresh env db rid = true)
    (hg : sl.Get env db refId rt = .ok (some refRes, e)) : refRes.id ≠ rid := by
  unfold Silo.Get at hg
  split at hg
  · cases hg
  · rename_i buck hb
    split at hg
    · cases hg
    · rename_i resData hd
      split at hg
      · cases hg
      · rename_i resource hdec
        cases hg
        unfold idFresh at hf
        rw [List.all_eq_true] at hf
        have h1 := hf _ (kvGet_mem _ _ _ hb)
        rw [List.all_eq_true] at h1
        have hmem : (refId, Node.value resData) ∈ buck := by
          apply kvGet_mem
          unfold Bucket.Get at hd
          split at hd
          · rename_i v hv
            cases hd
            exact hv
          · cases hd
        have h2 := h1 _ hmem
        simp only [hdec] at h2
        simpa [Resource.SetSchema] using h2

theorem addGroup_id {env : Env} {refRes r : Resource} {rt : ResourceType} {rid : Bytes}
    (h : refRes.addGroup env rt rid = .ok r) : r.id = refRes.id ∧ r.resType = refRes.resType := by
  unfold Resource.addGroup at h
  split at h
  · unfold Resource.AddCA at h
    cases h
    exact ⟨rfl, rfl⟩
  · cases h
  · cases h
    exact ⟨rfl, rfl⟩

/-- Storing a resource under another id keeps the row of `rid`. -/
theorem storeResource_keeps_row {env : Env} {sl : Silo} {tx tx1 : Tx} {res : Resource}
    {B rid data : Bytes} {o : Option PanicVal} (h : sl.storeResource env tx res = (tx1, o))
    (hid : res.GetId ≠ rid)
    (h0 : ∃ b, tx.bucketOf B = some b ∧ Bucket.Get b rid = some data) :
    ∃ b, tx1.bucketOf B = some b ∧ Bucket.Get b rid = some data := by
  unfold Silo.storeResource at h
  split at h
  · cases h; exact h0
  · split at h
    · cases h; exact h0
    · rename_i resBucket hrb
      split at h
      · cases h; exact h0
      · rename_i b1 hput
        cases h
        by_cases hB : B = sl.resourceBucket res.GetType.Name
        · subst hB
          obtain ⟨b, hb, hg⟩ := h0
          rw [hrb] at hb; cases hb
          refine ⟨b1, bucketOf_setBucket_self _ _ _, ?_⟩
          rw [get_put_ne hput rid (fun e => hid e.symm)]
          exact hg
        · obtain ⟨b, hb, hg⟩ := h0
          exact ⟨b, by rw [bucketOf_setBucket_ne _ _ _ _ hB]; exact hb, hg⟩

theorem addBackRefs_keeps_row {env : Env} {sl : Silo} {db : Tx} {rid B data : Bytes}
    (l : List (List (Bytes × SimpleAttr))) {tx tx1 : Tx} {o : Option PanicVal}
    (hf : idFresh env db rid = true)
    (h : addBackRefs env sl db rid l tx = (tx1, o))
    (h0 : ∃ b, tx.bucketOf B = some b ∧ Bucket.Get b rid = some data) :
    ∃ b, tx1.bucketOf B = some b ∧ Bucket.Get b rid = some data := by
  induction l generalizing tx with
  | nil => simp [addBackRefs] at h; rw [← h.1]; exact h0
  | cons m rest ih =>
    unfold addBackRefs at h
    split at h
    · exact ih h h0
    · split at h
      · cases h; exact h0
      · split at h
        · cases h; exact h0
        · split at h
          · cases h; exact h0
          · split at h
            · cases h; exact h0
            · cases h; exact h0
            · rename_i refRes e hget
              have hne := idFresh_get hf hget
              split at h
              · cases h; exact h0
              · rename_i r hadd
                have hid : r.GetId ≠ rid := by
                  unfold Resource.GetId
                  rw [(addGroup_id hadd).1]; exact hne
                split at h
                · rename_i txa p hs
                  cases h
                  exact storeResource_keeps_row hs hid h0
                · rename_i txa hs
                  exact ih h (storeResource_keeps_row hs hid h0)

theorem storeResource_ok {env : Env} {sl : Silo} {tx tx1 : Tx} {res : Resource}
    (h : sl.storeResource env tx res = (tx1, none)) :
    ∃ data b, env.Encode res = .ok data ∧
      tx1.bucketOf (sl.resourceBucket res.GetType.Name) = some b ∧
      Bucket.Get b res.GetId = some data := by
  unfold Silo.storeResource at h
  split at h
  · cases h
  · rename_i data henc
    split at h
    · cases h
    · split at h
      · cases h
      · rename_i b hput
        cases h
        exact ⟨data, b, henc, bucketOf_setBucket_self _ _ _, get_put_self hput⟩

theorem get_of_row {env : Env} {sl : Silo} {db : Tx} {res : Resource} {b : Bucket}
    {data : Bytes} (hrt : env.roundTrips res = true) (henc : env.Encode res = .ok data)
    (hb : db.bucketOf (sl.resourceBucket res.GetType.Name) = some b)
    (hg : Bucket.Get b res.GetId = some data) :
    sl.Get env db res.GetId res.GetType = .ok (some res, none) := by
  unfold Env.roundTrips at hrt
  simp only [henc] at hrt
  unfold Silo.Get
  simp only [hb, hg]
  split at hrt
  · rename_i r0 hdec
    simp only [hdec]
    have : r0.SetSchema res.resType = res := by simpa using hrt
    simp [Resource.GetType, this]
  · cases hrt

/-- C8: when `Insert` succeeds, `Get` of the id of the inserted resource under
its type returns the resource `Insert` returned, which is the given resource
with read-only attributes stripped and id and meta stamped; the codec is
assumed to decode what it encoded, and the id to be carried by no stored
resource. -/
theorem insert_get_round_trip (env : Env) (sl : Silo) (db db1 : Tx) (rnd : Bytes)
    (r res : Resource) (hfresh : idFresh env db (GenUUID rnd) = true)
    (hcodec : env.roundTrips (stamp env (GenUUID rnd) r) = true)
    (hins : sl.Insert env db rnd r = .ok res db1) :
    res = stamp env (GenUUID rnd) r ∧
    sl.Get env db1 res.GetId res.GetType = .ok (some res, none) := by
  obtain ⟨hres, prIdx, tx1, tx2, _, _, hstore, hcore, htx, _⟩ := insert_ok_steps hins
  refine ⟨hres, ?_⟩
  obtain ⟨data, b, henc, hb, hg⟩ := storeResource_ok hstore
  have hrow : ∃ b, db1.bucketOf (sl.resourceBucket res.GetType.Name) = some b ∧
      Bucket.Get b res.GetId = some data := by
    unfold Silo.insertTx at htx
    rw [hcore] at htx
    simp only at htx
    split at htx
    · split at htx
      · cases htx; exact ⟨b, hb, hg⟩
      · cases htx
      · have hid : res.GetId = GenUUID rnd := by rw [hres]; rfl
        rw [hid] at hg ⊢
        exact addBackRefs_keeps_row _ hfresh htx ⟨b, hb, hg⟩
    · cases htx; exact ⟨b, hb, hg⟩
  obtain ⟨b', hb', hg'⟩ := hrow
  exact get_of_row (by rw [hres]; exact hcodec) henc hb' hg'

/-! ## The uniqueness check of `Insert` -/

theorem hasVal_error {env : Env} {idx : Index} {val : Bytes} {tx : Tx} {p : PanicVal}
    (h : idx.HasVal env val tx = .error p) : ∃ e, p = .error e := by
  unfold Index.HasVal at h
  split at h
  · rename_i p0 hc
    cases h
    unfold Index.convert at hc
    repeat' split at hc
    all_goals first
      | (cases hc; exact ⟨_, rfl⟩)
      | cases hc
  · split at h
    · rename_i p0 hg
      cases h
      unfold Index.GetRid at hg
      split at hg
      · cases hg; exact ⟨_, rfl⟩
      · split at hg <;> cases hg
    · cases h

theorem uniqueValsCheck_error {env : Env} {idx : Option Index} {saName : Bytes} {tx : Tx}
    (vals : List Bytes) {p : PanicVal} (h : uniqueValsCheck env idx saName tx vals = some p) :
    ∃ e, p = .error e := by
  induction vals with
  | nil => simp [uniqueValsCheck] at h
  | cons v rest ih =>
    unfold uniqueValsCheck at h
    split at h
    · cases h; exact ⟨_, rfl⟩
    · split at h
      · rename_i p0 hh
        cases h
        exact hasVal_error hh
      · cases h; exact ⟨_, rfl⟩
      · exact ih h

theorem uniqueCheck_error {env : Env} {idxMap : List (Bytes × Index)} {inRes : Resource}
    {tx : Tx} (names : List Bytes) {p : PanicVal}
    (h : uniqueCheck env idxMap inRes tx names = some p) : ∃ e, p = .error e := by
  induction names with
  | nil => simp [uniqueCheck] at h
  | cons n rest ih =>
    unfold uniqueCheck at h
    split at h
    · cases h; exact ⟨_, rfl⟩
    · exact ih h
    · split at h
      · rename_i p0 hh
        cases h
        exact uniqueValsCheck_error _ hh
      · exact ih h

theorem uniqueValsCheck_hit {env : Env} {idx : Index} {saName val : Bytes} {tx : Tx}
    (vals : List Bytes) (hv : val ∈ vals) (hh : idx.HasVal env val tx = .ok true) :
    uniqueValsCheck env (some idx) saName tx vals ≠ none := by
  induction vals with
  | nil => cases hv
  | cons v rest ih =>
    unfold uniqueValsCheck
    simp only
    rcases List.mem_cons.1 hv with hv | hv
    · subst hv
      rw [hh]
      simp
    · split
      · simp
      · simp
      · exact ih hv

theorem uniqueCheck_hit (env : Env) {idxMap : List (Bytes × Index)} (inRes : Resource)
    (tx : Tx) {name val : Bytes} {idx : Index} {sa : SimpleAttr} (names : List Bytes)
    (hn : name ∈ names) (hidx : kvGet name idxMap = some idx)
    (hattr : inRes.GetAttr env name = some (.simple sa)) (hv : val ∈ sa.Values)
    (hh : idx.HasVal env val tx = .ok true) :
    uniqueCheck env idxMap inRes tx names ≠ none := by
  induction names with
  | nil => cases hn
  | cons n rest ih =>
    unfold uniqueCheck
    rcases List.mem_cons.1 hn with hn | hn
    · subst hn
      rw [hattr, hidx]
      simp only
      split
      · simp
      · rename_i hnone
        exact absurd hnone (uniqueValsCheck_hit _ hv hh)
    · split
      · simp
      · exact ih hn
      · split
        · simp
        · exact ih hn

/-- What the uniqueness check of `Insert` covers: when a value of a unique
attribute of the stamped resource is bound to a resource id under its own key in the index of that
attribute, which is where `GetRid` reads and where a unique (not duplicate-key)
index keeps its tuples, `Insert` returns an error and no resource and the
store is the one before the call. -/
theorem insert_rejects_value_in_unique_index (env : Env) (sl : Silo) (db : Tx) (rnd : Bytes)
    (r : Resource) (name val key held : Bytes) (idx : Index) (sa : SimpleAttr)
    (hname : name ∈ r.resType.UniqueAts)
    (hidx : kvGet name (sl.indicesOf r.resType.Name) = some idx)
    (hattr : (stamp env (GenUUID rnd) r).GetAttr env name = some (.simple sa))
    (hval : val ∈ sa.Values) (hkey : idx.convert env val = .ok key)
    (hheld : idx.GetRid key db = .ok held) (hne : held ≠ []) :
    ∃ e, sl.Insert env db rnd r = .failed e db := by
  have hh : idx.HasVal env val db = .ok true := by
    unfold Index.HasVal
    simp only [hkey, hheld]
    cases held with
    | nil => exact absurd rfl hne
    | cons a t => simp
  have hhit := uniqueCheck_hit env (stamp env (GenUUID rnd) r) db
    r.resType.UniqueAts hname hidx hattr hval hh
  cases hu : uniqueCheck env (sl.indicesOf r.resType.Name) (stamp env (GenUUID rnd) r) db
      r.resType.UniqueAts with
  | none => exact absurd hu hhit
  | some p =>
    obtain ⟨e, rfl⟩ := uniqueCheck_error _ hu
    refine ⟨e, ?_⟩
    have hcore : sl.insertCore env db (GenUUID rnd) (stamp env (GenUUID rnd) r) =
        (db, some (.error e)) := by
      unfold Silo.insertCore
      simp only [Resource.GetType, stamp_resType, hu]
    unfold Silo.Insert Silo.insertTx
    simp only [hcore]

/-! ## The member loop of `Insert` -/

theorem get_some_type {env : Env} {sl : Silo} {db : Tx} {rid : Bytes} {rt : ResourceType}
    {m : Resource} {e : Option Err} (h : sl.Get env db rid rt = .ok (some m, e)) :
    m.resType = rt ∧ e = none := by
  unfold Silo.Get at h
  split at h
  · cases h
  · split at h
    · cases h
    · split at h
      · cases h
      · cases h
        exact ⟨rfl, rfl⟩

theorem any_append_last {α : Type} (f : α → Bool) (l : List α) (a : α) (h : f a = true) :
    (l ++ [a]).any f = true := by
  simp [List.any_append, h]

theorem backRef_value (rt : ResourceType) (rid : Bytes) :
    (match kvGet (ascii "value") (toSubAtMap (backRef rt rid)) with
      | some sa => sa.Values.contains rid
      | none => false) = true := by
  have : kvGet (ascii "value") (toSubAtMap (backRef rt rid)) =
      some { Name := ascii "value", Values := [rid] } := by
    simp [toSubAtMap, backRef, kvGet]
  rw [this]
  simp

theorem addGroup_hasGroup {env : Env} {m m1 : Resource} {rt : ResourceType} {rid : Bytes}
    (h : m.addGroup env rt rid = .ok m1) : m1.hasGroup env rid = true := by
  unfold Resource.addGroup at h
  split at h
  · unfold Resource.AddCA at h
    cases h
    unfold Resource.hasGroup Resource.GetAttr Resource.setAttr
    simp only [kvGet_kvPut_self]
    simp only [List.any_cons, List.any_nil, Bool.or_false]
    exact backRef_value rt rid
  · cases h
  · rename_i ca _
    cases h
    unfold Resource.hasGroup Resource.GetAttr Resource.setAttr
    simp only [kvGet_kvPut_self]
    unfold ComplexAttr.AddSubAts
    exact any_append_last _ _ _ (backRef_value rt rid)

/-- C9, as the code has it: a member given by value without `$ref` is looked
up under the default type `Group`.  When `Insert` of a group whose `members`
is one such entry succeeds, the value named a resource stored under type
`Group` before the call, and that resource is stored again with a `groups`
entry whose value is the id of the new group; `Get` returns it under the
member id when rows are stored under their id and the codec decodes what it
encoded. -/
theorem insert_group_backref_default_type (env : Env) (sl : Silo) (db db1 : Tx) (rnd : Bytes)
    (g res : Resource) (ca : ComplexAttr) (vname mid : Bytes)
    (hT : g.resType.Name = ascii "Group")
    (hmem : (stamp env (GenUUID rnd) g).GetAttr env (ascii "members") = some (.complex ca))
    (hca : ca.SubAts = [[(ascii "value", { Name := vname, Values := [mid] })]])
    (hins : sl.Insert env db rnd g = .ok res db1) :
    ∃ grt m m1, kvGet (ascii "Group") sl.restypes = some grt ∧
      sl.Get env db mid grt = .ok (some m, none) ∧
      m.addGroup env grt (GenUUID rnd) = .ok m1 ∧
      m1.hasGroup env (GenUUID rnd) = true ∧
      (m.GetId = mid → env.roundTrips m1 = true →
        sl.Get env db1 mid grt = .ok (some m1, none)) := by
  obtain ⟨hres, prIdx, tx1, tx2, _, _, _, hcore, htx, _⟩ := insert_ok_steps hins
  subst hres
  unfold Silo.insertTx at htx
  rw [hcore] at htx
  have hT' : (stamp env (GenUUID rnd) g).GetType.Name = ascii "Group" := hT
  simp only [hT', if_true, hmem, hca] at htx
  unfold addBackRefs at htx
  have hv : kvGet (ascii "value") [(ascii "value", ({ Name := vname, Values := [mid] } : SimpleAttr))]
      = some { Name := vname, Values := [mid] } := by simp [kvGet]
  have hr : refTypeOf [(ascii "value", ({ Name := vname, Values := [mid] } : SimpleAttr))]
      = .ok (ascii "Group") := by
    unfold refTypeOf
    have : kvGet (ascii "$ref") [(ascii "value", ({ Name := vname, Values := [mid] } : SimpleAttr))]
        = none := by
      simp [kvGet]; decide
    rw [this]
  simp only [hv, hr] at htx
  split at htx
  · cases htx
  · rename_i grt hG
    split at htx
    · cases htx
    · cases htx
    · rename_i m e hget
      obtain ⟨hmt, he⟩ := get_some_type hget
      subst he
      split at htx
      · cases htx
      · rename_i m1 hadd
        split at htx
        · cases htx
        · rename_i tx3 hstore
          simp only [addBackRefs] at htx
          cases htx
          refine ⟨grt, m, m1, hG, hget, hadd, addGroup_hasGroup hadd, ?_⟩
          intro hid hrt
          obtain ⟨data, b, henc, hb, hg⟩ := storeResource_ok hstore
          have h1 := get_of_row hrt henc hb hg
          have hid1 : m1.GetId = mid := by
            unfold Resource.GetId at hid ⊢
            rw [(addGroup_id hadd).1]; exact hid
          have ht1 : m1.GetType = grt := by
            unfold Resource.GetType
            rw [(addGroup_id hadd).2]; exact hmt
          rw [hid1, ht1] at h1
          exact h1

/-! ## The operations on the sample configuration -/

set_option maxRecDepth 1000000 in
/-- C1, at the failing input: the MAC id `6a` of a stored device is held in the
index of the unique, multi-valued attribute `macIds`, and `Insert` of a second
device with the same MAC id returns a resource and no error, and changes the
store: the check reads the index with `GetRid`, which finds nothing under the
key of a nested bucket. -/
theorem insert_accepts_value_in_dupkey_index :
    ascii "macids" ∈ deviceType.UniqueAts ∧
    (stringIndex (ascii "Device") (ascii "macids") true).GetRids (ascii "6a") dbDevice =
      .ok [GenUUID draw1] ∧
    sampleSilo.Get sampleEnv dbDevice (GenUUID draw1) deviceType =
      .ok (some (stamp sampleEnv (GenUUID draw1) deviceA), none) ∧
    sampleSilo.Insert sampleEnv dbDevice draw2 deviceA =
      .ok (stamp sampleEnv (GenUUID draw2) deviceA) dbDevice2 ∧
    dbDevice2 ≠ dbDevice := by decide

set_option maxRecDepth 1000000 in
theorem insert_rejects_value_in_unique_index_witness :
    ascii "username" ∈ adminUser.resType.UniqueAts ∧
    (stringIndex (ascii "User") (ascii "username") false).GetRid (ascii "admin") dbAdmin =
      .ok (GenUUID draw1) ∧
    ∃ e, sampleSilo.Insert sampleEnv dbAdmin draw2 adminUser = .failed e dbAdmin :=
  ⟨by decide, by decide,
    insert_rejects_value_in_unique_index sampleEnv sampleSilo dbAdmin draw2 adminUser
      (ascii "username") (ascii "admin") (ascii "admin") (GenUUID draw1)
      (stringIndex (ascii "User") (ascii "username") false)
      { Name := ascii "userName", Values := [ascii "admin"] }
      (by decide) (by decide) (by decide) (by decide) (by decide) (by decide) (by decide)⟩

set_option maxRecDepth 1000000 in
/-- C2, at the failing input: the second `Insert` of a user named `admin` fails
with the error built by `fmt.Errorf`, a plain error and no SCIM error. -/
theorem insert_duplicate_userName_plain_error :
    sampleSilo.Insert sampleEnv dbAdmin draw2 adminUser =
      .failed (.fmt (uniquenessMsg (ascii "admin") (ascii "userName"))) dbAdmin := by decide

set_option maxRecDepth 1000000 in
theorem remove_clears_index_tuples_witness :
    sampleSilo.Separated userType.Name ∧
    dbAdmin.bucketOf (sampleSilo.resourceBucket userType.Name) = some usersOfDbAdmin ∧
    Bucket.Get usersOfDbAdmin (GenUUID draw1) = some (encRes adminStamped) ∧
    sampleSilo.Remove sampleEnv dbAdmin (GenUUID draw1) userType =
      { err := none, db := dbAdminRemoved, committed := true } ∧
    (sampleSilo.Get sampleEnv dbAdminRemoved (GenUUID draw1) userType = .ok (none, none) ∧
    ∀ name idx, (name, idx) ∈ sampleSilo.indicesOf userType.Name →
      ∀ sa, (adminDecoded.SetSchema userType).GetAttr sampleEnv name = some (.simple sa) →
        ∀ v ∈ sa.Values, ∀ key, idx.convert sampleEnv v = .ok key →
          ¬ idx.holds key (GenUUID draw1) dbAdminRemoved) :=
  ⟨by decide, by decide, by decide, by decide,
    remove_clears_index_tuples sampleEnv sampleSilo dbAdmin dbAdminRemoved (GenUUID draw1)
      userType usersOfDbAdmin (encRes adminStamped) adminDecoded
      (by decide) (by decide) (by decide) (by decide) (by decide)⟩

set_option maxRecDepth 1000000 in
/-- C5, at the failing input: after `Insert` of `admin` and `Remove` of its id,
the presence index still lists the id under `username` and its count is 1, not
the 0 it was before the `Insert`. -/
theorem presence_entry_survives_remove :
    sampleSilo.Insert sampleEnv emptyDb draw1 adminUser = .ok adminStamped dbAdmin ∧
    sampleSilo.Remove sampleEnv dbAdmin (GenUUID draw1) userType =
      { err := none, db := dbAdminRemoved, committed := true } ∧
    (presenceIndex (ascii "User")).GetRids (ascii "username") dbAdminRemoved =
      .ok [GenUUID draw1] ∧
    (presenceIndex (ascii "User")).getCount emptyDb = .ok 0 ∧
    (presenceIndex (ascii "User")).getCount dbAdminRemoved = .ok 1 := by decide

set_option maxRecDepth 1000000 in
/-- C6, counterexample: the new store has no row for the id, and `Get` returns
no resource and a nil error. -/
theorem get_absent_no_error :
    emptyDb.bucketOf (sampleSilo.resourceBucket userType.Name) = some [] ∧
    sampleSilo.Get sampleEnv emptyDb (GenUUID draw1) userType = .ok (none, none) := by decide

set_option maxRecDepth 1000000 in
theorem get_absent_returns_nothing_witness :
    dbAdmin.bucketOf (sampleSilo.resourceBucket userType.Name) = some usersOfDbAdmin ∧
    Bucket.Get usersOfDbAdmin (GenUUID draw2) = none ∧
    sampleSilo.Get sampleEnv dbAdmin (GenUUID draw2) userType = .ok (none, none) :=
  ⟨by decide, by decide,
    get_absent_returns_nothing sampleEnv sampleSilo dbAdmin (GenUUID draw2) userType
      usersOfDbAdmin (by decide) (by decide)⟩

set_option maxRecDepth 1000000 in
theorem remove_again_not_found_witness :
    sampleSilo.Remove sampleEnv dbAdmin (GenUUID draw1) userType =
      { err := none, db := dbAdminRemoved, committed := true } ∧
    (sampleSilo.Get sampleEnv dbAdminRemoved (GenUUID draw1) userType = .ok (none, none) ∧
    ∀ n, removeAgain sampleEnv sampleSilo (GenUUID draw1) userType n dbAdminRemoved =
        dbAdminRemoved ∧
      sampleSilo.Remove sampleEnv
          (removeAgain sampleEnv sampleSilo (GenUUID draw1) userType n dbAdminRemoved)
          (GenUUID draw1) userType =
        { err := some (NewNotFoundError
            (userType.Name ++ ascii " resource with ID " ++ GenUUID draw1 ++ ascii " not found")),
          db := dbAdminRemoved, committed := true }) :=
  ⟨by decide,
    remove_again_not_found sampleEnv sampleSilo dbAdmin dbAdminRemoved (GenUUID draw1) userType
      (by decide)⟩

set_option maxRecDepth 1000000 in
theorem insert_get_round_trip_witness :
    idFresh sampleEnv emptyDb (GenUUID draw1) = true ∧
    sampleEnv.roundTrips (stamp sampleEnv (GenUUID draw1) adminUser) = true ∧
    sampleSilo.Insert sampleEnv emptyDb draw1 adminUser = .ok adminStamped dbAdmin ∧
    (adminStamped = stamp sampleEnv (GenUUID draw1) adminUser ∧
    sampleSilo.Get sampleEnv dbAdmin adminStamped.GetId adminStamped.GetType =
      .ok (some adminStamped, none)) :=
  ⟨by decide, by decide, by decide,
    insert_get_round_trip sampleEnv sampleSilo emptyDb dbAdmin draw1 adminUser adminStamped
      (by decide) (by decide) (by decide)⟩

set_option maxRecDepth 1000000 in
/-- C9, counterexample: `admin` is a stored user, and `Insert` of a group whose
`members` is `admin` by value, without `$ref`, fails: the member is looked up
under type `Group`; the store is left as it was. -/
theorem insert_group_user_member_fails :
    sampleSilo.Get sampleEnv dbAdmin (GenUUID draw1) userType = .ok (some adminStamped, none) ∧
    adminsGroup.attrs = [membersAttr [[oneValue (ascii "value") (GenUUID draw1)]]] ∧
    sampleSilo.Insert sampleEnv dbAdmin draw2 adminsGroup =
      .failed (.fmt (ascii "There is no resource with the referenced value " ++ GenUUID draw1))
        dbAdmin := by decide

set_option maxRecDepth 1000000 in
theorem insert_group_backref_default_type_witness :
    parentGroup.resType.Name = ascii "Group" ∧
    (stamp sampleEnv (GenUUID draw2) parentGroup).GetAttr sampleEnv (ascii "members") =
      some (.complex membersByValue) ∧
    membersByValue.SubAts =
      [[(ascii "value", { Name := ascii "value", Values := [GenUUID draw1] })]] ∧
    sampleSilo.Insert sampleEnv dbStaff draw2 parentGroup =
      .ok (stamp sampleEnv (GenUUID draw2) parentGroup) dbParent ∧
    ∃ grt m m1, kvGet (ascii "Group") sampleSilo.restypes = some grt ∧
      sampleSilo.Get sampleEnv dbStaff (GenUUID draw1) grt = .ok (some m, none) ∧
      m.addGroup sampleEnv grt (GenUUID draw2) = .ok m1 ∧
      m1.hasGroup sampleEnv (GenUUID draw2) = true ∧
      (m.GetId = GenUUID draw1 → sampleEnv.roundTrips m1 = true →
        sampleSilo.Get sampleEnv dbParent (GenUUID draw1) grt = .ok (some m1, none)) :=
  ⟨by decide, by decide, by decide, by decide,
    insert_group_backref_default_type sampleEnv sampleSilo dbStaff dbParent draw2 parentGroup
      (stamp sampleEnv (GenUUID draw2) parentGroup) membersByValue (ascii "value")
      (GenUUID draw1) (by decide) (by decide) (by decide) (by decide)⟩

set_option maxRecDepth 1000000 in
/-- C10, at the failing input: a group is inserted with the user `admin` as a
member, then removed; the group is gone, and the stored `admin` still has the
`groups` entry whose value is the id of the group. -/
theorem group_backref_survives_remove :
    sampleSilo.Insert sampleEnv dbAdmin draw2 adminsGroupRef =
      .ok (stamp sampleEnv (GenUUID draw2) adminsGroupRef) dbGroup ∧
    gotWithGroup sampleEnv (sampleSilo.Get sampleEnv dbGroup (GenUUID draw1) userType)
      (GenUUID draw2) = true ∧
    sampleSilo.Remove sampleEnv dbGroup (GenUUID draw2) groupType =
      { err := none, db := dbGroupRemoved, committed := true } ∧
    sampleSilo.Get sampleEnv dbGroupRemoved (GenUUID draw2) groupType = .ok (none, none) ∧
    gotWithGroup sampleEnv (sampleSilo.Get sampleEnv dbGroupRemoved (GenUUID draw1) userType)
      (GenUUID draw2) = true := by decide

/-! ## The integer codec of utils.go -/

theorem lor_one_even (k : Nat) : (2 * k) ||| 1 = 2 * k + 1 := by
  apply Nat.eq_of_testBit_eq
  intro i
  rw [Nat.testBit_lor]
  cases i with
  | zero => simp; omega
  | succ j =>
    simp only [Nat.testBit_succ]
    have h1 : 2 * k / 2 = k := by omega
    have h2 : (2 * k + 1) / 2 = k := by omega
    have h3 : (1 : Nat) / 2 = 0 := by omega
    simp [h1, h2, h3]

theorem decode_encode (v : Nat) (h : v < two64) : decodeUint (encodeUint v) = some v := by
  unfold decodeUint encodeUint
  simp only [encodeLoop, List.length_cons, List.length_nil, List.foldl_cons, List.foldl_nil]
  unfold two64 at *
  simp
  omega

theorem encodeLoop_bigEndian (n v : Nat) (acc : Bytes) :
    encodeLoop n v acc = bigEndian n v ++ acc := by
  induction n generalizing v acc with
  | zero => simp [encodeLoop, bigEndian]
  | succ n ih => simp [encodeLoop, bigEndian, ih]

theorem encodeUint_bigEndian (v : Nat) (h : v < two64) : encodeUint v = bigEndian 8 v := by
  unfold encodeUint
  rw [encodeLoop_bigEndian, Nat.mod_eq_of_lt h]
  simp

theorem bigEndian_length (n v : Nat) : (bigEndian n v).length = n := by
  induction n generalizing v with
  | zero => simp [bigEndian]
  | succ n ih => simp [bigEndian, ih]

/-- The word `Itob` encodes for a value that is not negative. -/
theorem itob_nonneg (i : Int) (h0 : 0 ≤ i) (h1 : i < two63) :
    Itob i = encodeUint (2 * i.toNat) ∧ 2 * i.toNat < two64 := by
  unfold Itob
  have hlt : 2 * i.toNat < two64 := by unfold two63 at h1; unfold two64; omega
  have : ¬ i < 0 := by omega
  simp only [this, if_false]
  rw [Nat.mul_comm, Nat.mod_eq_of_lt hlt]
  exact ⟨rfl, hlt⟩

/-- The word `Itob` encodes for a negative value. -/
theorem itob_neg (i : Int) (h0 : -(two63 : Int) ≤ i) (h1 : i < 0) :
    Itob i = encodeUint (2 * (-i - 1).toNat + 1) ∧ 2 * (-i - 1).toNat + 1 < two64 := by
  unfold Itob
  have hlt : 2 * (-i - 1).toNat + 1 < two64 := by unfold two63 at h0; unfold two64; omega
  have hlt2 : (-i - 1).toNat * 2 < two64 := by omega
  simp only [h1, if_true]
  rw [Nat.mod_eq_of_lt hlt2, Nat.mul_comm, lor_one_even]
  exact ⟨rfl, hlt⟩

theorem btoi_itob (i : Int) (h0 : -(two63 : Int) ≤ i) (h1 : i < two63) :
    Btoi (Itob i) = some i := by
  unfold Btoi
  by_cases hneg : i < 0
  · obtain ⟨he, hlt⟩ := itob_neg i h0 hneg
    rw [he, decode_encode _ hlt]
    have hodd : (2 * (-i - 1).toNat + 1) % 2 ≠ 0 := by omega
    have hdiv : (2 * (-i - 1).toNat + 1) / 2 = (-i - 1).toNat := by omega
    simp only [hodd, ne_eq, not_false_eq_true, if_true, hdiv]
    congr 1
    omega
  · obtain ⟨he, hlt⟩ := itob_nonneg i (by omega) h1
    rw [he, decode_encode _ hlt]
    have heven : ¬ (2 * i.toNat) % 2 ≠ 0 := by omega
    have hdiv : (2 * i.toNat) / 2 = i.toNat := by omega
    simp only [heven, if_false, hdiv]
    congr 1
    omega

theorem itob_length (i : Int) : (Itob i).length = 8 := by
  unfold Itob
  split <;> simp [encodeUint, encodeLoop]

theorem wrapInt64_range (i : Int) :
    -(two63 : Int) ≤ wrapInt64 i ∧ wrapInt64 i < two63 := by
  unfold wrapInt64 two63 two64
  omega

theorem wrapInt64_id (i : Int) (h0 : -(two63 : Int) ≤ i) (h1 : i < two63) :
    wrapInt64 i = i := by
  unfold wrapInt64 two64
  unfold two63 at *
  omega

/-- C17: for every int64 `i`, `Itob i` is 8 bytes long and is the big-endian
encoding of the zig-zag image of `i`, the image being `(~i << 1) | 1` for
`i < 0` and `i << 1` for `i >= 0`, modulo 2^64. -/
theorem itob_is_big_endian_zigzag (i : Int) (hlo : -(two63 : Int) ≤ i) (hhi : i < two63) :
    (Itob i).length = 8 ∧ Itob i = bigEndian 8 (zigzag i) := by
  refine ⟨itob_length i, ?_⟩
  unfold zigzag
  by_cases hneg : i < 0
  · obtain ⟨he, hlt⟩ := itob_neg i hlo hneg
    rw [he, encodeUint_bigEndian _ hlt]
    simp only [hneg, if_true]
    have hz : shl64 (not64 (toUint64 i)) = 2 * (-i - 1).toNat := by
      unfold shl64 not64 toUint64 two64
      unfold two63 at hlo
      omega
    rw [hz, lor_one_even]
  · obtain ⟨he, hlt⟩ := itob_nonneg i (by omega) hhi
    rw [he, encodeUint_bigEndian _ hlt]
    simp only [hneg, if_false]
    have hz : shl64 (toUint64 i) = 2 * i.toNat := by
      unfold shl64 toUint64 two64
      unfold two63 at hhi
      omega
    rw [hz]

theorem itob_is_big_endian_zigzag_witness :
    -(two63 : Int) ≤ -5 ∧ (-5 : Int) < two63 ∧
    ((Itob (-5)).length = 8 ∧ Itob (-5) = bigEndian 8 (zigzag (-5))) :=
  ⟨by decide, by decide, itob_is_big_endian_zigzag (-5) (by decide) (by decide)⟩

/-! ## Order of the encoded keys -/

theorem bytesLt_irrefl (xs : Bytes) : bytesLt xs xs = false := by
  induction xs with
  | nil => rfl
  | cons a t ih => simp [bytesLt, ih]

theorem bytesLt_append_last (xs : Bytes) (a b : Nat) (h : a < b) :
    bytesLt (xs ++ [a]) (xs ++ [b]) = true := by
  induction xs with
  | nil => simp [bytesLt, h]
  | cons x t ih => simp [bytesLt, ih]

theorem bytesLt_append_of_lt (xs ys s t : Bytes) (hl : xs.length = ys.length)
    (h : bytesLt xs ys = true) : bytesLt (xs ++ s) (ys ++ t) = true := by
  induction xs generalizing ys with
  | nil =>
    cases ys with
    | nil => simp [bytesLt] at h
    | cons y ys => simp at hl
  | cons x xs ih =>
    cases ys with
    | nil => simp at hl
    | cons y ys =>
      simp only [List.length_cons, Nat.add_right_cancel_iff] at hl
      simp only [bytesLt, List.cons_append] at h ⊢
      by_cases h1 : x < y
      · simp [h1]
      · by_cases h2 : y < x
        · simp [h1, h2] at h
        · simp only [h1, h2, if_false] at h ⊢
          exact ih ys hl h

theorem bigEndian_lt (n u v : Nat) (hv : v < 256 ^ n) (h : u < v) :
    bytesLt (bigEndian n u) (bigEndian n v) = true := by
  induction n generalizing u v with
  | zero => simp at hv; omega
  | succ n ih =>
    simp only [bigEndian]
    have hv' : v / 256 < 256 ^ n := by
      apply Nat.div_lt_of_lt_mul
      rw [pow_succ] at hv
      omega
    by_cases hd : u / 256 < v / 256
    · exact bytesLt_append_of_lt _ _ _ _ (by simp [bigEndian_length]) (ih _ _ hv' hd)
    · have he : u / 256 = v / 256 := by omega
      rw [he]
      exact bytesLt_append_last _ _ _ (by omega)

/-- C18: the integer key encoding keeps the order of values that are not
negative and inverts the order of negative values. -/
theorem itob_order (a b : Int) :
    (0 ≤ a → a < b → b < two63 → bytesLt (Itob a) (Itob b) = true) ∧
    (-(two63 : Int) ≤ a → a < b → b < 0 → bytesLt (Itob b) (Itob a) = true) := by
  have h256 : (256 : Nat) ^ 8 = two64 := by unfold two64; norm_num
  constructor
  · intro h0 hab hb
    obtain ⟨hea, hla⟩ := itob_nonneg a h0 (by omega)
    obtain ⟨heb, hlb⟩ := itob_nonneg b (by omega) hb
    rw [hea, heb, encodeUint_bigEndian _ hla, encodeUint_bigEndian _ hlb]
    exact bigEndian_lt 8 _ _ (by rw [h256]; exact hlb) (by omega)
  · intro h0 hab hb
    obtain ⟨hea, hla⟩ := itob_neg a h0 (by omega)
    obtain ⟨heb, hlb⟩ := itob_neg b (by omega) hb
    rw [hea, heb, encodeUint_bigEndian _ hla, encodeUint_bigEndian _ hlb]
    exact bigEndian_lt 8 _ _ (by rw [h256]; exact hla) (by omega)

theorem itob_order_witness :
    (0 : Int) ≤ 3 ∧ (3 : Int) < 500 ∧ (500 : Int) < two63 ∧
    bytesLt (Itob 3) (Itob 500) = true ∧
    -(two63 : Int) ≤ -500 ∧ (-500 : Int) < -3 ∧ (-3 : Int) < 0 ∧
    bytesLt (Itob (-3)) (Itob (-500)) = true :=
  ⟨by decide, by decide, by decide, (itob_order 3 500).1 (by decide) (by decide) (by decide),
    by decide, by decide, by decide,
    (itob_order (-500) (-3)).2 (by decide) (by decide) (by decide)⟩

/-! ## Remove after a rollback, the datetime codec, index creation -/

set_option maxRecDepth 1000000 in
/-- C11, at the failing input: the store holds a device with a value of
`repairDates`, the index on that attribute was configured afterwards.
`Remove` of the device panics in the index loop (`convert` of a datetime),
the deferred handler rolls back, and `Remove` returns a nil error although
nothing was removed: the device is still read by `Get`. -/
theorem remove_rollback_returns_nil :
    (datedSilo.removeTx sampleEnv dbDated (GenUUID draw1) deviceType).2 =
      .panic (.error (.fmt (ascii "Yet to support converting datetime to int64"))) ∧
    datedSilo.Remove sampleEnv dbDated (GenUUID draw1) deviceType =
      { err := none, db := dbDated, committed := false } ∧
    ((datedSilo.Get sampleEnv dbDated (GenUUID draw1) deviceType).toOption.bind
      Prod.fst).isSome = true := by decide

/-- C19: on an index whose value type is `datetime`, `convert` panics for every
value, with the error `Yet to support converting datetime to int64`; no key is
returned. -/
theorem convert_datetime_panics (env : Env) (idx : Index) (val : Bytes)
    (h : idx.ValType = ascii "datetime") :
    idx.convert env val =
      .error (.error (.fmt (ascii "Yet to support converting datetime to int64"))) := by
  unfold Index.convert
  rw [h]
  simp only [show ¬ (ascii "datetime" = ascii "string") by decide,
    show ¬ (ascii "datetime" = ascii "boolean") by decide,
    show ¬ (ascii "datetime" = ascii "binary" ∨ ascii "datetime" = ascii "reference") by decide,
    show ¬ (ascii "datetime" = ascii "integer") by decide, if_false, if_true]

theorem convert_datetime_panics_witness :
    dateIndex.ValType = ascii "datetime" ∧
    dateIndex.convert sampleEnv (ascii "2016-05-28T14:19:14Z") =
      .error (.error (.fmt (ascii "Yet to support converting datetime to int64"))) :=
  ⟨by decide, convert_datetime_panics sampleEnv dateIndex (ascii "2016-05-28T14:19:14Z")
    (by decide)⟩

/-- C20, counterexample: the index created for a multi-valued sub-attribute of
a single-valued complex attribute does not allow duplicate keys. -/
theorem subattribute_index_follows_parent :
    altitudesType.MultiValued = true ∧
    (Silo.createIndexBucket sampleEnv emptyDb (ascii "Device") (ascii "location.altitudes")
      altitudesType false []).toOption.map (fun r => (r.isNewIndex, r.idx.AllowDupKey)) =
      some (true, false) := by decide

/-- C20, amended: the index `createIndexBucket` returns allows duplicate keys
exactly when the complex parent of the attribute type is multi-valued, and, for
an attribute type without parent, exactly when the attribute type itself is
multi-valued. -/
theorem createIndexBucket_allowDupKey (env : Env) (db : Tx) (resourceName attrName : Bytes)
    (atp : AttrType) (sysIdx : Bool) (resIdxMap : List (Bytes × Index))
    (r : CreateIndexResult)
    (h : Silo.createIndexBucket env db resourceName attrName atp sysIdx resIdxMap = .ok r) :
    (∀ p, atp.Parent = some p → (r.idx.AllowDupKey = true ↔ p.MultiValued = true)) ∧
    (atp.Parent = none → (r.idx.AllowDupKey = true ↔ atp.MultiValued = true)) := by
  have hidx : r.idx = Silo.newIndex env resourceName attrName atp sysIdx := by
    unfold Silo.createIndexBucket at h
    split at h
    · cases h; rfl
    · split at h
      · cases h; rfl
      · split at h
        · cases h
        · cases h; rfl
  rw [hidx]
  constructor
  · intro p hp
    simp [Silo.newIndex, hp]
  · intro hp
    simp [Silo.newIndex, hp]

set_option maxRecDepth 1000000 in
theorem createIndexBucket_allowDupKey_witness :
    ∃ r, Silo.createIndexBucket sampleEnv dbDated0 (ascii "Device") (ascii "repairDates")
        repairDatesType false [(ascii "macids", macIndex)] = .ok r ∧
      ((∀ p, repairDatesType.Parent = some p →
          (r.idx.AllowDupKey = true ↔ p.MultiValued = true)) ∧
       (repairDatesType.Parent = none →
          (r.idx.AllowDupKey = true ↔ repairDatesType.MultiValued = true))) :=
  ⟨{ isNewIndex := true, idx := dateIndex, err := none, db := dbDated,
     resIdxMap := [(ascii "macids", macIndex), (ascii "repairdates", dateIndex)] },
   by decide,
   createIndexBucket_allowDupKey sampleEnv dbDated0 (ascii "Device") (ascii "repairDates")
     repairDatesType false [(ascii "macids", macIndex)] _ (by decide)⟩

/-! ## The total of an index in the counts bucket -/

theorem getCount_setBucket_ne (idx : Index) (tx : Tx) (n : Bytes) (b : Bucket)
    (hn : BUC_COUNTS ≠ n) : idx.getCount (tx.setBucket n b) = idx.getCount tx := by
  unfold Index.getCount
  rw [bucketOf_setBucket_ne _ _ _ _ hn]

/-- The total read back after the counts bucket was given a new entry. -/
theorem getCount_written (idx : Index) (tx : Tx) (cb : Bucket) (x : Int) :
    idx.getCount (tx.setBucket BUC_COUNTS
      (kvPut idx.BnameBytes (.value (Itob (wrapInt64 x))) cb)) = .ok (wrapInt64 x) := by
  unfold Index.getCount
  rw [bucketOf_setBucket_self]
  simp only [Bucket.Get, kvGet_kvPut_self]
  rw [btoi_itob _ (wrapInt64_range x).1 (wrapInt64_range x).2]

/-- What a successful update of the total has done. -/
theorem bumpCount_inv {idx : Index} {d : Int} {tx tx1 : Tx}
    (h : idx.bumpCount d tx = (tx1, .nil)) :
    ∃ cb c, tx.bucketOf BUC_COUNTS = some cb ∧ idx.getCount tx = .ok c ∧
      tx1 = tx.setBucket BUC_COUNTS
        (kvPut idx.BnameBytes (.value (Itob (wrapInt64 (c + d)))) cb) ∧
      idx.getCount tx1 = .ok (wrapInt64 (c + d)) := by
  unfold Index.bumpCount at h
  split at h
  · cases h
  · rename_i c hc
    split at h
    · cases h
    · rename_i cb hcb
      split at h
      · cases h
      · rename_i b hp
        have hb : b = kvPut idx.BnameBytes (.value (Itob (wrapInt64 (c + d)))) cb := by
          unfold Bucket.Put at hp
          repeat' split at hp
          all_goals first
            | (cases hp; rfl)
            | cases hp
        cases h
        subst hb
        exact ⟨cb, c, hcb, hc, rfl, getCount_written idx tx cb _⟩

/-- The update of the total succeeds when the counts bucket can take the entry. -/
theorem bumpCount_nil {idx : Index} (d : Int) {tx : Tx} {cb : Bucket} {c : Int}
    (hcb : tx.bucketOf BUC_COUNTS = some cb) (hc : idx.getCount tx = .ok c)
    (hk : idx.BnameBytes ≠ []) (hl : idx.BnameBytes.length ≤ MaxKeySize)
    (hn : Bucket.Nested cb idx.BnameBytes = none) :
    idx.bumpCount d tx = (tx.setBucket BUC_COUNTS
      (kvPut idx.BnameBytes (.value (Itob (wrapInt64 (c + d)))) cb), .nil) := by
  unfold Index.bumpCount
  rw [hc]
  simp only [hcb]
  have hp : Bucket.Put cb idx.BnameBytes (Itob (wrapInt64 (c + d))) =
      .ok (kvPut idx.BnameBytes (.value (Itob (wrapInt64 (c + d)))) cb) := by
    unfold Bucket.Put
    have h8 : ¬ (Itob (wrapInt64 (c + d))).length > MaxValueSize := by
      rw [itob_length]; decide
    rw [if_neg hk, if_neg (by omega), if_neg h8]
    unfold Bucket.Nested at hn
    split
    · rename_i kvs hg
      rw [hg] at hn
      cases hn
    · rfl
  rw [hp]

/-! ## A unique index keeps one resource id per key -/

set_option maxRecDepth 1000000 in
/-- C15, counterexample: on the unique index of `displayName`, which maps
`staff` to the first id, `add("staff", second id)` returns nil, the key now
answers the second id, and the total went from 1 to 2. -/
theorem add_overwrites_other_rid :
    displayIndex.AllowDupKey = false ∧ ridA ≠ ridB ∧
    displayIndex.GetRid (ascii "staff") dbStaffKey = .ok ridA ∧
    displayIndex.getCount dbStaffKey = .ok 1 ∧
    (displayIndex.add sampleEnv (ascii "staff") ridB dbStaffKey).2 = .nil ∧
    displayIndex.GetRid (ascii "staff")
      (displayIndex.add sampleEnv (ascii "staff") ridB dbStaffKey).1 = .ok ridB ∧
    displayIndex.getCount
      (displayIndex.add sampleEnv (ascii "staff") ridB dbStaffKey).1 = .ok 2 := by decide

/-- C15, amended: on a unique index whose bucket maps the encoded value to some
resource id, `add(val, rid)` with a key and an id the engine accepts returns
nil; afterwards the key answers `rid`, every other key answers what it did
before, and the total of the index is one more than before. -/
theorem add_unique_replaces (env : Env) (idx : Index) (val rid key old : Bytes) (tx : Tx)
    (buck cb : Bucket) (c : Int)
    (hu : idx.AllowDupKey = false) (hB : idx.BnameBytes ≠ BUC_COUNTS)
    (hk : idx.convert env val = .ok key)
    (hb : tx.bucketOf idx.BnameBytes = some buck)
    (hold : Bucket.Get buck key = some old)
    (hkey : key ≠ [] ∧ key.length ≤ MaxKeySize) (hrid : rid.length ≤ MaxValueSize)
    (hcb : tx.bucketOf BUC_COUNTS = some cb) (hc : idx.getCount tx = .ok c)
    (hname : idx.BnameBytes ≠ [] ∧ idx.BnameBytes.length ≤ MaxKeySize)
    (hn : Bucket.Nested cb idx.BnameBytes = none) :
    (idx.add env val rid tx).2 = .nil ∧
    idx.GetRid key (idx.add env val rid tx).1 = .ok rid ∧
    (∀ k, k ≠ key → idx.GetRid k (idx.add env val rid tx).1 = idx.GetRid k tx) ∧
    idx.getCount (idx.add env val rid tx).1 = .ok (wrapInt64 (c + 1)) := by
  have hp : Bucket.Put buck key rid = .ok (kvPut key (.value rid) buck) := by
    unfold Bucket.Put
    rw [if_neg hkey.1, if_neg (by omega), if_neg (by omega)]
    unfold Bucket.Get at hold
    split
    · rename_i kvs hg
      rw [hg] at hold
      cases hold
    · rfl
  have hcb1 : (tx.setBucket idx.BnameBytes (kvPut key (.value rid) buck)).bucketOf BUC_COUNTS =
      some cb := by
    rw [bucketOf_setBucket_ne _ _ _ _ (fun h => hB h.symm)]
    exact hcb
  have hc1 : idx.getCount (tx.setBucket idx.BnameBytes (kvPut key (.value rid) buck)) =
      .ok c := by
    rw [getCount_setBucket_ne _ _ _ _ (fun h => hB h.symm)]
    exact hc
  have hadd : idx.add env val rid tx =
      ((tx.setBucket idx.BnameBytes (kvPut key (.value rid) buck)).setBucket BUC_COUNTS
        (kvPut idx.BnameBytes (.value (Itob (wrapInt64 (c + 1)))) cb), .nil) := by
    unfold Index.add
    rw [hk]
    simp only [hb, hu, hp]
    exact bumpCount_nil 1 hcb1 hc1 hname.1 hname.2 hn
  rw [hadd]
  refine ⟨rfl, ?_, ?_, getCount_written idx _ cb _⟩
  · unfold Index.GetRid
    rw [bucketOf_setBucket_ne _ _ _ _ hB, bucketOf_setBucket_self]
    simp [Bucket.Get, kvGet_kvPut_self]
  · intro k hk2
    unfold Index.GetRid
    rw [bucketOf_setBucket_ne _ _ _ _ hB, bucketOf_setBucket_self, hb]
    simp only [Bucket.Get, kvGet_kvPut_ne _ _ _ _ hk2]

set_option maxRecDepth 1000000 in
theorem add_unique_replaces_witness :
    ∃ buck cb, displayIndex.AllowDupKey = false ∧
      dbStaffKey.bucketOf displayIndex.BnameBytes = some buck ∧
      Bucket.Get buck (ascii "staff") = some ridA ∧
      dbStaffKey.bucketOf BUC_COUNTS = some cb ∧
      ((displayIndex.add sampleEnv (ascii "STAFF") ridB dbStaffKey).2 = .nil ∧
       displayIndex.GetRid (ascii "staff")
         (displayIndex.add sampleEnv (ascii "STAFF") ridB dbStaffKey).1 = .ok ridB ∧
       (∀ k, k ≠ ascii "staff" →
         displayIndex.GetRid k (displayIndex.add sampleEnv (ascii "STAFF") ridB dbStaffKey).1 =
           displayIndex.GetRid k dbStaffKey) ∧
       displayIndex.getCount (displayIndex.add sampleEnv (ascii "STAFF") ridB dbStaffKey).1 =
         .ok (wrapInt64 (1 + 1))) :=
  ⟨[(ascii "staff", .value ridA)], [(ascii "Group:displayname", .value (Itob 1))],
   by decide, by decide, by decide, by decide,
   add_unique_replaces sampleEnv displayIndex (ascii "STAFF") ridB (ascii "staff") ridA
     dbStaffKey [(ascii "staff", .value ridA)] [(ascii "Group:displayname", .value (Itob 1))] 1
     (by decide) (by decide) (by decide) (by decide) (by decide) (by decide) (by decide)
     (by decide) (by decide) (by decide) (by decide)⟩

/-! ## HasVal reads the key of a unique index -/

set_option maxRecDepth 1000000 in
/-- C16, at the failing input: right after a successful `add("6A", id)` on the
index of the unique, multi-valued attribute `macIds`, a duplicate-key index,
the index lists the id under the key, and `HasVal("6A")` is false. -/
theorem hasVal_false_in_dupkey_index :
    macIndex.AllowDupKey = true ∧
    macIndex.add sampleEnv (ascii "6A") ridA emptyDb = (dbMacKey, .nil) ∧
    macIndex.convert sampleEnv (ascii "6A") = .ok (ascii "6a") ∧
    macIndex.GetRids (ascii "6a") dbMacKey = .ok [ridA] ∧
    macIndex.HasVal sampleEnv (ascii "6A") dbMacKey = .ok false := by decide

/-- Where `HasVal` does answer for the index: on an index without duplicate
keys that has a bucket, `HasVal(val)` is true if and only if the index holds a tuple under the key `convert(val)`, that is `GetRid`
answers a non-empty resource id; and it is true right after every successful
`add(val, rid)` with a non-empty `rid`. -/
theorem hasVal_unique_index (env : Env) (idx : Index) (val key : Bytes) (tx : Tx)
    (hu : idx.AllowDupKey = false) (hB : idx.BnameBytes ≠ BUC_COUNTS)
    (hk : idx.convert env val = .ok key) :
    ((tx.bucketOf idx.BnameBytes).isSome = true →
      (idx.HasVal env val tx = .ok true ↔ ∃ rid, idx.holds key rid tx)) ∧
    (∀ rid tx1, rid ≠ [] → idx.add env val rid tx = (tx1, .nil) →
      idx.HasVal env val tx1 = .ok true) := by
  have hiff : ∀ t : Tx, (t.bucketOf idx.BnameBytes).isSome = true →
      (idx.HasVal env val t = .ok true ↔ ∃ rid, idx.holds key rid t) := by
    intro t ht
    obtain ⟨buck, hbk⟩ := Option.isSome_iff_exists.mp ht
    unfold Index.HasVal Index.holds
    rw [hk]
    simp only [hu, Bool.false_eq_true, if_false]
    unfold Index.GetRid
    simp only [hbk]
    cases hg : Bucket.Get buck key with
    | none => simp
    | some r =>
      simp only [Except.ok.injEq]
      constructor
      · intro h
        refine ⟨r, rfl, ?_⟩
        intro hr
        subst hr
        simp at h
      · rintro ⟨rid, h1, h2⟩
        subst h1
        cases r with
        | nil => exact absurd rfl h2
        | cons a t => simp
  refine ⟨hiff tx, ?_⟩
  intro rid tx1 hrid hadd
  obtain ⟨vData, buck, buck1, hconv, _, hb1, hget, _, _⟩ := add_unique_own hu hB hadd
  rw [hk] at hconv
  cases hconv
  refine (hiff tx1 (by rw [hb1]; rfl)).mpr ⟨rid, ?_⟩
  unfold Index.holds
  simp only [hu, Bool.false_eq_true, if_false]
  refine ⟨?_, hrid⟩
  unfold Index.GetRid
  simp only [hb1, hget]

set_option maxRecDepth 1000000 in
theorem hasVal_unique_index_witness :
    displayIndex.AllowDupKey = false ∧
    displayIndex.add sampleEnv (ascii "Staff") ridA emptyDb = (dbStaffKey, .nil) ∧
    displayIndex.HasVal sampleEnv (ascii "Staff") dbStaffKey = .ok true ∧
    (((emptyDb.bucketOf displayIndex.BnameBytes).isSome = true →
      (displayIndex.HasVal sampleEnv (ascii "Staff") emptyDb = .ok true ↔
        ∃ rid, displayIndex.holds (ascii "staff") rid emptyDb)) ∧
    (∀ rid tx1, rid ≠ [] → displayIndex.add sampleEnv (ascii "Staff") rid emptyDb = (tx1, .nil) →
      displayIndex.HasVal sampleEnv (ascii "Staff") tx1 = .ok true)) :=
  ⟨by decide, by decide, by decide,
   hasVal_unique_index sampleEnv displayIndex (ascii "Staff") (ascii "staff") emptyDb
     (by decide) (by decide) (by decide)⟩

/-! ## The key order and buckets with ascending keys -/

theorem bytesLt_trans (a b c : Bytes) (h1 : bytesLt a b = true) (h2 : bytesLt b c = true) :
    bytesLt a c = true := by
  induction a generalizing b c with
  | nil =>
    cases b with
    | nil => simp [bytesLt] at h1
    | cons y ys =>
      cases c with
      | nil => simp [bytesLt] at h2
      | cons z zs => simp [bytesLt]
  | cons x xs ih =>
    cases b with
    | nil => simp [bytesLt] at h1
    | cons y ys =>
      cases c with
      | nil => simp [bytesLt] at h2
      | cons z zs =>
        simp only [bytesLt] at h1 h2 ⊢
        by_cases hxy : x < y
        · by_cases hyz : y < z
          · have : x < z := by omega
            simp [this]
          · simp only [hyz, if_false] at h2
            by_cases hzy : z < y
            · simp [hzy] at h2
            · have : x < z := by omega
              simp [this]
        · simp only [hxy, if_false] at h1
          by_cases hyx : y < x
          · simp [hyx] at h1
          · simp only [hyx, if_false] at h1
            have hxy2 : x = y := by omega
            subst hxy2
            by_cases hyz : x < z
            · simp [hyz]
            · simp only [hyz, if_false] at h2 ⊢
              by_cases hzy : z < x
              · simp [hzy] at h2
              · simp only [hzy, if_false] at h2 ⊢
                exact ih ys zs h1 h2

theorem bytesLt_total (a b : Bytes) (hne : a ≠ b) (h : bytesLt a b = false) :
    bytesLt b a = true := by
  induction a generalizing b with
  | nil =>
    cases b with
    | nil => exact absurd rfl hne
    | cons y ys => simp [bytesLt] at h
  | cons x xs ih =>
    cases b with
    | nil => simp [bytesLt]
    | cons y ys =>
      simp only [bytesLt] at h ⊢
      by_cases hxy : x < y
      · simp [hxy] at h
      · simp only [hxy, if_false] at h
        by_cases hyx : y < x
        · simp [hyx]
        · simp only [hyx, if_false] at h ⊢
          have hxy2 : x = y := by omega
          subst hxy2
          simp only [lt_self_iff_false, if_false]
          apply ih ys _ h
          intro he
          exact hne (by rw [he])

theorem bytesLt_ne (a b : Bytes) (h : bytesLt a b = true) : a ≠ b := by
  intro he
  subst he
  rw [bytesLt_irrefl] at h
  cases h

theorem bytesLt_asymm (a b : Bytes) (h : bytesLt a b = true) : bytesLt b a = false := by
  cases hb : bytesLt b a with
  | false => rfl
  | true =>
    have := bytesLt_trans a b a h hb
    rw [bytesLt_irrefl] at this
    cases this

theorem kvSorted_nil {α : Type} : kvSorted ([] : List (Bytes × α)) := List.Pairwise.nil

theorem kvSorted_cons {α : Type} (k : Bytes) (v : α) (l : List (Bytes × α)) :
    kvSorted ((k, v) :: l) ↔ (∀ e ∈ l, bytesLt k e.1 = true) ∧ kvSorted l := by
  unfold kvSorted
  rw [List.pairwise_cons]

theorem kvGet_none_of_lt {α : Type} (k : Bytes) (l : List (Bytes × α))
    (h : ∀ e ∈ l, bytesLt k e.1 = true) : kvGet k l = none := by
  induction l with
  | nil => rfl
  | cons e r ih =>
    obtain ⟨k1, v1⟩ := e
    unfold kvGet
    have hne : k ≠ k1 := bytesLt_ne _ _ (h (k1, v1) (List.mem_cons_self _ _))
    rw [if_neg hne]
    exact ih (fun e he => h e (List.mem_cons_of_mem _ he))

theorem mem_kvPut {α : Type} (k : Bytes) (v : α) (l : List (Bytes × α)) (e : Bytes × α)
    (h : e ∈ kvPut k v l) : e = (k, v) ∨ e ∈ l := by
  induction l with
  | nil =>
    simp only [kvPut, List.mem_singleton] at h
    exact Or.inl h
  | cons e1 r ih =>
    obtain ⟨k1, v1⟩ := e1
    unfold kvPut at h
    split at h
    · rcases List.mem_cons.mp h with h | h
      · exact Or.inl h
      · exact Or.inr (List.mem_cons_of_mem _ h)
    · split at h
      · rcases List.mem_cons.mp h with h | h
        · exact Or.inl h
        · exact Or.inr h
      · rcases List.mem_cons.mp h with h | h
        · exact Or.inr (by rw [h]; exact List.mem_cons_self _ _)
        · rcases ih h with h | h
          · exact Or.inl h
          · exact Or.inr (List.mem_cons_of_mem _ h)

theorem kvSorted_kvPut {α : Type} (k : Bytes) (v : α) (l : List (Bytes × α))
    (h : kvSorted l) : kvSorted (kvPut k v l) := by
  induction l with
  | nil =>
    unfold kvPut
    rw [kvSorted_cons]
    exact ⟨fun e he => absurd he (List.not_mem_nil e), kvSorted_nil⟩
  | cons e1 r ih =>
    obtain ⟨k1, v1⟩ := e1
    rw [kvSorted_cons] at h
    unfold kvPut
    split
    · rename_i heq
      subst heq
      rw [kvSorted_cons]
      exact h
    · rename_i hne
      split
      · rename_i hlt
        rw [kvSorted_cons]
        refine ⟨?_, (kvSorted_cons _ _ _).mpr h⟩
        intro e he
        rcases List.mem_cons.mp he with he | he
        · rw [he]; exact hlt
        · exact bytesLt_trans _ _ _ hlt (h.1 e he)
      · rename_i hnlt
        have hgt : bytesLt k1 k = true :=
          bytesLt_total k k1 hne (by simpa using hnlt)
        rw [kvSorted_cons]
        refine ⟨?_, ih h.2⟩
        intro e he
        rcases mem_kvPut _ _ _ _ he with he | he
        · rw [he]; exact hgt
        · exact h.1 e he

theorem kvDel_sublist {α : Type} (k : Bytes) (l : List (Bytes × α)) :
    List.Sublist (kvDel k l) l := by
  induction l with
  | nil => exact List.Sublist.slnil
  | cons e1 r ih =>
    obtain ⟨k1, v1⟩ := e1
    unfold kvDel
    split
    · exact List.Sublist.cons _ ih
    · exact List.Sublist.cons₂ _ ih

theorem kvSorted_kvDel {α : Type} (k : Bytes) (l : List (Bytes × α))
    (h : kvSorted l) : kvSorted (kvDel k l) :=
  List.Pairwise.sublist (kvDel_sublist k l) h

theorem kvDel_of_none {α : Type} (k : Bytes) (l : List (Bytes × α))
    (h : kvGet k l = none) : kvDel k l = l := by
  induction l with
  | nil => rfl
  | cons e1 r ih =>
    obtain ⟨k1, v1⟩ := e1
    unfold kvGet at h
    unfold kvDel
    split at h
    · cases h
    · rename_i hne
      rw [if_neg hne, ih h]

/-- Two buckets with ascending keys that answer every key alike are equal. -/
theorem kv_ext {α : Type} (l1 l2 : List (Bytes × α)) (h1 : kvSorted l1) (h2 : kvSorted l2)
    (h : ∀ k, kvGet k l1 = kvGet k l2) : l1 = l2 := by
  induction l1 generalizing l2 with
  | nil =>
    cases l2 with
    | nil => rfl
    | cons e2 r2 =>
      obtain ⟨k2, v2⟩ := e2
      have := h k2
      simp [kvGet] at this
  | cons e1 r1 ih =>
    obtain ⟨k1, v1⟩ := e1
    cases l2 with
    | nil =>
      have := h k1
      simp [kvGet] at this
    | cons e2 r2 =>
      obtain ⟨k2, v2⟩ := e2
      rw [kvSorted_cons] at h1 h2
      have hk : k1 = k2 := by
        by_contra hne
        have ha := h k1
        have hb := h k2
        simp only [kvGet, if_true, if_neg hne, if_neg (fun he : k2 = k1 => hne he.symm)] at ha hb
        have m1 := kvGet_mem _ _ _ ha.symm
        have m2 := kvGet_mem _ _ _ hb
        have l1 := h2.1 _ m1
        have l2 := h1.1 _ m2
        simp only at l1 l2
        rw [bytesLt_asymm _ _ l1] at l2
        cases l2
      subst hk
      have hv : v1 = v2 := by
        have ha := h k1
        simp only [kvGet, if_true] at ha
        cases ha
        rfl
      subst hv
      congr 1
      apply ih r2 h1.2 h2.2
      intro k
      by_cases hkk : k = k1
      · subst hkk
        rw [kvGet_none_of_lt _ _ h1.1, kvGet_none_of_lt _ _ h2.1]
      · have := h k
        simpa only [kvGet, if_neg hkk] using this

theorem kvSum_kvPut_none {α : Type} (f : α → Nat) (k : Bytes) (v : α) (l : List (Bytes × α))
    (h : kvGet k l = none) : kvSum f (kvPut k v l) = kvSum f l + f v := by
  induction l with
  | nil => simp [kvPut, kvSum]
  | cons e1 r ih =>
    obtain ⟨k1, v1⟩ := e1
    unfold kvGet at h
    split at h
    · cases h
    · rename_i hne
      unfold kvPut
      rw [if_neg hne]
      split
      · simp only [kvSum, List.map_cons, List.sum_cons]
        omega
      · have := ih h
        simp only [kvSum, List.map_cons, List.sum_cons] at this ⊢
        omega

theorem kvSum_kvPut_some {α : Type} (f : α → Nat) (k : Bytes) (v old : α)
    (l : List (Bytes × α)) (hs : kvSorted l) (h : kvGet k l = some old) :
    kvSum f (kvPut k v l) + f old = kvSum f l + f v := by
  induction l with
  | nil => simp [kvGet] at h
  | cons e1 r ih =>
    obtain ⟨k1, v1⟩ := e1
    rw [kvSorted_cons] at hs
    unfold kvGet at h
    unfold kvPut
    split at h
    · rename_i heq
      cases h
      rw [if_pos heq]
      simp only [kvSum, List.map_cons, List.sum_cons]
      omega
    · rename_i hne
      rw [if_neg hne]
      split
      · rename_i hlt
        have m := kvGet_mem _ _ _ h
        have := bytesLt_trans _ _ _ hlt (hs.1 _ m)
        simp only at this
        rw [bytesLt_irrefl] at this
        cases this
      · have := ih hs.2 h
        simp only [kvSum, List.map_cons, List.sum_cons] at this ⊢
        omega

theorem kvSum_kvDel_some {α : Type} (f : α → Nat) (k : Bytes) (old : α)
    (l : List (Bytes × α)) (hs : kvSorted l) (h : kvGet k l = some old) :
    kvSum f (kvDel k l) + f old = kvSum f l := by
  induction l with
  | nil => simp [kvGet] at h
  | cons e1 r ih =>
    obtain ⟨k1, v1⟩ := e1
    rw [kvSorted_cons] at hs
    unfold kvGet at h
    unfold kvDel
    split at h
    · rename_i heq
      cases h
      subst heq
      rw [if_pos rfl, kvDel_of_none _ _ (kvGet_none_of_lt _ _ hs.1)]
      simp only [kvSum, List.map_cons, List.sum_cons]
      omega
    · rename_i hne
      rw [if_neg hne]
      have := ih hs.2 h
      simp only [kvSum, List.map_cons, List.sum_cons] at this ⊢
      omega

theorem kvSum_one {α : Type} (l : List (Bytes × α)) : kvSum (fun _ => 1) l = l.length := by
  induction l with
  | nil => rfl
  | cons e r ih =>
    simp only [kvSum, List.map_cons, List.sum_cons, List.length_cons] at ih ⊢
    omega

theorem length_kvPut_none {α : Type} (k : Bytes) (v : α) (l : List (Bytes × α))
    (h : kvGet k l = none) : (kvPut k v l).length = l.length + 1 := by
  rw [← kvSum_one, ← kvSum_one l, kvSum_kvPut_none _ _ _ _ h]

theorem length_kvDel_some {α : Type} (k : Bytes) (old : α) (l : List (Bytes × α))
    (hs : kvSorted l) (h : kvGet k l = some old) : (kvDel k l).length + 1 = l.length := by
  rw [← kvSum_one, ← kvSum_one l]
  exact kvSum_kvDel_some (fun _ => 1) k old l hs h

/-- A bucket with ascending keys that answers like `l` except at the key `a`. -/
theorem kv_point_exists {α : Type} (a : Bytes) (x : Option α) (l : List (Bytes × α))
    (hs : kvSorted l) :
    ∃ m, kvSorted m ∧ (∀ k, kvGet k m = if k = a then x else kvGet k l) ∧
      ∀ f : α → Nat, kvSum f m + optSum f (kvGet a l) = kvSum f l + optSum f x := by
  cases x with
  | some v =>
    refine ⟨kvPut a v l, kvSorted_kvPut _ _ _ hs, ?_, ?_⟩
    · intro k
      by_cases hk : k = a
      · subst hk; rw [if_pos rfl, kvGet_kvPut_self]
      · rw [if_neg hk, kvGet_kvPut_ne _ _ _ _ hk]
    · intro f
      cases hg : kvGet a l with
      | none => simp only [optSum]; rw [kvSum_kvPut_none _ _ _ _ hg]; omega
      | some old => simp only [optSum]; exact kvSum_kvPut_some f a v old l hs hg
  | none =>
    refine ⟨kvDel a l, kvSorted_kvDel _ _ hs, ?_, ?_⟩
    · intro k
      by_cases hk : k = a
      · subst hk; rw [if_pos rfl, kvGet_kvDel_self]
      · rw [if_neg hk, kvGet_kvDel_ne _ _ _ hk]
    · intro f
      cases hg : kvGet a l with
      | none => rw [kvDel_of_none _ _ hg]
      | some old => simp only [optSum]; exact kvSum_kvDel_some f a old l hs hg

/-- The sum over a bucket that differs from `l` at one key. -/
theorem kvSum_point {α : Type} (f : α → Nat) (a : Bytes) (x : Option α)
    (l l1 : List (Bytes × α)) (hs : kvSorted l) (hs1 : kvSorted l1)
    (h : ∀ k, kvGet k l1 = if k = a then x else kvGet k l) :
    kvSum f l1 + optSum f (kvGet a l) = kvSum f l + optSum f x := by
  obtain ⟨m, hm, hd, hsum⟩ := kv_point_exists a x l hs
  have : l1 = m := kv_ext l1 m hs1 hm (fun k => by rw [h k, hd k])
  rw [this]
  exact hsum f

/-- The sum over a bucket that differs from `l` at two keys. -/
theorem kvSum_two_point {α : Type} (f : α → Nat) (a b : Bytes) (x y : Option α)
    (l l1 : List (Bytes × α)) (hs : kvSorted l) (hs1 : kvSorted l1) (hab : a ≠ b)
    (h : ∀ k, kvGet k l1 = if k = a then x else if k = b then y else kvGet k l) :
    kvSum f l1 + optSum f (kvGet a l) + optSum f (kvGet b l) =
      kvSum f l + optSum f x + optSum f y := by
  obtain ⟨m, hm, hd, hsum⟩ := kv_point_exists b y l hs
  have h1 := kvSum_point f a x m l1 hm hs1 (fun k => by
    rw [h k, hd k])
  have h2 := hsum f
  have h3 : kvGet a m = kvGet a l := by rw [hd a, if_neg hab]
  rw [h3] at h1
  omega

/-! ## The calls of the engine that `add` and `remove` make -/

theorem put_eq (b : Bucket) (k v : Bytes) (hk : k ≠ []) (hl : k.length ≤ MaxKeySize)
    (hv : v.length ≤ MaxValueSize) (hn : ∀ kvs, kvGet k b ≠ some (.nested kvs)) :
    Bucket.Put b k v = .ok (kvPut k (.value v) b) := by
  unfold Bucket.Put
  rw [if_neg hk, if_neg (by omega), if_neg (by omega)]
  split
  · rename_i kvs hg
    exact absurd hg (hn kvs)
  · rfl

theorem put_inv {b b1 : Bucket} {k v : Bytes} (h : Bucket.Put b k v = .ok b1) :
    b1 = kvPut k (.value v) b ∧ k ≠ [] ∧ k.length ≤ MaxKeySize ∧
      ∀ kvs, kvGet k b ≠ some (.nested kvs) := by
  unfold Bucket.Put at h
  split at h
  · cases h
  · split at h
    · cases h
    · split at h
      · cases h
      · rename_i hk hl _
        split at h
        · cases h
        · rename_i hnn
          exact ⟨by cases h; rfl, hk, by omega, fun kvs hg => hnn kvs hg⟩

theorem delete_eq (b : Bucket) (k : Bytes) (hn : ∀ kvs, kvGet k b ≠ some (.nested kvs)) :
    Bucket.Delete b k = .ok (kvDel k b) := by
  unfold Bucket.Delete
  split
  · rename_i kvs hg
    exact absurd hg (hn kvs)
  · rfl

theorem deleteBucket_eq (b : Bucket) (k : Bytes) (kvs : List (Bytes × Bytes)) (nk : List Bytes)
    (h : kvGet k b = some (.nested kvs)) (hnil : kvs.any (fun e => nk.contains e.1) = false) :
    Bucket.DeleteBucket b k nk = .ok (kvDel k b) := by
  unfold Bucket.DeleteBucket
  rw [h]
  simp only [hnil, Bool.false_eq_true, if_false]

theorem createBucket_inv {b b1 : Bucket} {k : Bytes} (h : Bucket.CreateBucket b k = .ok b1) :
    b1 = kvPut k (.nested []) b ∧ kvGet k b = none ∧ k ≠ [] := by
  unfold Bucket.CreateBucket at h
  split at h
  · cases h
  · rename_i hk
    split at h
    · cases h
    · cases h
    · rename_i hg
      exact ⟨by cases h; rfl, hg, hk⟩

theorem itob_fits (i : Int) : (Itob i).length ≤ MaxValueSize := by
  rw [itob_length]; decide

theorem aligned_spec {env : Env} {idx : Index} {U : List Bytes} {v w kv kw : Bytes}
    (h : idx.aligned env U = true) (hv : v ∈ U) (hw : w ∈ U)
    (hkv : idx.convert env v = .ok kv) (hkw : idx.convert env w = .ok kw) :
    (kv = kw ↔ countKeyOf env v = countKeyOf env w) ∧ kv ≠ countKeyOf env w := by
  unfold Index.aligned at h
  rw [List.all_eq_true] at h
  have h1 := h v hv
  rw [List.all_eq_true] at h1
  have h2 := h1 w hw
  rw [hkv, hkw] at h2
  simpa using h2

/-- What a successful update of the total tells about the counts bucket. -/
theorem bumpCount_key {idx : Index} {d : Int} {tx tx1 : Tx}
    (h : idx.bumpCount d tx = (tx1, .nil)) :
    idx.BnameBytes ≠ [] ∧ idx.BnameBytes.length ≤ MaxKeySize ∧
      ∀ cb, tx.bucketOf BUC_COUNTS = some cb →
        ∀ kvs, kvGet idx.BnameBytes cb ≠ some (.nested kvs) := by
  unfold Index.bumpCount at h
  split at h
  · cases h
  · split at h
    · cases h
    · rename_i cb hcb
      split at h
      · cases h
      · rename_i b hp
        obtain ⟨_, h1, h2, h3⟩ := put_inv hp
        refine ⟨h1, h2, ?_⟩
        intro cb2 hcb2
        rw [hcb] at hcb2
        cases hcb2
        exact h3

/-- The state after the bucket of the index was written back and the total
was updated. -/
theorem bump_facts {idx : Index} {d c : Int} {tx tx1 : Tx} {b1 : Bucket}
    (hB : idx.BnameBytes ≠ BUC_COUNTS) (hc : idx.getCount tx = .ok c)
    (h : idx.bumpCount d (tx.setBucket idx.BnameBytes b1) = (tx1, .nil)) :
    tx1.bucketOf idx.BnameBytes = some b1 ∧ idx.getCount tx1 = .ok (wrapInt64 (c + d)) ∧
    ∃ cb cb1, tx.bucketOf BUC_COUNTS = some cb ∧ tx1.bucketOf BUC_COUNTS = some cb1 ∧
      kvGet idx.BnameBytes cb1 = some (.value (Itob (wrapInt64 (c + d)))) := by
  obtain ⟨cb, c2, hcb, hc2, htx1, hg⟩ := bumpCount_inv h
  rw [getCount_setBucket_ne _ _ _ _ (fun e => hB e.symm), hc] at hc2
  cases hc2
  rw [bucketOf_setBucket_ne _ _ _ _ (fun e => hB e.symm)] at hcb
  refine ⟨?_, hg, cb, kvPut idx.BnameBytes (.value (Itob (wrapInt64 (c + d)))) cb, hcb, ?_, ?_⟩
  · rw [htx1, bucketOf_setBucket_ne _ _ _ _ hB, bucketOf_setBucket_self]
  · rw [htx1, bucketOf_setBucket_self]
  · exact kvGet_kvPut_self _ _ _

/-! ## One call, bucket by bucket -/

theorem add_unique_step {env : Env} {idx : Index} {val rid key : Bytes} {tx tx1 : Tx}
    {buck : Bucket} (hu : idx.AllowDupKey = false) (hk : idx.convert env val = .ok key)
    (hb : tx.bucketOf idx.BnameBytes = some buck) (hs : kvSorted buck)
    (h : idx.add env val rid tx = (tx1, .nil)) :
    ∃ b1, kvSorted b1 ∧
      (∀ k, kvGet k b1 = if k = key then some (.value rid) else kvGet k buck) ∧
      idx.bumpCount 1 (tx.setBucket idx.BnameBytes b1) = (tx1, .nil) := by
  unfold Index.add at h
  rw [hk] at h
  simp only [hb, hu] at h
  cases hp : Bucket.Put buck key rid with
  | error e => rw [hp] at h; cases h
  | ok b1 =>
    rw [hp] at h
    simp only at h
    obtain ⟨hb1, _, _, _⟩ := put_inv hp
    subst hb1
    refine ⟨_, kvSorted_kvPut _ _ _ hs, ?_, h⟩
    intro k
    by_cases hkk : k = key
    · subst hkk; rw [if_pos rfl, kvGet_kvPut_self]
    · rw [if_neg hkk, kvGet_kvPut_ne _ _ _ _ hkk]

theorem remove_unique_step {env : Env} {idx : Index} {val key : Bytes} {tx : Tx}
    {buck : Bucket} (nil0 : List Bytes) (rid : Bytes) (hu : idx.AllowDupKey = false) (hk : idx.convert env val = .ok key)
    (hb : tx.bucketOf idx.BnameBytes = some buck) (hs : kvSorted buck)
    (hn : ∀ kvs, kvGet key buck ≠ some (.nested kvs)) :
    ∃ b1, kvSorted b1 ∧
      (∀ k, kvGet k b1 = if k = key then none else kvGet k buck) ∧
      idx.remove env nil0 val rid tx = idx.bumpCount (-1) (tx.setBucket idx.BnameBytes b1) := by
  refine ⟨kvDel key buck, kvSorted_kvDel _ _ hs, ?_, ?_⟩
  · intro k
    by_cases hkk : k = key
    · subst hkk; rw [if_pos rfl, kvGet_kvDel_self]
    · rw [if_neg hkk, kvGet_kvDel_ne _ _ _ hkk]
  · unfold Index.remove
    rw [hk]
    simp only [hb, hu, delete_eq buck key hn]
    rfl

theorem add_dup_new_step {env : Env} {idx : Index} {val rid key : Bytes} {tx tx1 : Tx}
    {buck : Bucket} (hu : idx.AllowDupKey = true) (hk : idx.convert env val = .ok key)
    (hb : tx.bucketOf idx.BnameBytes = some buck) (hs : kvSorted buck)
    (hn : Bucket.Nested buck key = none)
    (h : idx.add env val rid tx = (tx1, .nil)) :
    countKeyOf env val ≠ key ∧ countKeyOf env val ≠ [] ∧
    (countKeyOf env val).length ≤ MaxKeySize ∧ kvGet key buck = none ∧
    ∃ b1, kvSorted b1 ∧
      (∀ k, kvGet k b1 = if k = key then some (.nested [(rid, [])])
        else if k = countKeyOf env val then some (.value (Itob 1)) else kvGet k buck) ∧
      idx.bumpCount 1 (tx.setBucket idx.BnameBytes b1) = (tx1, .nil) := by
  unfold Index.add at h
  rw [hk] at h
  simp only [hb, hu, if_true, hn] at h
  cases hc : Bucket.CreateBucket buck key with
  | error e => rw [hc] at h; cases h
  | ok b0 =>
    rw [hc] at h
    simp only at h
    obtain ⟨hb0, hnone, _⟩ := createBucket_inv hc
    subst hb0
    cases hp : Bucket.Put (kvPut key (.nested []) buck) (countKeyOf env val) (Itob 1) with
    | error e => rw [hp] at h; cases h
    | ok b2 =>
      rw [hp] at h
      simp only at h
      obtain ⟨hb2, hck1, hck2, hck3⟩ := put_inv hp
      subst hb2
      have hne : countKeyOf env val ≠ key := by
        intro he
        apply hck3 []
        rw [he, kvGet_kvPut_self]
      cases hq : nestedPut [] rid [] with
      | error e => rw [hq] at h; cases h
      | ok kvs =>
        rw [hq] at h
        simp only at h
        have hkvs := nestedPut_ok hq
        subst hkvs
        refine ⟨hne, hck1, hck2, hnone, _, ?_, ?_, h⟩
        · exact kvSorted_kvPut _ _ _ (kvSorted_kvPut _ _ _ (kvSorted_kvPut _ _ _ hs))
        · intro k
          by_cases hkk : k = key
          · subst hkk; rw [if_pos rfl, kvGet_kvPut_self]; rfl
          · rw [if_neg hkk, kvGet_kvPut_ne _ _ _ _ hkk]
            by_cases hkc : k = countKeyOf env val
            · rw [if_pos hkc, hkc, kvGet_kvPut_self]
            · rw [if_neg hkc, kvGet_kvPut_ne _ _ _ _ hkc, kvGet_kvPut_ne _ _ _ _ hkk]

theorem add_dup_old_step {env : Env} {idx : Index} {val rid key : Bytes} {tx tx1 : Tx}
    {buck : Bucket} {old : List (Bytes × Bytes)} {n : Int}
    (hu : idx.AllowDupKey = true) (hk : idx.convert env val = .ok key)
    (hb : tx.bucketOf idx.BnameBytes = some buck) (hs : kvSorted buck)
    (hold : kvGet key buck = some (.nested old))
    (hck : kvGet (countKeyOf env val) buck = some (.value (Itob n)))
    (h0 : -(two63 : Int) ≤ n) (h1 : n < two63)
    (hne : countKeyOf env val ≠ key)
    (hv1 : countKeyOf env val ≠ []) (hv2 : (countKeyOf env val).length ≤ MaxKeySize)
    (h : idx.add env val rid tx = (tx1, .nil)) :
    ∃ b1, kvSorted b1 ∧
      (∀ k, kvGet k b1 = if k = key then some (.nested (kvPut rid [] old))
        else if k = countKeyOf env val then some (.value (Itob (wrapInt64 (n + 1))))
        else kvGet k buck) ∧
      idx.bumpCount 1 (tx.setBucket idx.BnameBytes b1) = (tx1, .nil) := by
  unfold Index.add at h
  rw [hk] at h
  have hnest : Bucket.Nested buck key = some old := by simp [Bucket.Nested, hold]
  have hget : Bucket.Get buck (countKeyOf env val) = some (Itob n) := by
    simp [Bucket.Get, hck]
  simp only [hb, hu, if_true, hnest, hget, Option.getD_some, btoi_itob n h0 h1] at h
  cases hq : nestedPut old rid [] with
  | error e => rw [hq] at h; cases h
  | ok kvs =>
    rw [hq] at h
    simp only at h
    have hkvs := nestedPut_ok hq
    subst hkvs
    have hput := put_eq (kvPut key (.nested (kvPut rid [] old)) buck) (countKeyOf env val)
      (Itob (wrapInt64 (n + 1))) hv1 hv2 (itob_fits _) (by
        intro kvs
        rw [kvGet_kvPut_ne _ _ _ _ hne, hck]
        intro hc
        cases hc)
    rw [hput] at h
    simp only at h
    refine ⟨_, kvSorted_kvPut _ _ _ (kvSorted_kvPut _ _ _ hs), ?_, h⟩
    intro k
    by_cases hkk : k = key
    · subst hkk
      rw [if_pos rfl, kvGet_kvPut_ne _ _ _ _ (fun e => hne e.symm), kvGet_kvPut_self]
    · rw [if_neg hkk]
      by_cases hkc : k = countKeyOf env val
      · rw [if_pos hkc, hkc, kvGet_kvPut_self]
      · rw [if_neg hkc, kvGet_kvPut_ne _ _ _ _ hkc, kvGet_kvPut_ne _ _ _ _ hkk]

theorem remove_dup_many_step {env : Env} {idx : Index} {val key : Bytes} {tx : Tx}
    {buck : Bucket} (nil0 : List Bytes) (rid : Bytes) (old : List (Bytes × Bytes)) (n : Int)
    (hu : idx.AllowDupKey = true) (hk : idx.convert env val = .ok key)
    (hb : tx.bucketOf idx.BnameBytes = some buck) (hs : kvSorted buck)
    (hold : kvGet key buck = some (.nested old))
    (hck : kvGet (countKeyOf env val) buck = some (.value (Itob n)))
    (h0 : 1 < n) (h1 : n < two63)
    (hne : countKeyOf env val ≠ key)
    (hv1 : countKeyOf env val ≠ []) (hv2 : (countKeyOf env val).length ≤ MaxKeySize) :
    ∃ b1, kvSorted b1 ∧
      (∀ k, kvGet k b1 = if k = key then some (.nested (kvDel rid old))
        else if k = countKeyOf env val then some (.value (Itob (wrapInt64 (n - 1))))
        else kvGet k buck) ∧
      idx.remove env nil0 val rid tx = idx.bumpCount (-1) (tx.setBucket idx.BnameBytes b1) := by
  have hnest : Bucket.Nested buck key = some old := by simp [Bucket.Nested, hold]
  have hget : Bucket.Get buck (countKeyOf env val) = some (Itob n) := by
    simp [Bucket.Get, hck]
  have hput := put_eq (kvPut key (.nested (kvDel rid old)) buck) (countKeyOf env val)
    (Itob (wrapInt64 (n - 1))) hv1 hv2 (itob_fits _) (by
      intro kvs
      rw [kvGet_kvPut_ne _ _ _ _ hne, hck]
      intro hc
      cases hc)
  refine ⟨kvPut (countKeyOf env val) (.value (Itob (wrapInt64 (n - 1))))
    (kvPut key (.nested (kvDel rid old)) buck),
    kvSorted_kvPut _ _ _ (kvSorted_kvPut _ _ _ hs), ?_, ?_⟩
  rotate_left
  · unfold Index.remove
    rw [hk]
    simp only [hb, hu, if_true, hnest, hget, Option.getD_some,
      btoi_itob n (by omega) h1, h0, hput]
  · intro k
    by_cases hkk : k = key
    · subst hkk
      rw [if_pos rfl, kvGet_kvPut_ne _ _ _ _ (fun e => hne e.symm), kvGet_kvPut_self]
    · rw [if_neg hkk]
      by_cases hkc : k = countKeyOf env val
      · rw [if_pos hkc, hkc, kvGet_kvPut_self]
      · rw [if_neg hkc, kvGet_kvPut_ne _ _ _ _ hkc, kvGet_kvPut_ne _ _ _ _ hkk]

theorem remove_dup_last_step {env : Env} {idx : Index} {val key : Bytes} {tx : Tx}
    {buck : Bucket} (nil0 : List Bytes) (rid : Bytes) (old : List (Bytes × Bytes)) (n : Int)
    (hu : idx.AllowDupKey = true) (hk : idx.convert env val = .ok key)
    (hb : tx.bucketOf idx.BnameBytes = some buck) (hs : kvSorted buck)
    (hold : kvGet key buck = some (.nested old))
    (hnil : old.any (fun e => nil0.contains e.1) = false)
    (hck : kvGet (countKeyOf env val) buck = some (.value (Itob n)))
    (h0 : -(two63 : Int) ≤ n) (h1 : n ≤ 1)
    (hne : countKeyOf env val ≠ key) :
    ∃ b1, kvSorted b1 ∧
      (∀ k, kvGet k b1 = if k = key then none
        else if k = countKeyOf env val then none else kvGet k buck) ∧
      idx.remove env nil0 val rid tx = idx.bumpCount (-1) (tx.setBucket idx.BnameBytes b1) := by
  have hnest : Bucket.Nested buck key = some old := by simp [Bucket.Nested, hold]
  have hget : Bucket.Get buck (countKeyOf env val) = some (Itob n) := by
    simp [Bucket.Get, hck]
  have hdel := delete_eq (kvDel key buck) (countKeyOf env val) (by
      intro kvs
      rw [kvGet_kvDel_ne _ _ _ hne, hck]
      intro hc
      cases hc)
  have hlt : ¬ n > 1 := by omega
  refine ⟨kvDel (countKeyOf env val) (kvDel key buck),
    kvSorted_kvDel _ _ (kvSorted_kvDel _ _ hs), ?_, ?_⟩
  rotate_left
  · unfold Index.remove
    rw [hk]
    simp only [hb, hu, if_true, hnest, hget, Option.getD_some,
      btoi_itob n h0 (by unfold two63; omega), hlt, if_false,
      deleteBucket_eq buck key old nil0 hold hnil, hdel]
  · intro k
    by_cases hkk : k = key
    · subst hkk
      rw [if_pos rfl, kvGet_kvDel_ne _ _ _ (fun e => hne e.symm), kvGet_kvDel_self]
    · rw [if_neg hkk]
      by_cases hkc : k = countKeyOf env val
      · rw [if_pos hkc, hkc, kvGet_kvDel_self]
      · rw [if_neg hkc, kvGet_kvDel_ne _ _ _ hkc, kvGet_kvDel_ne _ _ _ hkk]

/-! ## What the calls keep up -/

theorem isNew_inv {env : Env} {idx : Index} {val rid : Bytes} {tx : Tx}
    (h : idx.isNew env val rid tx = true) :
    ∃ key buck, idx.convert env val = .ok key ∧ tx.bucketOf idx.BnameBytes = some buck ∧
      (idx.AllowDupKey = true → ∀ kvs, kvGet key buck = some (.nested kvs) →
        kvGet rid kvs = none) ∧
      (idx.AllowDupKey = false → kvGet key buck = none) := by
  unfold Index.isNew at h
  split at h
  · rename_i key buck hk hb
    refine ⟨key, buck, hk, hb, ?_, ?_⟩
    · intro hu kvs hg
      simp only [hu, if_true, Bucket.Nested, hg] at h
      simpa using h
    · intro hu
      simp only [hu, Bool.false_eq_true, if_false] at h
      simpa using h
  · cases h

theorem isStored_inv {env : Env} {idx : Index} {val rid : Bytes} {tx : Tx}
    (h : idx.isStored env val rid tx = true) :
    ∃ key buck, idx.convert env val = .ok key ∧ tx.bucketOf idx.BnameBytes = some buck ∧
      (idx.AllowDupKey = true → ∃ kvs x, kvGet key buck = some (.nested kvs) ∧
        kvGet rid kvs = some x) ∧
      (idx.AllowDupKey = false → kvGet key buck = some (.value rid)) := by
  unfold Index.isStored at h
  split at h
  · rename_i key buck hk hb
    refine ⟨key, buck, hk, hb, ?_, ?_⟩
    · intro hu
      simp only [hu, if_true, Bucket.Nested] at h
      split at h
      · rename_i kvs hm
        split at hm
        · rename_i kvs2 hg
          cases hm
          obtain ⟨x, hx⟩ := Option.isSome_iff_exists.mp h
          exact ⟨kvs, x, hg, hx⟩
        · cases hm
      · cases h
    · intro hu
      simp only [hu, Bool.false_eq_true, if_false, decide_eq_true_eq, Bucket.Get] at h
      split at h
      · rename_i v hg
        cases h
        exact hg
      · cases h
  · cases h

theorem dupInv_present {env : Env} {idx : Index} {U : List Bytes} {N M : Nat}
    {buck b1 : Bucket} {v key : Bytes} (kvs : List (Bytes × Bytes))
    (hal : idx.aligned env U = true) (hinv : DupInv env idx U N buck) (hNM : N ≤ M)
    (hv : v ∈ U) (hk : idx.convert env v = .ok key)
    (hck1 : countKeyOf env v ≠ []) (hck2 : (countKeyOf env v).length ≤ MaxKeySize)
    (hkvs1 : kvSorted kvs) (hkvs2 : kvs ≠ []) (hkvs3 : kvs.length ≤ M)
    (hd : ∀ k, kvGet k b1 = if k = key then some (.nested kvs)
      else if k = countKeyOf env v then some (.value (Itob kvs.length)) else kvGet k buck) :
    DupInv env idx U M b1 := by
  have hne : key ≠ countKeyOf env v := (aligned_spec hal hv hv hk hk).2
  constructor
  · intro k kvs2 hg
    rw [hd k] at hg
    by_cases hkk : k = key
    · rw [if_pos hkk] at hg
      cases hg
      subst hkk
      refine ⟨hkvs1, hkvs2, hkvs3, v, hv, hk, ?_⟩
      rw [hd, if_neg (fun e => hne e.symm), if_pos rfl]
    · rw [if_neg hkk] at hg
      by_cases hkc : k = countKeyOf env v
      · rw [if_pos hkc] at hg
        cases hg
      · rw [if_neg hkc] at hg
        obtain ⟨s1, s2, s3, w, hw, hkw, hcw⟩ := hinv.nested k kvs2 hg
        refine ⟨s1, s2, le_trans s3 hNM, w, hw, hkw, ?_⟩
        have a1 := aligned_spec hal hv hw hk hkw
        rw [hd, if_neg (fun e => a1.2 e.symm),
          if_neg (fun e => hkk (a1.1.mpr e.symm).symm)]
        exact hcw
  · intro k x hg
    rw [hd k] at hg
    by_cases hkk : k = key
    · rw [if_pos hkk] at hg
      cases hg
    · rw [if_neg hkk] at hg
      by_cases hkc : k = countKeyOf env v
      · subst hkc
        refine ⟨hck1, hck2, v, key, kvs, hv, rfl, hk, ?_⟩
        rw [hd, if_pos rfl]
      · rw [if_neg hkc] at hg
        obtain ⟨p1, p2, w, kw, kvsw, hw, hkeq, hkw, hgw⟩ := hinv.plain k x hg
        have a1 := aligned_spec hal hw hv hkw hk
        by_cases hkw2 : kw = key
        · refine ⟨p1, p2, w, kw, kvs, hw, hkeq, hkw, ?_⟩
          rw [hd, if_pos hkw2]
        · refine ⟨p1, p2, w, kw, kvsw, hw, hkeq, hkw, ?_⟩
          rw [hd, if_neg hkw2, if_neg a1.2]
          exact hgw

theorem dupInv_absent {env : Env} {idx : Index} {U : List Bytes} {N M : Nat}
    {buck b1 : Bucket} {v key : Bytes}
    (hal : idx.aligned env U = true) (hinv : DupInv env idx U N buck) (hNM : N ≤ M)
    (hv : v ∈ U) (hk : idx.convert env v = .ok key)
    (hd : ∀ k, kvGet k b1 = if k = key then none
      else if k = countKeyOf env v then none else kvGet k buck) :
    DupInv env idx U M b1 := by
  constructor
  · intro k kvs2 hg
    rw [hd k] at hg
    by_cases hkk : k = key
    · rw [if_pos hkk] at hg
      cases hg
    · rw [if_neg hkk] at hg
      by_cases hkc : k = countKeyOf env v
      · rw [if_pos hkc] at hg
        cases hg
      · rw [if_neg hkc] at hg
        obtain ⟨s1, s2, s3, w, hw, hkw, hcw⟩ := hinv.nested k kvs2 hg
        refine ⟨s1, s2, le_trans s3 hNM, w, hw, hkw, ?_⟩
        have a1 := aligned_spec hal hv hw hk hkw
        rw [hd, if_neg (fun e => a1.2 e.symm),
          if_neg (fun e => hkk (a1.1.mpr e.symm).symm)]
        exact hcw
  · intro k x hg
    rw [hd k] at hg
    by_cases hkk : k = key
    · rw [if_pos hkk] at hg
      cases hg
    · rw [if_neg hkk] at hg
      by_cases hkc : k = countKeyOf env v
      · rw [if_pos hkc] at hg
        cases hg
      · rw [if_neg hkc] at hg
        obtain ⟨p1, p2, w, kw, kvsw, hw, hkeq, hkw, hgw⟩ := hinv.plain k x hg
        have a1 := aligned_spec hal hw hv hkw hk
        refine ⟨p1, p2, w, kw, kvsw, hw, hkeq, hkw, ?_⟩
        have hkw2 : kw ≠ key := by
          intro e
          apply hkc
          rw [hkeq]
          exact (a1.1.mp e)
        rw [hd, if_neg hkw2, if_neg a1.2]
        exact hgw

/-- No count key of a value without nested bucket is bound. -/
theorem dupInv_countKey_free {env : Env} {idx : Index} {U : List Bytes} {N : Nat}
    {buck : Bucket} {v key : Bytes}
    (hal : idx.aligned env U = true) (hinv : DupInv env idx U N buck)
    (hv : v ∈ U) (hk : idx.convert env v = .ok key)
    (hfree : ∀ kvs, kvGet key buck ≠ some (.nested kvs)) :
    kvGet (countKeyOf env v) buck = none := by
  cases hg : kvGet (countKeyOf env v) buck with
  | none => rfl
  | some nd =>
    cases nd with
    | value x =>
      obtain ⟨_, _, w, kw, kvsw, hw, hkeq, hkw, hgw⟩ := hinv.plain _ x hg
      have a1 := aligned_spec hal hv hw hk hkw
      have : key = kw := a1.1.mpr hkeq
      subst this
      exact absurd hgw (hfree kvsw)
    | nested kvs =>
      obtain ⟨_, _, _, w, hw, hkw, _⟩ := hinv.nested _ kvs hg
      have a1 := aligned_spec hal hw hv hkw hk
      exact absurd rfl a1.2

/-- The count key of a value with a nested bucket holds the length of it. -/
theorem dupInv_countKey {env : Env} {idx : Index} {U : List Bytes} {N : Nat}
    {buck : Bucket} {v key : Bytes} {kvs : List (Bytes × Bytes)}
    (hal : idx.aligned env U = true) (hinv : DupInv env idx U N buck)
    (hv : v ∈ U) (hk : idx.convert env v = .ok key)
    (hg : kvGet key buck = some (.nested kvs)) :
    kvSorted kvs ∧ kvs ≠ [] ∧ kvs.length ≤ N ∧
    kvGet (countKeyOf env v) buck = some (.value (Itob kvs.length)) ∧
    countKeyOf env v ≠ [] ∧ (countKeyOf env v).length ≤ MaxKeySize ∧
    countKeyOf env v ≠ key := by
  obtain ⟨s1, s2, s3, w, hw, hkw, hcw⟩ := hinv.nested key kvs hg
  have a1 := aligned_spec hal hv hw hk hkw
  have hck : countKeyOf env v = countKeyOf env w := a1.1.mp rfl
  rw [← hck] at hcw
  obtain ⟨p1, p2, _⟩ := hinv.plain _ _ hcw
  exact ⟨s1, s2, s3, hcw, p1, p2, fun e => (aligned_spec hal hv hv hk hk).2 e.symm⟩

theorem cast_succ_wrap (n N : Nat) (h : n ≤ N) (hN : N + 1 < two63) :
    wrapInt64 ((n : Int) + 1) = ((n + 1 : Nat) : Int) := by
  rw [wrapInt64_id]
  · push_cast; rfl
  · unfold two63; omega
  · unfold two63 at *; omega

theorem cast_pred_wrap (n N : Nat) (h : n + 1 ≤ N) (hN : N + 1 < two63) :
    wrapInt64 (((n + 1 : Nat) : Int) + -1) = (n : Int) := by
  rw [wrapInt64_id]
  · push_cast; omega
  · unfold two63; push_cast; omega
  · unfold two63 at *; push_cast; omega

/-- A successful `add` of a new tuple keeps the state of the index up. -/
theorem add_step_inv {env : Env} {idx : Index} {U : List Bytes} {N : Nat}
    {val rid : Bytes} {tx tx1 : Tx}
    (hB : idx.BnameBytes ≠ BUC_COUNTS) (hN : N + 1 < two63)
    (hal : idx.AllowDupKey = true → idx.aligned env U = true) (hv : val ∈ U)
    (hinv : IndexInv env idx U N tx) (hnew : idx.isNew env val rid tx = true)
    (h : idx.add env val rid tx = (tx1, .nil)) :
    IndexInv env idx U (N + 1) tx1 := by
  obtain ⟨buck, hb, hs, hdup, hle, hc⟩ := hinv
  obtain ⟨key, buck2, hk, hb2, hnd, hnu⟩ := isNew_inv hnew
  rw [hb] at hb2
  cases hb2
  cases hu : idx.AllowDupKey with
  | false =>
    obtain ⟨b1, hs1, hd, hbump⟩ := add_unique_step hu hk hb hs h
    obtain ⟨hb1, hc1, _⟩ := bump_facts hB hc hbump
    have hsum := kvSum_point (nodeTuples false) key _ buck b1 hs hs1 hd
    rw [hnu hu] at hsum
    simp only [optSum, nodeTuples, Bool.false_eq_true, if_false] at hsum
    rw [hu] at hle hc1
    unfold IndexInv
    rw [hu]
    refine ⟨b1, hb1, hs1, (fun e => Bool.noConfusion e), by omega, ?_⟩
    have e : kvSum (nodeTuples false) b1 = kvSum (nodeTuples false) buck + 1 := by omega
    rw [hc1, cast_succ_wrap _ N hle hN, e]
  | true =>
    have hal2 := hal hu
    have hinv2 := hdup hu
    rw [hu] at hle hc
    cases hg : kvGet key buck with
    | none =>
      have hn : Bucket.Nested buck key = none := by simp [Bucket.Nested, hg]
      obtain ⟨hne, hck1, hck2, _, b1, hs1, hd, hbump⟩ := add_dup_new_step hu hk hb hs hn h
      obtain ⟨hb1, hc1, _⟩ := bump_facts hB hc hbump
      have hfree := dupInv_countKey_free hal2 hinv2 hv hk (by rw [hg]; intro kvs e; cases e)
      have hsum := kvSum_two_point (nodeTuples true) key _ _ _ buck b1 hs hs1
        (fun e => hne e.symm) hd
      rw [hg, hfree] at hsum
      simp only [optSum, nodeTuples, if_true, List.length_singleton] at hsum
      unfold IndexInv
      rw [hu]
      refine ⟨b1, hb1, hs1, fun _ => ?_, by omega, ?_⟩
      · refine dupInv_present [(rid, [])] hal2 hinv2 (Nat.le_succ N) hv hk hck1 hck2
          ?_ (by simp) (by simp) ?_
        · unfold kvSorted; simp
        · intro k; rw [hd k]; rfl
      · rw [hc1, cast_succ_wrap _ N hle hN]
        congr 1
        omega
    | some nd =>
      cases nd with
      | value x =>
        have hn : Bucket.Nested buck key = none := by simp [Bucket.Nested, hg]
        obtain ⟨_, _, _, hnone, _⟩ := add_dup_new_step hu hk hb hs hn h
        rw [hg] at hnone
        cases hnone
      | nested old =>
        obtain ⟨s1, s2, s3, hcw, hck1, hck2, hne⟩ := dupInv_countKey hal2 hinv2 hv hk hg
        have hrid := hnd hu old hg
        obtain ⟨b1, hs1, hd, hbump⟩ := add_dup_old_step hu hk hb hs hg hcw
          (by unfold two63; omega) (by unfold two63 at *; omega) hne hck1 hck2 h
        obtain ⟨hb1, hc1, _⟩ := bump_facts hB hc hbump
        have hlen := length_kvPut_none rid ([] : Bytes) old hrid
        rw [cast_succ_wrap _ N s3 hN, ← hlen] at hd
        have hsum := kvSum_two_point (nodeTuples true) key _ _ _ buck b1 hs hs1
          (fun e => hne e.symm) hd
        rw [hg, hcw] at hsum
        simp only [optSum, nodeTuples, if_true] at hsum
        unfold IndexInv
        rw [hu]
        refine ⟨b1, hb1, hs1, fun _ => ?_, by omega, ?_⟩
        · refine dupInv_present _ hal2 hinv2 (Nat.le_succ N) hv hk hck1 hck2
            (kvSorted_kvPut _ _ _ s1) ?_ (by omega) hd
          intro e
          rw [e] at hlen
          simp at hlen
        · rw [hc1, cast_succ_wrap _ N hle hN]
          congr 1
          omega

/-- A successful `remove` of a stored tuple keeps the state of the index up. -/
theorem remove_step_inv {env : Env} {idx : Index} {U : List Bytes} {N : Nat}
    {val rid : Bytes} {tx tx1 : Tx}
    (hB : idx.BnameBytes ≠ BUC_COUNTS) (hN : N + 1 < two63)
    (hal : idx.AllowDupKey = true → idx.aligned env U = true) (hv : val ∈ U)
    (hinv : IndexInv env idx U N tx) (hst : idx.isStored env val rid tx = true)
    (h : idx.remove env [] val rid tx = (tx1, .nil)) :
    IndexInv env idx U (N + 1) tx1 := by
  obtain ⟨buck, hb, hs, hdup, hle, hc⟩ := hinv
  obtain ⟨key, buck2, hk, hb2, hnd, hnu⟩ := isStored_inv hst
  rw [hb] at hb2
  cases hb2
  cases hu : idx.AllowDupKey with
  | false =>
    have hg := hnu hu
    obtain ⟨b1, hs1, hd, heq⟩ := remove_unique_step [] rid hu hk hb hs
      (by rw [hg]; intro kvs e; cases e)
    rw [heq] at h
    obtain ⟨hb1, hc1, _⟩ := bump_facts hB hc h
    have hsum := kvSum_point (nodeTuples false) key _ buck b1 hs hs1 hd
    rw [hg] at hsum
    simp only [optSum, nodeTuples, Bool.false_eq_true, if_false] at hsum
    rw [hu] at hle hc1
    unfold IndexInv
    rw [hu]
    refine ⟨b1, hb1, hs1, (fun e => Bool.noConfusion e), by omega, ?_⟩
    have e : kvSum (nodeTuples false) buck = kvSum (nodeTuples false) b1 + 1 := by omega
    rw [hc1, e, cast_pred_wrap _ N (by omega) hN]
  | true =>
    have hal2 := hal hu
    have hinv2 := hdup hu
    rw [hu] at hle hc
    obtain ⟨old, x, hg, hx⟩ := hnd hu
    obtain ⟨s1, s2, s3, hcw, hck1, hck2, hne⟩ := dupInv_countKey hal2 hinv2 hv hk hg
    have hlen := length_kvDel_some rid x old s1 hx
    by_cases hmany : 1 < old.length
    · obtain ⟨b1, hs1, hd, heq⟩ := remove_dup_many_step [] rid old _ hu hk hb hs hg hcw
        (by omega) (by unfold two63 at *; omega) hne hck1 hck2
      rw [heq] at h
      obtain ⟨hb1, hc1, _⟩ := bump_facts hB hc h
      have hw : wrapInt64 ((old.length : Int) - 1) = ((kvDel rid old).length : Int) := by
        rw [← hlen]
        exact cast_pred_wrap _ N (by omega) hN
      rw [hw] at hd
      have hsum := kvSum_two_point (nodeTuples true) key _ _ _ buck b1 hs hs1
        (fun e => hne e.symm) hd
      rw [hg, hcw] at hsum
      simp only [optSum, nodeTuples, if_true] at hsum
      unfold IndexInv
      rw [hu]
      refine ⟨b1, hb1, hs1, fun _ => ?_, by omega, ?_⟩
      · refine dupInv_present _ hal2 hinv2 (Nat.le_succ N) hv hk hck1 hck2
          (kvSorted_kvDel _ _ s1) ?_ (by omega) hd
        intro e
        rw [e] at hlen
        simp at hlen
        omega
      · rw [hc1]
        have : kvSum (nodeTuples true) buck = kvSum (nodeTuples true) b1 + 1 := by omega
        rw [this, cast_pred_wrap _ N (by omega) hN]
    · have hone : old.length = 1 := by
        have : old.length ≠ 0 := fun e => s2 (List.length_eq_zero.mp e)
        omega
      obtain ⟨b1, hs1, hd, heq⟩ := remove_dup_last_step [] rid old _ hu hk hb hs hg (by simp) hcw
        (by unfold two63; omega) (by omega) hne
      rw [heq] at h
      obtain ⟨hb1, hc1, _⟩ := bump_facts hB hc h
      have hsum := kvSum_two_point (nodeTuples true) key _ _ _ buck b1 hs hs1
        (fun e => hne e.symm) hd
      rw [hg, hcw] at hsum
      simp only [optSum, nodeTuples, if_true] at hsum
      unfold IndexInv
      rw [hu]
      refine ⟨b1, hb1, hs1, fun _ => dupInv_absent hal2 hinv2 (Nat.le_succ N) hv hk hd,
        by omega, ?_⟩
      rw [hc1]
      have : kvSum (nodeTuples true) buck = kvSum (nodeTuples true) b1 + 1 := by omega
      rw [this, cast_pred_wrap _ N (by omega) hN]

/-- The state of the index after a run of calls that each bring a new tuple or
take a stored one. -/
theorem run_inv {env : Env} {idx : Index} (U : List Bytes) (ops : List IndexOp) :
    ∀ (N : Nat) (tx tx1 : Tx), idx.BnameBytes ≠ BUC_COUNTS → N + ops.length < two63 →
      (idx.AllowDupKey = true → idx.aligned env U = true) →
      (∀ op ∈ ops, op.val ∈ U) → IndexInv env idx U N tx →
      idx.proper env ops tx = true → idx.run env ops tx = some tx1 →
      IndexInv env idx U (N + ops.length) tx1 := by
  induction ops with
  | nil =>
    intro N tx tx1 _ _ _ _ hinv _ hrun
    simp only [Index.run] at hrun
    cases hrun
    exact hinv
  | cons op rest ih =>
    intro N tx tx1 hB hN hal hU hinv hp hrun
    simp only [List.length_cons] at hN
    unfold Index.run at hrun
    cases hcall : idx.call env op tx with
    | mk tx2 o =>
      rw [hcall] at hrun
      cases o with
      | nil =>
        simp only at hrun
        have hstep : IndexInv env idx U (N + 1) tx2 ∧ idx.proper env rest tx2 = true := by
          cases op with
          | add val rid =>
            simp only [Index.call] at hcall
            simp only [Index.proper, Bool.and_eq_true, hcall] at hp
            exact ⟨add_step_inv hB (by omega) hal
              (hU _ (List.mem_cons_self _ _)) hinv hp.1 hcall, hp.2⟩
          | remove val rid =>
            simp only [Index.call] at hcall
            simp only [Index.proper, Bool.and_eq_true, hcall] at hp
            exact ⟨remove_step_inv hB (by omega) hal
              (hU _ (List.mem_cons_self _ _)) hinv hp.1 hcall, hp.2⟩
        have := ih (N + 1) tx2 tx1 hB (by omega) hal
          (fun op hop => hU op (List.mem_cons_of_mem _ hop)) hstep.1 hstep.2 hrun
        rw [List.length_cons]
        have e : N + (rest.length + 1) = N + 1 + rest.length := by omega
        rw [e]
        exact this
      | err e => simp at hrun
      | panic p => simp at hrun

/-- The empty index satisfies the state the calls keep up. -/
theorem indexInv_empty {env : Env} {idx : Index} (U : List Bytes) {tx : Tx}
    (h0 : tx.bucketOf idx.BnameBytes = some []) (hc0 : idx.getCount tx = .ok 0) :
    IndexInv env idx U 0 tx := by
  refine ⟨[], h0, kvSorted_nil, fun _ => ⟨?_, ?_⟩, by simp [kvSum], by simpa [kvSum] using hc0⟩
  · intro k kvs hg
    simp [kvGet] at hg
  · intro k x hg
    simp [kvGet] at hg

/-! ## The total and the count keys after a run of calls -/

/-- The total after calls that each change the index: start from the empty
index (empty bucket, total 0) and make fewer than 2^63 calls that all return
nil, each `add` bringing a tuple the index does not hold (for a unique index: a
value it does not hold) and each `remove` naming a tuple it holds; for a
duplicate-key index let the values keep keys and count keys in step.  Then
`getCount` returns the number of tuples stored in the index, which is a natural
number. -/
theorem getCount_is_tuple_count (env : Env) (idx : Index) (ops : List IndexOp) (tx0 tx : Tx)
    (hB : idx.BnameBytes ≠ BUC_COUNTS)
    (h0 : tx0.bucketOf idx.BnameBytes = some []) (hc0 : idx.getCount tx0 = .ok 0)
    (hlen : ops.length < two63)
    (hal : idx.AllowDupKey = true → idx.aligned env (ops.map IndexOp.val) = true)
    (hp : idx.proper env ops tx0 = true) (hrun : idx.run env ops tx0 = some tx) :
    idx.getCount tx = .ok (idx.tuples tx : Int) := by
  have hinv := run_inv (ops.map IndexOp.val) ops 0 tx0 tx hB (by omega) hal
    (fun op hop => List.mem_map_of_mem _ hop) (indexInv_empty _ h0 hc0) hp hrun
  obtain ⟨buck, hb, _, _, _, hc⟩ := hinv
  unfold Index.tuples
  rw [hb]
  exact hc

set_option maxRecDepth 1000000 in
theorem getCount_is_tuple_count_witness :
    macIndex.BnameBytes ≠ BUC_COUNTS ∧ emptyDb.bucketOf macIndex.BnameBytes = some [] ∧
    macIndex.getCount emptyDb = .ok 0 ∧ macIndex.aligned sampleEnv (macOps.map IndexOp.val) = true ∧
    macIndex.proper sampleEnv macOps emptyDb = true ∧
    macIndex.run sampleEnv macOps emptyDb = some dbMacRun ∧
    macIndex.tuples dbMacRun = 2 ∧
    macIndex.getCount dbMacRun = .ok (macIndex.tuples dbMacRun : Int) :=
  ⟨by decide, by decide, by decide, by decide, by decide, by decide, by decide,
   getCount_is_tuple_count sampleEnv macIndex macOps emptyDb dbMacRun (by decide) (by decide)
     (by decide) (by decide) (fun _ => by decide) (by decide) (by decide)⟩

set_option maxRecDepth 1000000 in
/-- Why the values have to keep keys and count keys in step: on a case-exact
duplicate-key index the values `A` and `a` have two nested buckets and share
the count key `a_count`.  Every call below brings a new tuple or takes a stored
one and returns nil, and the total ends at 2 with one tuple stored. -/
theorem shared_count_key_breaks_total :
    tagIndex.aligned sampleEnv (tagOps.map IndexOp.val) = false ∧
    tagIndex.proper sampleEnv tagOps emptyTagDb = true ∧
    tagIndex.run sampleEnv tagOps emptyTagDb = some dbTagRun ∧
    tagIndex.getCount dbTagRun = .ok 2 ∧ tagIndex.tuples dbTagRun = 1 :=
  ⟨by decide, by decide, by decide, by decide, by decide⟩

/-- The count of a value after calls that each change the index: start from the
empty index (empty bucket, total 0) and make fewer than 2^63 calls that all
return nil, each `add` bringing a tuple the index does not hold and each
`remove` naming a tuple it holds.  On a duplicate-key
index, for values (those of the calls and `v`) that keep keys and count keys in
step, `keyCount(v)` is the number of resource ids `GetRids` lists under
`convert(v)`.  On a unique index `keyCount(v)` is 1 if the key `convert(v)` is
bound and 0 otherwise. -/
theorem keyCount_is_multiplicity (env : Env) (idx : Index) (ops : List IndexOp) (tx0 tx : Tx)
    (v key : Bytes)
    (hB : idx.BnameBytes ≠ BUC_COUNTS)
    (h0 : tx0.bucketOf idx.BnameBytes = some []) (hc0 : idx.getCount tx0 = .ok 0)
    (hlen : ops.length < two63) (hk : idx.convert env v = .ok key)
    (hal : idx.AllowDupKey = true → idx.aligned env (v :: ops.map IndexOp.val) = true)
    (hp : idx.proper env ops tx0 = true) (hrun : idx.run env ops tx0 = some tx) :
    (idx.AllowDupKey = true → ∃ rids, idx.GetRids key tx = .ok rids ∧
      idx.keyCount env v tx = .ok (rids.length : Int)) ∧
    (idx.AllowDupKey = false → ∃ buck, tx.bucketOf idx.BnameBytes = some buck ∧
      idx.keyCount env v tx = .ok (if (Bucket.Get buck key).isSome then 1 else 0)) := by
  have hinv := run_inv (v :: ops.map IndexOp.val) ops 0 tx0 tx hB (by omega) hal
    (fun op hop => List.mem_cons_of_mem _ (List.mem_map_of_mem _ hop))
    (indexInv_empty _ h0 hc0) hp hrun
  obtain ⟨buck, hb, _, hdup, _, _⟩ := hinv
  constructor
  · intro hu
    have hal2 := hal hu
    have hinv2 := hdup hu
    unfold Index.GetRids Index.keyCount
    simp only [hb, hu, if_true]
    cases hg : kvGet key buck with
    | none =>
      have hfree := dupInv_countKey_free hal2 hinv2 (List.mem_cons_self _ _) hk
        (by rw [hg]; intro kvs e; cases e)
      refine ⟨[], ?_, ?_⟩
      · simp [Bucket.Nested, hg]
      · simp [Bucket.Get, hfree]
    | some nd =>
      cases nd with
      | value x =>
        have hfree := dupInv_countKey_free hal2 hinv2 (List.mem_cons_self _ _) hk
          (by rw [hg]; intro kvs e; cases e)
        refine ⟨[], ?_, ?_⟩
        · simp [Bucket.Nested, hg]
        · simp [Bucket.Get, hfree]
      | nested kvs =>
        obtain ⟨_, _, s3, hcw, _, _, _⟩ :=
          dupInv_countKey hal2 hinv2 (List.mem_cons_self _ _) hk hg
        refine ⟨kvs.map Prod.fst, ?_, ?_⟩
        · simp [Bucket.Nested, hg]
        · simp only [Bucket.Get, hcw, List.length_map]
          rw [btoi_itob _ (by unfold two63; omega) (by unfold two63 at *; omega)]
  · intro hu
    refine ⟨buck, hb, ?_⟩
    unfold Index.keyCount
    rw [hk]
    simp only [hb, hu, Bool.false_eq_true, if_false]
    cases hg : Bucket.Get buck key with
    | none => simp
    | some r => simp

set_option maxRecDepth 1000000 in
theorem keyCount_is_multiplicity_witness :
    macIndex.AllowDupKey = true ∧ macIndex.BnameBytes ≠ BUC_COUNTS ∧
    emptyDb.bucketOf macIndex.BnameBytes = some [] ∧ macIndex.getCount emptyDb = .ok 0 ∧
    macIndex.convert sampleEnv (ascii "7B") = .ok (ascii "7b") ∧
    macIndex.aligned sampleEnv (ascii "7B" :: macOps.map IndexOp.val) = true ∧
    macIndex.proper sampleEnv macOps emptyDb = true ∧
    macIndex.run sampleEnv macOps emptyDb = some dbMacRun ∧
    macIndex.GetRids (ascii "7b") dbMacRun = .ok [ridA] ∧
    macIndex.keyCount sampleEnv (ascii "7B") dbMacRun = .ok 1 ∧
    ((macIndex.AllowDupKey = true → ∃ rids, macIndex.GetRids (ascii "7b") dbMacRun = .ok rids ∧
      macIndex.keyCount sampleEnv (ascii "7B") dbMacRun = .ok (rids.length : Int)) ∧
    (macIndex.AllowDupKey = false → ∃ buck, dbMacRun.bucketOf macIndex.BnameBytes = some buck ∧
      macIndex.keyCount sampleEnv (ascii "7B") dbMacRun =
        .ok (if (Bucket.Get buck (ascii "7b")).isSome then 1 else 0))) :=
  ⟨by decide, by decide, by decide, by decide, by decide, by decide, by decide, by decide,
   by decide, by decide,
   keyCount_is_multiplicity sampleEnv macIndex macOps emptyDb dbMacRun (ascii "7B") (ascii "7b")
     (by decide) (by decide) (by decide) (by decide) (by decide) (fun _ => by decide)
     (by decide) (by decide)⟩

/-! ## `remove` after `add` -/

theorem kvDel_kvPut_none {α : Type} (k : Bytes) (v : α) (l : List (Bytes × α))
    (h : kvGet k l = none) : kvDel k (kvPut k v l) = l := by
  induction l with
  | nil => simp [kvPut, kvDel]
  | cons e1 r ih =>
    obtain ⟨k1, v1⟩ := e1
    have hl := kvDel_of_none k _ h
    unfold kvGet at h
    split at h
    · cases h
    · rename_i hne
      unfold kvPut
      rw [if_neg hne]
      split
      · unfold kvDel
        rw [if_pos rfl]
        exact hl
      · unfold kvDel
        rw [if_neg hne, ih h]

/-- The entry of the index in the counts bucket after a successful update. -/
theorem bump_entry {idx : Index} {d : Int} {tx tx1 : Tx}
    (h : idx.bumpCount d tx = (tx1, .nil)) :
    ∃ cb c, tx1.bucketOf BUC_COUNTS = some cb ∧
      kvGet idx.BnameBytes cb = some (.value (Itob c)) ∧ idx.getCount tx1 = .ok c := by
  obtain ⟨cb, c, _, _, htx1, hg⟩ := bumpCount_inv h
  refine ⟨kvPut idx.BnameBytes (.value (Itob (wrapInt64 (c + d)))) cb, wrapInt64 (c + d),
    ?_, kvGet_kvPut_self _ _ _, hg⟩
  rw [htx1, bucketOf_setBucket_self]

theorem call_entry {env : Env} {idx : Index} {op : IndexOp} {tx tx1 : Tx}
    (h : idx.call env op tx = (tx1, .nil)) :
    ∃ cb c, tx1.bucketOf BUC_COUNTS = some cb ∧
      kvGet idx.BnameBytes cb = some (.value (Itob c)) ∧ idx.getCount tx1 = .ok c := by
  cases op with
  | add val rid =>
    simp only [Index.call] at h
    unfold Index.add at h
    repeat' split at h
    all_goals first
      | exact bump_entry h
      | cases h
  | remove val rid =>
    simp only [Index.call] at h
    unfold Index.remove at h
    repeat' split at h
    all_goals first
      | exact bump_entry h
      | cases h

/-- After at least one successful call the counts bucket holds the total of
the index as an encoded integer. -/
theorem run_entry {env : Env} {idx : Index} (ops : List IndexOp) :
    ∀ (tx tx1 : Tx), ops ≠ [] → idx.run env ops tx = some tx1 →
      ∃ cb c, tx1.bucketOf BUC_COUNTS = some cb ∧
        kvGet idx.BnameBytes cb = some (.value (Itob c)) ∧ idx.getCount tx1 = .ok c := by
  induction ops with
  | nil => intro tx tx1 hne; exact absurd rfl hne
  | cons op rest ih =>
    intro tx tx1 _ hrun
    unfold Index.run at hrun
    cases hcall : idx.call env op tx with
    | mk tx2 o =>
      rw [hcall] at hrun
      cases o with
      | nil =>
        simp only at hrun
        cases rest with
        | nil =>
          simp only [Index.run] at hrun
          cases hrun
          exact call_entry hcall
        | cons op2 rest2 => exact ih tx2 tx1 (by simp) hrun
      | err e => simp at hrun
      | panic p => simp at hrun

/-- The common end of the restore argument: the bucket after `remove` answers
every key like the bucket before `add`. -/
theorem restore_core {env : Env} {idx : Index} {nil0 : List Bytes} {val rid : Bytes}
    {tx tx1 : Tx} {buck b1 b2 : Bucket} (n : Nat)
    (hB : idx.BnameBytes ≠ BUC_COUNTS) (hn : n + 2 < two63)
    (hc : idx.getCount tx = .ok (n : Int))
    (hb : tx.bucketOf idx.BnameBytes = some buck) (hs : kvSorted buck) (hs2 : kvSorted b2)
    (hbump : idx.bumpCount 1 (tx.setBucket idx.BnameBytes b1) = (tx1, .nil))
    (hrem : idx.remove env nil0 val rid tx1 = idx.bumpCount (-1) (tx1.setBucket idx.BnameBytes b2))
    (hrest : ∀ k, kvGet k b2 = kvGet k buck) :
    (idx.remove env nil0 val rid tx1).2 = .nil ∧
    (idx.remove env nil0 val rid tx1).1.bucketOf idx.BnameBytes = tx.bucketOf idx.BnameBytes ∧
    idx.getCount (idx.remove env nil0 val rid tx1).1 = idx.getCount tx ∧
    ∀ cb, tx.bucketOf BUC_COUNTS = some cb →
      kvGet idx.BnameBytes cb = some (.value (Itob (n : Int))) →
      ∃ cb2, (idx.remove env nil0 val rid tx1).1.bucketOf BUC_COUNTS = some cb2 ∧
        kvGet idx.BnameBytes cb2 = kvGet idx.BnameBytes cb := by
  have hb2 : b2 = buck := kv_ext b2 buck hs2 hs hrest
  subst hb2
  obtain ⟨_, hc1, cb, cb1, hcb, hcb1, hent1⟩ := bump_facts hB hc hbump
  obtain ⟨hk1, hk2, _⟩ := bumpCount_key hbump
  have hcb1s : (tx1.setBucket idx.BnameBytes b2).bucketOf BUC_COUNTS = some cb1 := by
    rw [bucketOf_setBucket_ne _ _ _ _ (fun e => hB e.symm)]
    exact hcb1
  have hc1s : idx.getCount (tx1.setBucket idx.BnameBytes b2) =
      .ok (wrapInt64 ((n : Int) + 1)) := by
    rw [getCount_setBucket_ne _ _ _ _ (fun e => hB e.symm)]
    exact hc1
  have hn1 : Bucket.Nested cb1 idx.BnameBytes = none := by
    simp [Bucket.Nested, hent1]
  have hres := bumpCount_nil (-1) hcb1s hc1s hk1 hk2 hn1
  have hw : wrapInt64 (wrapInt64 ((n : Int) + 1) + -1) = (n : Int) := by
    rw [cast_succ_wrap n n (le_refl n) (by omega)]
    exact cast_pred_wrap n (n + 1) (le_refl _) hn
  rw [hw] at hres
  rw [hrem, hres]
  refine ⟨rfl, ?_, ?_, ?_⟩
  · simp only
    rw [bucketOf_setBucket_ne _ _ _ _ hB, bucketOf_setBucket_self, hb]
  · simp only
    rw [hc]
    have := getCount_written idx (tx1.setBucket idx.BnameBytes b2) cb1 (n : Int)
    rw [wrapInt64_id _ (by unfold two63; omega) (by unfold two63 at *; omega)] at this
    exact this
  · intro cb0 hcb0 hent
    refine ⟨_, bucketOf_setBucket_self _ _ _, ?_⟩
    rw [kvGet_kvPut_self, hent]

/-! ## The integer codec read back, and the shape of ids -/

/-- C26: for every int64 `i`, the smallest and the largest included, `Btoi`
returns `i` on `Itob(i)`; a total written with `Itob` into the counts bucket is
what `getCount` returns, and a count written with `Itob` under the count key of
a value is what `keyCount` returns on a duplicate-key index. -/
theorem itob_btoi_round_trip (i : Int) (hlo : minInt64 ≤ i) (hhi : i ≤ maxInt64) :
    Btoi (Itob i) = some i ∧
    (∀ (idx : Index) (tx : Tx) (cb : Bucket),
      idx.getCount (tx.setBucket BUC_COUNTS (kvPut idx.BnameBytes (.value (Itob i)) cb)) =
        .ok i) ∧
    (∀ (env : Env) (idx : Index) (v : Bytes) (tx : Tx) (buck : Bucket),
      idx.AllowDupKey = true →
      idx.keyCount env v (tx.setBucket idx.BnameBytes
        (kvPut (countKeyOf env v) (.value (Itob i)) buck)) = .ok i) := by
  have h0 : -(two63 : Int) ≤ i := by unfold minInt64 at hlo; unfold two63; omega
  have h1 : i < two63 := by unfold maxInt64 at hhi; unfold two63; omega
  have hb := btoi_itob i h0 h1
  refine ⟨hb, ?_, ?_⟩
  · intro idx tx cb
    unfold Index.getCount
    rw [bucketOf_setBucket_self]
    simp only [Bucket.Get, kvGet_kvPut_self, hb]
  · intro env idx v tx buck hu
    unfold Index.keyCount
    simp only [hu, if_true]
    rw [bucketOf_setBucket_self]
    simp only [Bucket.Get, kvGet_kvPut_self, hb]

theorem itob_btoi_round_trip_witness :
    minInt64 ≤ minInt64 ∧ minInt64 ≤ maxInt64 ∧
    Btoi (Itob minInt64) = some minInt64 ∧ Btoi (Itob maxInt64) = some maxInt64 ∧
    (Btoi (Itob minInt64) = some minInt64 ∧
    (∀ (idx : Index) (tx : Tx) (cb : Bucket),
      idx.getCount (tx.setBucket BUC_COUNTS
        (kvPut idx.BnameBytes (.value (Itob minInt64)) cb)) = .ok minInt64) ∧
    (∀ (env : Env) (idx : Index) (v : Bytes) (tx : Tx) (buck : Bucket),
      idx.AllowDupKey = true →
      idx.keyCount env v (tx.setBucket idx.BnameBytes
        (kvPut (countKeyOf env v) (.value (Itob minInt64)) buck)) = .ok minInt64)) :=
  ⟨by decide, by decide, by decide, by decide,
   itob_btoi_round_trip minInt64 (by decide) (by decide)⟩

theorem hexDigit_lower (n : Nat) (h : n < 16) : isLowerHex (hexDigit n) = true := by
  unfold isLowerHex hexDigit
  split <;> simp <;> omega

theorem hex_pair_inj (x y : Nat) (hx : x < 256) (hy : y < 256)
    (h1 : hexDigit (x % 256 / 16) = hexDigit (y % 256 / 16))
    (h2 : hexDigit (x % 16) = hexDigit (y % 16)) : x = y := by
  unfold hexDigit at h1 h2
  split at h1 <;> split at h1 <;> split at h2 <;> split at h2 <;> omega

theorem hexDigit_hi (x : Nat) : isLowerHex (hexDigit (x % 256 / 16)) = true :=
  hexDigit_lower _ (by omega)

theorem hexDigit_lo (x : Nat) : isLowerHex (hexDigit (x % 16)) = true :=
  hexDigit_lower _ (by omega)

theorem hexDigit_ne_dash (n : Nat) : hexDigit n ≠ 45 := by
  unfold hexDigit
  split <;> omega

theorem length_sixteen (b : Bytes) (h : b.length = 16) :
    ∃ a0 a1 a2 a3 a4 a5 a6 a7 a8 a9 a10 a11 a12 a13 a14 a15,
      b = [a0, a1, a2, a3, a4, a5, a6, a7, a8, a9, a10, a11, a12, a13, a14, a15] := by
  rcases b with _ | ⟨a0, _ | ⟨a1, _ | ⟨a2, _ | ⟨a3, _ | ⟨a4, _ | ⟨a5, _ | ⟨a6, _ | ⟨a7, _ |
    ⟨a8, _ | ⟨a9, _ | ⟨a10, _ | ⟨a11, _ | ⟨a12, _ | ⟨a13, _ | ⟨a14, _ | ⟨a15, _ | ⟨a16,
    t⟩⟩⟩⟩⟩⟩⟩⟩⟩⟩⟩⟩⟩⟩⟩⟩⟩
  all_goals simp only [List.length_cons, List.length_nil] at h
  all_goals first
    | omega
    | exact ⟨a0, a1, a2, a3, a4, a5, a6, a7, a8, a9, a10, a11, a12, a13, a14, a15, rfl⟩

/-- C23: for every 16 bytes drawn, the id `GenUUID` makes of them has 36
characters, the separator `-` at the positions 8, 13, 18 and 23 and a lower-case
hexadecimal digit at each of the other 32 positions; other 16 bytes give another
id; and a successful `Insert` that drew the bytes returns the resource under
that id. -/
theorem genUUID_shape (b : Bytes) (hlen : b.length = 16) (hb : ∀ x ∈ b, x < 256) :
    (GenUUID b).length = 36 ∧
    (∀ i, i < 36 →
      if i ∈ dashPositions then (GenUUID b).getD i 0 = 45
      else isLowerHex ((GenUUID b).getD i 0) = true) ∧
    (∀ b2 : Bytes, b2.length = 16 → (∀ x ∈ b2, x < 256) → b2 ≠ b → GenUUID b2 ≠ GenUUID b) ∧
    (∀ (env : Env) (sl : Silo) (db db1 : Tx) (inRes res : Resource),
      sl.Insert env db b inRes = .ok res db1 → res.GetId = GenUUID b) := by
  obtain ⟨a0, a1, a2, a3, a4, a5, a6, a7, a8, a9, a10, a11, a12, a13, a14, a15, rfl⟩ := length_sixteen b hlen
  refine ⟨by simp [GenUUID, hexBytes], ?_, ?_, ?_⟩
  · intro i hi
    interval_cases i <;>
      simp [GenUUID, hexBytes, dashPositions, hexDigit_hi, hexDigit_lo]
  · intro b2 hlen2 hb' hne heq
    obtain ⟨c0, c1, c2, c3, c4, c5, c6, c7, c8, c9, c10, c11, c12, c13, c14, c15, rfl⟩ := length_sixteen b2 hlen2
    apply hne
    simp only [GenUUID, hexBytes, List.take, List.drop, List.cons_append, List.nil_append,
      List.append_nil, List.cons.injEq, and_true, true_and] at heq
    obtain ⟨e0h, e0l, e1h, e1l, e2h, e2l, e3h, e3l, e4h, e4l, e5h, e5l, e6h, e6l, e7h, e7l, e8h, e8l, e9h, e9l, e10h, e10l, e11h, e11l, e12h, e12l, e13h, e13l, e14h, e14l, e15h, e15l⟩ := heq
    simp only [List.cons.injEq, and_true]
    exact ⟨hex_pair_inj _ _ (hb' c0 (by simp)) (hb a0 (by simp)) e0h e0l,
      hex_pair_inj _ _ (hb' c1 (by simp)) (hb a1 (by simp)) e1h e1l,
      hex_pair_inj _ _ (hb' c2 (by simp)) (hb a2 (by simp)) e2h e2l,
      hex_pair_inj _ _ (hb' c3 (by simp)) (hb a3 (by simp)) e3h e3l,
      hex_pair_inj _ _ (hb' c4 (by simp)) (hb a4 (by simp)) e4h e4l,
      hex_pair_inj _ _ (hb' c5 (by simp)) (hb a5 (by simp)) e5h e5l,
      hex_pair_inj _ _ (hb' c6 (by simp)) (hb a6 (by simp)) e6h e6l,
      hex_pair_inj _ _ (hb' c7 (by simp)) (hb a7 (by simp)) e7h e7l,
      hex_pair_inj _ _ (hb' c8 (by simp)) (hb a8 (by simp)) e8h e8l,
      hex_pair_inj _ _ (hb' c9 (by simp)) (hb a9 (by simp)) e9h e9l,
      hex_pair_inj _ _ (hb' c10 (by simp)) (hb a10 (by simp)) e10h e10l,
      hex_pair_inj _ _ (hb' c11 (by simp)) (hb a11 (by simp)) e11h e11l,
      hex_pair_inj _ _ (hb' c12 (by simp)) (hb a12 (by simp)) e12h e12l,
      hex_pair_inj _ _ (hb' c13 (by simp)) (hb a13 (by simp)) e13h e13l,
      hex_pair_inj _ _ (hb' c14 (by simp)) (hb a14 (by simp)) e14h e14l,
      hex_pair_inj _ _ (hb' c15 (by simp)) (hb a15 (by simp)) e15h e15l⟩
  · intro env sl db db1 inRes res h
    rw [(insert_ok_steps h).1]
    rfl

theorem genUUID_shape_witness :
    draw1.length = 16 ∧ (∀ x ∈ draw1, x < 256) ∧
    GenUUID draw1 = ascii "01010101-0101-0101-0101-010101010101" ∧
    ((GenUUID draw1).length = 36 ∧
    (∀ i, i < 36 →
      if i ∈ dashPositions then (GenUUID draw1).getD i 0 = 45
      else isLowerHex ((GenUUID draw1).getD i 0) = true) ∧
    (∀ b2 : Bytes, b2.length = 16 → (∀ x ∈ b2, x < 256) → b2 ≠ draw1 →
      GenUUID b2 ≠ GenUUID draw1) ∧
    (∀ (env : Env) (sl : Silo) (db db1 : Tx) (inRes res : Resource),
      sl.Insert env db draw1 inRes = .ok res db1 → res.GetId = GenUUID draw1)) :=
  ⟨by decide, by decide, by decide, genUUID_shape draw1 (by decide) (by decide)⟩

/-! ## Count keys and value keys in one bucket -/

theorem hasSuffix_append (p suffix : Bytes) : HasSuffix (p ++ suffix) suffix = true := by
  unfold HasSuffix
  simp

theorem countKey_hasSuffix (env : Env) (v : Bytes) :
    HasSuffix (countKeyOf env v) (ascii "_count") = true :=
  hasSuffix_append _ _

theorem countKey_length (env : Env) (v : Bytes) :
    (countKeyOf env v).length = (env.ToLower v).length + 6 := by
  unfold countKeyOf
  rw [List.length_append]
  rfl

theorem encodeUint_length (v : Nat) : (encodeUint v).length = 8 := by
  simp [encodeUint, encodeLoop]

set_option maxRecDepth 1000000 in
/-- C27, counterexample: on the duplicate-key index of `macIds` the count key
of the value `6a` is the encoded key of the value `6a_count`; with `6A` in the
index, `add("6a_count", id)` finds a plain entry where its nested bucket should
go and returns the engine's error. -/
theorem count_key_is_value_key :
    macIndex.AllowDupKey = true ∧
    countKeyOf sampleEnv (ascii "6a") = ascii "6a_count" ∧
    macIndex.convert sampleEnv (ascii "6a_count") = .ok (ascii "6a_count") ∧
    macIndex.add sampleEnv (ascii "6A") ridA emptyDb = (dbMacKey, .nil) ∧
    macCountClash = (dbMacKey, .err (.bolt .ErrIncompatibleValue)) :=
  ⟨by decide, by decide, by decide, by decide, by decide⟩

/-- C27, amended: the count key `lower(v) + "_count"` differs from the encoded
key `convert(w)` whenever that key does not end in `_count`; on an integer or
decimal index, whose keys are 8 bytes, whenever `lower(v)` is not two bytes
long; and on an index that lower-cases its values (a string index that is not
case-exact, a boolean index) no value has its own count key as its key. -/
theorem countKey_differs_from_key (env : Env) (idx : Index) (v w key : Bytes)
    (hk : idx.convert env w = .ok key) :
    (HasSuffix key (ascii "_count") = false → countKeyOf env v ≠ key) ∧
    ((idx.ValType = ascii "integer" ∨ idx.ValType = ascii "decimal") →
      (env.ToLower v).length ≠ 2 → countKeyOf env v ≠ key) ∧
    (((idx.ValType = ascii "string" ∧ idx.CaseSensitive = false) ∨
        idx.ValType = ascii "boolean") →
      idx.convert env v ≠ .ok (countKeyOf env v)) := by
  refine ⟨?_, ?_, ?_⟩
  · intro hs he
    rw [← he, countKey_hasSuffix] at hs
    cases hs
  · intro ht hl he
    have h8 : key.length = 8 := by
      unfold Index.convert at hk
      rcases ht with ht | ht
      · rw [ht] at hk
        simp only [show ¬ (ascii "integer" = ascii "string") by decide,
          show ¬ (ascii "integer" = ascii "boolean") by decide,
          show ¬ (ascii "integer" = ascii "binary" ∨ ascii "integer" = ascii "reference")
            by decide, if_false, if_true] at hk
        cases hk
        exact itob_length _
      · rw [ht] at hk
        simp only [show ¬ (ascii "decimal" = ascii "string") by decide,
          show ¬ (ascii "decimal" = ascii "boolean") by decide,
          show ¬ (ascii "decimal" = ascii "binary" ∨ ascii "decimal" = ascii "reference")
            by decide,
          show ¬ (ascii "decimal" = ascii "integer") by decide,
          show ¬ (ascii "decimal" = ascii "datetime") by decide, if_false, if_true] at hk
        cases hk
        exact encodeUint_length _
    rw [← he, countKey_length] at h8
    omega
  · intro ht he
    have hlow : idx.convert env v = .ok (env.ToLower v) := by
      unfold Index.convert
      rcases ht with ⟨ht, hc⟩ | ht
      · rw [ht, hc]
        simp
      · rw [ht]
        simp only [show ¬ (ascii "boolean" = ascii "string") by decide, if_false, if_true]
    rw [hlow] at he
    have hlen := congrArg List.length (Except.ok.inj he)
    rw [countKey_length] at hlen
    omega

set_option maxRecDepth 1000000 in
theorem countKey_differs_from_key_witness :
    macIndex.convert sampleEnv (ascii "7B") = .ok (ascii "7b") ∧
    HasSuffix (ascii "7b") (ascii "_count") = false ∧
    ((HasSuffix (ascii "7b") (ascii "_count") = false →
      countKeyOf sampleEnv (ascii "6a") ≠ ascii "7b") ∧
    ((macIndex.ValType = ascii "integer" ∨ macIndex.ValType = ascii "decimal") →
      (sampleEnv.ToLower (ascii "6a")).length ≠ 2 →
      countKeyOf sampleEnv (ascii "6a") ≠ ascii "7b") ∧
    (((macIndex.ValType = ascii "string" ∧ macIndex.CaseSensitive = false) ∨
        macIndex.ValType = ascii "boolean") →
      macIndex.convert sampleEnv (ascii "6a") ≠ .ok (countKeyOf sampleEnv (ascii "6a")))) :=
  ⟨by decide, by decide,
   countKey_differs_from_key sampleEnv macIndex (ascii "6a") (ascii "7B") (ascii "7b")
     (by decide)⟩

/-! ## Static values of SAML attributes -/

/-- C28: for a configured attribute with a non-empty static value and no
delimiter, `genSamlResponse` renders one attribute whose `Value` is the empty
delimiter, not the static value; the static value does not reach the template. -/
theorem static_value_not_rendered (getValueFrom : SamlAttribute → Option Bytes) (k : Bytes)
    (v : SamlAttribute) (h1 : v.StaticVal.length > 0) (h2 : v.StaticMultiValDelim.length = 0) :
    samlAttrEntries getValueFrom k v = [(k, renderAttribute { v with Value := [] })] ∧
    samlAttributes getValueFrom [(k, v)] = [(k, renderAttribute { v with Value := [] })] := by
  have hd : v.StaticMultiValDelim = [] := List.length_eq_zero.mp h2
  have he : samlAttrEntries getValueFrom k v = [(k, renderAttribute { v with Value := [] })] := by
    unfold samlAttrEntries
    rw [if_pos h1, if_pos h2, hd]
  refine ⟨he, ?_⟩
  unfold samlAttributes
  simp only [List.foldl_cons, List.foldl_nil, he, kvPut]

set_option maxRecDepth 1000000 in
theorem static_value_not_rendered_witness :
    roleAttr.StaticVal = ascii "admin" ∧
    renderAttribute { roleAttr with Value := [] } =
      [10] ++ ascii "<saml2:Attribute Name=" ++ [34] ++ ascii "role" ++ [34] ++
        ascii " NameFormat=" ++ [34] ++ ascii "basic" ++ [34] ++ ascii ">" ++ [10] ++
        ascii " <saml2:AttributeValue></saml2:AttributeValue>" ++ [10] ++
        ascii "</saml2:Attribute>" ∧
    samlAttributes (fun _ => none) [(ascii "teams", teamsAttr)] =
      [(ascii "teams" ++ [0], renderAttribute { teamsAttr with Value := ascii "dev" }),
       (ascii "teams" ++ [1], renderAttribute { teamsAttr with Value := ascii "ops" })] ∧
    (samlAttrEntries (fun _ => none) (ascii "role") roleAttr =
      [(ascii "role", renderAttribute { roleAttr with Value := [] })] ∧
    samlAttributes (fun _ => none) [(ascii "role", roleAttr)] =
      [(ascii "role", renderAttribute { roleAttr with Value := [] })]) :=
  ⟨by decide, by decide, by decide,
   static_value_not_rendered (fun _ => none) (ascii "role") roleAttr (by decide) (by decide)⟩

/-! ## What `Open` prunes -/

set_option maxRecDepth 1000000 in
/-- C21, at the failing input: `Open` of a new file with users indexed by
`userName` and by the URN-qualified path of `employeeNumber` returns a silo and
no error; the silo lists both indices; the bucket of `userName` and the
presence index are in the file; the bucket of the qualified index and its
entry in the `indices` bucket, made in this run, are gone, and `add` on that
index panics on the missing bucket. -/
theorem open_prunes_qualified_index :
    urnOpen.toOption.map (fun r => (r.err, r.sl.isSome)) = some (none, true) ∧
    kvGet (sampleEnv.ToLower employeeNumberPath) (urnSilo.indicesOf (ascii "User")) =
      some urnIndex ∧
    (kvGet (ascii "username") (urnSilo.indicesOf (ascii "User"))).isSome = true ∧
    (urnDb.bucketOf (ascii "User:username")).isSome = true ∧
    (urnDb.bucketOf (ascii "User:presence_system")).isSome = true ∧
    (urnDb.bucketOf BUC_INDICES).map
      (fun b => ((Bucket.Get b (ascii "User:username")).isSome,
        (Bucket.Get b (ascii "User:presence_system")).isSome,
        (Bucket.Get b urnIndex.BnameBytes).isSome)) = some (true, true, false) ∧
    urnDb.bucketOf urnIndex.BnameBytes = none ∧
    (urnIndex.add sampleEnv (ascii "1") ridA urnDb).2 = .panic nilDeref :=
  ⟨by decide, by decide, by decide, by decide, by decide, by decide, by decide, by decide⟩

/-! ## Search: what the loops put into the results -/

theorem kvGet_ne_none_of_mem {α : Type} (k : Bytes) (x : α) (l : List (Bytes × α))
    (h : (k, x) ∈ l) : kvGet k l ≠ none := by
  induction l with
  | nil => cases h
  | cons e r ih =>
    obtain ⟨k1, v1⟩ := e
    unfold kvGet
    by_cases hk : k = k1
    · rw [if_pos hk]
      intro hc
      cases hc
    · rw [if_neg hk]
      rcases List.mem_cons.mp h with h | h
      · cases h
        exact absurd rfl hk
      · exact ih h

theorem kvGet_of_mem_sorted {α : Type} (k : Bytes) (x : α) (l : List (Bytes × α))
    (hs : kvSorted l) (h : (k, x) ∈ l) : kvGet k l = some x := by
  induction l with
  | nil => cases h
  | cons e r ih =>
    obtain ⟨k1, v1⟩ := e
    rw [kvSorted_cons] at hs
    unfold kvGet
    rcases List.mem_cons.mp h with h | h
    · cases h
      rw [if_pos rfl]
    · have hlt := hs.1 _ h
      have hne : k ≠ k1 := fun e => bytesLt_ne _ _ hlt e.symm
      rw [if_neg hne]
      exact ih hs.2 h

theorem get_of_mem_value {b : Bucket} {k v : Bytes} (h : Bucket.Get b k = some v) :
    (k, Node.value v) ∈ b := by
  unfold Bucket.Get at h
  split at h
  · rename_i v1 hg
    cases h
    exact kvGet_mem _ _ _ hg
  · cases h

theorem get_none_of_kvGet_none {b : Bucket} {k : Bytes} (h : kvGet k b = none) :
    Bucket.Get b k = none := by
  unfold Bucket.Get
  rw [h]

/-- The cursor loop: keys outside the bucket keep their result, a result comes
from before or from a row that passes the evaluator, and with ascending keys
every row that passes is in the results. -/
theorem searchScan_spec (env : Env) (ev : Resource → Except PanicVal Bool) (rt : ResourceType)
    (entries : List (Bytes × Node)) :
    ∀ res res1, searchScan env ev rt entries res = .ok res1 →
      (∀ k, (∀ x, (k, x) ∉ entries) → kvGet k res1 = kvGet k res) ∧
      (∀ k rs, kvGet k res1 = some rs → kvGet k res = some rs ∨
        ∃ v rs0, (k, Node.value v) ∈ entries ∧ env.Decode v = .ok rs0 ∧
          rs = rs0.SetSchema rt ∧ ev rs = .ok true) ∧
      (kvSorted entries → ∀ k v rs0, (k, Node.value v) ∈ entries → env.Decode v = .ok rs0 →
        ev (rs0.SetSchema rt) = .ok true → kvGet k res1 = some (rs0.SetSchema rt)) := by
  induction entries with
  | nil =>
    intro res res1 h
    simp only [searchScan] at h
    cases h
    exact ⟨fun _ _ => rfl, fun _ _ h => Or.inl h, fun _ _ _ _ hm => absurd hm (List.not_mem_nil _)⟩
  | cons e rest ih =>
    obtain ⟨k1, n1⟩ := e
    intro res res1 h
    cases n1 with
    | nested kvs =>
      simp only [searchScan] at h
      obtain ⟨i1, i2, i3⟩ := ih res res1 h
      refine ⟨?_, ?_, ?_⟩
      · intro k hk
        exact i1 k (fun x hx => hk x (List.mem_cons_of_mem _ hx))
      · intro k rs hg
        rcases i2 k rs hg with h1 | ⟨v, rs0, hm, h2⟩
        · exact Or.inl h1
        · exact Or.inr ⟨v, rs0, List.mem_cons_of_mem _ hm, h2⟩
      · intro hs k v rs0 hm hd he
        rw [kvSorted_cons] at hs
        rcases List.mem_cons.mp hm with hm | hm
        · cases hm
        · exact i3 hs.2 k v rs0 hm hd he
    | value v1 =>
      simp only [searchScan] at h
      cases hdec : env.Decode v1 with
      | error e => rw [hdec] at h; cases h
      | ok rs1 =>
        rw [hdec] at h
        simp only at h
        cases hev : ev (rs1.SetSchema rt) with
        | error p => rw [hev] at h; cases h
        | ok bv =>
          rw [hev] at h
          cases bv with
          | true =>
            simp only at h
            obtain ⟨i1, i2, i3⟩ := ih _ res1 h
            refine ⟨?_, ?_, ?_⟩
            · intro k hk
              have hne : k ≠ k1 := fun e => hk (Node.value v1) (by rw [e]; exact List.mem_cons_self _ _)
              rw [i1 k (fun x hx => hk x (List.mem_cons_of_mem _ hx)),
                kvGet_kvPut_ne _ _ _ _ hne]
            · intro k rs hg
              rcases i2 k rs hg with h1 | ⟨v, rs0, hm, h2⟩
              · by_cases hkk : k = k1
                · subst hkk
                  rw [kvGet_kvPut_self] at h1
                  cases h1
                  exact Or.inr ⟨v1, rs1, List.mem_cons_self _ _, hdec, rfl, hev⟩
                · rw [kvGet_kvPut_ne _ _ _ _ hkk] at h1
                  exact Or.inl h1
              · exact Or.inr ⟨v, rs0, List.mem_cons_of_mem _ hm, h2⟩
            · intro hs k v rs0 hm hd he
              rw [kvSorted_cons] at hs
              rcases List.mem_cons.mp hm with hm | hm
              · cases hm
                rw [hdec] at hd
                cases hd
                rw [i1 _ (fun x hx => bytesLt_ne _ _ (hs.1 _ hx) rfl), kvGet_kvPut_self]
              · exact i3 hs.2 k v rs0 hm hd he
          | false =>
            simp only at h
            obtain ⟨i1, i2, i3⟩ := ih _ res1 h
            refine ⟨?_, ?_, ?_⟩
            · intro k hk
              exact i1 k (fun x hx => hk x (List.mem_cons_of_mem _ hx))
            · intro k rs hg
              rcases i2 k rs hg with h1 | ⟨v, rs0, hm, h2⟩
              · exact Or.inl h1
              · exact Or.inr ⟨v, rs0, List.mem_cons_of_mem _ hm, h2⟩
            · intro hs k v rs0 hm hd he
              rw [kvSorted_cons] at hs
              rcases List.mem_cons.mp hm with hm | hm
              · cases hm
                rw [hdec] at hd
                cases hd
                rw [hev] at he
                cases he
              · exact i3 hs.2 k v rs0 hm hd he

/-- The loop over the candidates: keys without row keep their result, and a
result comes from before or from a row that passes the evaluator. -/
theorem searchCandidates_spec (env : Env) (ev : Resource → Except PanicVal Bool)
    (rt : ResourceType) (buc : Option Bucket) (cands : List Bytes) :
    ∀ res res1, searchCandidates env ev rt buc cands res = .ok res1 →
      (∀ k, (∀ b, buc = some b → Bucket.Get b k = none) → kvGet k res1 = kvGet k res) ∧
      (∀ k rs, kvGet k res1 = some rs → kvGet k res = some rs ∨
        ∃ b v rs0, buc = some b ∧ (k, Node.value v) ∈ b ∧ env.Decode v = .ok rs0 ∧
          rs = rs0.SetSchema rt ∧ ev rs = .ok true) := by
  induction cands with
  | nil =>
    intro res res1 h
    simp only [searchCandidates] at h
    cases h
    exact ⟨fun _ _ => rfl, fun _ _ h => Or.inl h⟩
  | cons k1 rest ih =>
    intro res res1 h
    unfold searchCandidates at h
    cases hb : buc with
    | none => rw [hb] at h; cases h
    | some b =>
      rw [hb] at h
      simp only at h
      rw [← hb] at h
      cases hg : Bucket.Get b k1 with
      | none =>
        rw [hg] at h
        simp only at h
        rw [← hb]
        exact ih res res1 h
      | some data =>
        rw [hg] at h
        simp only at h
        cases hdec : env.Decode data with
        | error e => rw [hdec] at h; cases h
        | ok rs1 =>
          rw [hdec] at h
          simp only at h
          cases hev : ev (rs1.SetSchema rt) with
          | error p => rw [hev] at h; cases h
          | ok bv =>
            rw [hev] at h
            cases bv with
            | true =>
              simp only at h
              obtain ⟨i1, i2⟩ := ih _ res1 h
              refine ⟨?_, ?_⟩
              · intro k hk
                have hne : k ≠ k1 := by
                  intro e
                  have := hk b rfl
                  rw [e, hg] at this
                  cases this
                rw [i1 k (fun b2 hb2 => hk b2 (by rw [← hb2, hb])),
                  kvGet_kvPut_ne _ _ _ _ hne]
              · intro k rs hgr
                rcases i2 k rs hgr with h1 | ⟨b2, v, rs0, hb2, h2⟩
                · by_cases hkk : k = k1
                  · subst hkk
                    rw [kvGet_kvPut_self] at h1
                    cases h1
                    exact Or.inr ⟨b, data, rs1, rfl, get_of_mem_value hg, hdec, rfl, hev⟩
                  · rw [kvGet_kvPut_ne _ _ _ _ hkk] at h1
                    exact Or.inl h1
                · exact Or.inr ⟨b2, v, rs0, by rw [← hb, hb2], h2⟩
            | false =>
              simp only at h
              obtain ⟨i1, i2⟩ := ih _ res1 h
              refine ⟨?_, ?_⟩
              · intro k hk
                exact i1 k (fun b2 hb2 => hk b2 (by rw [← hb2, hb]))
              · intro k rs hgr
                rcases i2 k rs hgr with h1 | ⟨b2, v, rs0, hb2, h2⟩
                · exact Or.inl h1
                · exact Or.inr ⟨b2, v, rs0, by rw [← hb, hb2], h2⟩

/-! ## Search: one resource type, then all of them -/

/-- What one turn of the loop over the resource types does to the results. -/
theorem searchType_spec {F : Type} (env : Env) (hp : SearchHelpers F) (sl : Silo) (db : Tx)
    (filter : F) (rt : ResourceType) (c c1 : List Bytes) (res res1 : List (Bytes × Resource))
    (h : sl.searchType env hp db filter rt c res = .ok (c1, res1)) :
    ∃ ev, hp.buildEvaluator filter = .ok ev ∧
      (∀ k, (∀ b, db.bucketOf (sl.resourceBucket rt.Name) = some b → kvGet k b = none) →
        kvGet k res1 = kvGet k res) ∧
      (∀ k rs, kvGet k res1 = some rs → kvGet k res = some rs ∨
        ∃ b v rs0, db.bucketOf (sl.resourceBucket rt.Name) = some b ∧
          (k, Node.value v) ∈ b ∧ env.Decode v = .ok rs0 ∧ rs = rs0.SetSchema rt ∧
          ev rs = .ok true) ∧
      ((∀ cands r, hp.getOptimizedResults filter rt db sl cands = .ok r → maxInt64 ≤ r.1) →
        ∀ b, db.bucketOf (sl.resourceBucket rt.Name) = some b → kvSorted b →
        ∀ k v rs0, Bucket.Get b k = some v → env.Decode v = .ok rs0 →
          ev (rs0.SetSchema rt) = .ok true → kvGet k res1 = some (rs0.SetSchema rt)) := by
  unfold Silo.searchType at h
  cases hopt : hp.getOptimizedResults filter rt db sl c with
  | error p => rw [hopt] at h; cases h
  | ok r =>
    obtain ⟨count, cands⟩ := r
    rw [hopt] at h
    simp only at h
    cases hbe : hp.buildEvaluator filter with
    | error p => rw [hbe] at h; cases h
    | ok ev =>
      rw [hbe] at h
      simp only at h
      refine ⟨ev, rfl, ?_⟩
      by_cases hcount : count < maxInt64
      · rw [if_pos hcount] at h
        cases hsc : searchCandidates env ev rt (db.bucketOf (sl.resourceBucket rt.Name))
            cands res with
        | error p => rw [hsc] at h; cases h
        | ok res2 =>
          rw [hsc] at h
          cases h
          obtain ⟨i1, i2⟩ := searchCandidates_spec env ev rt _ _ res res1 hsc
          refine ⟨?_, i2, ?_⟩
          · intro k hk
            exact i1 k (fun b hb => get_none_of_kvGet_none (hk b hb))
          · intro hfull
            have := hfull c _ hopt
            exact absurd hcount (not_lt.mpr this)
      · rw [if_neg hcount] at h
        cases hb : db.bucketOf (sl.resourceBucket rt.Name) with
        | none => rw [hb] at h; cases h
        | some buc =>
          rw [hb] at h
          simp only at h
          cases hsc : searchScan env ev rt buc res with
          | error p => rw [hsc] at h; cases h
          | ok res2 =>
            rw [hsc] at h
            cases h
            obtain ⟨i1, i2, i3⟩ := searchScan_spec env ev rt buc res res1 hsc
            refine ⟨?_, ?_, ?_⟩
            · intro k hk
              exact i1 k (fun x hx => kvGet_ne_none_of_mem _ _ _ hx (hk buc rfl))
            · intro k rs hg
              rcases i2 k rs hg with h1 | ⟨v, rs0, h2⟩
              · exact Or.inl h1
              · exact Or.inr ⟨buc, v, rs0, rfl, h2⟩
            · intro _ b hb2 hs k v rs0 hg hd he
              cases hb2
              exact i3 hs k v rs0 (get_of_mem_value hg) hd he

/-- What the loop over the resource types does to the results. -/
theorem searchLoop_spec {F : Type} (env : Env) (hp : SearchHelpers F) (sl : Silo) (db : Tx)
    (filter : F) (types : List ResourceType) :
    ∀ (c c1 : List Bytes) (res res1 : List (Bytes × Resource)),
      sl.searchLoop env hp db filter types c res = .ok (c1, res1) →
      (∀ k rs, kvGet k res1 = some rs → kvGet k res = some rs ∨
        ∃ T ev b v rs0, T ∈ types ∧ hp.buildEvaluator filter = .ok ev ∧
          db.bucketOf (sl.resourceBucket T.Name) = some b ∧ (k, Node.value v) ∈ b ∧
          env.Decode v = .ok rs0 ∧ rs = rs0.SetSchema T ∧ ev rs = .ok true) ∧
      (∀ rt ev b k v rs0, hp.buildEvaluator filter = .ok ev →
        (∀ cands r, hp.getOptimizedResults filter rt db sl cands = .ok r → maxInt64 ≤ r.1) →
        db.bucketOf (sl.resourceBucket rt.Name) = some b → kvSorted b →
        (∀ T, T ∈ types → T ≠ rt → ∀ b2, db.bucketOf (sl.resourceBucket T.Name) = some b2 →
          kvGet k b2 = none) →
        Bucket.Get b k = some v → env.Decode v = .ok rs0 →
        ev (rs0.SetSchema rt) = .ok true →
        (rt ∈ types ∨ kvGet k res = some (rs0.SetSchema rt)) →
        kvGet k res1 = some (rs0.SetSchema rt)) := by
  induction types with
  | nil =>
    intro c c1 res res1 h
    simp only [Silo.searchLoop] at h
    cases h
    refine ⟨fun _ _ h => Or.inl h, ?_⟩
    intro rt ev b k v rs0 _ _ _ _ _ _ _ _ hor
    rcases hor with hm | hg
    · cases hm
    · exact hg
  | cons T rest ih =>
    intro c c1 res res1 h
    unfold Silo.searchLoop at h
    cases hst : sl.searchType env hp db filter T c res with
    | error p => rw [hst] at h; cases h
    | ok r =>
      obtain ⟨c2, res2⟩ := r
      rw [hst] at h
      simp only at h
      obtain ⟨ev0, hev0, t1, t2, t3⟩ := searchType_spec env hp sl db filter T c c2 res res2 hst
      obtain ⟨l1, l2⟩ := ih c2 c1 res2 res1 h
      refine ⟨?_, ?_⟩
      · intro k rs hg
        rcases l1 k rs hg with h1 | ⟨T2, ev, b, v, rs0, hT, h2⟩
        · rcases t2 k rs h1 with h3 | ⟨b, v, rs0, h4⟩
          · exact Or.inl h3
          · exact Or.inr ⟨T, ev0, b, v, rs0, List.mem_cons_self _ _, hev0, h4⟩
        · exact Or.inr ⟨T2, ev, b, v, rs0, List.mem_cons_of_mem _ hT, h2⟩
      · intro rt ev b k v rs0 hev hfull hb hs hdis hg hd he hor
        have hdis2 : ∀ T2, T2 ∈ rest → T2 ≠ rt → ∀ b2,
            db.bucketOf (sl.resourceBucket T2.Name) = some b2 → kvGet k b2 = none :=
          fun T2 hT2 => hdis T2 (List.mem_cons_of_mem _ hT2)
        by_cases hT : T = rt
        · subst hT
          rw [hev0] at hev
          cases hev
          have := t3 hfull b hb hs k v rs0 hg hd he
          exact l2 T ev0 b k v rs0 hev0 hfull hb hs hdis2 hg hd he (Or.inr this)
        · have hkeep : kvGet k res2 = kvGet k res :=
            t1 k (fun b2 hb2 => hdis T (List.mem_cons_self _ _) hT b2 hb2)
          rcases hor with hm | hgr
          · rcases List.mem_cons.mp hm with hm | hm
            · exact absurd hm.symm hT
            · exact l2 rt ev b k v rs0 hev hfull hb hs hdis2 hg hd he (Or.inl hm)
          · rw [← hkeep] at hgr
            exact l2 rt ev b k v rs0 hev hfull hb hs hdis2 hg hd he (Or.inr hgr)

/-- C22: when `Search` returns results, every resource in them passes the
evaluator of the filter.  For a resource type of the context for which the
optimizer reports the unbounded count, whose bucket has ascending keys and
whose ids are not stored under another resource type of the context, the
results of that type are exactly the stored rows of the type, decoded and
given the type, on which the evaluator returns true. -/
theorem search_results_pass_evaluator {F : Type} (env : Env) (hp : SearchHelpers F)
    (sl : Silo) (db : Tx) (sc : SearchContext F) (results : List (Bytes × Resource))
    (h : sl.Search env hp db sc = .ok results) :
    (∀ k rs, kvGet k results = some rs →
      ∃ ev, hp.buildEvaluator sc.Filter = .ok ev ∧ ev rs = .ok true) ∧
    (∀ rt ev buc, rt ∈ sc.ResTypes → hp.buildEvaluator sc.Filter = .ok ev →
      (∀ cands r, hp.getOptimizedResults sc.Filter rt db sl cands = .ok r → maxInt64 ≤ r.1) →
      db.bucketOf (sl.resourceBucket rt.Name) = some buc → kvSorted buc →
      (∀ T, T ∈ sc.ResTypes → T ≠ rt → ∀ b2 k,
        db.bucketOf (sl.resourceBucket T.Name) = some b2 → kvGet k buc ≠ none →
        kvGet k b2 = none) →
      ∀ k rs, (kvGet k results = some rs ∧ rs.resType = rt) ↔
        ∃ v rs0, Bucket.Get buc k = some v ∧ env.Decode v = .ok rs0 ∧
          rs = rs0.SetSchema rt ∧ ev rs = .ok true) := by
  unfold Silo.Search at h
  cases hl : sl.searchLoop env hp db sc.Filter sc.ResTypes [] [] with
  | error p =>
    rw [hl] at h
    cases p <;> cases h
  | ok r =>
    obtain ⟨c1, res1⟩ := r
    rw [hl] at h
    cases h
    obtain ⟨l1, l2⟩ := searchLoop_spec env hp sl db sc.Filter sc.ResTypes [] c1 [] results hl
    refine ⟨?_, ?_⟩
    · intro k rs hg
      rcases l1 k rs hg with h1 | ⟨T, ev, b, v, rs0, _, hev, _, _, _, _, he⟩
      · simp [kvGet] at h1
      · exact ⟨ev, hev, he⟩
    · intro rt ev buc hrt hev hfull hb hs hdis k rs
      constructor
      · rintro ⟨hg, hty⟩
        rcases l1 k rs hg with h1 | ⟨T, ev2, b, v, rs0, _, hev2, hb2, hm, hd, hrs, he⟩
        · simp [kvGet] at h1
        · have hT : T = rt := by
            rw [hrs] at hty
            exact hty
          subst hT
          rw [hb] at hb2
          cases hb2
          rw [hev] at hev2
          cases hev2
          refine ⟨v, rs0, ?_, hd, hrs, he⟩
          unfold Bucket.Get
          rw [kvGet_of_mem_sorted _ _ _ hs hm]
      · rintro ⟨v, rs0, hg, hd, hrs, he⟩
        subst hrs
        have hne : kvGet k buc ≠ none := kvGet_ne_none_of_mem _ _ _ (get_of_mem_value hg)
        refine ⟨?_, rfl⟩
        exact l2 rt ev buc k v rs0 hev hfull hb hs
          (fun T hT hTne b2 hb2 => hdis T hT hTne b2 k hb2 hne) hg hd he (Or.inl hrt)

set_option maxRecDepth 1000000 in
theorem search_results_pass_evaluator_witness :
    sampleSilo.Search sampleEnv scanHelpers dbAdmin userSearch =
      .ok [(GenUUID draw1, adminStamped)] ∧
    dbAdmin.bucketOf (sampleSilo.resourceBucket userType.Name) = some usersOfDbAdmin ∧
    kvSorted usersOfDbAdmin ∧
    Bucket.Get usersOfDbAdmin (GenUUID draw1) = some (encRes adminStamped) ∧
    sampleEnv.Decode (encRes adminStamped) = .ok adminDecoded ∧
    adminDecoded.SetSchema userType = adminStamped ∧
    (∀ k rs, kvGet k [(GenUUID draw1, adminStamped)] = some rs →
      ∃ ev, scanHelpers.buildEvaluator userSearch.Filter = .ok ev ∧ ev rs = .ok true) ∧
    (∀ k rs, (kvGet k [(GenUUID draw1, adminStamped)] = some rs ∧ rs.resType = userType) ↔
      ∃ v rs0, Bucket.Get usersOfDbAdmin k = some v ∧ sampleEnv.Decode v = .ok rs0 ∧
        rs = rs0.SetSchema userType ∧
        (Except.ok (kvGet (ascii "username") rs.attrs).isSome : Except PanicVal Bool) =
          .ok true) :=
  ⟨by decide, by decide, by unfold kvSorted; decide, by decide, by decide, by decide,
   (search_results_pass_evaluator sampleEnv scanHelpers sampleSilo dbAdmin userSearch
     [(GenUUID draw1, adminStamped)] (by decide)).1,
   (search_results_pass_evaluator sampleEnv scanHelpers sampleSilo dbAdmin userSearch
     [(GenUUID draw1, adminStamped)] (by decide)).2 userType
     (fun rs => .ok (kvGet (ascii "username") rs.attrs).isSome) usersOfDbAdmin
     (by decide) rfl
     (fun cands r hr => by
       have hr2 : r = (maxInt64, cands) := by
         simp only [scanHelpers] at hr
         cases hr
         rfl
       rw [hr2])
     (by decide) (by unfold kvSorted; decide)
     (fun T hT hne => by
       simp only [userSearch, List.mem_singleton] at hT
       exact absurd hT hne)⟩

/-! ## Patch: the clock does not enter the operations -/

theorem later_ToLower (env : Env) (n : Bytes) : (env.later n).ToLower = env.ToLower := rfl

theorem later_IsReadOnly (env : Env) (n : Bytes) : (env.later n).IsReadOnly = env.IsReadOnly := rfl

theorem later_Encode (env : Env) (n : Bytes) : (env.later n).Encode = env.Encode := rfl

theorem later_Decode (env : Env) (n : Bytes) : (env.later n).Decode = env.Decode := rfl

theorem setSubAt_later (env : Env) (n : Bytes) : setSubAt (env.later n) = setSubAt env := rfl

theorem mergeFields_later (env : Env) (n : Bytes) (fields : List (Bytes × Bytes)) (m : SubAtMap) :
    mergeFields (env.later n) fields m = mergeFields env fields m := by
  induction fields generalizing m with
  | nil => rfl
  | cons f rest ih =>
    obtain ⟨k, v⟩ := f
    simp only [mergeFields, setSubAt_later]
    exact ih _

theorem mergeFields_later_fun (env : Env) (n : Bytes) :
    mergeFields (env.later n) = mergeFields env := by
  funext fields m
  exact mergeFields_later env n fields m

theorem applyWrite_later (env : Env) (n : Bytes) (sc : PatchSchema) (rt : ResourceType)
    (kind : PatchKind) (p : PatchPath) (v : PatchValue) (rs : Resource) :
    applyWrite (env.later n) sc rt kind p v rs = applyWrite env sc rt kind p v rs := by
  unfold applyWrite writeSelected writeComplex subPath
  simp only [later_ToLower, later_IsReadOnly, setSubAt_later, mergeFields_later_fun]

theorem applyFields_later (env : Env) (n : Bytes) (sc : PatchSchema) (rt : ResourceType)
    (kind : PatchKind) (fields : List (Bytes × PatchValue)) (rs : Resource) :
    applyFields (env.later n) sc rt kind fields rs = applyFields env sc rt kind fields rs := by
  induction fields generalizing rs with
  | nil => rfl
  | cons f rest ih =>
    obtain ⟨k, v⟩ := f
    simp only [applyFields, applyWrite_later]
    cases applyWrite env sc rt kind { At := k, Slctr := none, SubAt := none } v rs with
    | error e => rfl
    | ok r1 => exact ih r1

theorem applyRemove_later (env : Env) (n : Bytes) (sc : PatchSchema) (rt : ResourceType)
    (p : PatchPath) (rs : Resource) :
    applyRemove (env.later n) sc rt p rs = applyRemove env sc rt p rs := by
  unfold applyRemove subPath
  simp only [later_ToLower, later_IsReadOnly]

theorem applyOp_later (env : Env) (n : Bytes) (sc : PatchSchema) (rt : ResourceType)
    (rs : Resource) (op : PatchOp) :
    applyOp (env.later n) sc rt rs op = applyOp env sc rt rs op := by
  cases op with
  | remove p => exact applyRemove_later env n sc rt p rs
  | write kind p v => exact applyWrite_later env n sc rt kind p v rs
  | writeObject kind fields => exact applyFields_later env n sc rt kind fields rs
  | writeArray kind => rfl

theorem applyOps_later (env : Env) (n : Bytes) (sc : PatchSchema) (rt : ResourceType)
    (ops : List PatchOp) (rs : Resource) :
    applyOps (env.later n) sc rt ops rs = applyOps env sc rt ops rs := by
  induction ops generalizing rs with
  | nil => rfl
  | cons op rest ih =>
    simp only [applyOps, applyOp_later]
    cases applyOp env sc rt rs op with
    | error e => rfl
    | ok r1 => exact ih r1

theorem get_later (env : Env) (n : Bytes) (sl : Silo) (db : Tx) (rid : Bytes)
    (rt : ResourceType) : sl.Get (env.later n) db rid rt = sl.Get env db rid rt := rfl

/-! ## Patch: the operations keep id and resource type -/

theorem applyWrite_keeps {env : Env} {sc : PatchSchema} {rt : ResourceType} {kind : PatchKind}
    {p : PatchPath} {v : PatchValue} {rs r1 : Resource}
    (h : applyWrite env sc rt kind p v rs = .ok r1) : r1.id = rs.id ∧ r1.resType = rs.resType := by
  unfold applyWrite at h
  split at h
  · cases h
  · split at h
    · cases h
    · split at h
      · split at h
        · cases h
        · split at h
          · cases h
          · cases h; exact ⟨rfl, rfl⟩
      · split at h
        · split at h
          · cases h
          · cases h; exact ⟨rfl, rfl⟩
        · cases h

theorem applyFields_keeps {env : Env} {sc : PatchSchema} {rt : ResourceType} {kind : PatchKind}
    (fields : List (Bytes × PatchValue)) {rs r1 : Resource}
    (h : applyFields env sc rt kind fields rs = .ok r1) :
    r1.id = rs.id ∧ r1.resType = rs.resType := by
  induction fields generalizing rs with
  | nil => cases h; exact ⟨rfl, rfl⟩
  | cons f rest ih =>
    obtain ⟨k, v⟩ := f
    simp only [applyFields] at h
    cases hw : applyWrite env sc rt kind { At := k, Slctr := none, SubAt := none } v rs with
    | error e => rw [hw] at h; cases h
    | ok r2 =>
      rw [hw] at h
      have h1 := applyWrite_keeps hw
      have h2 := ih h
      exact ⟨h2.1.trans h1.1, h2.2.trans h1.2⟩

theorem applyRemove_keeps {env : Env} {sc : PatchSchema} {rt : ResourceType}
    {p : PatchPath} {rs r1 : Resource}
    (h : applyRemove env sc rt p rs = .ok r1) : r1.id = rs.id ∧ r1.resType = rs.resType := by
  unfold applyRemove at h
  split at h
  · cases h
  · split at h
    · cases h
    · split at h
      · split at h
        · split at h
          · cases h
          · cases h; exact ⟨rfl, rfl⟩
        · cases h
      · split at h
        · split at h
          · cases h
          · cases h; exact ⟨rfl, rfl⟩
        · split at h
          · cases h
          · split at h
            · cases h; exact ⟨rfl, rfl⟩
            · cases h; exact ⟨rfl, rfl⟩

theorem applyOp_keeps {env : Env} {sc : PatchSchema} {rt : ResourceType} {op : PatchOp}
    {rs r1 : Resource} (h : applyOp env sc rt rs op = .ok r1) :
    r1.id = rs.id ∧ r1.resType = rs.resType := by
  cases op with
  | remove p => exact applyRemove_keeps h
  | write kind p v => exact applyWrite_keeps h
  | writeObject kind fields => exact applyFields_keeps fields h
  | writeArray kind => cases h

theorem applyOps_keeps {env : Env} {sc : PatchSchema} {rt : ResourceType}
    (ops : List PatchOp) {rs r1 : Resource} (h : applyOps env sc rt ops rs = .ok r1) :
    r1.id = rs.id ∧ r1.resType = rs.resType := by
  induction ops generalizing rs with
  | nil => cases h; exact ⟨rfl, rfl⟩
  | cons op rest ih =>
    simp only [applyOps] at h
    cases ho : applyOp env sc rt rs op with
    | error e => rw [ho] at h; cases h
    | ok r2 =>
      rw [ho] at h
      have h1 := applyOp_keeps ho
      have h2 := ih h
      exact ⟨h2.1.trans h1.1, h2.2.trans h1.2⟩

/-! ## Patch: the steps of a successful call -/

theorem updateLastModTime_shape (env : Env) (rs : Resource) :
    (rs.UpdateLastModTime env).id = rs.id ∧ (rs.UpdateLastModTime env).resType = rs.resType ∧
      ∃ x, (rs.UpdateLastModTime env).attrs = kvPut (ascii "meta") x rs.attrs := by
  unfold Resource.UpdateLastModTime
  split
  · exact ⟨rfl, rfl, _, rfl⟩
  · exact ⟨rfl, rfl, _, rfl⟩

theorem storeResource_row {env : Env} {sl : Silo} {tx tx2 : Tx} {res : Resource}
    (h : sl.storeResource env tx res = (tx2, none)) :
    ∃ data b, env.Encode res = .ok data ∧
      tx2.bucketOf (sl.resourceBucket res.GetType.Name) = some b ∧
      Bucket.Get b res.GetId = some data := by
  unfold Silo.storeResource at h
  split at h
  · cases h
  · rename_i data hd
    split at h
    · cases h
    · rename_i resBucket hb
      split at h
      · cases h
      · rename_i b hp
        simp only [Prod.mk.injEq, and_true] at h
        subst h
        exact ⟨data, b, hd, bucketOf_setBucket_self _ _ _, get_put_self hp⟩

theorem patchWrite_ok_steps {env : Env} {sl : Silo} {db db1 : Tx} {rid : Bytes}
    {rt : ResourceType} {old new res1 : Resource}
    (h : sl.patchWrite env db rid rt old new = .ok res1 db1) :
    res1 = new.UpdateLastModTime env ∧
      ∃ tx1, sl.storeResource env tx1 (new.UpdateLastModTime env) = (db1, none) := by
  unfold Silo.patchWrite at h
  split at h
  · rename_i p _
    cases p <;> cases h
  · split at h
    · rename_i p _
      cases p <;> cases h
    · rename_i tx1 _
      split at h
      · rename_i p _
        cases p <;> cases h
      · rename_i tx2 hst
        cases h
        exact ⟨rfl, tx1, hst⟩

theorem patch_ok_steps {env : Env} {sc : PatchSchema} {sl : Silo} {db db1 : Tx} {rid : Bytes}
    {pr : PatchReq} {rt : ResourceType} {res1 : Resource}
    (h : sl.Patch env sc db rid pr rt = .ok res1 db1) :
    ∃ old x new b0 b1, sl.Get env db rid rt = .ok (some old, x) ∧
      applyOps env sc rt pr.Operations old = .ok new ∧
      env.Encode old = .ok b0 ∧ env.Encode new = .ok b1 ∧
      ((b1 = b0 ∧ res1 = new ∧ db1 = db) ∨
        (b1 ≠ b0 ∧ sl.patchWrite env db rid rt old new = .ok res1 db1)) := by
  unfold Silo.Patch at h
  split at h
  · cases h
  · cases h
  · cases h
  · rename_i old x hg
    split at h
    · cases h
    · rename_i new ha
      split at h
      · cases h
      · rename_i b0 h0
        split at h
        · cases h
        · rename_i b1 hb1
          refine ⟨old, x, new, b0, b1, hg, ha, h0, hb1, ?_⟩
          by_cases hb : b1 = b0
          · rw [if_pos hb] at h
            cases h
            exact Or.inl ⟨hb, rfl, rfl⟩
          · rw [if_neg hb] at h
            exact Or.inr ⟨hb, h⟩

/-- The second call in the case where the first one wrote nothing: the same
call, whatever the clock reads. -/
theorem patch_later_unchanged {env : Env} {sc : PatchSchema} {sl : Silo} {db : Tx} {rid : Bytes}
    {pr : PatchReq} {rt : ResourceType} {old new : Resource} {x : Option Err} {b0 : Bytes}
    (n : Bytes) (hg : sl.Get env db rid rt = .ok (some old, x))
    (ha : applyOps env sc rt pr.Operations old = .ok new)
    (h0 : env.Encode old = .ok b0) (h1 : env.Encode new = .ok b0) :
    sl.Patch (env.later n) sc db rid pr rt = .ok new db := by
  unfold Silo.Patch
  rw [get_later, hg]
  simp only [applyOps_later, ha, later_Encode, h0, h1, if_true]

/-- The row a successful patch leaves under the id of the resource it
returned, read back. -/
theorem patch_ok_get {env : Env} {sc : PatchSchema} {sl : Silo} {db db1 : Tx} {rid : Bytes}
    {pr : PatchReq} {rt : ResourceType} {res1 : Resource}
    (h : sl.Patch env sc db rid pr rt = .ok res1 db1) (hid : res1.GetId = rid)
    (hrt : env.roundTrips res1 = true) :
    res1.resType = rt ∧
    ((∃ old x b0, db1 = db ∧ sl.Get env db rid rt = .ok (some old, x) ∧
        applyOps env sc rt pr.Operations old = .ok res1 ∧ env.Encode old = .ok b0 ∧
        env.Encode res1 = .ok b0) ∨
     (∃ old new data, applyOps env sc rt pr.Operations old = .ok new ∧
        res1 = new.UpdateLastModTime env ∧ env.Encode res1 = .ok data ∧
        sl.Get env db1 rid rt = .ok (some res1, none))) := by
  obtain ⟨old, x, new, b0, b1, hg, ha, h0, hb1, hc⟩ := patch_ok_steps h
  have hty := (get_some_type hg).1
  have hk := applyOps_keeps pr.Operations ha
  rcases hc with ⟨hb, hr, hd⟩ | ⟨_, hw⟩
  · subst hr; subst hd; subst hb
    exact ⟨hk.2.trans hty, Or.inl ⟨old, x, b1, rfl, hg, ha, h0, hb1⟩⟩
  · obtain ⟨hr, tx1, hst⟩ := patchWrite_ok_steps hw
    have hsh := updateLastModTime_shape env new
    have hty1 : res1.resType = rt := by rw [hr, hsh.2.1, hk.2, hty]
    refine ⟨hty1, Or.inr ⟨old, new, ?_⟩⟩
    obtain ⟨data, b, he, hbk, hget⟩ := storeResource_row hst
    rw [← hr] at he hbk hget
    refine ⟨data, ha, hr, he, ?_⟩
    have hrt1 := hrt
    unfold Env.roundTrips at hrt1
    rw [he] at hrt1
    simp only at hrt1
    unfold Silo.Get
    have hn : res1.GetType.Name = rt.Name := by
      show res1.resType.Name = rt.Name
      rw [hty1]
    rw [hn] at hbk
    rw [hbk]
    simp only
    rw [hid] at hget
    rw [hget]
    simp only
    cases hdec : env.Decode data with
    | error e => rw [hdec] at hrt1; simp at hrt1
    | ok r0 =>
      rw [hdec] at hrt1
      simp only [decide_eq_true_eq] at hrt1
      simp only
      rw [hty1] at hrt1
      rw [hrt1]

/-! ## Patch: operations that set singular attributes -/

theorem overwrites_nil : Overwrites (fun r => .ok r) [] := by
  intro r r1 h
  cases h
  refine ⟨rfl, rfl, fun r2 => ⟨r2, rfl, fun hs => hs, fun k => ?_⟩⟩
  simp

theorem overwrites_congr {G G1 : Resource → Except Err Resource} {T : List Bytes}
    (hG : ∀ r, G1 r = G r) (h : Overwrites G T) : Overwrites G1 T := by
  have : G1 = G := funext hG
  rw [this]
  exact h

theorem overwrites_comp {G1 G2 : Resource → Except Err Resource} {T1 T2 : List Bytes}
    (h1 : Overwrites G1 T1) (h2 : Overwrites G2 T2) :
    Overwrites (fun r =>
      match G1 r with
      | .error e => .error e
      | .ok ra => G2 ra) (T1 ++ T2) := by
  intro r r1 h
  simp only at h
  cases hg : G1 r with
  | error e => rw [hg] at h; cases h
  | ok ra =>
    rw [hg] at h
    simp only at h
    obtain ⟨hid1, hty1, hall1⟩ := h1 r ra hg
    obtain ⟨hid2, hty2, hall2⟩ := h2 ra r1 h
    refine ⟨hid2.trans hid1, hty2.trans hty1, fun r2 => ?_⟩
    obtain ⟨r2a, hg2, hs2, hk2⟩ := hall1 r2
    obtain ⟨r3, hg3, hs3, hk3⟩ := hall2 r2a
    obtain ⟨r1b, hgb, _, hkb⟩ := hall2 ra
    rw [h] at hgb
    cases hgb
    refine ⟨r3, ?_, fun hs => hs3 (hs2 hs), fun k => ?_⟩
    · simp only [hg2]
      exact hg3
    · rw [hk3 k]
      by_cases hk : k ∈ T2
      · rw [if_pos hk, if_pos (List.mem_append.mpr (Or.inr hk))]
      · rw [if_neg hk, hk2 k]
        by_cases hk1 : k ∈ T1
        · rw [if_pos hk1, if_pos (List.mem_append.mpr (Or.inl hk1))]
          have := hkb k
          rw [if_neg hk] at this
          exact this.symm
        · rw [if_neg hk1, if_neg]
          intro hm
          rcases List.mem_append.mp hm with hm | hm
          · exact hk1 hm
          · exact hk hm

theorem applyWrite_set (env : Env) (sc : PatchSchema) (rt : ResourceType) (kind : PatchKind)
    (a x : Bytes) (atp : AttrType) (rs : Resource)
    (hat : sc.getAtType rt (env.ToLower a) = some atp) (hc : atp.IsComplex = false)
    (hm : atp.MultiValued = false) :
    applyWrite env sc rt kind { At := a, Slctr := none, SubAt := none } (.scalar x) rs =
      if env.IsReadOnly rt (env.ToLower a) then .error (.scim .mutability a)
      else .ok (rs.setAttr (env.ToLower a) (.simple { Name := atp.Name, Values := [x] })) := by
  unfold applyWrite
  simp only [hat, hc, writeSimple, hm]
  rfl

theorem overwrites_set (env : Env) (sc : PatchSchema) (rt : ResourceType) (kind : PatchKind)
    (a x : Bytes) (atp : AttrType)
    (hat : sc.getAtType rt (env.ToLower a) = some atp) (hc : atp.IsComplex = false)
    (hm : atp.MultiValued = false) :
    Overwrites (applyWrite env sc rt kind { At := a, Slctr := none, SubAt := none } (.scalar x))
      [env.ToLower a] := by
  intro r r1 h
  rw [applyWrite_set env sc rt kind a x atp r hat hc hm] at h
  by_cases hro : env.IsReadOnly rt (env.ToLower a) = true
  · rw [if_pos hro] at h; cases h
  · rw [if_neg hro] at h
    cases h
    refine ⟨rfl, rfl, fun r2 =>
      ⟨r2.setAttr (env.ToLower a) (.simple { Name := atp.Name, Values := [x] }), ?_, ?_, ?_⟩⟩
    · rw [applyWrite_set env sc rt kind a x atp r2 hat hc hm, if_neg hro]
    · intro hs
      exact kvSorted_kvPut _ _ _ hs
    · intro k
      by_cases hk : k = env.ToLower a
      · subst hk
        simp [Resource.setAttr, kvGet_kvPut_self]
      · simp [Resource.setAttr, kvGet_kvPut_ne _ _ _ _ hk, hk]

theorem applyWrite_not_readOnly {env : Env} {sc : PatchSchema} {rt : ResourceType}
    {kind : PatchKind} {p : PatchPath} {v : PatchValue} {rs r1 : Resource}
    (h : applyWrite env sc rt kind p v rs = .ok r1) :
    env.IsReadOnly rt (env.ToLower p.At) = false := by
  unfold applyWrite at h
  split at h
  · cases h
  · split at h
    · cases h
    · rename_i hro
      simpa using hro

/-- What `setsSingular` says about one key and value. -/
theorem singular_field (env : Env) (sc : PatchSchema) (rt : ResourceType) (k : Bytes)
    (v : PatchValue)
    (h : ((match v with
        | .scalar _ => true
        | _ => false) &&
      (match sc.getAtType rt (env.ToLower k) with
        | some atp => !atp.IsComplex && !atp.MultiValued
        | none => false)) = true) :
    ∃ x atp, v = .scalar x ∧ sc.getAtType rt (env.ToLower k) = some atp ∧
      atp.IsComplex = false ∧ atp.MultiValued = false := by
  rw [Bool.and_eq_true] at h
  obtain ⟨hv, hs⟩ := h
  cases v with
  | scalar x =>
    cases hat : sc.getAtType rt (env.ToLower k) with
    | none => rw [hat] at hs; simp at hs
    | some atp =>
      rw [hat] at hs
      simp only [Bool.and_eq_true, Bool.not_eq_true'] at hs
      exact ⟨x, atp, rfl, rfl, hs.1, hs.2⟩
  | scalars vs => simp at hv
  | object fs => simp at hv
  | objects es => simp at hv

theorem overwrites_fields (env : Env) (sc : PatchSchema) (rt : ResourceType) (kind : PatchKind)
    (fields : List (Bytes × PatchValue))
    (h : (PatchOp.writeObject kind fields).setsSingular env sc rt = true) :
    Overwrites (applyFields env sc rt kind fields) (fields.map (fun kv => env.ToLower kv.1)) := by
  induction fields with
  | nil => exact overwrites_congr (fun r => rfl) overwrites_nil
  | cons f rest ih =>
    obtain ⟨k, v⟩ := f
    simp only [PatchOp.setsSingular, List.all_cons, Bool.and_eq_true] at h
    obtain ⟨hf, hrest⟩ := h
    have hf1 := singular_field env sc rt k v (by rw [Bool.and_eq_true]; exact hf)
    obtain ⟨x, atp, hv, hat, hc, hm⟩ := hf1
    subst hv
    have h1 := overwrites_set env sc rt kind k x atp hat hc hm
    have h2 := ih (by simpa only [PatchOp.setsSingular] using hrest)
    exact overwrites_congr (fun r => rfl) (overwrites_comp h1 h2)

theorem overwrites_op (env : Env) (sc : PatchSchema) (rt : ResourceType) (op : PatchOp)
    (h : op.setsSingular env sc rt = true) :
    Overwrites (fun r => applyOp env sc rt r op) (op.written env) := by
  cases op with
  | remove p => simp [PatchOp.setsSingular] at h
  | writeArray kind => simp [PatchOp.setsSingular] at h
  | writeObject kind fields =>
    exact overwrites_congr (fun r => rfl) (overwrites_fields env sc rt kind fields h)
  | write kind p v =>
    obtain ⟨a, sel, sub⟩ := p
    simp only [PatchOp.setsSingular, Bool.and_eq_true, Option.isNone_iff_eq_none] at h
    obtain ⟨⟨⟨hsel, hsub⟩, hv⟩, hs⟩ := h
    subst hsel; subst hsub
    obtain ⟨x, atp, hv1, hat, hc, hm⟩ :=
      singular_field env sc rt a v (by rw [Bool.and_eq_true]; exact ⟨hv, hs⟩)
    subst hv1
    exact overwrites_congr (fun r => rfl) (overwrites_set env sc rt kind a x atp hat hc hm)

theorem overwrites_ops (env : Env) (sc : PatchSchema) (rt : ResourceType) (ops : List PatchOp)
    (h : ops.all (PatchOp.setsSingular env sc rt) = true) :
    Overwrites (applyOps env sc rt ops) (writtenAll env ops) := by
  induction ops with
  | nil => exact overwrites_congr (fun r => rfl) overwrites_nil
  | cons op rest ih =>
    simp only [List.all_cons, Bool.and_eq_true] at h
    have h1 := overwrites_op env sc rt op h.1
    have h2 := ih h.2
    exact overwrites_congr (fun r => rfl) (overwrites_comp h1 h2)

theorem applyFields_not_readOnly {env : Env} {sc : PatchSchema} {rt : ResourceType}
    {kind : PatchKind} (fields : List (Bytes × PatchValue)) {rs r1 : Resource}
    (h : applyFields env sc rt kind fields rs = .ok r1) :
    ∀ k ∈ fields.map (fun kv => env.ToLower kv.1), env.IsReadOnly rt k = false := by
  induction fields generalizing rs with
  | nil => intro k hk; cases hk
  | cons f rest ih =>
    obtain ⟨k0, v⟩ := f
    simp only [applyFields] at h
    cases hw : applyWrite env sc rt kind { At := k0, Slctr := none, SubAt := none } v rs with
    | error e => rw [hw] at h; cases h
    | ok r2 =>
      rw [hw] at h
      intro k hk
      rcases List.mem_cons.mp hk with hk | hk
      · subst hk
        exact applyWrite_not_readOnly hw
      · exact ih h k hk

theorem applyOps_not_readOnly {env : Env} {sc : PatchSchema} {rt : ResourceType}
    (ops : List PatchOp) {rs r1 : Resource} (h : applyOps env sc rt ops rs = .ok r1) :
    ∀ k ∈ writtenAll env ops, env.IsReadOnly rt k = false := by
  induction ops generalizing rs with
  | nil => intro k hk; cases hk
  | cons op rest ih =>
    simp only [applyOps] at h
    cases ho : applyOp env sc rt rs op with
    | error e => rw [ho] at h; cases h
    | ok r2 =>
      rw [ho] at h
      intro k hk
      rcases List.mem_append.mp hk with hk | hk
      · cases op with
        | remove p => cases hk
        | writeArray kind => cases hk
        | write kind p v =>
          rcases List.mem_singleton.mp hk with rfl
          exact applyWrite_not_readOnly ho
        | writeObject kind fields => exact applyFields_not_readOnly fields ho k hk
      · exact ih h k hk

/-- Operations that set singular attributes leave the resource they produced,
with its `meta` bumped, as it is. -/
theorem sets_fixed {env : Env} {sc : PatchSchema} {rt : ResourceType} {ops : List PatchOp}
    {old new : Resource} (hset : ops.all (PatchOp.setsSingular env sc rt) = true)
    (hmeta : env.IsReadOnly rt (ascii "meta") = true)
    (ha : applyOps env sc rt ops old = .ok new)
    (hs : kvSorted (new.UpdateLastModTime env).attrs) :
    applyOps env sc rt ops (new.UpdateLastModTime env) = .ok (new.UpdateLastModTime env) := by
  obtain ⟨_, _, hall⟩ := overwrites_ops env sc rt ops hset old new ha
  obtain ⟨r3, h3, hs3, hk3⟩ := hall (new.UpdateLastModTime env)
  obtain ⟨hid3, hty3, _⟩ := overwrites_ops env sc rt ops hset _ r3 h3
  obtain ⟨_, _, x, hx⟩ := updateLastModTime_shape env new
  have hro := applyOps_not_readOnly ops ha
  have hat : r3.attrs = (new.UpdateLastModTime env).attrs := by
    apply kv_ext _ _ (hs3 hs) hs
    intro k
    rw [hk3 k]
    by_cases hk : k ∈ writtenAll env ops
    · rw [if_pos hk, hx]
      have hne : k ≠ ascii "meta" := by
        intro he
        have := hro k hk
        rw [he, hmeta] at this
        cases this
      rw [kvGet_kvPut_ne _ _ _ _ hne]
    · rw [if_neg hk]
  rw [h3]
  congr 1
  cases r3
  cases hn : new.UpdateLastModTime env
  rw [hn] at hid3 hty3 hat
  simp only at hid3 hty3 hat
  rw [hid3, hty3, hat]

/-! ## Patch twice -/

set_option maxRecDepth 1000000 in
/-- C24 (counterexample): the request that removes at the path
`photos[value eq "xyz.jpg"]`, on the sample device.
The first application succeeds and deletes the photo `xyz.jpg`; the second
application of the same request to the patched resource does not succeed: the
selector matches nothing any more and the call fails with noTarget. -/
theorem patch_remove_twice_fails :
    (photoRemoved.res?).map (fun r => r.entries (ascii "photos")) =
        some [photo (ascii "abc.jpg") (ascii "true")] ∧
      photoRemoved.db? = some photoDb ∧
      gadgetSilo.Patch ((patchEnv day1).later day2) gadgetSchema photoDb (GenUUID draw1)
          removePhotoReq gadgetType =
        .failed (.scim .noTarget (ascii "photos")) photoDb := by
  refine ⟨?_, ?_, ?_⟩
  · decide
  · decide
  · decide

/-- C24 (amended): Patch is idempotent for a request whose operations leave the
already-patched resource as it is, and so for every request that only sets
singular simple attributes (add or replace of a scalar at an attribute path
without selector, or of an object of such attributes without path).  When the
first application succeeded and returned `res1`, leaving the state `db1`, the
same request applied a second time at any later clock reading succeeds,
returns `res1` unchanged, with `meta.created`, `meta.lastModified` and
`meta.version` as the first application set them, and leaves the state `db1`
as it is: no index write and no write of the row.  Assumed: the resource
carries the id it is stored under and the codec gives it back; for the second
part, `meta` is read-only and the attribute tree is in key order. -/
theorem patch_again_unchanged (env : Env) (sc : PatchSchema) (sl : Silo) (db db1 : Tx)
    (rid : Bytes) (pr : PatchReq) (rt : ResourceType) (res1 : Resource) (now2 : Bytes)
    (h1 : sl.Patch env sc db rid pr rt = .ok res1 db1)
    (hid : res1.GetId = rid)
    (hrt : env.roundTrips res1 = true) :
    (applyOps env sc rt pr.Operations res1 = .ok res1 →
      sl.Patch (env.later now2) sc db1 rid pr rt = .ok res1 db1) ∧
    (pr.Operations.all (PatchOp.setsSingular env sc rt) = true →
      env.IsReadOnly rt (ascii "meta") = true → kvSorted res1.attrs →
      sl.Patch (env.later now2) sc db1 rid pr rt = .ok res1 db1) := by
  obtain ⟨_, hc⟩ := patch_ok_get h1 hid hrt
  rcases hc with ⟨old, x, b0, hdb, hg, ha, h0, he⟩ | ⟨old, new, data, ha, hr, he, hg⟩
  · subst hdb
    exact ⟨fun _ => patch_later_unchanged now2 hg ha h0 he,
      fun _ _ _ => patch_later_unchanged now2 hg ha h0 he⟩
  · refine ⟨fun hself => patch_later_unchanged now2 hg hself he he, fun hset hmeta hs => ?_⟩
    have hself : applyOps env sc rt pr.Operations res1 = .ok res1 := by
      rw [hr] at hs ⊢
      exact sets_fixed hset hmeta ha hs
    exact patch_later_unchanged now2 hg hself he he

set_option maxRecDepth 1000000 in
/-- C24 (witness): the request that adds, without path, the object with `price`
9.2 and `rating` 1, on the sample device with price 7.2.  The first patch, at `day1`, changes the
state and stamps `meta.lastModified` and `meta.version` with `day1`; the second
patch, at `day2`, returns the same resource and leaves the state as it is. -/
theorem patch_again_unchanged_witness :
    pricePatched = .ok priceRes priceDb ∧ priceDb ≠ gadgetDb ∧
      priceRes.entries (ascii "meta") = [metaDay1] ∧
      priceRes.values (ascii "price") = [ascii "9.2"] ∧
      gadgetSilo.Patch ((patchEnv day1).later day2) gadgetSchema priceDb (GenUUID draw1)
          priceReq gadgetType = .ok priceRes priceDb :=
  ⟨by decide, by decide, by decide, by decide,
    (patch_again_unchanged (patchEnv day1) gadgetSchema gadgetSilo gadgetDb priceDb
      (GenUUID draw1) priceReq gadgetType priceRes day2 (by decide) (by decide)
      (by decide)).2 (by decide) (by decide) (by unfold kvSorted; decide)⟩

/-! ## Patch: counting the values marked primary -/

theorem isPrimary_clearPrimary (m : SubAtMap) : isPrimary (clearPrimary m) = false := by
  unfold clearPrimary
  by_cases h : isPrimary m = true
  · rw [if_pos h]
    unfold isPrimary
    rw [kvGet_kvPut_self]
    decide
  · rw [if_neg h]
    simpa using h

theorem countPrimary_cons (m : SubAtMap) (ms : List SubAtMap) :
    countPrimary (m :: ms) = (if isPrimary m = true then 1 else 0) + countPrimary ms := by
  unfold countPrimary
  by_cases h : isPrimary m = true
  · rw [List.filter_cons_of_pos h, if_pos h, List.length_cons]; omega
  · rw [List.filter_cons_of_neg h, if_neg h]; omega

theorem countPrimary_append (xs ys : List SubAtMap) :
    countPrimary (xs ++ ys) = countPrimary xs + countPrimary ys := by
  unfold countPrimary
  rw [List.filter_append, List.length_append]

theorem countPrimary_map_clear (ms : List SubAtMap) : countPrimary (ms.map clearPrimary) = 0 := by
  induction ms with
  | nil => rfl
  | cons m rest ih =>
    rw [List.map_cons, countPrimary_cons, isPrimary_clearPrimary, ih]
    simp

theorem countPrimary_filter_le (p : SubAtMap → Bool) (ms : List SubAtMap) :
    countPrimary (ms.filter p) ≤ countPrimary ms := by
  induction ms with
  | nil => exact Nat.le_refl _
  | cons m rest ih =>
    by_cases hp : p m = true
    · rw [List.filter_cons_of_pos hp, countPrimary_cons, countPrimary_cons]; omega
    · rw [List.filter_cons_of_neg hp, countPrimary_cons]; omega

theorem countPrimary_map_le (g : SubAtMap → SubAtMap) (ms : List SubAtMap)
    (hg : ∀ m, isPrimary (g m) = true → isPrimary m = true) :
    countPrimary (ms.map g) ≤ countPrimary ms := by
  induction ms with
  | nil => exact Nat.le_refl _
  | cons m rest ih =>
    rw [List.map_cons, countPrimary_cons, countPrimary_cons]
    by_cases h : isPrimary (g m) = true
    · rw [if_pos h, if_pos (hg m h)]; omega
    · rw [if_neg h]; omega

theorem countPrimary_map_ite (sel : SubAtMap → Bool) (f c : SubAtMap → SubAtMap)
    (ms : List SubAtMap) :
    countPrimary (ms.map (fun m => if sel m = true then f m else c m)) =
      countPrimary ((ms.filter sel).map f) +
        countPrimary ((ms.filter (fun m => !sel m)).map c) := by
  induction ms with
  | nil => rfl
  | cons m rest ih =>
    rw [List.map_cons, countPrimary_cons, ih]
    cases hs : sel m with
    | true =>
      simp only [List.filter_cons, hs, if_true, List.map_cons, countPrimary_cons, Bool.not_true,
        Bool.false_eq_true, if_false]
      omega
    | false =>
      simp only [List.filter_cons, hs, if_true, List.map_cons, countPrimary_cons, Bool.not_false,
        Bool.false_eq_true, if_false]
      omega

theorem writeEntries_count {sel : SubAtMap → Bool} {f : SubAtMap → SubAtMap}
    {ms ms1 : List SubAtMap} (h : writeEntries sel f ms = .ok ms1) (hc : countPrimary ms ≤ 1) :
    countPrimary ms1 ≤ 1 := by
  unfold writeEntries at h
  split at h
  · cases h
  · rename_i hgt
    split at h
    · rename_i hone
      cases h
      rw [countPrimary_map_ite, hone, countPrimary_map_clear]
    · rename_i hne
      cases h
      have hz : countPrimary ((ms.filter sel).map f) = 0 := by omega
      rw [countPrimary_map_ite sel f (fun m => m) ms, hz, Nat.zero_add,
        show List.map (fun m => m) (List.filter (fun m => !sel m) ms) =
          List.filter (fun m => !sel m) ms from List.map_id _]
      exact Nat.le_trans (countPrimary_filter_le _ _) hc

theorem appendEntries_count {incoming existing ms1 : List SubAtMap}
    (h : appendEntries incoming existing = .ok ms1) (hc : countPrimary existing ≤ 1) :
    countPrimary ms1 ≤ 1 := by
  unfold appendEntries at h
  split at h
  · cases h
  · split at h
    · rename_i hone
      cases h
      rw [countPrimary_append, countPrimary_map_clear, hone]
    · cases h
      rw [countPrimary_append]
      omega

theorem writeSelected_count {env : Env} {kind : PatchKind} {name : Bytes}
    {sel : SubAtMap → Bool} {subAt : Option Bytes} {v : PatchValue} {ms ms1 : List SubAtMap}
    (h : writeSelected env kind name sel subAt v ms = .ok ms1) (hc : countPrimary ms ≤ 1) :
    countPrimary ms1 ≤ 1 := by
  unfold writeSelected at h
  split at h
  · cases h
  · split at h
    · exact writeEntries_count h hc
    · split at h
      · exact writeEntries_count h hc
      · exact writeEntries_count h hc
    · cases h

theorem writeComplex_count {env : Env} {kind : PatchKind} {name : Bytes} {multi : Bool}
    {subAt : Option Bytes} {v : PatchValue} {ms ms1 : List SubAtMap}
    (h : writeComplex env kind name multi subAt v ms = .ok ms1) (hc : countPrimary ms ≤ 1) :
    countPrimary ms1 ≤ 1 := by
  have h0 : countPrimary ([] : List SubAtMap) ≤ 1 := by decide
  unfold writeComplex at h
  split at h
  · split at h
    · exact appendEntries_count h h0
    · exact writeEntries_count h hc
  · split at h
    · split at h
      · exact appendEntries_count h hc
      · split at h
        · exact appendEntries_count h h0
        · exact writeEntries_count h hc
    · exact appendEntries_count h h0
  · split at h
    · split at h
      · exact appendEntries_count h hc
      · exact appendEntries_count h h0
    · cases h
  · cases h

/-! ## Patch: every operation keeps at most one primary value -/

theorem all_kvPut {α : Type} (P : α → Bool) (k : Bytes) (v : α) (l : List (Bytes × α))
    (hv : P v = true) (hl : l.all (fun kv => P kv.2) = true) :
    (kvPut k v l).all (fun kv => P kv.2) = true := by
  induction l with
  | nil => simp [kvPut, hv]
  | cons e rest ih =>
    obtain ⟨k1, v1⟩ := e
    simp only [List.all_cons, Bool.and_eq_true] at hl
    unfold kvPut
    by_cases h1 : k = k1
    · rw [if_pos h1]
      simp only [List.all_cons, Bool.and_eq_true]
      exact ⟨hv, hl.2⟩
    · rw [if_neg h1]
      by_cases h2 : bytesLt k k1 = true
      · rw [if_pos h2]
        simp only [List.all_cons, Bool.and_eq_true]
        exact ⟨hv, hl.1, hl.2⟩
      · rw [if_neg h2]
        simp only [List.all_cons, Bool.and_eq_true]
        exact ⟨hl.1, ih hl.2⟩

theorem all_kvDel {α : Type} (P : α → Bool) (k : Bytes) (l : List (Bytes × α))
    (hl : l.all (fun kv => P kv.2) = true) : (kvDel k l).all (fun kv => P kv.2) = true := by
  rw [List.all_eq_true] at hl ⊢
  intro x hx
  exact hl x ((kvDel_sublist k l).subset hx)

theorem all_of_kvGet {α : Type} (P : α → Bool) (k : Bytes) (v : α) (l : List (Bytes × α))
    (hl : l.all (fun kv => P kv.2) = true) (hg : kvGet k l = some v) : P v = true := by
  rw [List.all_eq_true] at hl
  exact hl (k, v) (kvGet_mem k v l hg)

theorem entries_count {rs : Resource} (h : rs.singlePrimary = true) (key : Bytes) :
    countPrimary (rs.entries key) ≤ 1 := by
  unfold Resource.entries
  split
  · rename_i ca hg
    have := all_of_kvGet primaryOk key _ rs.attrs h hg
    simpa [primaryOk] using this
  · decide

theorem setAttr_single {rs : Resource} (h : rs.singlePrimary = true) (key : Bytes)
    (at1 : Attribute) (ha : primaryOk at1 = true) : (rs.setAttr key at1).singlePrimary = true :=
  all_kvPut primaryOk key at1 rs.attrs ha h

theorem applyWrite_single {env : Env} {sc : PatchSchema} {rt : ResourceType} {kind : PatchKind}
    {p : PatchPath} {v : PatchValue} {rs r1 : Resource}
    (h : applyWrite env sc rt kind p v rs = .ok r1) (hs : rs.singlePrimary = true) :
    r1.singlePrimary = true := by
  unfold applyWrite at h
  split at h
  · cases h
  · split at h
    · cases h
    · split at h
      · split at h
        · cases h
        · split at h
          · cases h
          · rename_i ms hw
            cases h
            apply setAttr_single hs
            simp only [primaryOk, decide_eq_true_eq]
            split at hw
            · exact writeSelected_count hw (entries_count hs _)
            · exact writeComplex_count hw (entries_count hs _)
      · split at h
        · split at h
          · cases h
          · cases h
            exact setAttr_single hs _ _ rfl
        · cases h

theorem applyFields_single {env : Env} {sc : PatchSchema} {rt : ResourceType} {kind : PatchKind}
    (fields : List (Bytes × PatchValue)) {rs r1 : Resource}
    (h : applyFields env sc rt kind fields rs = .ok r1) (hs : rs.singlePrimary = true) :
    r1.singlePrimary = true := by
  induction fields generalizing rs with
  | nil => cases h; exact hs
  | cons f rest ih =>
    obtain ⟨k, v⟩ := f
    simp only [applyFields] at h
    cases hw : applyWrite env sc rt kind { At := k, Slctr := none, SubAt := none } v rs with
    | error e => rw [hw] at h; cases h
    | ok r2 =>
      rw [hw] at h
      exact ih h (applyWrite_single hw hs)

theorem isPrimary_kvDel (b : Bytes) (m : SubAtMap) (h : isPrimary (kvDel b m) = true) :
    isPrimary m = true := by
  unfold isPrimary at h ⊢
  by_cases hb : ascii "primary" = b
  · subst hb
    rw [kvGet_kvDel_self] at h
    cases h
  · rw [kvGet_kvDel_ne _ _ _ hb] at h
    exact h

theorem applyRemove_single {env : Env} {sc : PatchSchema} {rt : ResourceType}
    {p : PatchPath} {rs r1 : Resource}
    (h : applyRemove env sc rt p rs = .ok r1) (hs : rs.singlePrimary = true) :
    r1.singlePrimary = true := by
  unfold applyRemove at h
  split at h
  · cases h
  · split at h
    · cases h
    · split at h
      · split at h
        · split at h
          · cases h
          · cases h
            apply setAttr_single hs
            simp only [primaryOk, decide_eq_true_eq]
            exact Nat.le_trans (countPrimary_filter_le _ _) (entries_count hs _)
        · cases h
      · split at h
        · split at h
          · cases h
          · cases h
            exact all_kvDel primaryOk _ rs.attrs hs
        · split at h
          · cases h
          · split at h
            · rename_i ca hg
              cases h
              apply setAttr_single hs
              simp only [primaryOk, decide_eq_true_eq]
              have hc := all_of_kvGet primaryOk _ _ rs.attrs hs hg
              simp only [primaryOk, decide_eq_true_eq] at hc
              exact Nat.le_trans (countPrimary_map_le _ _ (isPrimary_kvDel _)) hc
            · cases h
              exact hs

theorem applyOp_single {env : Env} {sc : PatchSchema} {rt : ResourceType} {op : PatchOp}
    {rs r1 : Resource} (h : applyOp env sc rt rs op = .ok r1) (hs : rs.singlePrimary = true) :
    r1.singlePrimary = true := by
  cases op with
  | remove p => exact applyRemove_single h hs
  | write kind p v => exact applyWrite_single h hs
  | writeObject kind fields => exact applyFields_single fields h hs
  | writeArray kind => cases h

theorem applyOps_single {env : Env} {sc : PatchSchema} {rt : ResourceType}
    (ops : List PatchOp) {rs r1 : Resource} (h : applyOps env sc rt ops rs = .ok r1)
    (hs : rs.singlePrimary = true) : r1.singlePrimary = true := by
  induction ops generalizing rs with
  | nil => cases h; exact hs
  | cons op rest ih =>
    simp only [applyOps] at h
    cases ho : applyOp env sc rt rs op with
    | error e => rw [ho] at h; cases h
    | ok r2 =>
      rw [ho] at h
      exact ih h (applyOp_single ho hs)

/-! ## Patch: the bump of `meta` and the primary values -/

theorem isPrimary_kvPut_ne (k : Bytes) (v : SimpleAttr) (m : SubAtMap)
    (hk : ascii "primary" ≠ k) : isPrimary (kvPut k v m) = isPrimary m := by
  unfold isPrimary
  rw [kvGet_kvPut_ne _ _ _ _ hk]

theorem updateLastModTime_single (env : Env) {rs : Resource} (hs : rs.singlePrimary = true) :
    (rs.UpdateLastModTime env).singlePrimary = true := by
  unfold Resource.UpdateLastModTime
  split
  · rename_i ca hg
    apply setAttr_single hs
    simp only [primaryOk, decide_eq_true_eq]
    have hc := all_of_kvGet primaryOk _ _ rs.attrs hs hg
    simp only [primaryOk, decide_eq_true_eq] at hc
    refine Nat.le_trans (countPrimary_map_le _ _ (fun m hm => ?_)) hc
    rw [isPrimary_kvPut_ne _ _ _ (by decide), isPrimary_kvPut_ne _ _ _ (by decide)] at hm
    exact hm
  · unfold Resource.AddMeta
    apply all_kvPut primaryOk _ _ rs.attrs _ hs
    simp only [primaryOk, decide_eq_true_eq, countPrimary_cons]
    have : isPrimary [(ascii "created", { Name := ascii "created", Values := [env.Now] }),
        (ascii "lastmodified", { Name := ascii "lastModified", Values := [env.Now] }),
        (ascii "resourcetype", { Name := ascii "resourceType", Values := [rs.resType.Name] }),
        (ascii "version", { Name := ascii "version", Values := [env.Now] })] = false := by
      unfold isPrimary
      have h1 : ascii "primary" ≠ ascii "created" := by decide
      have h2 : ascii "primary" ≠ ascii "lastmodified" := by decide
      have h3 : ascii "primary" ≠ ascii "resourcetype" := by decide
      have h4 : ascii "primary" ≠ ascii "version" := by decide
      simp only [kvGet, if_neg h1, if_neg h2, if_neg h3, if_neg h4]
    rw [this]
    decide

/-! ## Patch: a value with more than one primary entry -/

theorem appendEntries_many {incoming : List SubAtMap} (existing : List SubAtMap)
    (h : 1 < countPrimary incoming) : appendEntries incoming existing = .error multiplePrimary := by
  unfold appendEntries
  rw [if_pos h]

theorem writeSelected_objects (env : Env) (kind : PatchKind) (name : Bytes)
    (sel : SubAtMap → Bool) (subAt : Option Bytes) (es : List (List (Bytes × Bytes)))
    (ms : List SubAtMap) : ∃ e, writeSelected env kind name sel subAt (.objects es) ms = .error e := by
  unfold writeSelected
  split
  · exact ⟨_, rfl⟩
  · cases subAt <;> exact ⟨_, rfl⟩

theorem writeComplex_many (env : Env) (kind : PatchKind) (name : Bytes) (multi : Bool)
    (subAt : Option Bytes) (es : List (List (Bytes × Bytes))) (ms : List SubAtMap)
    (h : 1 < countPrimary (es.map (fun fields => mergeFields env fields []))) :
    ∃ e, writeComplex env kind name multi subAt (.objects es) ms = .error e := by
  unfold writeComplex
  cases subAt with
  | some b => exact ⟨_, rfl⟩
  | none =>
    simp only
    cases multi with
    | false => exact ⟨_, rfl⟩
    | true =>
      simp only [if_true]
      cases kind with
      | add => exact ⟨_, appendEntries_many _ h⟩
      | replace => exact ⟨_, appendEntries_many _ h⟩

theorem applyWrite_many (env : Env) (sc : PatchSchema) (rt : ResourceType) (kind : PatchKind)
    (p : PatchPath) (v : PatchValue) (rs : Resource) (h : v.manyPrimary env = true) :
    ∃ e, applyWrite env sc rt kind p v rs = .error e := by
  cases v with
  | scalar x => cases h
  | scalars vs => cases h
  | object fs => cases h
  | objects es =>
    simp only [PatchValue.manyPrimary, decide_eq_true_eq] at h
    unfold applyWrite
    cases hat : sc.getAtType rt (env.ToLower p.At) with
    | none => exact ⟨_, rfl⟩
    | some atp =>
      simp only
      by_cases hro : env.IsReadOnly rt (env.ToLower p.At) = true
      · rw [if_pos hro]; exact ⟨_, rfl⟩
      · rw [if_neg hro]
        cases hc : atp.IsComplex with
        | false =>
          simp only [Bool.false_eq_true, if_false]
          cases p.Slctr <;> cases p.SubAt <;> exact ⟨_, rfl⟩
        | true =>
          simp only [if_true]
          split
          · exact ⟨_, rfl⟩
          · cases hsl : p.Slctr with
            | some sel =>
              obtain ⟨e, he⟩ := writeSelected_objects env kind p.At sel p.SubAt es
                (rs.entries (env.ToLower p.At))
              simp only [he]
              exact ⟨_, rfl⟩
            | none =>
              obtain ⟨e, he⟩ := writeComplex_many env kind p.At atp.MultiValued p.SubAt es
                (rs.entries (env.ToLower p.At)) h
              simp only [he]
              exact ⟨_, rfl⟩

theorem applyFields_many (env : Env) (sc : PatchSchema) (rt : ResourceType) (kind : PatchKind)
    (fields : List (Bytes × PatchValue)) (rs : Resource)
    (h : fields.any (fun kv => kv.2.manyPrimary env) = true) :
    ∃ e, applyFields env sc rt kind fields rs = .error e := by
  induction fields generalizing rs with
  | nil => cases h
  | cons f rest ih =>
    obtain ⟨k, v⟩ := f
    simp only [applyFields]
    cases hw : applyWrite env sc rt kind { At := k, Slctr := none, SubAt := none } v rs with
    | error e => exact ⟨e, rfl⟩
    | ok r2 =>
      simp only [List.any_cons, Bool.or_eq_true] at h
      rcases h with h | h
      · obtain ⟨e, he⟩ := applyWrite_many env sc rt kind
          { At := k, Slctr := none, SubAt := none } v rs h
        rw [he] at hw
        cases hw
      · exact ih r2 h

theorem applyOps_many (env : Env) (sc : PatchSchema) (rt : ResourceType) (ops : List PatchOp)
    (rs : Resource) (h : ops.any (PatchOp.manyPrimary env) = true) :
    ∃ e, applyOps env sc rt ops rs = .error e := by
  induction ops generalizing rs with
  | nil => cases h
  | cons op rest ih =>
    simp only [applyOps]
    cases ho : applyOp env sc rt rs op with
    | error e => exact ⟨e, rfl⟩
    | ok r2 =>
      simp only [List.any_cons, Bool.or_eq_true] at h
      rcases h with h | h
      · exfalso
        cases op with
        | remove p => cases h
        | writeArray kind => cases h
        | write kind p v =>
          obtain ⟨e, he⟩ := applyWrite_many env sc rt kind p v rs h
          rw [applyOp, he] at ho
          cases ho
        | writeObject kind fields =>
          obtain ⟨e, he⟩ := applyFields_many env sc rt kind fields rs h
          rw [applyOp, he] at ho
          cases ho
      · exact ih r2 h

theorem patch_many_fails (env : Env) (sc : PatchSchema) (sl : Silo) (db : Tx) (rid : Bytes)
    (pr : PatchReq) (rt : ResourceType)
    (h : pr.Operations.any (PatchOp.manyPrimary env) = true) (res : Resource) (db1 : Tx) :
    sl.Patch env sc db rid pr rt ≠ .ok res db1 := by
  intro hp
  obtain ⟨old, x, new, b0, b1, hg, ha, _⟩ := patch_ok_steps hp
  obtain ⟨e, he⟩ := applyOps_many env sc rt pr.Operations old h
  rw [he] at ha
  cases ha

/-! ## Patch: primary set through a selector -/

theorem isPrimary_setSubAt (env : Env) (hlow : env.ToLower (ascii "primary") = ascii "primary")
    (m : SubAtMap) : isPrimary (setSubAt env (ascii "primary") (ascii "true") m) = true := by
  unfold isPrimary setSubAt
  rw [hlow, kvGet_kvPut_self]
  decide

theorem countPrimary_map_set (env : Env)
    (hlow : env.ToLower (ascii "primary") = ascii "primary") (ms : List SubAtMap) :
    countPrimary (ms.map (setSubAt env (ascii "primary") (ascii "true"))) = ms.length := by
  induction ms with
  | nil => rfl
  | cons m rest ih =>
    rw [List.map_cons, countPrimary_cons, isPrimary_setSubAt env hlow, ih, List.length_cons]
    simp only [if_true]
    omega

theorem any_of_filter_one (sel : SubAtMap → Bool) (ms : List SubAtMap)
    (h : (ms.filter sel).length = 1) : ms.any sel = true := by
  cases hf : ms.filter sel with
  | nil => rw [hf] at h; cases h
  | cons m rest =>
    have hm : m ∈ ms.filter sel := by rw [hf]; exact List.mem_cons_self _ _
    rw [List.mem_filter] at hm
    rw [List.any_eq_true]
    exact ⟨m, hm.1, hm.2⟩

theorem primary_through_selector (env : Env) (sc : PatchSchema) (rt : ResourceType)
    (kind : PatchKind) (a : Bytes) (sel : SubAtMap → Bool) (rs : Resource) (atp : AttrType)
    (hlow : env.ToLower (ascii "primary") = ascii "primary")
    (hat : sc.getAtType rt (env.ToLower a) = some atp) (hc : atp.IsComplex = true)
    (hro : env.IsReadOnly rt (env.ToLower a) = false)
    (hsub : (sc.getAtType rt (subPath env (env.ToLower a) (ascii "primary"))).isSome = true)
    (hone : ((rs.entries (env.ToLower a)).filter sel).length = 1) :
    ∃ r1, applyOps env sc rt
        [.write kind ⟨a, some sel, some (ascii "primary")⟩ (.scalar (ascii "true"))] rs = .ok r1 ∧
      (r1.entries (env.ToLower a)).map isPrimary = (rs.entries (env.ToLower a)).map sel ∧
      ∃ ca, kvGet (env.ToLower a) r1.attrs = some (.complex ca) := by
  have hw : writeEntries sel (setSubAt env (ascii "primary") (ascii "true"))
      (rs.entries (env.ToLower a)) =
      .ok ((rs.entries (env.ToLower a)).map (fun m =>
        if sel m = true then setSubAt env (ascii "primary") (ascii "true") m
        else clearPrimary m)) := by
    unfold writeEntries
    rw [countPrimary_map_set env hlow, hone]
    simp
  obtain ⟨t, ht⟩ := Option.isSome_iff_exists.mp hsub
  refine ⟨rs.setAttr (env.ToLower a) (.complex ⟨atp.Name,
    (rs.entries (env.ToLower a)).map (fun m =>
      if sel m = true then setSubAt env (ascii "primary") (ascii "true") m
      else clearPrimary m)⟩), ?_, ?_, ?_⟩
  · simp only [applyOps, applyOp, applyWrite, hat, hro, hc, Option.bind, ht, writeSelected,
      any_of_filter_one sel _ hone, hw]
    simp
  · simp only [Resource.entries, Resource.setAttr, kvGet_kvPut_self, List.map_map]
    apply List.map_congr_left
    intro m _
    simp only [Function.comp]
    cases hs : sel m with
    | true => simp [isPrimary_setSubAt env hlow]
    | false => simp [isPrimary_clearPrimary]
  · exact ⟨_, kvGet_kvPut_self _ _ _⟩

/-! ## Patch: at most one primary value -/

theorem updateLastModTime_primaries (env : Env) (rs : Resource) (key : Bytes)
    (h : key = ascii "meta" → ∃ ca, kvGet (ascii "meta") rs.attrs = some (.complex ca)) :
    ((rs.UpdateLastModTime env).entries key).map isPrimary = (rs.entries key).map isPrimary := by
  by_cases hk : key = ascii "meta"
  · obtain ⟨ca, hca⟩ := h hk
    subst hk
    unfold Resource.UpdateLastModTime
    rw [hca]
    simp only [Resource.entries, Resource.setAttr, kvGet_kvPut_self, hca, List.map_map]
    apply List.map_congr_left
    intro m _
    simp only [Function.comp]
    rw [isPrimary_kvPut_ne _ _ _ (by decide), isPrimary_kvPut_ne _ _ _ (by decide)]
  · obtain ⟨_, _, x, hx⟩ := updateLastModTime_shape env rs
    unfold Resource.entries
    rw [hx, kvGet_kvPut_ne _ _ _ _ hk]

/-- C25: a complex attribute never ends up with more than one value marked
`primary=true` through Patch.  (1) When the stored resource has at most one
primary value in every complex attribute, so has the resource a successful
patch returns.  (2) A request with an operation whose value carries more than
one entry with `primary=true` does not succeed.  (3) For the request that adds
(or replaces) `true` at the path `a[sel].primary` of a complex attribute `a`
that is not read-only, where the selector picks exactly one value: the operation applies, and in the resource a successful patch returns
the value the selector picked is primary and every other value of `a` is
not. -/
theorem patch_keeps_single_primary (env : Env) (sc : PatchSchema) (sl : Silo)
    (rt : ResourceType) :
    (∀ db db1 rid pr old x res1, sl.Get env db rid rt = .ok (some old, x) →
        old.singlePrimary = true → sl.Patch env sc db rid pr rt = .ok res1 db1 →
        res1.singlePrimary = true) ∧
    (∀ db rid pr, pr.Operations.any (PatchOp.manyPrimary env) = true →
        ∀ res db1, sl.Patch env sc db rid pr rt ≠ .ok res db1) ∧
    (∀ kind a sel db rid old x atp, env.ToLower (ascii "primary") = ascii "primary" →
        sc.getAtType rt (env.ToLower a) = some atp → atp.IsComplex = true →
        env.IsReadOnly rt (env.ToLower a) = false →
        (sc.getAtType rt (subPath env (env.ToLower a) (ascii "primary"))).isSome = true →
        sl.Get env db rid rt = .ok (some old, x) →
        ((old.entries (env.ToLower a)).filter sel).length = 1 →
        (∃ r1, applyOps env sc rt
          [.write kind ⟨a, some sel, some (ascii "primary")⟩ (.scalar (ascii "true"))] old =
            .ok r1) ∧
        ∀ res1 db1, sl.Patch env sc db rid
            ⟨[.write kind ⟨a, some sel, some (ascii "primary")⟩ (.scalar (ascii "true"))]⟩ rt =
              .ok res1 db1 →
          (res1.entries (env.ToLower a)).map isPrimary =
            (old.entries (env.ToLower a)).map sel) := by
  refine ⟨?_, ?_, ?_⟩
  · intro db db1 rid pr old x res1 hg hs hp
    obtain ⟨old2, x2, new, b0, b1, hg2, ha, _, _, hc⟩ := patch_ok_steps hp
    rw [hg] at hg2
    cases hg2
    have hn := applyOps_single pr.Operations ha hs
    rcases hc with ⟨_, hr, _⟩ | ⟨_, hw⟩
    · rw [hr]; exact hn
    · rw [(patchWrite_ok_steps hw).1]
      exact updateLastModTime_single env hn
  · intro db rid pr h res db1
    exact patch_many_fails env sc sl db rid pr rt h res db1
  · intro kind a sel db rid old x atp hlow hat hc hro hsub hg hone
    obtain ⟨r1, h1, h2, h3⟩ :=
      primary_through_selector env sc rt kind a sel old atp hlow hat hc hro hsub hone
    refine ⟨⟨r1, h1⟩, fun res1 db1 hp => ?_⟩
    obtain ⟨old2, x2, new, b0, b1, hg2, ha, _, _, hcs⟩ := patch_ok_steps hp
    rw [hg] at hg2
    cases hg2
    rw [h1] at ha
    cases ha
    rcases hcs with ⟨_, hr, _⟩ | ⟨_, hw⟩
    · rw [hr]; exact h2
    · rw [(patchWrite_ok_steps hw).1, updateLastModTime_primaries, h2]
      intro hk
      rw [← hk]
      exact h3

set_option maxRecDepth 1000000 in
/-- C25 (witness): the sample device with the photos `abc.jpg` (primary) and
`xyz.jpg`.  The request that marks `xyz.jpg` primary through the selector
`photos[value eq "xyz.jpg"]` succeeds and leaves `abc.jpg` not primary and
`xyz.jpg` primary; the request that adds two photos both marked primary fails
with invalidValue and leaves the state as it was. -/
theorem patch_keeps_single_primary_witness :
    primaryPatched = .ok primaryRes primaryDb ∧ primaryRes.singlePrimary = true ∧
      (primaryRes.entries ((patchEnv day1).ToLower (ascii "photos"))).map isPrimary =
        [false, true] ∧
      (∀ res db1, gadgetSilo.Patch (patchEnv day1) gadgetSchema gadgetDb (GenUUID draw1)
        twoPrimaryReq gadgetType ≠ .ok res db1) ∧
      gadgetSilo.Patch (patchEnv day1) gadgetSchema gadgetDb (GenUUID draw1) twoPrimaryReq
        gadgetType = .failed multiplePrimary gadgetDb :=
  ⟨by decide,
    (patch_keeps_single_primary (patchEnv day1) gadgetSchema gadgetSilo gadgetType).1
      gadgetDb primaryDb (GenUUID draw1) primaryReq gadgetStored none primaryRes
      (by decide) (by decide) (by decide),
    ((((patch_keeps_single_primary (patchEnv day1) gadgetSchema gadgetSilo gadgetType).2.2
      .add (ascii "photos") (selEq (ascii "value") (ascii "xyz.jpg")) gadgetDb (GenUUID draw1)
      gadgetStored none photosType (by decide) rfl (by decide) (by decide) (by decide)
      (by decide) (by decide)).2 primaryRes primaryDb (by decide)).trans (by decide)),
    (patch_keeps_single_primary (patchEnv day1) gadgetSchema gadgetSilo gadgetType).2.1
      gadgetDb (GenUUID draw1) twoPrimaryReq (by decide),
    by decide⟩

/-! ## `remove` after `add`, from a history of `add` -/

theorem inStep_spec {env : Env} {idx : Index} {U : List Bytes} {v w kv kw : Bytes}
    (h : idx.inStep env U = true) (hv : v ∈ U) (hw : w ∈ U)
    (hkv : idx.convert env v = .ok kv) (hkw : idx.convert env w = .ok kw) :
    (kv = kw ↔ countKeyOf env v = countKeyOf env w) := by
  unfold Index.inStep at h
  rw [List.all_eq_true] at h
  have h1 := h v hv
  rw [List.all_eq_true] at h1
  have h2 := h1 w hw
  rw [hkv, hkw] at h2
  simpa using h2

/-- A successful `add` of a value without nested bucket wrote the count key with
`Put`, so the count key was not the key of a nested bucket. -/
theorem add_dup_new_free {env : Env} {idx : Index} {val rid key : Bytes} {tx tx1 : Tx}
    {buck : Bucket} (hu : idx.AllowDupKey = true) (hk : idx.convert env val = .ok key)
    (hb : tx.bucketOf idx.BnameBytes = some buck)
    (hn : Bucket.Nested buck key = none)
    (h : idx.add env val rid tx = (tx1, .nil)) :
    ∀ kvs, kvGet (countKeyOf env val) buck ≠ some (.nested kvs) := by
  unfold Index.add at h
  rw [hk] at h
  simp only [hb, hu, if_true, hn] at h
  cases hc : Bucket.CreateBucket buck key with
  | error e => rw [hc] at h; cases h
  | ok b0 =>
    rw [hc] at h
    simp only at h
    obtain ⟨hb0, hnone, _⟩ := createBucket_inv hc
    subst hb0
    cases hp : Bucket.Put (kvPut key (.nested []) buck) (countKeyOf env val) (Itob 1) with
    | error e => rw [hp] at h; cases h
    | ok b2 =>
      obtain ⟨_, _, _, hck3⟩ := put_inv hp
      intro kvs hg
      by_cases hne : countKeyOf env val = key
      · rw [hne, hnone] at hg
        cases hg
      · exact hck3 kvs (by rw [kvGet_kvPut_ne _ _ _ _ hne]; exact hg)

theorem addInv_present {env : Env} {idx : Index} {U : List Bytes} {N M : Nat}
    {buck b1 : Bucket} {v key : Bytes} (kvs : List (Bytes × Bytes)) (c : Nat)
    (hal : idx.inStep env U = true) (hinv : AddInv env idx U N buck) (hNM : N ≤ M)
    (hv : v ∈ U) (hk : idx.convert env v = .ok key)
    (hne : countKeyOf env v ≠ key)
    (hck1 : countKeyOf env v ≠ []) (hck2 : (countKeyOf env v).length ≤ MaxKeySize)
    (hc1 : 1 ≤ c) (hc2 : c ≤ M)
    (hfree : ∀ old, kvGet (countKeyOf env v) buck ≠ some (.nested old))
    (hkey : ∀ x, kvGet key buck ≠ some (.value x))
    (hd : ∀ k, kvGet k b1 = if k = key then some (.nested kvs)
      else if k = countKeyOf env v then some (.value (Itob ((c : Nat) : Int)))
      else kvGet k buck) :
    AddInv env idx U M b1 := by
  constructor
  · intro k kvs2 hg
    rw [hd k] at hg
    by_cases hkk : k = key
    · rw [hkk]
      refine ⟨v, c, hv, hk, hc1, hc2, ?_⟩
      rw [hd, if_neg hne, if_pos rfl]
    · rw [if_neg hkk] at hg
      by_cases hkc : k = countKeyOf env v
      · rw [if_pos hkc] at hg
        cases hg
      · rw [if_neg hkc] at hg
        obtain ⟨w, cw, hw, hkw, hw1, hw2, hcw⟩ := hinv.nested k kvs2 hg
        refine ⟨w, cw, hw, hkw, hw1, le_trans hw2 hNM, ?_⟩
        have a1 := inStep_spec hal hv hw hk hkw
        have n1 : countKeyOf env w ≠ key := by
          intro e
          rw [e] at hcw
          exact hkey _ hcw
        have n2 : countKeyOf env w ≠ countKeyOf env v :=
          fun e => hkk (a1.mpr e.symm).symm
        rw [hd, if_neg n1, if_neg n2]
        exact hcw
  · intro k x hg
    rw [hd k] at hg
    by_cases hkk : k = key
    · rw [if_pos hkk] at hg
      cases hg
    · rw [if_neg hkk] at hg
      by_cases hkc : k = countKeyOf env v
      · rw [hkc]
        refine ⟨hck1, hck2, v, key, kvs, hv, rfl, hk, ?_⟩
        rw [hd, if_pos rfl]
      · rw [if_neg hkc] at hg
        obtain ⟨p1, p2, w, kw, kvsw, hw, hkeq, hkw, hgw⟩ := hinv.plain k x hg
        by_cases hkw2 : kw = key
        · refine ⟨p1, p2, w, kw, kvs, hw, hkeq, hkw, ?_⟩
          rw [hd, if_pos hkw2]
        · refine ⟨p1, p2, w, kw, kvsw, hw, hkeq, hkw, ?_⟩
          have n3 : kw ≠ countKeyOf env v := by
            intro e
            rw [e] at hgw
            exact hfree _ hgw
          rw [hd, if_neg hkw2, if_neg n3]
          exact hgw

/-- The count key of a value with a nested bucket holds a count of 1 or more. -/
theorem addInv_countKey {env : Env} {idx : Index} {U : List Bytes} {N : Nat}
    {buck : Bucket} {v key : Bytes} {kvs : List (Bytes × Bytes)}
    (hal : idx.inStep env U = true) (hinv : AddInv env idx U N buck)
    (hv : v ∈ U) (hk : idx.convert env v = .ok key)
    (hg : kvGet key buck = some (.nested kvs)) :
    ∃ c : Nat, 1 ≤ c ∧ c ≤ N ∧
      kvGet (countKeyOf env v) buck = some (.value (Itob ((c : Nat) : Int))) ∧
      countKeyOf env v ≠ [] ∧ (countKeyOf env v).length ≤ MaxKeySize ∧
      countKeyOf env v ≠ key := by
  obtain ⟨w, c, hw, hkw, h1, h2, hcw⟩ := hinv.nested key kvs hg
  have a1 := inStep_spec hal hv hw hk hkw
  have hck : countKeyOf env v = countKeyOf env w := a1.mp rfl
  rw [← hck] at hcw
  obtain ⟨p1, p2, _⟩ := hinv.plain _ _ hcw
  refine ⟨c, h1, h2, hcw, p1, p2, ?_⟩
  intro e
  rw [e, hg] at hcw
  cases hcw

/-- The count key of a value without nested bucket is not bound, when it is
not the key of a nested bucket. -/
theorem addInv_countKey_free {env : Env} {idx : Index} {U : List Bytes} {N : Nat}
    {buck : Bucket} {v key : Bytes}
    (hal : idx.inStep env U = true) (hinv : AddInv env idx U N buck)
    (hv : v ∈ U) (hk : idx.convert env v = .ok key)
    (hfree : ∀ kvs, kvGet key buck ≠ some (.nested kvs))
    (hfree2 : ∀ kvs, kvGet (countKeyOf env v) buck ≠ some (.nested kvs)) :
    kvGet (countKeyOf env v) buck = none := by
  cases hg : kvGet (countKeyOf env v) buck with
  | none => rfl
  | some nd =>
    cases nd with
    | value x =>
      obtain ⟨_, _, w, kw, kvsw, hw, hkeq, hkw, hgw⟩ := hinv.plain _ x hg
      have a1 := inStep_spec hal hv hw hk hkw
      have hkk : key = kw := a1.mpr hkeq
      rw [← hkk] at hgw
      exact absurd hgw (hfree kvsw)
    | nested kvs => exact absurd hg (hfree2 kvs)

/-- A successful `add` keeps the state of a history of `add` up. -/
theorem adds_step {env : Env} {idx : Index} {U : List Bytes} {N : Nat}
    {val rid : Bytes} {tx tx1 : Tx}
    (hB : idx.BnameBytes ≠ BUC_COUNTS) (hN : N + 1 < two63)
    (hal : idx.AllowDupKey = true → idx.inStep env U = true) (hv : val ∈ U)
    (hinv : AddsInv env idx U N tx)
    (h : idx.add env val rid tx = (tx1, .nil)) :
    AddsInv env idx U (N + 1) tx1 := by
  obtain ⟨buck, hb, hs, hdup, hc⟩ := hinv
  cases hk : idx.convert env val with
  | error p =>
    unfold Index.add at h
    rw [hk] at h
    cases h
  | ok key =>
    cases hu : idx.AllowDupKey with
    | false =>
      obtain ⟨b1, hs1, hd, hbump⟩ := add_unique_step hu hk hb hs h
      obtain ⟨hb1, hc1, _⟩ := bump_facts hB hc hbump
      refine ⟨b1, hb1, hs1, ?_, ?_⟩
      · intro e
        rw [hu] at e
        cases e
      · rw [hc1, cast_succ_wrap N N (le_refl _) hN]
    | true =>
      have hal2 := hal hu
      have hinv2 := hdup hu
      cases hg : kvGet key buck with
      | none =>
        have hn : Bucket.Nested buck key = none := by simp [Bucket.Nested, hg]
        obtain ⟨hne, hck1, hck2, _, b1, hs1, hd, hbump⟩ :=
          add_dup_new_step hu hk hb hs hn h
        have hfree2 := add_dup_new_free hu hk hb hn h
        obtain ⟨hb1, hc1, _⟩ := bump_facts hB hc hbump
        refine ⟨b1, hb1, hs1, fun _ => ?_, ?_⟩
        · refine addInv_present [(rid, [])] 1 hal2 hinv2 (Nat.le_succ N) hv hk hne hck1 hck2
            (le_refl _) (by omega) hfree2 (by rw [hg]; intro x e; cases e) ?_
          intro k
          rw [hd k]
          rfl
        · rw [hc1, cast_succ_wrap N N (le_refl _) hN]
      | some nd =>
        cases nd with
        | value x =>
          have hn : Bucket.Nested buck key = none := by simp [Bucket.Nested, hg]
          obtain ⟨_, _, _, hnone, _⟩ := add_dup_new_step hu hk hb hs hn h
          rw [hg] at hnone
          cases hnone
        | nested old =>
          obtain ⟨c, hc1', hc2', hcw, hck1, hck2, hne⟩ :=
            addInv_countKey hal2 hinv2 hv hk hg
          obtain ⟨b1, hs1, hd, hbump⟩ := add_dup_old_step hu hk hb hs hg hcw
            (by unfold two63; omega) (by unfold two63 at *; omega) hne hck1 hck2 h
          obtain ⟨hb1, hc1, _⟩ := bump_facts hB hc hbump
          rw [cast_succ_wrap c N hc2' hN] at hd
          refine ⟨b1, hb1, hs1, fun _ => ?_, ?_⟩
          · exact addInv_present (kvPut rid [] old) (c + 1) hal2 hinv2 (Nat.le_succ N) hv hk
              hne hck1 hck2 (by omega) (by omega) (by rw [hcw]; intro o e; cases e)
              (by rw [hg]; intro x e; cases e) hd
          · rw [hc1, cast_succ_wrap N N (le_refl _) hN]

/-- The state of the index after a run of calls of `add`. -/
theorem adds_run {env : Env} {idx : Index} (U : List Bytes) (ops : List IndexOp) :
    ∀ (N : Nat) (tx tx1 : Tx), idx.BnameBytes ≠ BUC_COUNTS → N + ops.length < two63 →
      (idx.AllowDupKey = true → idx.inStep env U = true) →
      (∀ op ∈ ops, op.val ∈ U) → ops.all IndexOp.isAdd = true →
      AddsInv env idx U N tx → idx.run env ops tx = some tx1 →
      AddsInv env idx U (N + ops.length) tx1 := by
  induction ops with
  | nil =>
    intro N tx tx1 _ _ _ _ _ hinv hrun
    simp only [Index.run] at hrun
    cases hrun
    exact hinv
  | cons op rest ih =>
    intro N tx tx1 hB hN hal hU hadds hinv hrun
    simp only [List.length_cons] at hN
    simp only [List.all_cons, Bool.and_eq_true] at hadds
    unfold Index.run at hrun
    cases hcall : idx.call env op tx with
    | mk tx2 o =>
      rw [hcall] at hrun
      cases o with
      | nil =>
        simp only at hrun
        have hstep : AddsInv env idx U (N + 1) tx2 := by
          cases op with
          | add val rid =>
            simp only [Index.call] at hcall
            exact adds_step hB (by omega) hal (hU _ (List.mem_cons_self _ _)) hinv hcall
          | remove val rid =>
            have := hadds.1
            simp [IndexOp.isAdd] at this
        have := ih (N + 1) tx2 tx1 hB (by omega) hal
          (fun op hop => hU op (List.mem_cons_of_mem _ hop)) hadds.2 hstep hrun
        rw [List.length_cons]
        have e : N + (rest.length + 1) = N + 1 + rest.length := by omega
        rw [e]
        exact this
      | err e => simp at hrun
      | panic p => simp at hrun

/-- The empty index satisfies the state a history of `add` keeps up. -/
theorem addsInv_empty {env : Env} {idx : Index} (U : List Bytes) {tx : Tx}
    (h0 : tx.bucketOf idx.BnameBytes = some []) (hc0 : idx.getCount tx = .ok 0) :
    AddsInv env idx U 0 tx := by
  refine ⟨[], h0, kvSorted_nil, fun _ => ⟨?_, ?_⟩, by simpa using hc0⟩
  · intro k kvs hg
    simp [kvGet] at hg
  · intro k x hg
    simp [kvGet] at hg

theorem hasBucket_false {env : Env} {idx : Index} {val key : Bytes} {tx : Tx} {buck : Bucket}
    (hk : idx.convert env val = .ok key) (hb : tx.bucketOf idx.BnameBytes = some buck)
    (hn : Bucket.Nested buck key = none) : idx.hasBucket env val tx = false := by
  unfold Index.hasBucket
  rw [hk, hb]
  simp only [hn, Option.isSome_none]

set_option maxRecDepth 1000000 in
/-- C12, counterexample: five states in which `remove` after `add` does not put
back what was there.  On the unique index of `displayName`, which maps `staff`
to the first id, `add` and `remove` of the tuple (`staff`, second id) leave the
bucket empty.  On the case-exact index of `tags`, which holds (`A`, first id),
`add` and `remove` of (`a`, second id) delete the count key `a_count` that the
values `A` and `a` share.  On the index of the integer attribute `levels`,
which holds (`1`, first id), `add` and `remove` of (`01`, second id) delete the
nested bucket of the key that both values have, with the first id in it.  On
the index of `macIds`, `remove` in the transaction of the `add` that created
the nested bucket returns the error `delete bucket: incompatible value` and
takes nothing out.  On the new index of `displayName` the counts bucket has no
entry for the index before the `add` and the encoding of 0 after the
`remove`. -/
theorem add_remove_not_inverse :
    (displayIndex.run sampleEnv [.add (ascii "Staff") ridA] emptyDb = some dbStaffKey ∧
     dbStaffKey.bucketOf displayIndex.BnameBytes = some [(ascii "staff", .value ridA)] ∧
     ridB ≠ ridA ∧
     displayIndex.add sampleEnv (ascii "staff") ridB dbStaffKey = (dbStaffAgain, .nil) ∧
     (displayIndex.remove sampleEnv [] (ascii "staff") ridB dbStaffAgain).2 = .nil ∧
     (displayIndex.remove sampleEnv [] (ascii "staff") ridB dbStaffAgain).1.bucketOf
       displayIndex.BnameBytes = some []) ∧
    (tagIndex.run sampleEnv [.add (ascii "A") ridA] emptyTagDb = some dbTagA ∧
     dbTagA.bucketOf tagIndex.BnameBytes =
       some [(ascii "A", .nested [(ridA, [])]), (ascii "a_count", .value (Itob 1))] ∧
     tagIndex.isNew sampleEnv (ascii "a") ridB dbTagA = true ∧
     tagIndex.add sampleEnv (ascii "a") ridB dbTagA = (dbTagAa, .nil) ∧
     (tagIndex.remove sampleEnv [] (ascii "a") ridB dbTagAa).2 = .nil ∧
     (tagIndex.remove sampleEnv [] (ascii "a") ridB dbTagAa).1.bucketOf tagIndex.BnameBytes =
       some [(ascii "A", .nested [(ridA, [])])]) ∧
    (levelIndex.run sampleEnv [.add (ascii "1") ridA] emptyLevelDb = some dbLevel1 ∧
     dbLevel1.bucketOf levelIndex.BnameBytes =
       some [(Itob 1, .nested [(ridA, [])]), (ascii "1_count", .value (Itob 1))] ∧
     levelIndex.isNew sampleEnv (ascii "01") ridB dbLevel1 = true ∧
     levelIndex.add sampleEnv (ascii "01") ridB dbLevel1 = (dbLevel01, .nil) ∧
     (levelIndex.remove sampleEnv [] (ascii "01") ridB dbLevel01).2 = .nil ∧
     (levelIndex.remove sampleEnv [] (ascii "01") ridB dbLevel01).1.bucketOf
       levelIndex.BnameBytes = some [(ascii "1_count", .value (Itob 1))]) ∧
    (emptyDb.bucketOf macIndex.BnameBytes = some [] ∧
     macIndex.isNew sampleEnv (ascii "6A") ridA emptyDb = true ∧
     macIndex.add sampleEnv (ascii "6A") ridA emptyDb = (dbMacKey, .nil) ∧
     macIndex.remove sampleEnv [ridA] (ascii "6A") ridA dbMacKey =
       (dbMacKey, .err (.fmt (ascii "delete bucket: incompatible value"))) ∧
     dbMacKey.bucketOf macIndex.BnameBytes ≠ some []) ∧
    (emptyDb.bucketOf displayIndex.BnameBytes = some [] ∧
     displayIndex.getCount emptyDb = .ok 0 ∧
     emptyDb.bucketOf BUC_COUNTS = some [] ∧
     displayIndex.add sampleEnv (ascii "Staff") ridA emptyDb = (dbStaffKey, .nil) ∧
     (displayIndex.remove sampleEnv [] (ascii "Staff") ridA dbStaffKey).2 = .nil ∧
     (displayIndex.remove sampleEnv [] (ascii "Staff") ridA dbStaffKey).1.bucketOf
       displayIndex.BnameBytes = some [] ∧
     (displayIndex.remove sampleEnv [] (ascii "Staff") ridA dbStaffKey).1.bucketOf BUC_COUNTS =
       some [(displayIndex.BnameBytes, .value (Itob 0))]) :=
  ⟨⟨by decide, by decide, by decide, by decide, by decide, by decide⟩,
   ⟨by decide, by decide, by decide, by decide, by decide, by decide⟩,
   ⟨by decide, by decide, by decide, by decide, by decide, by decide⟩,
   ⟨by decide, by decide, by decide, by decide, by decide⟩,
   ⟨by decide, by decide, by decide, by decide, by decide, by decide, by decide⟩⟩

/-- C12, amended: take a state reached from the empty index (empty bucket,
total 0) by calls of `add` that all returned nil, and a tuple (val, rid) that
is not in the index, for a unique index a value that is not in the index; for a
duplicate-key index let the values keep keys and count keys in step, and, when
the value has no nested bucket yet, let `remove` run after the transaction of
the `add` was committed: the resource id is not among the ids held with a nil
value.  If `add(val, rid)` returns nil, then `remove(val, rid)` returns nil,
the bucket of the index is exactly what it was before the `add`, `getCount`
answers what it did, and, when at least one call was made before, the entry of
the index in the counts bucket is exactly what it was. -/
theorem add_then_remove_restores (env : Env) (idx : Index) (ops : List IndexOp)
    (tx0 tx tx1 : Tx) (val rid : Bytes) (nilRids : List Bytes)
    (hB : idx.BnameBytes ≠ BUC_COUNTS)
    (h0 : tx0.bucketOf idx.BnameBytes = some []) (hc0 : idx.getCount tx0 = .ok 0)
    (hlen : ops.length + 2 < two63)
    (hadds : ops.all IndexOp.isAdd = true)
    (hal : idx.AllowDupKey = true → idx.inStep env (val :: ops.map IndexOp.val) = true)
    (hrun : idx.run env ops tx0 = some tx)
    (hnew : idx.isNew env val rid tx = true)
    (hnil : idx.AllowDupKey = true → idx.hasBucket env val tx = false → rid ∉ nilRids)
    (hadd : idx.add env val rid tx = (tx1, .nil)) :
    (idx.remove env nilRids val rid tx1).2 = .nil ∧
    (idx.remove env nilRids val rid tx1).1.bucketOf idx.BnameBytes =
      tx.bucketOf idx.BnameBytes ∧
    idx.getCount (idx.remove env nilRids val rid tx1).1 = idx.getCount tx ∧
    (ops ≠ [] → ∃ cb cb2, tx.bucketOf BUC_COUNTS = some cb ∧
      (idx.remove env nilRids val rid tx1).1.bucketOf BUC_COUNTS = some cb2 ∧
      kvGet idx.BnameBytes cb2 = kvGet idx.BnameBytes cb) := by
  have hinv := adds_run (val :: ops.map IndexOp.val) ops 0 tx0 tx hB (by omega) hal
    (fun op hop => List.mem_cons_of_mem _ (List.mem_map_of_mem _ hop)) hadds
    (addsInv_empty _ h0 hc0) hrun
  rw [Nat.zero_add] at hinv
  obtain ⟨buck, hb, hs, hdup, hc⟩ := hinv
  obtain ⟨key, buck2, hk, hb2, hnd, hnu⟩ := isNew_inv hnew
  rw [hb] at hb2
  cases hb2
  have hv : val ∈ val :: ops.map IndexOp.val := List.mem_cons_self _ _
  have hfin : ∀ b1 b2, kvSorted b2 →
      idx.bumpCount 1 (tx.setBucket idx.BnameBytes b1) = (tx1, .nil) →
      idx.remove env nilRids val rid tx1 =
        idx.bumpCount (-1) (tx1.setBucket idx.BnameBytes b2) →
      (∀ k, kvGet k b2 = kvGet k buck) →
      (idx.remove env nilRids val rid tx1).2 = .nil ∧
      (idx.remove env nilRids val rid tx1).1.bucketOf idx.BnameBytes =
        tx.bucketOf idx.BnameBytes ∧
      idx.getCount (idx.remove env nilRids val rid tx1).1 = idx.getCount tx ∧
      (ops ≠ [] → ∃ cb cb2, tx.bucketOf BUC_COUNTS = some cb ∧
        (idx.remove env nilRids val rid tx1).1.bucketOf BUC_COUNTS = some cb2 ∧
        kvGet idx.BnameBytes cb2 = kvGet idx.BnameBytes cb) := by
    intro b1 b2 hs2 hbump hrem hrest
    obtain ⟨r1, r2, r3, r4⟩ := restore_core ops.length
      hB hlen hc hb hs hs2 hbump hrem hrest
    refine ⟨r1, r2, r3, ?_⟩
    intro hne
    obtain ⟨cb, c, hcb, hent, hcc⟩ := run_entry ops tx0 tx hne hrun
    rw [hc] at hcc
    cases hcc
    obtain ⟨cb2, h1, h2⟩ := r4 cb hcb hent
    exact ⟨cb, cb2, hcb, h1, h2⟩
  cases hu : idx.AllowDupKey with
  | false =>
    obtain ⟨b1, hs1, hd, hbump⟩ := add_unique_step hu hk hb hs hadd
    obtain ⟨hb1, _, _⟩ := bump_facts hB hc hbump
    obtain ⟨b2, hs2, hd2, hrem⟩ := remove_unique_step nilRids rid hu hk hb1 hs1
      (by rw [hd key, if_pos rfl]; intro kvs e; cases e)
    refine hfin b1 b2 hs2 hbump hrem ?_
    intro k
    rw [hd2 k]
    by_cases hkk : k = key
    · rw [if_pos hkk, hkk, hnu hu]
    · rw [if_neg hkk, hd k, if_neg hkk]
  | true =>
    have hal2 := hal hu
    have hinv2 := hdup hu
    cases hg : kvGet key buck with
    | none =>
      have hn : Bucket.Nested buck key = none := by simp [Bucket.Nested, hg]
      obtain ⟨hne, hck1, hck2, _, b1, hs1, hd, hbump⟩ :=
        add_dup_new_step hu hk hb hs hn hadd
      obtain ⟨hb1, _, _⟩ := bump_facts hB hc hbump
      have hfree := addInv_countKey_free hal2 hinv2 hv hk (by rw [hg]; intro kvs e; cases e)
        (add_dup_new_free hu hk hb hn hadd)
      have hout : rid ∉ nilRids := hnil hu (hasBucket_false hk hb hn)
      obtain ⟨b2, hs2, hd2, hrem⟩ := remove_dup_last_step nilRids rid [(rid, [])] 1
        hu hk hb1 hs1
        (by rw [hd key, if_pos rfl])
        (by simpa using hout)
        (by rw [hd _, if_neg hne, if_pos rfl])
        (by unfold two63; omega) (le_refl _) hne
      refine hfin b1 b2 hs2 hbump hrem ?_
      intro k
      rw [hd2 k]
      by_cases hkk : k = key
      · rw [if_pos hkk, hkk, hg]
      · rw [if_neg hkk]
        by_cases hkc : k = countKeyOf env val
        · rw [if_pos hkc, hkc, hfree]
        · rw [if_neg hkc, hd k, if_neg hkk, if_neg hkc]
    | some nd =>
      cases nd with
      | value x =>
        have hn : Bucket.Nested buck key = none := by simp [Bucket.Nested, hg]
        obtain ⟨_, _, _, hnone, _⟩ := add_dup_new_step hu hk hb hs hn hadd
        rw [hg] at hnone
        cases hnone
      | nested old =>
        obtain ⟨c, hc1, hc2, hcw, hck1, hck2, hne⟩ := addInv_countKey hal2 hinv2 hv hk hg
        have hrid := hnd hu old hg
        obtain ⟨b1, hs1, hd, hbump⟩ := add_dup_old_step hu hk hb hs hg hcw
          (by unfold two63; omega) (by unfold two63 at *; omega) hne hck1 hck2 hadd
        obtain ⟨hb1, _, _⟩ := bump_facts hB hc hbump
        have hw1 : wrapInt64 ((c : Int) + 1) = ((c + 1 : Nat) : Int) :=
          cast_succ_wrap _ ops.length hc2 (by omega)
        rw [hw1] at hd
        obtain ⟨b2, hs2, hd2, hrem⟩ := remove_dup_many_step nilRids rid
          (kvPut rid [] old) ((c + 1 : Nat) : Int) hu hk hb1 hs1
          (by rw [hd key, if_pos rfl])
          (by rw [hd _, if_neg hne, if_pos rfl])
          (by push_cast; omega) (by unfold two63 at *; push_cast; omega) hne hck1 hck2
        have hw2 : wrapInt64 (((c + 1 : Nat) : Int) - 1) = (c : Int) := by
          have := cast_pred_wrap c (ops.length + 1) (by omega) (by omega)
          rw [← this]
          rfl
        rw [hw2, kvDel_kvPut_none _ _ _ hrid] at hd2
        refine hfin b1 b2 hs2 hbump hrem ?_
        intro k
        rw [hd2 k]
        by_cases hkk : k = key
        · rw [if_pos hkk, hkk, hg]
        · rw [if_neg hkk]
          by_cases hkc : k = countKeyOf env val
          · rw [if_pos hkc, hkc, hcw]
          · rw [if_neg hkc, hd k, if_neg hkk, if_neg hkc]

set_option maxRecDepth 1000000 in
theorem add_then_remove_restores_witness :
    (macIndex.BnameBytes ≠ BUC_COUNTS ∧ emptyDb.bucketOf macIndex.BnameBytes = some [] ∧
     macIndex.getCount emptyDb = .ok 0 ∧ macAdds.all IndexOp.isAdd = true ∧
     macIndex.inStep sampleEnv (ascii "6A" :: macAdds.map IndexOp.val) = true ∧
     macIndex.run sampleEnv macAdds emptyDb = some dbMacAdds ∧
     macIndex.isNew sampleEnv (ascii "6A") ridC dbMacAdds = true ∧
     macIndex.hasBucket sampleEnv (ascii "6A") dbMacAdds = true ∧
     macIndex.add sampleEnv (ascii "6A") ridC dbMacAdds = (dbMacMore, .nil) ∧
     dbMacMore.bucketOf macIndex.BnameBytes ≠ dbMacAdds.bucketOf macIndex.BnameBytes ∧
     ((macIndex.remove sampleEnv [ridC] (ascii "6A") ridC dbMacMore).2 = .nil ∧
      (macIndex.remove sampleEnv [ridC] (ascii "6A") ridC dbMacMore).1.bucketOf
        macIndex.BnameBytes = dbMacAdds.bucketOf macIndex.BnameBytes ∧
      macIndex.getCount (macIndex.remove sampleEnv [ridC] (ascii "6A") ridC dbMacMore).1 =
        macIndex.getCount dbMacAdds ∧
      (macAdds ≠ [] → ∃ cb cb2, dbMacAdds.bucketOf BUC_COUNTS = some cb ∧
        (macIndex.remove sampleEnv [ridC] (ascii "6A") ridC dbMacMore).1.bucketOf BUC_COUNTS =
          some cb2 ∧
        kvGet macIndex.BnameBytes cb2 = kvGet macIndex.BnameBytes cb))) ∧
    (macIndex.inStep sampleEnv (ascii "8c" :: macAdds.map IndexOp.val) = true ∧
     macIndex.isNew sampleEnv (ascii "8c") ridC dbMacAdds = true ∧
     macIndex.hasBucket sampleEnv (ascii "8c") dbMacAdds = false ∧
     macIndex.add sampleEnv (ascii "8c") ridC dbMacAdds = (dbMacNew, .nil) ∧
     dbMacNew.bucketOf macIndex.BnameBytes ≠ dbMacAdds.bucketOf macIndex.BnameBytes ∧
     ((macIndex.remove sampleEnv [] (ascii "8c") ridC dbMacNew).2 = .nil ∧
      (macIndex.remove sampleEnv [] (ascii "8c") ridC dbMacNew).1.bucketOf
        macIndex.BnameBytes = dbMacAdds.bucketOf macIndex.BnameBytes ∧
      macIndex.getCount (macIndex.remove sampleEnv [] (ascii "8c") ridC dbMacNew).1 =
        macIndex.getCount dbMacAdds ∧
      (macAdds ≠ [] → ∃ cb cb2, dbMacAdds.bucketOf BUC_COUNTS = some cb ∧
        (macIndex.remove sampleEnv [] (ascii "8c") ridC dbMacNew).1.bucketOf BUC_COUNTS =
          some cb2 ∧
        kvGet macIndex.BnameBytes cb2 = kvGet macIndex.BnameBytes cb))) :=
  ⟨⟨by decide, by decide, by decide, by decide, by decide, by decide, by decide, by decide,
    by decide, by decide,
    add_then_remove_restores sampleEnv macIndex macAdds emptyDb dbMacAdds dbMacMore
      (ascii "6A") ridC [ridC] (by decide) (by decide) (by decide) (by decide) (by decide)
      (fun _ => by decide) (by decide) (by decide)
      (fun _ h => absurd h (by decide)) (by decide)⟩,
   ⟨by decide, by decide, by decide, by decide, by decide,
    add_then_remove_restores sampleEnv macIndex macAdds emptyDb dbMacAdds dbMacNew
      (ascii "8c") ridC [] (by decide) (by decide) (by decide) (by decide) (by decide)
      (fun _ => by decide) (by decide) (by decide)
      (fun _ _ => by decide) (by decide)⟩⟩

/-! ## `Remove` that returns nil after a rollback; the counts after `Insert` -/

set_option maxRecDepth 1000000 in
/-- C4, at the failing input: the store holds a device with the MAC id `6a` and
a value of `repairDates`, the index on `repairDates` was configured afterwards.
`Remove` of the device returns a nil error; in the state it leaves the row is
still there, `Get` reads the device, and the index of `macIds` still holds the
tuple of the value `6a` and the id of the device. -/
theorem remove_nil_keeps_row_and_tuples :
    datedSilo.Get sampleEnv dbDated (GenUUID draw1) deviceType =
      .ok (some (stamp sampleEnv (GenUUID draw1) datedDevice), none) ∧
    (stamp sampleEnv (GenUUID draw1) datedDevice).GetAttr sampleEnv (ascii "macids") =
      some (.simple { Name := ascii "macIds", Values := [ascii "6a"] }) ∧
    kvGet (ascii "macids") (datedSilo.indicesOf deviceType.Name) = some macIndex ∧
    macIndex.convert sampleEnv (ascii "6a") = .ok (ascii "6a") ∧
    (datedSilo.Remove sampleEnv dbDated (GenUUID draw1) deviceType).err = none ∧
    (datedSilo.Remove sampleEnv dbDated (GenUUID draw1) deviceType).db = dbDatedGone ∧
    datedSilo.Get sampleEnv dbDatedGone (GenUUID draw1) deviceType =
      .ok (some (stamp sampleEnv (GenUUID draw1) datedDevice), none) ∧
    macIndex.GetRids (ascii "6a") dbDatedGone = .ok [GenUUID draw1] ∧
    macIndex.holds (ascii "6a") (GenUUID draw1) dbDatedGone :=
  ⟨by decide, by decide, by decide, by decide, by decide, by decide, by decide, by decide,
   by unfold Index.holds; exact ⟨[GenUUID draw1], by decide, by decide⟩⟩

set_option maxRecDepth 1000000 in
/-- C7, at the failing input: the store holds a device with a value of
`repairDates`, the index on `repairDates` was configured afterwards.  The first
`Remove` of the device returns a nil error; `Get` then still returns the
device, and a further `Remove` returns a nil error again, not the notFound
error. -/
theorem remove_twice_returns_nil :
    datedSilo.Get sampleEnv dbDated (GenUUID draw1) deviceType =
      .ok (some (stamp sampleEnv (GenUUID draw1) datedDevice), none) ∧
    (datedSilo.Remove sampleEnv dbDated (GenUUID draw1) deviceType).err = none ∧
    (datedSilo.Remove sampleEnv dbDated (GenUUID draw1) deviceType).db = dbDatedGone ∧
    datedSilo.Get sampleEnv dbDatedGone (GenUUID draw1) deviceType ≠ .ok (none, none) ∧
    ((datedSilo.Get sampleEnv dbDatedGone (GenUUID draw1) deviceType).toOption.bind
      Prod.fst).isSome = true ∧
    (datedSilo.Remove sampleEnv dbDatedGone (GenUUID draw1) deviceType).err = none ∧
    (datedSilo.Remove sampleEnv dbDatedGone (GenUUID draw1) deviceType).err ≠
      some (NewNotFoundError
        (deviceType.Name ++ ascii " resource with ID " ++ GenUUID draw1 ++ ascii " not found")) :=
  ⟨by decide, by decide, by decide, by decide, by decide, by decide, by decide⟩

set_option maxRecDepth 1000000 in
/-- C13, at the failing input: `Insert` of a device whose two MAC ids `6A` and
`6a` differ in case only succeeds on the new store; both values have the key
`6a`, the index of `macIds` stores one tuple, and `getCount` answers 2.  Call
by call: adding one tuple twice to the index of `macIds` takes the total to 2
with one tuple stored, and a successful `remove` on the empty index of
`displayName` takes the total to -1 with no tuple stored. -/
theorem getCount_differs_from_tuples :
    sampleSilo.Insert sampleEnv emptyDb draw1 twinDevice =
      .ok (stamp sampleEnv (GenUUID draw1) twinDevice) dbTwin ∧
    kvGet (ascii "macids") (sampleSilo.indicesOf deviceType.Name) = some macIndex ∧
    macIndex.GetRids (ascii "6a") dbTwin = .ok [GenUUID draw1] ∧
    macIndex.tuples dbTwin = 1 ∧ macIndex.getCount dbTwin = .ok 2 ∧
    macIndex.run sampleEnv macTwice emptyDb = some dbMacTwice ∧
    macIndex.getCount dbMacTwice = .ok 2 ∧ macIndex.tuples dbMacTwice = 1 ∧
    displayIndex.run sampleEnv [.remove (ascii "Staff") ridA] emptyDb = some dbStaffGone ∧
    displayIndex.getCount dbStaffGone = .ok (-1) ∧ displayIndex.tuples dbStaffGone = 0 :=
  ⟨by decide, by decide, by decide, by decide, by decide, by decide, by decide, by decide,
   by decide, by decide, by decide⟩

set_option maxRecDepth 1000000 in
/-- C14, at the failing input: `Insert` of a device whose two MAC ids `6A` and
`6a` differ in case only succeeds on the new store; afterwards `keyCount("6A")`
on the duplicate-key index of `macIds` is 2 and `GetRids` lists one resource id
under the key of the value.  Call by call: after two successful calls
`add("6A", id)` with the same id, `keyCount("6A")` is 2 and the nested bucket
of the key lists one resource id. -/
theorem keyCount_exceeds_multiplicity :
    macIndex.AllowDupKey = true ∧
    macIndex.convert sampleEnv (ascii "6A") = .ok (ascii "6a") ∧
    sampleSilo.Insert sampleEnv emptyDb draw1 twinDevice =
      .ok (stamp sampleEnv (GenUUID draw1) twinDevice) dbTwin ∧
    kvGet (ascii "macids") (sampleSilo.indicesOf deviceType.Name) = some macIndex ∧
    macIndex.keyCount sampleEnv (ascii "6A") dbTwin = .ok 2 ∧
    macIndex.GetRids (ascii "6a") dbTwin = .ok [GenUUID draw1] ∧
    macIndex.run sampleEnv macTwice emptyDb = some dbMacTwice ∧
    macIndex.keyCount sampleEnv (ascii "6A") dbMacTwice = .ok 2 ∧
    macIndex.GetRids (ascii "6a") dbMacTwice = .ok [ridA] :=
  ⟨by decide, by decide, by decide, by decide, by decide, by decide, by decide, by decide,
   by decide⟩

end Sparrow
